import Mathlib

/-!
# The LSTM reference computation of the lstmdriver sample

A shallow embedding of `samples/deeplearning/lstmdriver/lstmdriver_nc_ck.c`:
the elementwise helpers, the layout converters and `lstm_ref`, written as
state transformers over a memory of named buffers.

* A buffer is a total map from an index to a value and the memory is the family of
  all buffers; a C pointer is a buffer together with an offset, so that `&(buf[k])`
  is `Ptr.idx buf k`.  Different buffers do not overlap; two pointers into the same
  buffer may alias, and the helpers are loops of single reads and writes, so that
  in-place calls (`src == dst`) mean what they mean in C.
* The C `float` is an arbitrary carrier `α` with the arithmetic operations the
  code uses; nothing is assumed about them unless a theorem says so
  (`Field α` is what "exact arithmetic" means below).
* C `int` indices are natural numbers; the sizes of the buffers are evaluated in `int`
  (32 bits, `int_mul`, `int_add`) as the allocations write them (`buf_size`), and the
  index bounds are proved under the condition that no element count overflows `int`,
  in which case every index is below `2^31`.
* Every `for` loop is a sequential loop over the memory (`forLoop`), the
  reading of the code without OpenMP.
* The BLAS `sgemm` behind `LIBXSMM_XBLAS_SYMBOL(float)` and the index macro
  `LIBXSMM_VLA_ACCESS` are not among the sources; they are modelled from their
  conventional contracts (`gemm`, `gemm_beta0`, `vla2`, `vla3`).  `lstm_ref` passes one of
  the two constants `beta = 1` and `beta0 = 0` as the scale factor of the result matrix:
  `gemm` is the call with `&beta`, which reads the result matrix, and `gemm_beta0` the call
  with `&beta0`, which by the contract of `sgemm` does not read it.
* `lstm_ref` takes the build flag `TWO_GEMMS` as a Boolean argument.
* The two libm calls are a parameter (`Libm`); where a theorem is about the reals, the
  carrier is `ℝ` and they are `Real.exp` and `Real.tanh`.
* The allocations and releases of the scratch buffers of `lstm_ref` are the lists
  `lstm_ref_allocs` and `lstm_ref_frees`, in the order of the calls.

The file also embeds the dispatch of the forward dry run of `src/libxsmm_dnn_dryruns.c`
(`libxsmm_dnn_perform_fwd_dryrun_direct_custom_custom`): the status it returns, as a
function of the fields of the handle it reads and of the included templates.
-/

set_option linter.unusedSectionVars false
set_option linter.unusedVariables false

namespace LstmRef

/-! ## Memory -/

/-- A C pointer: a buffer and an element offset inside it. -/
structure Ptr (β : Type) where
  buf : β
  off : Nat
deriving DecidableEq, Repr

/-- Pointer arithmetic, `&(p[i])`. -/
def Ptr.idx {β : Type} (p : Ptr β) (i : Nat) : Ptr β := ⟨p.buf, p.off + i⟩

/-- The memory: every buffer maps an index to a value. -/
structure Mem (β α : Type) where
  get : β → Nat → α

/-- Read `*p`. -/
def Mem.read {β α : Type} (h : Mem β α) (p : Ptr β) : α := h.get p.buf p.off

/-- Write `*p = v`. -/
def Mem.write {β α : Type} [DecidableEq β] (h : Mem β α) (p : Ptr β) (v : α) : Mem β α :=
  ⟨fun b i => if b = p.buf ∧ i = p.off then v else h.get b i⟩

/-- The loop `for (i = 0; i < n; ++i) body(i)`. -/
def forLoop {σ : Type} : Nat → (Nat → σ → σ) → σ → σ
  | 0, _, s => s
  | n + 1, body, s => body n (forLoop n body s)

/-- The loop `for (j = n-1; j >= 0; --j) body(j)`. -/
def forLoopDown {σ : Type} : Nat → (Nat → σ → σ) → σ → σ
  | 0, _, s => s
  | n + 1, body, s => forLoopDown n body (body n s)

/-- The sum `f 0 + f 1 + ... + f (n-1)`, accumulated from the left starting at zero. -/
def sumTo {α : Type} [Zero α] [Add α] : Nat → (Nat → α) → α
  | 0, _ => 0
  | n + 1, f => sumTo n f + f n

/-- The memory after the first `k` iterations of the loop
`for (j = n-1; j >= 0; --j) body(j)`: after `body (n-1)`, ..., `body (n-k)`. -/
def forLoopDownUpto {σ : Type} (n : Nat) : Nat → (Nat → σ → σ) → σ → σ
  | 0, _, s => s
  | k + 1, body, s => body (n - 1 - k) (forLoopDownUpto n k body s)

/-- The value of an accumulator after `acc += f 0; ...; acc += f (n-1)`, from `init`. -/
def sumFrom {α : Type} [Add α] (init : α) : Nat → (Nat → α) → α
  | 0, _ => init
  | n + 1, f => sumFrom init n f + f n

/-- Two memories hold the same value at every location outside the set `S`. -/
def AgreeOff {β α : Type} (S : Ptr β → Prop) (h h' : Mem β α) : Prop :=
  ∀ q, ¬ S q → h.read q = h'.read q

/-- The two libm calls of the driver with their casts:
`(float)exp((double)x)` and `(float)tanh((double)x)`. -/
structure Libm (α : Type) where
  exp : α → α
  tanh : α → α

section Helpers

variable {β α : Type} [DecidableEq β]

/-! ## Elementwise helpers (lines 62-327) -/

/-- Source `matrix_add`: `c[i] = a[i] + b[i]`. -/
def matrix_add [Add α] (size : Nat) (a b c : Ptr β) (h : Mem β α) : Mem β α :=
  forLoop size (fun i h => h.write (c.idx i) (h.read (a.idx i) + h.read (b.idx i))) h

/-- Source `matrix_eltwise_mult`: `c[i] = a[i] * b[i]`. -/
def matrix_eltwise_mult [Mul α] (size : Nat) (a b c : Ptr β) (h : Mem β α) : Mem β α :=
  forLoop size (fun i h => h.write (c.idx i) (h.read (a.idx i) * h.read (b.idx i))) h

/-- Source `matrix_eltwise_mult_ld_a`: `c[i] = a[row*ld + col] * b[i]`. -/
def matrix_eltwise_mult_ld_a [Mul α] (m n ld : Nat) (a b c : Ptr β) (h : Mem β α) : Mem β α :=
  forLoop (m * n) (fun i h =>
    let row := i / m
    let col := i % m
    h.write (c.idx i) (h.read (a.idx (row * ld + col)) * h.read (b.idx i))) h

/-- Source `matrix_eltwise_mult_ld_ab`: `c[i] = a[row*ld + col] * b[row*ld + col]`. -/
def matrix_eltwise_mult_ld_ab [Mul α] (m n ld : Nat) (a b c : Ptr β) (h : Mem β α) : Mem β α :=
  forLoop (m * n) (fun i h =>
    let row := i / m
    let col := i % m
    h.write (c.idx i) (h.read (a.idx (row * ld + col)) * h.read (b.idx (row * ld + col)))) h

/-- Source `matrix_eltwise_mult_ld_c`: `c[row*ld + col] = a[i] * b[i]`. -/
def matrix_eltwise_mult_ld_c [Mul α] (m n ld : Nat) (a b c : Ptr β) (h : Mem β α) : Mem β α :=
  forLoop (m * n) (fun i h =>
    let row := i / m
    let col := i % m
    h.write (c.idx (row * ld + col)) (h.read (a.idx i) * h.read (b.idx i))) h

/-- The scalar the sigmoid helpers compute: `1.0f / (1.0f + (float)exp((double) -x))`. -/
def sigmoid_value [One α] [Add α] [Neg α] [Div α] (lm : Libm α) (x : α) : α :=
  1 / (1 + lm.exp (-x))

/-- Source `matrix_sigmoid`. -/
def matrix_sigmoid [One α] [Add α] [Neg α] [Div α] (lm : Libm α)
    (size : Nat) (src dst : Ptr β) (h : Mem β α) : Mem β α :=
  forLoop size (fun i h =>
    let exp_value := lm.exp (-(h.read (src.idx i)))
    h.write (dst.idx i) (1 / (1 + exp_value))) h

/-- Source `matrix_sigmoid_ld`. -/
def matrix_sigmoid_ld [One α] [Add α] [Neg α] [Div α] (lm : Libm α)
    (m n ld : Nat) (src dst : Ptr β) (h : Mem β α) : Mem β α :=
  forLoop (m * n) (fun i h =>
    let row := i / m
    let col := i % m
    let exp_value := lm.exp (-(h.read (src.idx (row * ld + col))))
    h.write (dst.idx (row * ld + col)) (1 / (1 + exp_value))) h

/-- Source `matrix_tanh`. -/
def matrix_tanh (lm : Libm α) (size : Nat) (src dst : Ptr β) (h : Mem β α) : Mem β α :=
  forLoop size (fun i h => h.write (dst.idx i) (lm.tanh (h.read (src.idx i)))) h

/-- Source `matrix_tanh_ld`. -/
def matrix_tanh_ld (lm : Libm α) (m n ld : Nat) (src dst : Ptr β) (h : Mem β α) : Mem β α :=
  forLoop (m * n) (fun i h =>
    let row := i / m
    let col := i % m
    h.write (dst.idx (row * ld + col)) (lm.tanh (h.read (src.idx (row * ld + col))))) h

/-- Source `matrix_tanh_inverse`: `dst[i] = 1 - tanh(src[i])^2`. -/
def matrix_tanh_inverse [One α] [Sub α] [Mul α] (lm : Libm α)
    (size : Nat) (src dst : Ptr β) (h : Mem β α) : Mem β α :=
  forLoop size (fun i h =>
    let tanh_value := lm.tanh (h.read (src.idx i))
    h.write (dst.idx i) (1 - (tanh_value * tanh_value))) h

/-- Source `matrix_copy`. -/
def matrix_copy (size : Nat) (src dst : Ptr β) (h : Mem β α) : Mem β α :=
  forLoop size (fun i h => h.write (dst.idx i) (h.read (src.idx i))) h

/-- Source `matrix_copy_ld`: `dst[i] = src[row*ld + col]`. -/
def matrix_copy_ld (m n ld : Nat) (src dst : Ptr β) (h : Mem β α) : Mem β α :=
  forLoop (m * n) (fun i h =>
    let row := i / m
    let col := i % m
    h.write (dst.idx i) (h.read (src.idx (row * ld + col)))) h

/-- Source `matrix_copy_bias`: `dst[row*ld + col] = src[col]`. -/
def matrix_copy_bias (m n ld : Nat) (src dst : Ptr β) (h : Mem β α) : Mem β α :=
  forLoop (m * n) (fun i h =>
    let row := i / m
    let col := i % m
    h.write (dst.idx (row * ld + col)) (h.read (src.idx col))) h

/-- Source `matrix_complement`: `dst[i] = 1 - src[i]`. -/
def matrix_complement [One α] [Sub α] (size : Nat) (src dst : Ptr β) (h : Mem β α) : Mem β α :=
  forLoop size (fun i h => h.write (dst.idx i) (1 - h.read (src.idx i))) h

/-- Source `matrix_complement_ld`: `dst[i] = 1 - src[row*ld + col]`. -/
def matrix_complement_ld [One α] [Sub α] (m n ld : Nat) (src dst : Ptr β) (h : Mem β α) :
    Mem β α :=
  forLoop (m * n) (fun i h =>
    let row := i / m
    let col := i % m
    h.write (dst.idx i) (1 - h.read (src.idx (row * ld + col)))) h

/-- Source `matrix_complement_square`: `dst[i] = 1 - src[i]*src[i]`. -/
def matrix_complement_square [One α] [Sub α] [Mul α] (size : Nat) (src dst : Ptr β)
    (h : Mem β α) : Mem β α :=
  forLoop size (fun i h => h.write (dst.idx i) (1 - (h.read (src.idx i) * h.read (src.idx i)))) h

/-- Source `matrix_complement_square_ld`. -/
def matrix_complement_square_ld [One α] [Sub α] [Mul α] (m n ld : Nat) (src dst : Ptr β)
    (h : Mem β α) : Mem β α :=
  forLoop (m * n) (fun i h =>
    let row := i / m
    let col := i % m
    h.write (dst.idx i)
      (1 - (h.read (src.idx (row * ld + col)) * h.read (src.idx (row * ld + col))))) h

/-! ## Layout converters (lines 330-372) -/

/-- Source `convert_ck_c4k`: `dst[y*4*K + x] = src[y*K + x]`. -/
def convert_ck_c4k (C K : Nat) (src dst : Ptr β) (h : Mem β α) : Mem β α :=
  forLoop C (fun y h =>
    forLoop K (fun x h => h.write (dst.idx (y * 4 * K + x)) (h.read (src.idx (y * K + x)))) h) h

/-- Source `convert_c4k_4ck`:
`dst[offset*C*K + y*K + x] = src[y*4*K + offset*K + x]`. -/
def convert_c4k_4ck (C K : Nat) (src dst : Ptr β) (h : Mem β α) : Mem β α :=
  forLoop 4 (fun offset h =>
    forLoop C (fun y h =>
      forLoop K (fun x h =>
        h.write (dst.idx (offset * C * K + y * K + x))
          (h.read (src.idx (y * 4 * K + offset * K + x)))) h) h) h

/-- Source `convert_nk_nck`: `dst[y*CK + x] = src[y*K + x]`. -/
def convert_nk_nck (N K CK : Nat) (src dst : Ptr β) (h : Mem β α) : Mem β α :=
  forLoop N (fun y h =>
    forLoop K (fun x h => h.write (dst.idx (y * CK + x)) (h.read (src.idx (y * K + x)))) h) h

/-- The four placements `convert_ck_c4k(C, K, M_g, &fused[g*K])`, `g = 0 .. 3`, of four
gate matrices into one fused buffer (the pattern of lines 431-447). -/
def fuse_gates (C K : Nat) (M : Nat → Ptr β) (fused : Ptr β) (h : Mem β α) : Mem β α :=
  forLoop 4 (fun g h => convert_ck_c4k C K (M g) (fused.idx (g * K)) h) h

/-- The two calls `convert_nk_nck(N, C, C+K, x, xh)` and
`convert_nk_nck(N, K, C+K, hp, &xh[C])` that concatenate input and hidden rows
(the pattern of lines 466-471). -/
def concat_rows (N C K : Nat) (x hp xh : Ptr β) (h : Mem β α) : Mem β α :=
  convert_nk_nck N K (C + K) hp (xh.idx C) (convert_nk_nck N C (C + K) x xh h)

/-! ## The dense multiply primitive -/

/-- Modelled from the spec: the external dense-matrix-multiply primitive
(`LIBXSMM_XBLAS_SYMBOL(float)`, the BLAS `sgemm`, which is not part of the
repository) with the conventional signature: transpose flags, dimensions,
leading dimensions and the two scale factors.  Matrices are column-major and
`C(i,j) := alpha * sum_l op(A)(i,l) * op(B)(l,j) + beta * C(i,j)` for `i < m`,
`j < n`, with `A`, `B` read from the memory at the call.  This is the primitive for a
`beta` that is not zero (the calls of `lstm_ref` that pass `&beta`, the constant
`beta = 1`); `gemm_beta0` is the primitive for `beta = 0`. -/
def gemm [Zero α] [Add α] [Mul α] (transa transb : Bool) (m n k : Nat) (alpha : α)
    (a : Ptr β) (lda : Nat) (b : Ptr β) (ldb : Nat) (beta : α) (c : Ptr β) (ldc : Nat)
    (h0 : Mem β α) : Mem β α :=
  let opA (i l : Nat) : α :=
    if transa then h0.read (a.idx (l + i * lda)) else h0.read (a.idx (i + l * lda))
  let opB (l j : Nat) : α :=
    if transb then h0.read (b.idx (j + l * ldb)) else h0.read (b.idx (l + j * ldb))
  forLoop n (fun j h =>
    forLoop m (fun i h =>
      h.write (c.idx (i + j * ldc))
        (alpha * sumTo k (fun l => opA i l * opB l j) + beta * h.read (c.idx (i + j * ldc)))) h) h0

/-- Modelled from the spec: the same primitive called with the scale factor `beta = 0`
(the calls of `lstm_ref` that pass `&beta0`, the constant `beta0 = 0` of line 396).  By the
contract of the BLAS `sgemm` the matrix `C` is not read when `beta` is zero ("when BETA is
supplied as zero then C need not be set on input"; the reference implementation tests
`beta == 0` and then stores without loading), so
`C(i,j) := alpha * sum_l op(A)(i,l) * op(B)(l,j)` for `i < m`, `j < n`, with `A`, `B` read
from the memory at the call. -/
def gemm_beta0 [Zero α] [Add α] [Mul α] (transa transb : Bool) (m n k : Nat) (alpha : α)
    (a : Ptr β) (lda : Nat) (b : Ptr β) (ldb : Nat) (c : Ptr β) (ldc : Nat)
    (h0 : Mem β α) : Mem β α :=
  let opA (i l : Nat) : α :=
    if transa then h0.read (a.idx (l + i * lda)) else h0.read (a.idx (i + l * lda))
  let opB (l j : Nat) : α :=
    if transb then h0.read (b.idx (j + l * ldb)) else h0.read (b.idx (l + j * ldb))
  forLoop n (fun j h =>
    forLoop m (fun i h =>
      h.write (c.idx (i + j * ldc)) (alpha * sumTo k (fun l => opA i l * opB l j))) h) h0

end Helpers

/-! ## lstm_ref (lines 375-607) -/

/-- The buffers of `lstm_ref`: its pointer arguments and the scratch buffers it allocates. -/
inductive Buf
  | wigold | wcgold | wfgold | wogold
  | rigold | rcgold | rfgold | rogold
  | bigold | bcgold | bfgold | bogold
  | xgoldt | cspgold | hpgold
  | csgoldt | hgoldt
  | dcsgold | dhgoldt
  | dwgold | drgold | dbgold
  | dxgoldt | dcspgold | dhpgold
  | bfgold_fb | icfogoldt | dicfogoldt
  | w4gold | r4gold
  | wr8gold | xhgold | dxhgold
  | deltagoldt | doutgoldt
  | t1gold | t2gold | t3gold
deriving DecidableEq, Repr

/-- The pointer to the first element of a buffer. -/
def base (b : Buf) : Ptr Buf := ⟨b, 0⟩

/-- Modelled from the spec: the index macro `LIBXSMM_VLA_ACCESS(2, a, j, i, s1)` (declared in
a header outside the sources at hand) of a contiguous row-major array: element `a[j][i]`
of rows of length `s1`. -/
def vla2 (j i s1 : Nat) : Nat := j * s1 + i

/-- Modelled from the spec: the index macro `LIBXSMM_VLA_ACCESS(3, a, j, n, k, s1, s2)`
of a contiguous row-major array: element `a[j][n][k]` with extents `s1`, `s2`. -/
def vla3 (j n k s1 s2 : Nat) : Nat := (j * s1 + n) * s2 + k

/-- The address `&LIBXSMM_VLA_ACCESS(3, icfogold, j, 0, k, N, 4 * K)`. -/
def icfo_at (N K j k : Nat) : Ptr Buf := (base .icfogoldt).idx (vla3 j 0 k N (4 * K))

/-- The address `&LIBXSMM_VLA_ACCESS(3, dicfogold, j, 0, k, N, 4 * K)`. -/
def dicfo_at (N K j k : Nat) : Ptr Buf := (base .dicfogoldt).idx (vla3 j 0 k N (4 * K))

/-- The address `&LIBXSMM_VLA_ACCESS(2, b, j, 0, s)` of timestep `j` of a sequence buffer. -/
def seq_at (b : Buf) (j s : Nat) : Ptr Buf := (base b).idx (vla2 j 0 s)

/-- The address `&icfogold[j][n][c]` of column `c` of batch row `n` at timestep `j`. -/
def icfo_elem (N K j n c : Nat) : Ptr Buf := (base .icfogoldt).idx (vla3 j n c N (4 * K))

/-- The address `&dicfogold[j][n][c]` of column `c` of batch row `n` at timestep `j`. -/
def dicfo_elem (N K j n c : Nat) : Ptr Buf := (base .dicfogoldt).idx (vla3 j n c N (4 * K))

/-- The address of element `(k, q)` of the fused `K x 4K` recurrent weight `R4`: buffer
`r4gold` under `TWO_GEMMS`, rows `C ..` of `wr8gold` otherwise (lines 435-447). -/
def r4_elem (two_gemms : Bool) (C K k q : Nat) : Ptr Buf :=
  if two_gemms then (base .r4gold).idx (k * (4 * K) + q)
  else (base .wr8gold).idx ((C + k) * (4 * K) + q)

/-- The address of element `(c, q)` of the fused `C x 4K` weight `W4`: buffer `w4gold`
under `TWO_GEMMS`, rows `0 .. C-1` of `wr8gold` otherwise (lines 431-443). -/
def w4_elem (two_gemms : Bool) (K c q : Nat) : Ptr Buf :=
  if two_gemms then (base .w4gold).idx (c * (4 * K) + q)
  else (base .wr8gold).idx (c * (4 * K) + q)

/-- The address of element `(j, q)` of the recurrent-weight gradient: buffer `drgold`
under `TWO_GEMMS`, rows `C ..` of `dwgold` otherwise (what the driver compares as the
recurrent-weight gradient, lines 1147-1151). -/
def dr_elem (two_gemms : Bool) (C K j q : Nat) : Ptr Buf :=
  if two_gemms then (base .drgold).idx (j * (4 * K) + q)
  else (base .dwgold).idx ((C + j) * (4 * K) + q)

/-- The buffers of the gate matrices `W_g`, gate order (i, c, f, o). -/
def gate_w : Nat → Buf
  | 0 => .wigold
  | 1 => .wcgold
  | 2 => .wfgold
  | _ => .wogold

/-- The buffers of the recurrent gate matrices `R_g`, gate order (i, c, f, o). -/
def gate_r : Nat → Buf
  | 0 => .rigold
  | 1 => .rcgold
  | 2 => .rfgold
  | _ => .rogold

/-- The buffers of the biases `b_g` as the caller passes them, gate order (i, c, f, o). -/
def gate_b : Nat → Buf
  | 0 => .bigold
  | 1 => .bcgold
  | 2 => .bfgold
  | _ => .bogold

/-- The buffers the forward loop writes besides `icfogoldt`, `csgoldt` and `hgoldt`. -/
def fwd_scratch : Buf → Bool
  | .t1gold | .t2gold | .t3gold | .xhgold => true
  | _ => false

/-- The buffers the backward loop writes. -/
def bwd_writes : Buf → Bool
  | .deltagoldt | .doutgoldt | .t1gold | .t2gold | .t3gold | .dcspgold | .dhpgold
  | .dicfogoldt | .dxgoldt | .dwgold | .drgold | .dbgold | .dxhgold | .xhgold => true
  | _ => false

/-- The address of element `e` of the previous cell state of timestep `j`:
`cspgold` at `j = 0`, timestep `j - 1` of `csgoldt` otherwise (lines 481-485). -/
def cs_prev (N K j e : Nat) : Ptr Buf :=
  if j = 0 then (base .cspgold).idx e else (seq_at .csgoldt (j - 1) (K * N)).idx e

/-- The address of element `e` of the previous hidden state of timestep `j`:
`hpgold` at `j = 0`, timestep `j - 1` of `hgoldt` otherwise (lines 467-471). -/
def h_prev (N K j e : Nat) : Ptr Buf :=
  if j = 0 then (base .hpgold).idx e else (seq_at .hgoldt (j - 1) (K * N)).idx e

/-- The bias buffers `matrix_copy_bias` reads in the forward loop (lines 451-454): the
caller's biases, with `bfgold_fb` in the place of `bfgold`. -/
def gate_b_fb : Nat → Buf
  | 0 => .bigold
  | 1 => .bcgold
  | 2 => .bfgold_fb
  | _ => .bogold

/-- A location the forward loop no longer writes from timestep `j` on: outside the
forward scratch buffers, and below the slices of timestep `j` in `icfogoldt`, `csgoldt`
and `hgoldt`. -/
def Settled (N K j : Nat) (q : Ptr Buf) : Prop :=
  (q.buf ≠ .icfogoldt ∨ q.off < (icfo_at N K j 0).off)
  ∧ (q.buf ≠ .csgoldt ∨ q.off < (seq_at .csgoldt j (K * N)).off)
  ∧ (q.buf ≠ .hgoldt ∨ q.off < (seq_at .hgoldt j (K * N)).off)
  ∧ fwd_scratch q.buf = false

/-- The buffers every backward step overwrites or accumulates into as a whole. -/
def bwd_scratch : Buf → Bool
  | .t1gold | .t2gold | .t3gold | .dcspgold | .dhpgold
  | .dwgold | .drgold | .dbgold | .dxhgold | .xhgold => true
  | _ => false

/-- A location the backward loop no longer writes once it has reached timestep `j`, that
is, in the steps of the timesteps `j`, `j - 1`, ..., `0`: outside the buffers every step
writes, at or beyond the end of the slices of timestep `j` in `deltagoldt`, `dicfogoldt`
and `dxgoldt`, and at or beyond the end of the slice of timestep `j - 1` in `doutgoldt`. -/
def Kept (N C K j : Nat) (q : Ptr Buf) : Prop :=
  bwd_scratch q.buf = false
  ∧ (q.buf ≠ .deltagoldt ∨ (j + 1) * (K * N) ≤ q.off)
  ∧ (q.buf ≠ .dicfogoldt ∨ (j + 1) * (N * (4 * K)) ≤ q.off)
  ∧ (q.buf ≠ .dxgoldt ∨ (j + 1) * (N * C) ≤ q.off)
  ∧ (q.buf ≠ .doutgoldt ∨ j * (K * N) ≤ q.off)

/-- The address of element `e` of the recurrent delta that the backward step of timestep
`j` produces: `dhpgold` at `j = 0`, timestep `j - 1` of `doutgoldt` otherwise
(lines 541-546 and 563-567). -/
def dout_prev (N K j e : Nat) : Ptr Buf :=
  if j = 0 then (base .dhpgold).idx e else (seq_at .doutgoldt (j - 1) (K * N)).idx e

section Lstm

variable {α : Type} [Zero α] [One α] [Add α] [Sub α] [Mul α] [Div α] [Neg α]

/-- Lines 427-429: `bfgold_fb[j] = bfgold[j] + forget_bias`. -/
def lstm_forget_bias (K : Nat) (forget_bias : α) (h : Mem Buf α) : Mem Buf α :=
  forLoop K (fun j h =>
    h.write ((base .bfgold_fb).idx j) (h.read ((base .bfgold).idx j) + forget_bias)) h

/-- Lines 430-448: the gate matrices are placed into the fused weight buffers. -/
def lstm_fuse_weights (two_gemms : Bool) (C K : Nat) (h : Mem Buf α) : Mem Buf α :=
  if two_gemms then
    let h := convert_ck_c4k C K (base .wigold) (base .w4gold) h
    let h := convert_ck_c4k C K (base .wcgold) ((base .w4gold).idx K) h
    let h := convert_ck_c4k C K (base .wfgold) ((base .w4gold).idx (2 * K)) h
    let h := convert_ck_c4k C K (base .wogold) ((base .w4gold).idx (3 * K)) h
    let h := convert_ck_c4k K K (base .rigold) (base .r4gold) h
    let h := convert_ck_c4k K K (base .rcgold) ((base .r4gold).idx K) h
    let h := convert_ck_c4k K K (base .rfgold) ((base .r4gold).idx (2 * K)) h
    convert_ck_c4k K K (base .rogold) ((base .r4gold).idx (3 * K)) h
  else
    let h := convert_ck_c4k C K (base .wigold) (base .wr8gold) h
    let h := convert_ck_c4k C K (base .wcgold) ((base .wr8gold).idx K) h
    let h := convert_ck_c4k C K (base .wfgold) ((base .wr8gold).idx (2 * K)) h
    let h := convert_ck_c4k C K (base .wogold) ((base .wr8gold).idx (3 * K)) h
    let h := convert_ck_c4k K K (base .rigold) ((base .wr8gold).idx (C * K * 4)) h
    let h := convert_ck_c4k K K (base .rcgold) ((base .wr8gold).idx (C * K * 4 + K)) h
    let h := convert_ck_c4k K K (base .rfgold) ((base .wr8gold).idx (C * K * 4 + 2 * K)) h
    convert_ck_c4k K K (base .rogold) ((base .wr8gold).idx (C * K * 4 + 3 * K)) h

/-- Lines 450-454: initialization of `icfo` of timestep `j` with the biases. -/
def fwd_bias (N K j : Nat) (h : Mem Buf α) : Mem Buf α :=
  let h := matrix_copy_bias K N (4 * K) (base .bigold) (icfo_at N K j 0) h
  let h := matrix_copy_bias K N (4 * K) (base .bcgold) (icfo_at N K j K) h
  let h := matrix_copy_bias K N (4 * K) (base .bfgold_fb) (icfo_at N K j (2 * K)) h
  matrix_copy_bias K N (4 * K) (base .bogold) (icfo_at N K j (3 * K)) h

/-- Lines 465-471 (and 569-575): concatenation of `x` of timestep `j` and the previous `h`. -/
def concat_xh (N C K j : Nat) (h : Mem Buf α) : Mem Buf α :=
  let h := convert_nk_nck N C (C + K) (seq_at .xgoldt j (N * C)) (base .xhgold) h
  if j = 0 then
    convert_nk_nck N K (C + K) (base .hpgold) ((base .xhgold).idx C) h
  else
    convert_nk_nck N K (C + K) (seq_at .hgoldt (j - 1) (K * N)) ((base .xhgold).idx C) h

/-- Lines 455-474: `icfo += W * x + R * h`, with two multiplies under `TWO_GEMMS` and one
multiply over the concatenated input otherwise. -/
def fwd_gemm (two_gemms : Bool) (N C K j : Nat) (h : Mem Buf α) : Mem Buf α :=
  let K4 := K * 4
  let CK := C + K
  if two_gemms then
    let h := gemm false false K4 N C 1 (base .w4gold) K4 (seq_at .xgoldt j (N * C)) C 1
      (icfo_at N K j 0) K4 h
    if j = 0 then
      gemm false false K4 N K 1 (base .r4gold) K4 (base .hpgold) K 1 (icfo_at N K 0 0) K4 h
    else
      gemm false false K4 N K 1 (base .r4gold) K4 (seq_at .hgoldt (j - 1) (K * N)) K 1
        (icfo_at N K j 0) K4 h
  else
    let h := concat_xh N C K j h
    gemm false false K4 N CK 1 (base .wr8gold) K4 (base .xhgold) CK 1 (icfo_at N K j 0) K4 h

/-- Lines 475-479: `icfo = non-lin(icfo)`. -/
def fwd_nonlin (lm : Libm α) (N K j : Nat) (h : Mem Buf α) : Mem Buf α :=
  let h := matrix_sigmoid_ld lm K N (4 * K) (icfo_at N K j 0) (icfo_at N K j 0) h
  let h := matrix_tanh_ld lm K N (4 * K) (icfo_at N K j K) (icfo_at N K j K) h
  let h := matrix_sigmoid_ld lm K N (4 * K) (icfo_at N K j (2 * K)) (icfo_at N K j (2 * K)) h
  matrix_sigmoid_ld lm K N (4 * K) (icfo_at N K j (3 * K)) (icfo_at N K j (3 * K)) h

/-- Lines 480-489: `t1 = f.cs`, `t2 = i.c`, `cs = t1 + t2`. -/
def fwd_cell (N K j : Nat) (h : Mem Buf α) : Mem Buf α :=
  let h :=
    if j = 0 then
      matrix_eltwise_mult_ld_a K N (4 * K) (icfo_at N K 0 (2 * K)) (base .cspgold)
        (base .t1gold) h
    else
      matrix_eltwise_mult_ld_a K N (4 * K) (icfo_at N K j (2 * K))
        (seq_at .csgoldt (j - 1) (K * N)) (base .t1gold) h
  let h := matrix_eltwise_mult_ld_ab K N (4 * K) (icfo_at N K j 0) (icfo_at N K j K)
    (base .t2gold) h
  matrix_add (K * N) (base .t1gold) (base .t2gold) (seq_at .csgoldt j (K * N)) h

/-- Lines 490-493: `t3 = tanh(cs)`, `h = o.t3`. -/
def fwd_hidden (lm : Libm α) (N K j : Nat) (h : Mem Buf α) : Mem Buf α :=
  let h := matrix_tanh lm (K * N) (seq_at .csgoldt j (K * N)) (base .t3gold) h
  matrix_eltwise_mult_ld_a K N (4 * K) (icfo_at N K j (3 * K)) (base .t3gold)
    (seq_at .hgoldt j (K * N)) h

/-- Lines 449-494: the body of the forward loop at timestep `j`. -/
def fwd_step (two_gemms : Bool) (lm : Libm α) (N C K j : Nat) (h : Mem Buf α) : Mem Buf α :=
  let h := fwd_bias N K j h
  let h := fwd_gemm two_gemms N C K j h
  let h := fwd_nonlin lm N K j h
  let h := fwd_cell N K j h
  fwd_hidden lm N K j h

/-- Lines 497-502: `delta` of timestep `j`. -/
def bwd_delta (N K t j : Nat) (h : Mem Buf α) : Mem Buf α :=
  if j = t - 1 then
    matrix_copy (K * N) (seq_at .dhgoldt (t - 1) (K * N)) (seq_at .deltagoldt (t - 1) (K * N)) h
  else
    matrix_add (K * N) (seq_at .doutgoldt j (K * N)) (seq_at .dhgoldt j (K * N))
      (seq_at .deltagoldt j (K * N)) h

/-- Lines 503-511: "compute dcsp". -/
def bwd_dcsp (lm : Libm α) (N K t j : Nat) (h : Mem Buf α) : Mem Buf α :=
  let h := matrix_eltwise_mult_ld_a K N (4 * K) (icfo_at N K j (3 * K))
    (seq_at .deltagoldt j (K * N)) (base .t1gold) h
  let h := matrix_tanh_inverse lm (K * N) (seq_at .csgoldt j (K * N)) (base .t2gold) h
  let h := matrix_eltwise_mult (K * N) (base .t1gold) (base .t2gold) (base .t3gold) h
  if j = t - 1 then
    matrix_add (K * N) (base .t3gold) (base .dcsgold) (base .dcspgold) h
  else
    matrix_add (K * N) (base .t3gold) (base .dcspgold) (base .dcspgold) h

/-- Lines 512-535: the gate gradients `dc`, `di`, `df`, `do`. -/
def bwd_gates (lm : Libm α) (N K j : Nat) (h : Mem Buf α) : Mem Buf α :=
  /- compute dc -/
  let h := matrix_eltwise_mult_ld_a K N (4 * K) (icfo_at N K j 0) (base .dcspgold)
    (base .t1gold) h
  let h := matrix_complement_square_ld K N (4 * K) (icfo_at N K j K) (base .t2gold) h
  let h := matrix_eltwise_mult_ld_c K N (4 * K) (base .t1gold) (base .t2gold)
    (dicfo_at N K j K) h
  /- compute di -/
  let h := matrix_eltwise_mult_ld_a K N (4 * K) (icfo_at N K j K) (base .dcspgold)
    (base .t1gold) h
  let h := matrix_complement_ld K N (4 * K) (icfo_at N K j 0) (base .t2gold) h
  let h := matrix_eltwise_mult_ld_a K N (4 * K) (icfo_at N K j 0) (base .t2gold)
    (base .t3gold) h
  let h := matrix_eltwise_mult_ld_c K N (4 * K) (base .t1gold) (base .t3gold)
    (dicfo_at N K j 0) h
  /- compute df -/
  let h :=
    if j = 0 then
      matrix_eltwise_mult (K * N) (base .dcspgold) (base .cspgold) (base .t1gold) h
    else
      matrix_eltwise_mult (K * N) (base .dcspgold) (seq_at .csgoldt (j - 1) (K * N))
        (base .t1gold) h
  let h := matrix_complement_ld K N (4 * K) (icfo_at N K j (2 * K)) (base .t2gold) h
  let h := matrix_eltwise_mult_ld_a K N (4 * K) (icfo_at N K j (2 * K)) (base .t2gold)
    (base .t3gold) h
  let h := matrix_eltwise_mult_ld_c K N (4 * K) (base .t1gold) (base .t3gold)
    (dicfo_at N K j (2 * K)) h
  /- compute do -/
  let h := matrix_tanh lm (K * N) (seq_at .csgoldt j (K * N)) (base .t1gold) h
  let h := matrix_eltwise_mult (K * N) (seq_at .deltagoldt j (K * N)) (base .t1gold)
    (base .t1gold) h
  let h := matrix_complement_ld K N (4 * K) (icfo_at N K j (3 * K)) (base .t2gold) h
  let h := matrix_eltwise_mult_ld_a K N (4 * K) (icfo_at N K j (3 * K)) (base .t2gold)
    (base .t2gold) h
  matrix_eltwise_mult_ld_c K N (4 * K) (base .t1gold) (base .t2gold)
    (dicfo_at N K j (3 * K)) h

/-- Lines 536-537: "update dcsp". -/
def bwd_dcsp_update (N K j : Nat) (h : Mem Buf α) : Mem Buf α :=
  matrix_eltwise_mult_ld_a K N (4 * K) (icfo_at N K j (2 * K)) (base .dcspgold)
    (base .dcspgold) h

/-- Lines 539-577: the multiplies of the backward and update pass.  The calls that the
source makes with `&beta0` (lines 542, 545 and 561) are `gemm_beta0`, the calls with
`&beta` are `gemm` with `beta = 1`. -/
def bwd_gemm (two_gemms : Bool) (N C K j : Nat) (h : Mem Buf α) : Mem Buf α :=
  let K4 := K * 4
  let CK := C + K
  if two_gemms then
    let h :=
      if j > 0 then
        /- compute dout -/
        gemm_beta0 true false K N K4 1 (base .r4gold) K4 (dicfo_at N K j 0) K4
          (seq_at .doutgoldt (j - 1) (K * N)) K h
      else
        /- compute dhp -/
        gemm_beta0 true false K N K4 1 (base .r4gold) K4 (dicfo_at N K 0 0) K4 (base .dhpgold)
          K h
    /- compute dx -/
    let h := gemm true false C N K4 1 (base .w4gold) K4 (dicfo_at N K j 0) K4 1
      (seq_at .dxgoldt j (N * C)) C h
    /- compute dw -/
    let h := gemm false true K4 C N 1 (dicfo_at N K j 0) K4 (seq_at .xgoldt j (N * C)) C 1
      (base .dwgold) K4 h
    /- compute dr -/
    if j = 0 then
      gemm false true K4 K N 1 (dicfo_at N K j 0) K4 (base .hpgold) K 1 (base .drgold) K4 h
    else
      gemm false true K4 K N 1 (dicfo_at N K j 0) K4 (seq_at .hgoldt (j - 1) (K * N)) K 1
        (base .drgold) K4 h
  else
    let h := gemm_beta0 true false CK N K4 1 (base .wr8gold) K4 (dicfo_at N K j 0) K4
      (base .dxhgold) CK h
    let h := matrix_copy_ld C N (C + K) (base .dxhgold) (seq_at .dxgoldt j (N * C)) h
    let h :=
      if j > 0 then
        matrix_copy_ld K N (C + K) ((base .dxhgold).idx C) (seq_at .doutgoldt (j - 1) (K * N)) h
      else
        matrix_copy_ld K N (C + K) ((base .dxhgold).idx C) (base .dhpgold) h
    /- Concatenate x and h -/
    let h := concat_xh N C K j h
    gemm false true K4 CK N 1 (dicfo_at N K j 0) K4 (base .xhgold) CK 1 (base .dwgold) K4 h

/-- Lines 579-590: "compute db". -/
def bwd_db (N K j : Nat) (h : Mem Buf α) : Mem Buf α :=
  forLoop K (fun l h =>
    forLoop N (fun p h =>
      let h := h.write ((base .dbgold).idx l)
        (h.read ((base .dbgold).idx l)
          + h.read ((base .dicfogoldt).idx (vla3 j p l N (4 * K))))
      let h := h.write ((base .dbgold).idx (l + K))
        (h.read ((base .dbgold).idx (l + K))
          + h.read ((base .dicfogoldt).idx (vla3 j p (l + K) N (4 * K))))
      let h := h.write ((base .dbgold).idx (l + 2 * K))
        (h.read ((base .dbgold).idx (l + 2 * K))
          + h.read ((base .dicfogoldt).idx (vla3 j p (l + 2 * K) N (4 * K))))
      h.write ((base .dbgold).idx (l + 3 * K))
        (h.read ((base .dbgold).idx (l + 3 * K))
          + h.read ((base .dicfogoldt).idx (vla3 j p (l + 3 * K) N (4 * K))))) h) h

/-- Lines 496-591: the body of the backward loop at timestep `j`. -/
def bwd_step (two_gemms : Bool) (lm : Libm α) (N C K t j : Nat) (h : Mem Buf α) : Mem Buf α :=
  let h := bwd_delta N K t j h
  let h := bwd_dcsp lm N K t j h
  let h := bwd_gates lm N K j h
  let h := bwd_dcsp_update N K j h
  let h := bwd_gemm two_gemms N C K j h
  bwd_db N K j h

/-- The memory of `lstm_ref` after the setup (lines 427-448) and the first `j` iterations
of the forward loop. -/
def lstm_fwd (two_gemms : Bool) (lm : Libm α) (N C K j : Nat) (forget_bias : α)
    (h : Mem Buf α) : Mem Buf α :=
  let h := lstm_forget_bias K forget_bias h
  let h := lstm_fuse_weights two_gemms C K h
  forLoop j (fwd_step two_gemms lm N C K) h

/-- Source `lstm_ref`: the memory when the function returns, from the memory `h` at the
call.  `two_gemms` says whether `TWO_GEMMS` is defined (it is not, in the source as it is). -/
def lstm_ref (two_gemms : Bool) (lm : Libm α) (N C K t : Nat) (forget_bias : α)
    (h : Mem Buf α) : Mem Buf α :=
  let h := lstm_fwd two_gemms lm N C K t forget_bias h
  forLoopDown t (bwd_step two_gemms lm N C K t) h

/-- The memory of `lstm_ref` at timestep `j` of the forward loop just before the
nonlinearity (line 475): after the biases and the multiplies of that timestep. -/
def lstm_pre (two_gemms : Bool) (lm : Libm α) (N C K j : Nat) (forget_bias : α)
    (h : Mem Buf α) : Mem Buf α :=
  fwd_gemm two_gemms N C K j (fwd_bias N K j (lstm_fwd two_gemms lm N C K j forget_bias h))

/-- The memory of `lstm_ref` at timestep `j` of the forward loop just after the biases are
copied (line 454). -/
def lstm_biased (two_gemms : Bool) (lm : Libm α) (N C K j : Nat) (forget_bias : α)
    (h : Mem Buf α) : Mem Buf α :=
  fwd_bias N K j (lstm_fwd two_gemms lm N C K j forget_bias h)

/-- Lines 512-515, "compute dc". -/
def bwd_gate_dc (N K j : Nat) (h : Mem Buf α) : Mem Buf α :=
  let h := matrix_eltwise_mult_ld_a K N (4 * K) (icfo_at N K j 0) (base .dcspgold)
    (base .t1gold) h
  let h := matrix_complement_square_ld K N (4 * K) (icfo_at N K j K) (base .t2gold) h
  matrix_eltwise_mult_ld_c K N (4 * K) (base .t1gold) (base .t2gold) (dicfo_at N K j K) h

/-- Lines 516-520, "compute di". -/
def bwd_gate_di (N K j : Nat) (h : Mem Buf α) : Mem Buf α :=
  let h := matrix_eltwise_mult_ld_a K N (4 * K) (icfo_at N K j K) (base .dcspgold)
    (base .t1gold) h
  let h := matrix_complement_ld K N (4 * K) (icfo_at N K j 0) (base .t2gold) h
  let h := matrix_eltwise_mult_ld_a K N (4 * K) (icfo_at N K j 0) (base .t2gold)
    (base .t3gold) h
  matrix_eltwise_mult_ld_c K N (4 * K) (base .t1gold) (base .t3gold) (dicfo_at N K j 0) h

/-- Lines 521-529, "compute df". -/
def bwd_gate_df (N K j : Nat) (h : Mem Buf α) : Mem Buf α :=
  let h :=
    if j = 0 then
      matrix_eltwise_mult (K * N) (base .dcspgold) (base .cspgold) (base .t1gold) h
    else
      matrix_eltwise_mult (K * N) (base .dcspgold) (seq_at .csgoldt (j - 1) (K * N))
        (base .t1gold) h
  let h := matrix_complement_ld K N (4 * K) (icfo_at N K j (2 * K)) (base .t2gold) h
  let h := matrix_eltwise_mult_ld_a K N (4 * K) (icfo_at N K j (2 * K)) (base .t2gold)
    (base .t3gold) h
  matrix_eltwise_mult_ld_c K N (4 * K) (base .t1gold) (base .t3gold)
    (dicfo_at N K j (2 * K)) h

/-- Lines 530-535, "compute do". -/
def bwd_gate_do (lm : Libm α) (N K j : Nat) (h : Mem Buf α) : Mem Buf α :=
  let h := matrix_tanh lm (K * N) (seq_at .csgoldt j (K * N)) (base .t1gold) h
  let h := matrix_eltwise_mult (K * N) (seq_at .deltagoldt j (K * N)) (base .t1gold)
    (base .t1gold) h
  let h := matrix_complement_ld K N (4 * K) (icfo_at N K j (3 * K)) (base .t2gold) h
  let h := matrix_eltwise_mult_ld_a K N (4 * K) (icfo_at N K j (3 * K)) (base .t2gold)
    (base .t2gold) h
  matrix_eltwise_mult_ld_c K N (4 * K) (base .t1gold) (base .t2gold)
    (dicfo_at N K j (3 * K)) h

/-- The memory of `lstm_ref` after the forward loop and the backward iterations of the
timesteps `T-1, ..., j` (`j ≤ T`): at `j = T` nothing of the backward loop has run, at
`j = 0` the function returns. -/
def lstm_bwd (two_gemms : Bool) (lm : Libm α) (N C K T : Nat) (forget_bias : α) (j : Nat)
    (h : Mem Buf α) : Mem Buf α :=
  forLoopDownUpto T (T - j) (bwd_step two_gemms lm N C K T)
    (lstm_fwd two_gemms lm N C K T forget_bias h)

/-- The memory of `lstm_ref` at timestep `t` of the backward loop just after
"compute dcsp" (line 511): `dcspgold` then holds the cell-state gradient `dCS_t` that the
gate gradients of timestep `t` are computed from. -/
def lstm_dcs (two_gemms : Bool) (lm : Libm α) (N C K T : Nat) (forget_bias : α) (t : Nat)
    (h : Mem Buf α) : Mem Buf α :=
  bwd_dcsp lm N K T t (bwd_delta N K T t (lstm_bwd two_gemms lm N C K T forget_bias (t + 1) h))

/-- The memory of `lstm_ref` at timestep `t` of the backward loop just after
"update dcsp" (line 537), before the multiplies: `dicfogoldt` then holds the gate
gradients of timestep `t`. -/
def lstm_dgates (two_gemms : Bool) (lm : Libm α) (N C K T : Nat) (forget_bias : α) (t : Nat)
    (h : Mem Buf α) : Mem Buf α :=
  bwd_dcsp_update N K t (bwd_gates lm N K t (lstm_dcs two_gemms lm N C K T forget_bias t h))

/-- A concrete memory over the integers, used to instantiate the theorems: element `i`
of buffer number `b` (in the order of declaration) holds `i + b`. -/
def demo_mem : Mem Buf Int := ⟨fun b i => Int.ofNat (i + b.toCtorIdx)⟩

/-- A concrete stand-in for the two libm calls over the integers. -/
def demo_libm : Libm Int := ⟨fun x => x + 1, fun x => 2 * x⟩

/-- A concrete memory over the rationals, used to instantiate the theorems: element `i`
of buffer number `b` (in the order of declaration) holds `(i + b) / 7`. -/
def demo_mem_q : Mem Buf Rat := ⟨fun b i => Rat.divInt (Int.ofNat (i + b.toCtorIdx)) 7⟩

/-- A concrete stand-in for the two libm calls over the rationals. -/
def demo_libm_q : Libm Rat := ⟨fun x => x * x + 1, fun x => x / 2⟩

/-- A concrete memory over the rationals whose weight-gradient buffer is zero-initialised,
as the driver does before the call (lines 816-821); the other buffers are those of
`demo_mem_q`. -/
def demo_mem_z : Mem Buf Rat :=
  ⟨fun b i => if b = .dwgold then 0 else Rat.divInt (Int.ofNat (i + b.toCtorIdx)) 7⟩

/-- Lines 400-415: the buffers `lstm_ref` allocates with `libxsmm_aligned_malloc`, in the
order of the calls. -/
def lstm_ref_allocs (two_gemms : Bool) : List Buf :=
  [.bfgold_fb, .icfogoldt]
    ++ (if two_gemms then [.w4gold, .r4gold] else [.wr8gold, .xhgold, .dxhgold])
    ++ [.dicfogoldt, .doutgoldt, .deltagoldt, .t1gold, .t2gold, .t3gold]

/-- Lines 593-606: the buffers `lstm_ref` releases with `libxsmm_free` before it returns,
in the order of the calls. -/
def lstm_ref_frees (two_gemms : Bool) : List Buf :=
  [.bfgold_fb, .icfogoldt, .dicfogoldt]
    ++ (if two_gemms then [.w4gold, .r4gold] else [.wr8gold, .xhgold, .dxhgold])
    ++ [.t1gold, .t2gold, .t3gold]

/-- Lines 376-383: the pointer arguments of `lstm_ref`, in the order of the signature. -/
def lstm_ref_args : List Buf :=
  [.wigold, .wcgold, .wfgold, .wogold, .rigold, .rcgold, .rfgold, .rogold,
   .bigold, .bcgold, .bfgold, .bogold, .xgoldt, .cspgold, .hpgold, .csgoldt, .hgoldt,
   .dcsgold, .dhgoldt, .dwgold, .drgold, .dbgold, .dxgoldt, .dcspgold, .dhpgold]

/-- The pointer arguments that `lstm_ref` only reads: the weights, the biases, the input
sequence, the initial states and the gradients the caller supplies. -/
def lstm_input : Buf → Bool
  | .wigold | .wcgold | .wfgold | .wogold | .rigold | .rcgold | .rfgold | .rogold
  | .bigold | .bcgold | .bfgold | .bogold | .xgoldt | .cspgold | .hpgold
  | .dcsgold | .dhgoldt => true
  | _ => false

/-- Lines 582-589: iteration `l` of the parallel loop of "compute db" at timestep `j`, the
inner loop over the batch rows `p`. -/
def bwd_db_iter {α : Type} [Add α] (N K j l : Nat) (h : Mem Buf α) : Mem Buf α :=
  forLoop N (fun p h =>
    let h := h.write ((base .dbgold).idx l)
      (h.read ((base .dbgold).idx l)
        + h.read ((base .dicfogoldt).idx (vla3 j p l N (4 * K))))
    let h := h.write ((base .dbgold).idx (l + K))
      (h.read ((base .dbgold).idx (l + K))
        + h.read ((base .dicfogoldt).idx (vla3 j p (l + K) N (4 * K))))
    let h := h.write ((base .dbgold).idx (l + 2 * K))
      (h.read ((base .dbgold).idx (l + 2 * K))
        + h.read ((base .dicfogoldt).idx (vla3 j p (l + 2 * K) N (4 * K))))
    h.write ((base .dbgold).idx (l + 3 * K))
      (h.read ((base .dbgold).idx (l + 3 * K))
        + h.read ((base .dicfogoldt).idx (vla3 j p (l + 3 * K) N (4 * K))))) h

/-- A concrete memory over the rationals whose external gradients `dhgoldt` and `dcsgold`
are zero; the other buffers are those of `demo_mem_q`. -/
def demo_mem_g : Mem Buf Rat :=
  ⟨fun b i => if b = .dhgoldt ∨ b = .dcsgold then 0
    else Rat.divInt (Int.ofNat (i + b.toCtorIdx)) 7⟩

/-- A concrete memory over the rationals that differs from `demo_mem_q` in `drgold` only,
where it holds zero. -/
def demo_mem_r : Mem Buf Rat :=
  ⟨fun b i => if b ≠ .drgold then Rat.divInt (Int.ofNat (i + b.toCtorIdx)) 7 else 0⟩

/-- A concrete memory for the call on the second segment of a sequence of two timesteps
(`N = C = K = 1`): the buffers of `demo_mem_q` with the input of timestep 1 in the place
of timestep 0, and with the cell and hidden state that the default build leaves for
timestep 0 on `demo_mem_q` as the initial states. -/
def demo_mem_seg : Mem Buf Rat :=
  ⟨fun b i =>
    if b = .cspgold then (lstm_ref false demo_libm_q 1 1 1 2 3 demo_mem_q).get .csgoldt i
    else if b = .hpgold then (lstm_ref false demo_libm_q 1 1 1 2 3 demo_mem_q).get .hgoldt i
    else if b = .xgoldt then demo_mem_q.get .xgoldt (1 + i)
    else demo_mem_q.get b i⟩

/-- A concrete memory over the rationals that differs from `demo_mem_q` in `xgoldt` from
element `1` on only, where it holds zero. -/
def demo_mem_x : Mem Buf Rat :=
  ⟨fun b i => if b ≠ .xgoldt ∨ i < 1 then Rat.divInt (Int.ofNat (i + b.toCtorIdx)) 7 else 0⟩

/-- What a run of the code keeps true when it neither reads nor writes a location of the
set `S`: its memory `x` and the memory `x'` of a second run, started on a memory that
differs inside `S` only, agree outside `S`, and inside `S` the memory `x` still holds what
the memory `h0` at the start held. -/
def Sim {β α : Type} (S : Ptr β → Prop) (h0 x x' : Mem β α) : Prop :=
  AgreeOff S x x' ∧ ∀ q, S q → x.read q = h0.read q

/-- The number of elements that the size expressions of lines 400-415 of `lstm_ref` and of
lines 733-762 of `main` denote as products of natural numbers, which is what `buf_size`
is when no `int` product overflows.  A buffer that a build does not have (`drgold`, which
is `NULL` in the default build, and the scratch buffers of the other build) has no
element. -/
def buf_elems (two_gemms : Bool) (N C K t : Nat) : Buf → Nat
  | .wigold | .wcgold | .wfgold | .wogold => C * K
  | .rigold | .rcgold | .rfgold | .rogold => K * K
  | .bigold | .bcgold | .bfgold | .bogold => K
  | .xgoldt | .dxgoldt => N * C * t
  | .cspgold | .hpgold | .dcspgold | .dhpgold | .dcsgold => K * N
  | .csgoldt | .hgoldt | .dhgoldt => K * N * t
  | .dwgold => if two_gemms then C * K * 4 else (C + K) * K * 4
  | .drgold => if two_gemms then K * K * 4 else 0
  | .dbgold => K * 4
  | .bfgold_fb => K
  | .icfogoldt | .dicfogoldt => K * N * t * 4
  | .w4gold => if two_gemms then C * K * 4 else 0
  | .r4gold => if two_gemms then K * K * 4 else 0
  | .wr8gold => if two_gemms then 0 else (C + K) * K * 4
  | .xhgold | .dxhgold => if two_gemms then 0 else (C + K) * N
  | .deltagoldt | .doutgoldt => K * N * t
  | .t1gold | .t2gold | .t3gold => K * N

/-- A location at or beyond the element count `buf_elems` of its buffer. -/
def Beyond (two_gemms : Bool) (N C K t : Nat) (q : Ptr Buf) : Prop :=
  buf_elems two_gemms N C K t q.buf ≤ q.off

/-- The value that a C `int` (32 bits, two's complement) holds for the mathematical value
`x`: `x` reduced modulo `2^32` into `-2^31 .. 2^31 - 1`.  (An overflowing signed operation
is undefined in C; the reduction is what the hardware computes.) -/
def int_wrap (x : Int) : Int := (x + 2147483648) % 4294967296 - 2147483648

/-- The `int` product `a * b`. -/
def int_mul (a b : Int) : Int := int_wrap (a * b)

/-- The `int` sum `a + b`. -/
def int_add (a b : Int) : Int := int_wrap (a + b)

/-- Modelled from the spec: `libxsmm_aligned_malloc` (not among the sources), called as
`(float*)libxsmm_aligned_malloc(count*sizeof(float), 2097152)` with `count` an `int`
expression: the number of `float` elements of the buffer it returns.  The `int` is
converted to the 64-bit `size_t` before the multiplication by `sizeof(float)`, so that a
count that is not negative asks for `4*count` bytes and the buffer has `count` elements; a
negative count asks for more than `2^63` bytes, which no allocation satisfies, the call
returns `NULL` and there is no element. -/
def libxsmm_aligned_malloc (count : Int) : Nat := if 0 ≤ count then count.toNat else 0

/-- Lines 400-415 of `lstm_ref` and lines 733-762 of `main`: the number of elements of each
buffer, with the size expressions evaluated in `int` as the source writes them
(`K*N*t*4*sizeof(float)` is `((K*N)*t)*4` in `int`, then converted).  A buffer that a
build does not have (`drgold`, which is `NULL` in the default build, and the scratch
buffers of the other build) has no element. -/
def buf_size (two_gemms : Bool) (N C K t : Nat) : Buf → Nat
  | .wigold | .wcgold | .wfgold | .wogold => libxsmm_aligned_malloc (int_mul C K)
  | .rigold | .rcgold | .rfgold | .rogold => libxsmm_aligned_malloc (int_mul K K)
  | .bigold | .bcgold | .bfgold | .bogold => libxsmm_aligned_malloc K
  | .xgoldt | .dxgoldt => libxsmm_aligned_malloc (int_mul (int_mul N C) t)
  | .cspgold | .hpgold | .dcspgold | .dhpgold | .dcsgold =>
    libxsmm_aligned_malloc (int_mul K N)
  | .csgoldt | .hgoldt | .dhgoldt => libxsmm_aligned_malloc (int_mul (int_mul K N) t)
  | .dwgold =>
    if two_gemms then libxsmm_aligned_malloc (int_mul (int_mul C K) 4)
    else libxsmm_aligned_malloc (int_mul (int_mul (int_add C K) K) 4)
  | .drgold => if two_gemms then libxsmm_aligned_malloc (int_mul (int_mul K K) 4) else 0
  | .dbgold => libxsmm_aligned_malloc (int_mul K 4)
  | .bfgold_fb => libxsmm_aligned_malloc K
  | .icfogoldt | .dicfogoldt =>
    libxsmm_aligned_malloc (int_mul (int_mul (int_mul K N) t) 4)
  | .w4gold => if two_gemms then libxsmm_aligned_malloc (int_mul (int_mul C K) 4) else 0
  | .r4gold => if two_gemms then libxsmm_aligned_malloc (int_mul (int_mul K K) 4) else 0
  | .wr8gold =>
    if two_gemms then 0 else libxsmm_aligned_malloc (int_mul (int_mul (int_add C K) K) 4)
  | .xhgold | .dxhgold =>
    if two_gemms then 0 else libxsmm_aligned_malloc (int_mul (int_add C K) N)
  | .deltagoldt | .doutgoldt => libxsmm_aligned_malloc (int_mul (int_mul K N) t)
  | .t1gold | .t2gold | .t3gold => libxsmm_aligned_malloc (int_mul K N)

/-- A location beyond the end of its buffer. -/
def OutOfBounds (two_gemms : Bool) (N C K t : Nat) (q : Ptr Buf) : Prop :=
  buf_size two_gemms N C K t q.buf ≤ q.off

/-- A concrete memory over the rationals that agrees with `demo_mem_q` inside the buffers
of the default build with `N = 2`, `C = 3`, `K = 2`, `t = 2` and holds zero beyond their
ends. -/
def demo_mem_o : Mem Buf Rat :=
  ⟨fun b i => if i < buf_size false 2 3 2 2 b then Rat.divInt (Int.ofNat (i + b.toCtorIdx)) 7
    else 0⟩

/-- A concrete memory over the rationals that holds `5` in every element of `icfogoldt`
and zero elsewhere. -/
def demo_mem_w : Mem Buf Rat := ⟨fun b _ => if b = .icfogoldt then 5 else 0⟩

/-- A concrete memory over the integers that agrees with `demo_mem` on the buffers the
caller passes to `lstm_ref` and holds `7` in every element of every scratch buffer. -/
def demo_mem_i : Mem Buf Int :=
  ⟨fun b i => if b ∈ lstm_ref_args then Int.ofNat (i + b.toCtorIdx) else 7⟩

end Lstm

/-! ## The dispatch of the forward dry run (`src/libxsmm_dnn_dryruns.c`, lines 42-317) -/

/-- Modelled from the spec: the status type `libxsmm_dnn_err_t` of the header
`libxsmm_dnn.h` (not among the sources at hand) with the three codes that
`libxsmm_dnn_perform_fwd_dryrun_direct_custom_custom` names; `other` stands for every
other code, which only an included template can produce. -/
inductive libxsmm_dnn_err_t
  | LIBXSMM_DNN_SUCCESS
  | LIBXSMM_DNN_ERR_DATA_NOT_BOUND
  | LIBXSMM_DNN_ERR_UNSUPPORTED_DATATYPE
  | other (code : Nat)
deriving DecidableEq, Repr

/-- Modelled from the spec: the element datatypes `libxsmm_dnn_datatype` of the header
`libxsmm_dnn.h` (not among the sources at hand). -/
inductive libxsmm_dnn_datatype
  | LIBXSMM_DNN_DATATYPE_F32
  | LIBXSMM_DNN_DATATYPE_I32
  | LIBXSMM_DNN_DATATYPE_I16
  | LIBXSMM_DNN_DATATYPE_I8
deriving DecidableEq, Repr

/-- Modelled from the spec: the bit of the option mask `desc.options` that says that the
activations are unsigned (an enumerator of the header `libxsmm_dnn.h`, not among the
sources at hand).  The dispatch only tests whether `options & this` is positive. -/
def LIBXSMM_DNN_CONV_OPTION_ACTIVATION_UNSIGNED : Nat := 1

/-- Modelled from the spec: the fields of the handle `libxsmm_dnn_layer` (declared in
`libxsmm_main.h`, not among the sources at hand) that the dispatch reads.  Pointers are
addresses, `0` being the null pointer; `code_fwd_sconv` is `code_fwd[0].xconv.sconv`, the
`desc_` fields are those of `handle->desc`. -/
structure libxsmm_dnn_layer where
  reg_input : Nat
  reg_output : Nat
  reg_filter : Nat
  code_fwd_sconv : Nat
  datatype : libxsmm_dnn_datatype
  datatype_itm : libxsmm_dnn_datatype
  desc_N : Int
  desc_threads : Int
  desc_u : Int
  desc_v : Int
  desc_options : Nat
  blocksofm : Int
  padding_flag : Int
deriving Repr

/-- The element types an included template is compiled with, after the `typedef`s that
precede the inclusion: `float`; `short` with `int` results; `unsigned char` with `short`
results; `unsigned char` with `int` results. -/
inductive dryrun_types
  | f32
  | i16_i32
  | u8_i16
  | u8_i32
deriving DecidableEq, Repr

/-- One inclusion of a dry-run template: which of the two templates
(`..._custom_custom_img_par.tpl.c` when `img_par`, `..._custom_custom.tpl.c` otherwise), the
element types, and whether `LIBXSMM_DNN_CONV_FWD_INTERNAL_STRIDE_ONE` and `INPUT_PADDING`
are defined at the inclusion. -/
structure dryrun_variant where
  img_par : Bool
  types : dryrun_types
  stride_one : Bool
  input_padding : Bool
deriving DecidableEq, Repr

/-- The test `(handle->desc.options & LIBXSMM_DNN_CONV_OPTION_ACTIVATION_UNSIGNED) > 0`. -/
def activation_unsigned (handle : libxsmm_dnn_layer) : Bool :=
  decide (Nat.land handle.desc_options LIBXSMM_DNN_CONV_OPTION_ACTIVATION_UNSIGNED > 0)

/-- Lines 62-123, 126-186, 188-248 and 250-311: the body of one datatype branch, for the
element types `ty`.  `padded` says whether the inclusions with `INPUT_PADDING` of the
first half (enough images for the threads) are compiled: they are commented out in every
branch but the last one; those of the second half are commented out in every branch.
In the `float` branch the comment of lines 113-119 opens one line early and swallows
`if (handle->padding_flag == 1) {`; that half is read as in the three other branches. -/
def dryrun_branch (tpl : dryrun_variant → libxsmm_dnn_layer → libxsmm_dnn_err_t →
    libxsmm_dnn_err_t) (ty : dryrun_types) (padded : Bool) (handle : libxsmm_dnn_layer)
    (status : libxsmm_dnn_err_t) : libxsmm_dnn_err_t :=
  if handle.desc_N * handle.blocksofm ≥ handle.desc_threads then
    if handle.desc_u = 1 ∧ handle.desc_v = 1 then
      if handle.padding_flag = 1 then
        if padded then tpl ⟨false, ty, true, true⟩ handle status else status
      else
        tpl ⟨false, ty, true, false⟩ handle status
    else
      if handle.padding_flag = 1 then
        if padded then tpl ⟨false, ty, false, true⟩ handle status else status
      else
        tpl ⟨false, ty, false, false⟩ handle status
  else
    if handle.desc_u = 1 ∧ handle.desc_v = 1 then
      if handle.padding_flag = 1 then status
      else tpl ⟨true, ty, true, false⟩ handle status
    else
      if handle.padding_flag = 1 then status
      else tpl ⟨true, ty, false, false⟩ handle status

/-- Source `libxsmm_dnn_perform_fwd_dryrun_direct_custom_custom`: the status it returns.
Modelled from the spec: the two included templates are not among the sources at hand; an
inclusion is the parameter `tpl`, an arbitrary function of the variant, of the handle and
of `status` to the status the function then returns. -/
def libxsmm_dnn_perform_fwd_dryrun_direct_custom_custom
    (tpl : dryrun_variant → libxsmm_dnn_layer → libxsmm_dnn_err_t → libxsmm_dnn_err_t)
    (handle : libxsmm_dnn_layer) : libxsmm_dnn_err_t :=
  let status := libxsmm_dnn_err_t.LIBXSMM_DNN_SUCCESS
  /- check if we have input, output and filter -/
  if handle.reg_input = 0 ∨ handle.reg_output = 0 ∨ handle.reg_filter = 0 then
    libxsmm_dnn_err_t.LIBXSMM_DNN_ERR_DATA_NOT_BOUND
  /- check if we have a kernel JITed -/
  else if handle.code_fwd_sconv = 0 then
    status
  else if handle.datatype = .LIBXSMM_DNN_DATATYPE_F32
      ∧ handle.datatype_itm = .LIBXSMM_DNN_DATATYPE_F32 then
    dryrun_branch tpl .f32 false handle status
  else if handle.datatype = .LIBXSMM_DNN_DATATYPE_I16
      ∧ handle.datatype_itm = .LIBXSMM_DNN_DATATYPE_I32 then
    dryrun_branch tpl .i16_i32 false handle status
  else if handle.datatype = .LIBXSMM_DNN_DATATYPE_I8
      ∧ handle.datatype_itm = .LIBXSMM_DNN_DATATYPE_I16
      ∧ activation_unsigned handle = true then
    dryrun_branch tpl .u8_i16 false handle status
  else if handle.datatype = .LIBXSMM_DNN_DATATYPE_I8
      ∧ handle.datatype_itm = .LIBXSMM_DNN_DATATYPE_I32
      ∧ activation_unsigned handle = true then
    dryrun_branch tpl .u8_i32 true handle status
  else
    libxsmm_dnn_err_t.LIBXSMM_DNN_ERR_UNSUPPORTED_DATATYPE

/-- A template stand-in for the instances below: it reports status code `7`. -/
def demo_tpl : dryrun_variant → libxsmm_dnn_layer → libxsmm_dnn_err_t → libxsmm_dnn_err_t :=
  fun _ _ _ => .other 7

/-- A handle with all three tensors bound and a forward kernel, of datatype `I8` with
`I32` results and without the unsigned-activation option. -/
def demo_handle : libxsmm_dnn_layer :=
  { reg_input := 1, reg_output := 2, reg_filter := 3, code_fwd_sconv := 4,
    datatype := .LIBXSMM_DNN_DATATYPE_I8, datatype_itm := .LIBXSMM_DNN_DATATYPE_I32,
    desc_N := 1, desc_threads := 1, desc_u := 1, desc_v := 1, desc_options := 0,
    blocksofm := 1, padding_flag := 0 }

/-- The handle `demo_handle` with its output tensor unbound. -/
def demo_handle_unbound : libxsmm_dnn_layer :=
  { demo_handle with reg_output := 0 }

/-! ## Memory and loop lemmas -/

section Basics

variable {β α : Type} [DecidableEq β]

theorem Ptr.idx_buf (p : Ptr β) (i : Nat) : (p.idx i).buf = p.buf := rfl

theorem Ptr.idx_off (p : Ptr β) (i : Nat) : (p.idx i).off = p.off + i := rfl

theorem Ptr.idx_idx (p : Ptr β) (i j : Nat) : (p.idx i).idx j = p.idx (i + j) := by
  simp [Ptr.idx, Nat.add_assoc]

theorem Ptr.idx_ne_of_buf {p q : Ptr β} (hb : p.buf ≠ q.buf) : p ≠ q := by
  intro he
  exact hb (by rw [he])

theorem Ptr.ne_of_off {p q : Ptr β} (ho : p.off ≠ q.off) : p ≠ q := by
  intro he
  exact ho (by rw [he])

theorem Ptr.idx_inj {p : Ptr β} {i j : Nat} (he : p.idx i = p.idx j) : i = j := by
  have h1 : (p.idx i).off = (p.idx j).off := by rw [he]
  simp only [Ptr.idx_off] at h1
  omega

theorem Mem.read_write_same (h : Mem β α) (p : Ptr β) (v : α) : (h.write p v).read p = v := by
  simp [Mem.read, Mem.write]

theorem Mem.read_write_ne (h : Mem β α) {p q : Ptr β} (v : α) (hne : p ≠ q) :
    (h.write p v).read q = h.read q := by
  unfold Mem.read Mem.write
  have : ¬ (q.buf = p.buf ∧ q.off = p.off) := by
    rintro ⟨h1, h2⟩
    apply hne
    cases p
    cases q
    simp_all
  simp [this]

/-- A location no iteration changes keeps its value through the loop. -/
theorem forLoop_read_frame (n : Nat) (body : Nat → Mem β α → Mem β α) (q : Ptr β)
    (hb : ∀ i, i < n → ∀ h, (body i h).read q = h.read q) (h : Mem β α) :
    (forLoop n body h).read q = h.read q := by
  induction n with
  | zero => rfl
  | succ n ih =>
    show (body n (forLoop n body h)).read q = h.read q
    rw [hb n (Nat.lt_succ_self n), ih (fun i hi => hb i (Nat.lt_succ_of_lt hi))]

/-- A location the iterations after `i` do not change holds what iteration `i` left. -/
theorem forLoop_read_last (n : Nat) (body : Nat → Mem β α → Mem β α) (q : Ptr β) (i : Nat)
    (hi : i < n) (hb : ∀ k, i < k → k < n → ∀ h, (body k h).read q = h.read q)
    (h : Mem β α) :
    (forLoop n body h).read q = (body i (forLoop i body h)).read q := by
  induction n with
  | zero => omega
  | succ n ih =>
    show (body n (forLoop n body h)).read q = _
    rcases Nat.lt_or_ge i n with hlt | hge
    · rw [hb n hlt (Nat.lt_succ_self n), ih hlt (fun k h1 h2 => hb k h1 (Nat.lt_succ_of_lt h2))]
    · have : i = n := by omega
      subst this
      rfl

/-- Row-major coordinates are unique: `a * L + b` with `b < L` determines `a` and `b`. -/
theorem two_d_inj {L a b c d : Nat} (hb : b < L) (hd : d < L) (he : a * L + b = c * L + d) :
    a = c ∧ b = d := by
  have hL : 0 < L := by omega
  have h1 : (a * L + b) / L = a := by
    rw [Nat.mul_comm, Nat.mul_add_div hL, Nat.div_eq_of_lt hb, Nat.add_zero]
  have h2 : (c * L + d) / L = c := by
    rw [Nat.mul_comm, Nat.mul_add_div hL, Nat.div_eq_of_lt hd, Nat.add_zero]
  have hac : a = c := by rw [← h1, ← h2, he]
  subst hac
  exact ⟨rfl, by omega⟩

/-- A gate column `g * K + x` with `g < 4`, `x < K` lies inside a fused row of width `4 * K`. -/
theorem slot_lt {K g x : Nat} (hg : g < 4) (hx : x < K) : g * K + x < 4 * K := by
  have : g * K ≤ 3 * K := Nat.mul_le_mul_right K (by omega)
  omega

/-- Coordinates in the fused layout are unique. -/
theorem fused_inj {K y g x y' g' x' : Nat} (hg : g < 4) (hx : x < K) (hg' : g' < 4)
    (hx' : x' < K) (he : y * (4 * K) + (g * K + x) = y' * (4 * K) + (g' * K + x')) :
    y = y' ∧ g = g' ∧ x = x' := by
  obtain ⟨h1, h2⟩ := two_d_inj (slot_lt hg hx) (slot_lt hg' hx') he
  obtain ⟨h3, h4⟩ := two_d_inj hx hx' h2
  exact ⟨h1, h3, h4⟩

end Basics

/-! ## What the helpers write -/

section HelperLemmas

variable {β α : Type} [DecidableEq β]

/-- A loop of single writes leaves every location it does not write. -/
theorem writeLoop_frame (n : Nat) (d : Nat → Ptr β) (g : Nat → Mem β α → α) (q : Ptr β)
    (hq : ∀ i, i < n → d i ≠ q) (h : Mem β α) :
    (forLoop n (fun i h => h.write (d i) (g i h)) h).read q = h.read q :=
  forLoop_read_frame n _ q (fun i hi h => Mem.read_write_ne h _ (hq i hi)) h

/-- A loop of single writes to distinct locations: location `d i` holds the value
iteration `i` computed. -/
theorem writeLoop_value (n : Nat) (d : Nat → Ptr β) (g : Nat → Mem β α → α) (i : Nat)
    (hi : i < n) (hinj : ∀ k, i < k → k < n → d k ≠ d i) (h : Mem β α) :
    (forLoop n (fun i h => h.write (d i) (g i h)) h).read (d i)
      = g i (forLoop i (fun i h => h.write (d i) (g i h)) h) := by
  rw [forLoop_read_last n _ (d i) i hi
    (fun k h1 h2 h => Mem.read_write_ne h _ (hinj k h1 h2))]
  exact Mem.read_write_same _ _ _

/-- Distinct loop indices of a strided helper address distinct elements when `m ≤ ld`. -/
theorem strided_inj {m n ld i k : Nat} (hld : m ≤ ld) (hi : i < m * n) (hk : k < m * n)
    (he : k / m * ld + k % m = i / m * ld + i % m) : k = i := by
  have hm : 0 < m := by
    rcases Nat.eq_zero_or_pos m with h0 | h0
    · subst h0; simp at hi
    · exact h0
  have h1 : k % m < ld := lt_of_lt_of_le (Nat.mod_lt k hm) hld
  have h2 : i % m < ld := lt_of_lt_of_le (Nat.mod_lt i hm) hld
  obtain ⟨h3, h4⟩ := two_d_inj h1 h2 he
  rw [← Nat.div_add_mod k m, ← Nat.div_add_mod i m, h3, h4]

/-- The loop index of element `(row, col)` of an `n x m` tile. -/
theorem tile_index (m row col : Nat) (hcol : col < m) :
    (row * m + col) / m = row ∧ (row * m + col) % m = col := by
  have hm : 0 < m := by omega
  constructor
  · rw [Nat.mul_comm, Nat.mul_add_div hm, Nat.div_eq_of_lt hcol, Nat.add_zero]
  · rw [Nat.mul_comm, Nat.mul_add_mod, Nat.mod_eq_of_lt hcol]

theorem tile_index_lt {m n row col : Nat} (hrow : row < n) (hcol : col < m) :
    row * m + col < m * n := by
  have : (row + 1) * m ≤ n * m := Nat.mul_le_mul_right m hrow
  rw [Nat.mul_comm m n]
  rw [Nat.add_mul] at this
  omega

theorem div_lt_of_lt_mul {m n i : Nat} (hi : i < m * n) : i / m < n :=
  Nat.div_lt_of_lt_mul hi

theorem mod_lt_of_lt_mul {m n i : Nat} (hi : i < m * n) : i % m < m := by
  apply Nat.mod_lt
  rcases Nat.eq_zero_or_pos m with h0 | h0
  · subst h0; simp at hi
  · exact h0

/-- General form of the helpers with a strided destination: what is left at element
`(row, col)` is the value computed at loop index `row * m + col`. -/
theorem stridedLoop_value (m n ld : Nat) (dst : Ptr β) (g : Nat → Mem β α → α)
    (hld : m ≤ ld) (row col : Nat) (hrow : row < n) (hcol : col < m) (h : Mem β α) :
    (forLoop (m * n) (fun i h => h.write (dst.idx (i / m * ld + i % m)) (g i h)) h).read
        (dst.idx (row * ld + col))
      = g (row * m + col)
          (forLoop (row * m + col)
            (fun i h => h.write (dst.idx (i / m * ld + i % m)) (g i h)) h) := by
  obtain ⟨h1, h2⟩ := tile_index m row col hcol
  have hi := tile_index_lt hrow hcol
  have key := writeLoop_value (m * n) (fun i => dst.idx (i / m * ld + i % m)) g
    (row * m + col) hi
    (fun k hk1 hk2 he => by
      have := strided_inj hld hi hk2 (Ptr.idx_inj he)
      omega) h
  simp only [h1, h2] at key
  exact key

/-- General form of the helpers with a strided destination: locations outside the
`n x m` tile are left alone. -/
theorem stridedLoop_frame (m n ld : Nat) (dst : Ptr β) (g : Nat → Mem β α → α) (q : Ptr β)
    (hq : ∀ row col, row < n → col < m → dst.idx (row * ld + col) ≠ q) (h : Mem β α) :
    (forLoop (m * n) (fun i h => h.write (dst.idx (i / m * ld + i % m)) (g i h)) h).read q
      = h.read q :=
  writeLoop_frame (m * n) _ g q
    (fun i hi => hq (i / m) (i % m) (div_lt_of_lt_mul hi) (mod_lt_of_lt_mul hi)) h

/-- Reads in another buffer are not affected by a loop of writes into one buffer. -/
theorem writeLoop_other (n : Nat) (d : Nat → Ptr β) (g : Nat → Mem β α → α) (q : Ptr β)
    (b : β) (hd : ∀ i, (d i).buf = b) (hq : q.buf ≠ b) (h : Mem β α) :
    (forLoop n (fun i h => h.write (d i) (g i h)) h).read q = h.read q :=
  writeLoop_frame n d g q (fun i _ he => hq (by rw [← he, hd i])) h

/-- A pointer into another buffer, or below `dst`, is none of the elements of `dst`. -/
theorem idx_ne_of_skip {dst q : Ptr β} (hq : q.buf ≠ dst.buf ∨ q.off < dst.off) (i : Nat) :
    dst.idx i ≠ q := by
  intro he
  rcases hq with hq | hq
  · exact hq (by rw [← he]; rfl)
  · have : (dst.idx i).off = q.off := by rw [he]
    simp only [Ptr.idx_off] at this
    omega

theorem idx_ne_idx {dst : Ptr β} {i k : Nat} (hne : k ≠ i) : dst.idx k ≠ dst.idx i :=
  fun he => hne (Ptr.idx_inj he)

/-- Packed destination, one operand read at `src[s i]`. -/
theorem packed1_value (size : Nat) (src dst : Ptr β) (s : Nat → Nat) (f : α → α)
    (h : Mem β α) (i : Nat) (hi : i < size) (hs : ∀ k, k < i → dst.idx k ≠ src.idx (s i)) :
    (forLoop size (fun i h => h.write (dst.idx i) (f (h.read (src.idx (s i))))) h).read
        (dst.idx i) = f (h.read (src.idx (s i))) := by
  refine (writeLoop_value size (fun i => dst.idx i)
    (fun i h => f (h.read (src.idx (s i)))) i hi
    (fun k h1 _ => idx_ne_idx (by omega)) h).trans ?_
  exact congrArg f (writeLoop_frame i (fun i => dst.idx i) _ (src.idx (s i)) hs h)

/-- Packed destination, two operands read at `a[sa i]` and `b[sb i]`. -/
theorem packed2_value (size : Nat) (a b c : Ptr β) (sa sb : Nat → Nat) (op : α → α → α)
    (h : Mem β α) (i : Nat) (hi : i < size) (ha : ∀ k, k < i → c.idx k ≠ a.idx (sa i))
    (hb : ∀ k, k < i → c.idx k ≠ b.idx (sb i)) :
    (forLoop size (fun i h =>
        h.write (c.idx i) (op (h.read (a.idx (sa i))) (h.read (b.idx (sb i))))) h).read
        (c.idx i) = op (h.read (a.idx (sa i))) (h.read (b.idx (sb i))) := by
  refine (writeLoop_value size (fun i => c.idx i)
    (fun i h => op (h.read (a.idx (sa i))) (h.read (b.idx (sb i)))) i hi
    (fun k h1 _ => idx_ne_idx (by omega)) h).trans ?_
  exact congrArg₂ op (writeLoop_frame i (fun i => c.idx i) _ (a.idx (sa i)) ha h)
    (writeLoop_frame i (fun i => c.idx i) _ (b.idx (sb i)) hb h)

/-- Strided destination, one operand read at `src[s i]`. -/
theorem strided1_value (m n ld : Nat) (src dst : Ptr β) (s : Nat → Nat) (f : α → α)
    (h : Mem β α) (hld : m ≤ ld) (row col : Nat) (hrow : row < n) (hcol : col < m)
    (hs : ∀ r c, r < n → c < m → (r, c) ≠ (row, col) →
      dst.idx (r * ld + c) ≠ src.idx (s (row * m + col))) :
    (forLoop (m * n) (fun i h =>
        h.write (dst.idx (i / m * ld + i % m)) (f (h.read (src.idx (s i))))) h).read
        (dst.idx (row * ld + col)) = f (h.read (src.idx (s (row * m + col)))) := by
  refine (stridedLoop_value m n ld dst (fun i h => f (h.read (src.idx (s i)))) hld row col
    hrow hcol h).trans ?_
  refine congrArg f (writeLoop_frame (row * m + col) (fun i => dst.idx (i / m * ld + i % m)) _
    (src.idx (s (row * m + col))) (fun k hk => ?_) h)
  have hk2 : k < m * n := lt_trans hk (tile_index_lt hrow hcol)
  refine hs (k / m) (k % m) (div_lt_of_lt_mul hk2) (mod_lt_of_lt_mul hk2) (fun he => ?_)
  have h1 : k / m = row := congrArg Prod.fst he
  have h2 : k % m = col := congrArg Prod.snd he
  have := Nat.div_add_mod k m
  rw [h1, h2, Nat.mul_comm] at this
  omega

/-- Strided destination, two operands read at `a[i]` and `b[i]`. -/
theorem strided2_value (m n ld : Nat) (a b c : Ptr β) (op : α → α → α)
    (h : Mem β α) (hld : m ≤ ld) (row col : Nat) (hrow : row < n) (hcol : col < m)
    (ha : ∀ r x, r < n → x < m → c.idx (r * ld + x) ≠ a.idx (row * m + col))
    (hb : ∀ r x, r < n → x < m → c.idx (r * ld + x) ≠ b.idx (row * m + col)) :
    (forLoop (m * n) (fun i h =>
        h.write (c.idx (i / m * ld + i % m)) (op (h.read (a.idx i)) (h.read (b.idx i)))) h).read
        (c.idx (row * ld + col))
      = op (h.read (a.idx (row * m + col))) (h.read (b.idx (row * m + col))) := by
  refine (stridedLoop_value m n ld c (fun i h => op (h.read (a.idx i)) (h.read (b.idx i)))
    hld row col hrow hcol h).trans ?_
  have hlt := tile_index_lt hrow hcol
  exact congrArg₂ op
    (writeLoop_frame (row * m + col) (fun i => c.idx (i / m * ld + i % m)) _ _
      (fun k hk => ha (k / m) (k % m) (div_lt_of_lt_mul (lt_trans hk hlt))
        (mod_lt_of_lt_mul (lt_trans hk hlt))) h)
    (writeLoop_frame (row * m + col) (fun i => c.idx (i / m * ld + i % m)) _ _
      (fun k hk => hb (k / m) (k % m) (div_lt_of_lt_mul (lt_trans hk hlt))
        (mod_lt_of_lt_mul (lt_trans hk hlt))) h)

/-- Frame of `matrix_add`: only `c[0 .. size)` is written. -/
theorem matrix_add_frame [Add α] (size : Nat) (a b c q : Ptr β) (h : Mem β α)
    (hq : ∀ i, i < size → c.idx i ≠ q) :
    (matrix_add size a b c h).read q = h.read q :=
  writeLoop_frame (size) (fun i => c.idx i) _ q hq h

theorem matrix_add_skip [Add α] (size : Nat) (a b c q : Ptr β) (h : Mem β α)
    (hq : q.buf ≠ c.buf ∨ q.off < c.off) :
    (matrix_add size a b c h).read q = h.read q :=
  matrix_add_frame size a b c q h (fun i _ => idx_ne_of_skip hq i)

/-- Frame of `matrix_eltwise_mult`: only `c[0 .. size)` is written. -/
theorem matrix_eltwise_mult_frame [Mul α] (size : Nat) (a b c q : Ptr β) (h : Mem β α)
    (hq : ∀ i, i < size → c.idx i ≠ q) :
    (matrix_eltwise_mult size a b c h).read q = h.read q :=
  writeLoop_frame (size) (fun i => c.idx i) _ q hq h

theorem matrix_eltwise_mult_skip [Mul α] (size : Nat) (a b c q : Ptr β) (h : Mem β α)
    (hq : q.buf ≠ c.buf ∨ q.off < c.off) :
    (matrix_eltwise_mult size a b c h).read q = h.read q :=
  matrix_eltwise_mult_frame size a b c q h (fun i _ => idx_ne_of_skip hq i)

/-- Frame of `matrix_eltwise_mult_ld_a`: only `c[0 .. m * n)` is written. -/
theorem matrix_eltwise_mult_ld_a_frame [Mul α] (m n ld : Nat) (a b c q : Ptr β) (h : Mem β α)
    (hq : ∀ i, i < m * n → c.idx i ≠ q) :
    (matrix_eltwise_mult_ld_a m n ld a b c h).read q = h.read q :=
  writeLoop_frame (m * n) (fun i => c.idx i) _ q hq h

theorem matrix_eltwise_mult_ld_a_skip [Mul α] (m n ld : Nat) (a b c q : Ptr β) (h : Mem β α)
    (hq : q.buf ≠ c.buf ∨ q.off < c.off) :
    (matrix_eltwise_mult_ld_a m n ld a b c h).read q = h.read q :=
  matrix_eltwise_mult_ld_a_frame m n ld a b c q h (fun i _ => idx_ne_of_skip hq i)

/-- Frame of `matrix_eltwise_mult_ld_ab`: only `c[0 .. m * n)` is written. -/
theorem matrix_eltwise_mult_ld_ab_frame [Mul α] (m n ld : Nat) (a b c q : Ptr β) (h : Mem β α)
    (hq : ∀ i, i < m * n → c.idx i ≠ q) :
    (matrix_eltwise_mult_ld_ab m n ld a b c h).read q = h.read q :=
  writeLoop_frame (m * n) (fun i => c.idx i) _ q hq h

theorem matrix_eltwise_mult_ld_ab_skip [Mul α] (m n ld : Nat) (a b c q : Ptr β) (h : Mem β α)
    (hq : q.buf ≠ c.buf ∨ q.off < c.off) :
    (matrix_eltwise_mult_ld_ab m n ld a b c h).read q = h.read q :=
  matrix_eltwise_mult_ld_ab_frame m n ld a b c q h (fun i _ => idx_ne_of_skip hq i)

/-- Frame of `matrix_sigmoid`: only `dst[0 .. size)` is written. -/
theorem matrix_sigmoid_frame [One α] [Add α] [Neg α] [Div α] (lm : Libm α) (size : Nat) (src dst q : Ptr β) (h : Mem β α)
    (hq : ∀ i, i < size → dst.idx i ≠ q) :
    (matrix_sigmoid lm size src dst h).read q = h.read q :=
  writeLoop_frame (size) (fun i => dst.idx i) _ q hq h

theorem matrix_sigmoid_skip [One α] [Add α] [Neg α] [Div α] (lm : Libm α) (size : Nat) (src dst q : Ptr β) (h : Mem β α)
    (hq : q.buf ≠ dst.buf ∨ q.off < dst.off) :
    (matrix_sigmoid lm size src dst h).read q = h.read q :=
  matrix_sigmoid_frame lm size src dst q h (fun i _ => idx_ne_of_skip hq i)

/-- Frame of `matrix_tanh`: only `dst[0 .. size)` is written. -/
theorem matrix_tanh_frame (lm : Libm α) (size : Nat) (src dst q : Ptr β) (h : Mem β α)
    (hq : ∀ i, i < size → dst.idx i ≠ q) :
    (matrix_tanh lm size src dst h).read q = h.read q :=
  writeLoop_frame (size) (fun i => dst.idx i) _ q hq h

theorem matrix_tanh_skip (lm : Libm α) (size : Nat) (src dst q : Ptr β) (h : Mem β α)
    (hq : q.buf ≠ dst.buf ∨ q.off < dst.off) :
    (matrix_tanh lm size src dst h).read q = h.read q :=
  matrix_tanh_frame lm size src dst q h (fun i _ => idx_ne_of_skip hq i)

/-- Frame of `matrix_tanh_inverse`: only `dst[0 .. size)` is written. -/
theorem matrix_tanh_inverse_frame [One α] [Sub α] [Mul α] (lm : Libm α) (size : Nat) (src dst q : Ptr β) (h : Mem β α)
    (hq : ∀ i, i < size → dst.idx i ≠ q) :
    (matrix_tanh_inverse lm size src dst h).read q = h.read q :=
  writeLoop_frame (size) (fun i => dst.idx i) _ q hq h

theorem matrix_tanh_inverse_skip [One α] [Sub α] [Mul α] (lm : Libm α) (size : Nat) (src dst q : Ptr β) (h : Mem β α)
    (hq : q.buf ≠ dst.buf ∨ q.off < dst.off) :
    (matrix_tanh_inverse lm size src dst h).read q = h.read q :=
  matrix_tanh_inverse_frame lm size src dst q h (fun i _ => idx_ne_of_skip hq i)

/-- Frame of `matrix_copy`: only `dst[0 .. size)` is written. -/
theorem matrix_copy_frame  (size : Nat) (src dst q : Ptr β) (h : Mem β α)
    (hq : ∀ i, i < size → dst.idx i ≠ q) :
    (matrix_copy size src dst h).read q = h.read q :=
  writeLoop_frame (size) (fun i => dst.idx i) _ q hq h

theorem matrix_copy_skip  (size : Nat) (src dst q : Ptr β) (h : Mem β α)
    (hq : q.buf ≠ dst.buf ∨ q.off < dst.off) :
    (matrix_copy size src dst h).read q = h.read q :=
  matrix_copy_frame size src dst q h (fun i _ => idx_ne_of_skip hq i)

/-- Frame of `matrix_copy_ld`: only `dst[0 .. m * n)` is written. -/
theorem matrix_copy_ld_frame  (m n ld : Nat) (src dst q : Ptr β) (h : Mem β α)
    (hq : ∀ i, i < m * n → dst.idx i ≠ q) :
    (matrix_copy_ld m n ld src dst h).read q = h.read q :=
  writeLoop_frame (m * n) (fun i => dst.idx i) _ q hq h

theorem matrix_copy_ld_skip  (m n ld : Nat) (src dst q : Ptr β) (h : Mem β α)
    (hq : q.buf ≠ dst.buf ∨ q.off < dst.off) :
    (matrix_copy_ld m n ld src dst h).read q = h.read q :=
  matrix_copy_ld_frame m n ld src dst q h (fun i _ => idx_ne_of_skip hq i)

/-- Frame of `matrix_complement`: only `dst[0 .. size)` is written. -/
theorem matrix_complement_frame [One α] [Sub α] (size : Nat) (src dst q : Ptr β) (h : Mem β α)
    (hq : ∀ i, i < size → dst.idx i ≠ q) :
    (matrix_complement size src dst h).read q = h.read q :=
  writeLoop_frame (size) (fun i => dst.idx i) _ q hq h

theorem matrix_complement_skip [One α] [Sub α] (size : Nat) (src dst q : Ptr β) (h : Mem β α)
    (hq : q.buf ≠ dst.buf ∨ q.off < dst.off) :
    (matrix_complement size src dst h).read q = h.read q :=
  matrix_complement_frame size src dst q h (fun i _ => idx_ne_of_skip hq i)

/-- Frame of `matrix_complement_ld`: only `dst[0 .. m * n)` is written. -/
theorem matrix_complement_ld_frame [One α] [Sub α] (m n ld : Nat) (src dst q : Ptr β) (h : Mem β α)
    (hq : ∀ i, i < m * n → dst.idx i ≠ q) :
    (matrix_complement_ld m n ld src dst h).read q = h.read q :=
  writeLoop_frame (m * n) (fun i => dst.idx i) _ q hq h

theorem matrix_complement_ld_skip [One α] [Sub α] (m n ld : Nat) (src dst q : Ptr β) (h : Mem β α)
    (hq : q.buf ≠ dst.buf ∨ q.off < dst.off) :
    (matrix_complement_ld m n ld src dst h).read q = h.read q :=
  matrix_complement_ld_frame m n ld src dst q h (fun i _ => idx_ne_of_skip hq i)

/-- Frame of `matrix_complement_square`: only `dst[0 .. size)` is written. -/
theorem matrix_complement_square_frame [One α] [Sub α] [Mul α] (size : Nat) (src dst q : Ptr β) (h : Mem β α)
    (hq : ∀ i, i < size → dst.idx i ≠ q) :
    (matrix_complement_square size src dst h).read q = h.read q :=
  writeLoop_frame (size) (fun i => dst.idx i) _ q hq h

theorem matrix_complement_square_skip [One α] [Sub α] [Mul α] (size : Nat) (src dst q : Ptr β) (h : Mem β α)
    (hq : q.buf ≠ dst.buf ∨ q.off < dst.off) :
    (matrix_complement_square size src dst h).read q = h.read q :=
  matrix_complement_square_frame size src dst q h (fun i _ => idx_ne_of_skip hq i)

/-- Frame of `matrix_complement_square_ld`: only `dst[0 .. m * n)` is written. -/
theorem matrix_complement_square_ld_frame [One α] [Sub α] [Mul α] (m n ld : Nat) (src dst q : Ptr β) (h : Mem β α)
    (hq : ∀ i, i < m * n → dst.idx i ≠ q) :
    (matrix_complement_square_ld m n ld src dst h).read q = h.read q :=
  writeLoop_frame (m * n) (fun i => dst.idx i) _ q hq h

theorem matrix_complement_square_ld_skip [One α] [Sub α] [Mul α] (m n ld : Nat) (src dst q : Ptr β) (h : Mem β α)
    (hq : q.buf ≠ dst.buf ∨ q.off < dst.off) :
    (matrix_complement_square_ld m n ld src dst h).read q = h.read q :=
  matrix_complement_square_ld_frame m n ld src dst q h (fun i _ => idx_ne_of_skip hq i)

/-- Frame of `matrix_eltwise_mult_ld_c`: only the elements `c[row*ld + col]` of the tile are written. -/
theorem matrix_eltwise_mult_ld_c_frame [Mul α] (m n ld : Nat) (a b c q : Ptr β) (h : Mem β α)
    (hq : ∀ row col, row < n → col < m → c.idx (row * ld + col) ≠ q) :
    (matrix_eltwise_mult_ld_c m n ld a b c h).read q = h.read q :=
  stridedLoop_frame m n ld c _ q hq h

theorem matrix_eltwise_mult_ld_c_skip [Mul α] (m n ld : Nat) (a b c q : Ptr β) (h : Mem β α)
    (hq : q.buf ≠ c.buf ∨ q.off < c.off) :
    (matrix_eltwise_mult_ld_c m n ld a b c h).read q = h.read q :=
  matrix_eltwise_mult_ld_c_frame m n ld a b c q h (fun _ _ _ _ => idx_ne_of_skip hq _)

/-- Frame of `matrix_sigmoid_ld`: only the elements `dst[row*ld + col]` of the tile are written. -/
theorem matrix_sigmoid_ld_frame [One α] [Add α] [Neg α] [Div α] (lm : Libm α) (m n ld : Nat) (src dst q : Ptr β) (h : Mem β α)
    (hq : ∀ row col, row < n → col < m → dst.idx (row * ld + col) ≠ q) :
    (matrix_sigmoid_ld lm m n ld src dst h).read q = h.read q :=
  stridedLoop_frame m n ld dst _ q hq h

theorem matrix_sigmoid_ld_skip [One α] [Add α] [Neg α] [Div α] (lm : Libm α) (m n ld : Nat) (src dst q : Ptr β) (h : Mem β α)
    (hq : q.buf ≠ dst.buf ∨ q.off < dst.off) :
    (matrix_sigmoid_ld lm m n ld src dst h).read q = h.read q :=
  matrix_sigmoid_ld_frame lm m n ld src dst q h (fun _ _ _ _ => idx_ne_of_skip hq _)

/-- Frame of `matrix_tanh_ld`: only the elements `dst[row*ld + col]` of the tile are written. -/
theorem matrix_tanh_ld_frame (lm : Libm α) (m n ld : Nat) (src dst q : Ptr β) (h : Mem β α)
    (hq : ∀ row col, row < n → col < m → dst.idx (row * ld + col) ≠ q) :
    (matrix_tanh_ld lm m n ld src dst h).read q = h.read q :=
  stridedLoop_frame m n ld dst _ q hq h

theorem matrix_tanh_ld_skip (lm : Libm α) (m n ld : Nat) (src dst q : Ptr β) (h : Mem β α)
    (hq : q.buf ≠ dst.buf ∨ q.off < dst.off) :
    (matrix_tanh_ld lm m n ld src dst h).read q = h.read q :=
  matrix_tanh_ld_frame lm m n ld src dst q h (fun _ _ _ _ => idx_ne_of_skip hq _)

/-- Frame of `matrix_copy_bias`: only the elements `dst[row*ld + col]` of the tile are written. -/
theorem matrix_copy_bias_frame  (m n ld : Nat) (src dst q : Ptr β) (h : Mem β α)
    (hq : ∀ row col, row < n → col < m → dst.idx (row * ld + col) ≠ q) :
    (matrix_copy_bias m n ld src dst h).read q = h.read q :=
  stridedLoop_frame m n ld dst _ q hq h

theorem matrix_copy_bias_skip  (m n ld : Nat) (src dst q : Ptr β) (h : Mem β α)
    (hq : q.buf ≠ dst.buf ∨ q.off < dst.off) :
    (matrix_copy_bias m n ld src dst h).read q = h.read q :=
  matrix_copy_bias_frame m n ld src dst q h (fun _ _ _ _ => idx_ne_of_skip hq _)

/-! Values the forward helpers leave. -/

theorem matrix_add_value [Add α] (size : Nat) (a b c : Ptr β) (h : Mem β α) (i : Nat)
    (hi : i < size) (ha : ∀ k, k < i → c.idx k ≠ a.idx i) (hb : ∀ k, k < i → c.idx k ≠ b.idx i) :
    (matrix_add size a b c h).read (c.idx i) = h.read (a.idx i) + h.read (b.idx i) :=
  packed2_value size a b c (fun i => i) (fun i => i) (· + ·) h i hi ha hb

theorem matrix_eltwise_mult_value [Mul α] (size : Nat) (a b c : Ptr β) (h : Mem β α) (i : Nat)
    (hi : i < size) (ha : ∀ k, k < i → c.idx k ≠ a.idx i) (hb : ∀ k, k < i → c.idx k ≠ b.idx i) :
    (matrix_eltwise_mult size a b c h).read (c.idx i) = h.read (a.idx i) * h.read (b.idx i) :=
  packed2_value size a b c (fun i => i) (fun i => i) (· * ·) h i hi ha hb

theorem matrix_eltwise_mult_ld_a_value [Mul α] (m n ld : Nat) (a b c : Ptr β) (h : Mem β α)
    (i : Nat) (hi : i < m * n) (ha : ∀ k, k < i → c.idx k ≠ a.idx (i / m * ld + i % m))
    (hb : ∀ k, k < i → c.idx k ≠ b.idx i) :
    (matrix_eltwise_mult_ld_a m n ld a b c h).read (c.idx i)
      = h.read (a.idx (i / m * ld + i % m)) * h.read (b.idx i) :=
  packed2_value (m * n) a b c (fun i => i / m * ld + i % m) (fun i => i) (· * ·) h i hi ha hb

theorem matrix_eltwise_mult_ld_ab_value [Mul α] (m n ld : Nat) (a b c : Ptr β) (h : Mem β α)
    (i : Nat) (hi : i < m * n) (ha : ∀ k, k < i → c.idx k ≠ a.idx (i / m * ld + i % m))
    (hb : ∀ k, k < i → c.idx k ≠ b.idx (i / m * ld + i % m)) :
    (matrix_eltwise_mult_ld_ab m n ld a b c h).read (c.idx i)
      = h.read (a.idx (i / m * ld + i % m)) * h.read (b.idx (i / m * ld + i % m)) :=
  packed2_value (m * n) a b c (fun i => i / m * ld + i % m) (fun i => i / m * ld + i % m)
    (· * ·) h i hi ha hb

theorem matrix_tanh_value (lm : Libm α) (size : Nat) (src dst : Ptr β) (h : Mem β α) (i : Nat)
    (hi : i < size) (hs : ∀ k, k < i → dst.idx k ≠ src.idx i) :
    (matrix_tanh lm size src dst h).read (dst.idx i) = lm.tanh (h.read (src.idx i)) :=
  packed1_value size src dst (fun i => i) lm.tanh h i hi hs

theorem matrix_copy_bias_value (m n ld : Nat) (src dst : Ptr β) (h : Mem β α) (hld : m ≤ ld)
    (row col : Nat) (hrow : row < n) (hcol : col < m)
    (hs : ∀ r c, r < n → c < m → dst.idx (r * ld + c) ≠ src.idx col) :
    (matrix_copy_bias m n ld src dst h).read (dst.idx (row * ld + col))
      = h.read (src.idx col) := by
  have key := strided1_value m n ld src dst (fun i => i % m) (fun v => v) h hld row col hrow hcol
    (fun r c hr hc _ => by
      show dst.idx (r * ld + c) ≠ src.idx ((row * m + col) % m)
      rw [(tile_index m row col hcol).2]
      exact hs r c hr hc)
  simp only [(tile_index m row col hcol).2] at key
  exact key

/-- In-place use of `matrix_sigmoid_ld` (`src == dst`), as `lstm_ref` calls it. -/
theorem matrix_sigmoid_ld_value [One α] [Add α] [Neg α] [Div α] (lm : Libm α) (m n ld : Nat)
    (p : Ptr β) (h : Mem β α) (hld : m ≤ ld) (row col : Nat) (hrow : row < n) (hcol : col < m) :
    (matrix_sigmoid_ld lm m n ld p p h).read (p.idx (row * ld + col))
      = sigmoid_value lm (h.read (p.idx (row * ld + col))) := by
  have hs : ∀ r c, r < n → c < m → (r, c) ≠ (row, col) →
      p.idx (r * ld + c) ≠ p.idx ((row * m + col) / m * ld + (row * m + col) % m) := by
    intro r c hr hc hne he
    rw [(tile_index m row col hcol).1, (tile_index m row col hcol).2] at he
    obtain ⟨h1, h2⟩ := two_d_inj (lt_of_lt_of_le hc hld) (lt_of_lt_of_le hcol hld)
      (Ptr.idx_inj he)
    exact hne (by rw [h1, h2])
  have key := strided1_value m n ld p p (fun i => i / m * ld + i % m)
    (fun v => 1 / (1 + lm.exp (-v))) h hld row col hrow hcol hs
  simp only [(tile_index m row col hcol).1, (tile_index m row col hcol).2] at key
  exact key

/-- In-place use of `matrix_tanh_ld` (`src == dst`), as `lstm_ref` calls it. -/
theorem matrix_tanh_ld_value (lm : Libm α) (m n ld : Nat)
    (p : Ptr β) (h : Mem β α) (hld : m ≤ ld) (row col : Nat) (hrow : row < n) (hcol : col < m) :
    (matrix_tanh_ld lm m n ld p p h).read (p.idx (row * ld + col))
      = lm.tanh (h.read (p.idx (row * ld + col))) := by
  have hs : ∀ r c, r < n → c < m → (r, c) ≠ (row, col) →
      p.idx (r * ld + c) ≠ p.idx ((row * m + col) / m * ld + (row * m + col) % m) := by
    intro r c hr hc hne he
    rw [(tile_index m row col hcol).1, (tile_index m row col hcol).2] at he
    obtain ⟨h1, h2⟩ := two_d_inj (lt_of_lt_of_le hc hld) (lt_of_lt_of_le hcol hld)
      (Ptr.idx_inj he)
    exact hne (by rw [h1, h2])
  have key := strided1_value m n ld p p (fun i => i / m * ld + i % m) lm.tanh h hld row col
    hrow hcol hs
  simp only [(tile_index m row col hcol).1, (tile_index m row col hcol).2] at key
  exact key

/-! Nested loops of single writes (the converters and the dense multiply). -/

theorem writeLoop2_frame (n1 n2 : Nat) (d : Nat → Nat → Ptr β)
    (g : Nat → Nat → Mem β α → α) (q : Ptr β)
    (hq : ∀ y x, y < n1 → x < n2 → d y x ≠ q) (h : Mem β α) :
    (forLoop n1 (fun y h => forLoop n2 (fun x h => h.write (d y x) (g y x h)) h) h).read q
      = h.read q :=
  forLoop_read_frame n1 _ q
    (fun y hy h => writeLoop_frame n2 (fun x => d y x) (g y) q (fun x hx => hq y x hy hx) h) h

/-- The memory in the middle of a nested loop, just before iteration `(y, x)`, still has
the initial value at every location that no other iteration writes. -/
theorem writeLoop2_midway (n1 n2 : Nat) (d : Nat → Nat → Ptr β)
    (g : Nat → Nat → Mem β α → α) (r : Ptr β) (y x : Nat) (hy : y < n1) (hx : x < n2)
    (hr : ∀ y' x', y' < n1 → x' < n2 → (y', x') ≠ (y, x) → d y' x' ≠ r) (h : Mem β α) :
    (forLoop x (fun x h => h.write (d y x) (g y x h))
      (forLoop y (fun y h => forLoop n2 (fun x h => h.write (d y x) (g y x h)) h) h)).read r
      = h.read r := by
  rw [writeLoop_frame x (fun x => d y x) (g y) r
    (fun k hk => hr y k hy (lt_trans hk hx) (fun he => by
      have : k = x := congrArg Prod.snd he
      omega))]
  exact writeLoop2_frame y n2 d g r
    (fun y' x' hy' hx' => hr y' x' (lt_trans hy' hy) hx' (fun he => by
      have : y' = y := congrArg Prod.fst he
      omega)) h

theorem writeLoop2_value (n1 n2 : Nat) (d : Nat → Nat → Ptr β)
    (g : Nat → Nat → Mem β α → α) (y x : Nat) (hy : y < n1) (hx : x < n2)
    (hinj : ∀ y' x', y' < n1 → x' < n2 → (y', x') ≠ (y, x) → d y' x' ≠ d y x)
    (h : Mem β α) :
    (forLoop n1 (fun y h => forLoop n2 (fun x h => h.write (d y x) (g y x h)) h) h).read (d y x)
      = g y x (forLoop x (fun x h => h.write (d y x) (g y x h))
          (forLoop y (fun y h => forLoop n2 (fun x h => h.write (d y x) (g y x h)) h) h)) := by
  rw [forLoop_read_last n1 _ (d y x) y hy
    (fun k h1 h2 h => writeLoop_frame n2 (fun x => d k x) (g k) (d y x)
      (fun x' hx' => hinj k x' h2 hx' (fun he => by
        have : k = y := congrArg Prod.fst he
        omega)) h)]
  exact writeLoop_value n2 (fun x => d y x) (g y) x hx
    (fun k h1 h2 => hinj y k hy h2 (fun he => by
      have : k = x := congrArg Prod.snd he
      omega)) _

/-- Frame of `convert_ck_c4k`. -/
theorem convert_ck_c4k_frame (C K : Nat) (src dst q : Ptr β) (h : Mem β α)
    (hq : ∀ y x, y < C → x < K → dst.idx (y * 4 * K + x) ≠ q) :
    (convert_ck_c4k C K src dst h).read q = h.read q :=
  writeLoop2_frame C K (fun y x => dst.idx (y * 4 * K + x)) _ q hq h

theorem convert_ck_c4k_skip (C K : Nat) (src dst q : Ptr β) (h : Mem β α)
    (hq : q.buf ≠ dst.buf ∨ q.off < dst.off) :
    (convert_ck_c4k C K src dst h).read q = h.read q :=
  convert_ck_c4k_frame C K src dst q h (fun _ _ _ _ => idx_ne_of_skip hq _)

theorem c4k_index_inj {K y x y' x' : Nat} (hx : x < K) (hx' : x' < K)
    (he : y' * 4 * K + x' = y * 4 * K + x) : y' = y ∧ x' = x := by
  rw [Nat.mul_assoc, Nat.mul_assoc] at he
  exact two_d_inj (by omega) (by omega) he

/-- Value of `convert_ck_c4k`: `dst[y*4*K + x] = src[y*K + x]`, for a source the
destination elements do not overlap. -/
theorem convert_ck_c4k_value (C K : Nat) (src dst : Ptr β) (h : Mem β α) (y x : Nat)
    (hy : y < C) (hx : x < K)
    (hs : ∀ y' x', y' < C → x' < K → dst.idx (y' * 4 * K + x') ≠ src.idx (y * K + x)) :
    (convert_ck_c4k C K src dst h).read (dst.idx (y * 4 * K + x))
      = h.read (src.idx (y * K + x)) := by
  refine (writeLoop2_value C K (fun y x => dst.idx (y * 4 * K + x))
    (fun y x h => h.read (src.idx (y * K + x))) y x hy hx ?_ h).trans ?_
  · intro y' x' hy' hx' hne he
    obtain ⟨h1, h2⟩ := c4k_index_inj hx hx' (Ptr.idx_inj he)
    exact hne (by rw [h1, h2])
  · exact writeLoop2_midway C K (fun y x => dst.idx (y * 4 * K + x))
      (fun y x h => h.read (src.idx (y * K + x))) _ y x hy hx
      (fun y' x' hy' hx' _ => hs y' x' hy' hx') h

/-- Frame of `convert_nk_nck`. -/
theorem convert_nk_nck_frame (N K CK : Nat) (src dst q : Ptr β) (h : Mem β α)
    (hq : ∀ y x, y < N → x < K → dst.idx (y * CK + x) ≠ q) :
    (convert_nk_nck N K CK src dst h).read q = h.read q :=
  writeLoop2_frame N K (fun y x => dst.idx (y * CK + x)) _ q hq h

theorem convert_nk_nck_skip (N K CK : Nat) (src dst q : Ptr β) (h : Mem β α)
    (hq : q.buf ≠ dst.buf ∨ q.off < dst.off) :
    (convert_nk_nck N K CK src dst h).read q = h.read q :=
  convert_nk_nck_frame N K CK src dst q h (fun _ _ _ _ => idx_ne_of_skip hq _)

/-- Value of `convert_nk_nck`: `dst[y*CK + x] = src[y*K + x]` when `K ≤ CK`. -/
theorem convert_nk_nck_value (N K CK : Nat) (src dst : Ptr β) (h : Mem β α) (hK : K ≤ CK)
    (y x : Nat) (hy : y < N) (hx : x < K)
    (hs : ∀ y' x', y' < N → x' < K → dst.idx (y' * CK + x') ≠ src.idx (y * K + x)) :
    (convert_nk_nck N K CK src dst h).read (dst.idx (y * CK + x))
      = h.read (src.idx (y * K + x)) := by
  refine (writeLoop2_value N K (fun y x => dst.idx (y * CK + x))
    (fun y x h => h.read (src.idx (y * K + x))) y x hy hx ?_ h).trans ?_
  · intro y' x' hy' hx' hne he
    obtain ⟨h1, h2⟩ := two_d_inj (lt_of_lt_of_le hx' hK) (lt_of_lt_of_le hx hK) (Ptr.idx_inj he)
    exact hne (by rw [h1, h2])
  · exact writeLoop2_midway N K (fun y x => dst.idx (y * CK + x))
      (fun y x h => h.read (src.idx (y * K + x))) _ y x hy hx
      (fun y' x' hy' hx' _ => hs y' x' hy' hx') h

/-- Frame of `convert_c4k_4ck`. -/
theorem convert_c4k_4ck_frame (C K : Nat) (src dst q : Ptr β) (h : Mem β α)
    (hq : ∀ g y x, g < 4 → y < C → x < K → dst.idx (g * C * K + y * K + x) ≠ q) :
    (convert_c4k_4ck C K src dst h).read q = h.read q :=
  forLoop_read_frame 4 _ q
    (fun g hg h => writeLoop2_frame C K (fun y x => dst.idx (g * C * K + y * K + x))
      (fun y x h => h.read (src.idx (y * 4 * K + g * K + x))) q
      (fun y x hy hx => hq g y x hg hy hx) h) h

theorem convert_c4k_4ck_skip (C K : Nat) (src dst q : Ptr β) (h : Mem β α)
    (hq : q.buf ≠ dst.buf ∨ q.off < dst.off) :
    (convert_c4k_4ck C K src dst h).read q = h.read q :=
  convert_c4k_4ck_frame C K src dst q h (fun _ _ _ _ _ _ => idx_ne_of_skip hq _)

/-- Coordinates in the separate-blocks layout `g*C*K + y*K + x` are unique. -/
theorem blocks_inj {C K g y x g' y' x' : Nat} (hy : y < C) (hx : x < K) (hy' : y' < C)
    (hx' : x' < K) (he : g' * C * K + y' * K + x' = g * C * K + y * K + x) :
    g' = g ∧ y' = y ∧ x' = x := by
  have e1 : g' * C * K + y' * K + x' = (g' * C + y') * K + x' := by
    rw [Nat.add_mul]
  have e2 : g * C * K + y * K + x = (g * C + y) * K + x := by
    rw [Nat.add_mul]
  rw [e1, e2] at he
  obtain ⟨h1, h2⟩ := two_d_inj hx' hx he
  obtain ⟨h3, h4⟩ := two_d_inj hy' hy h1
  exact ⟨h3, h4, h2⟩

/-- Value of `convert_c4k_4ck`, for a source in another buffer. -/
theorem convert_c4k_4ck_value (C K : Nat) (src dst : Ptr β) (h : Mem β α)
    (hsd : src.buf ≠ dst.buf) (g y x : Nat) (hg : g < 4) (hy : y < C) (hx : x < K) :
    (convert_c4k_4ck C K src dst h).read (dst.idx (g * C * K + y * K + x))
      = h.read (src.idx (y * 4 * K + g * K + x)) := by
  unfold convert_c4k_4ck
  rw [forLoop_read_last 4 _ (dst.idx (g * C * K + y * K + x)) g hg
    (fun k h1 h2 h => writeLoop2_frame C K (fun y x => dst.idx (k * C * K + y * K + x))
      (fun y x h => h.read (src.idx (y * 4 * K + k * K + x))) _
      (fun y' x' hy' hx' he => by
        have := (blocks_inj hy hx hy' hx' (Ptr.idx_inj he)).1
        omega) h)]
  refine (writeLoop2_value C K (fun y x => dst.idx (g * C * K + y * K + x))
    (fun y x h => h.read (src.idx (y * 4 * K + g * K + x))) y x hy hx ?_ _).trans ?_
  · intro y' x' hy' hx' hne he
    obtain ⟨_, h1, h2⟩ := blocks_inj hy hx hy' hx' (Ptr.idx_inj he)
    exact hne (by rw [h1, h2])
  · have hsrc : ∀ i, dst.idx i ≠ src.idx (y * 4 * K + g * K + x) :=
      fun i => idx_ne_of_skip (Or.inl (show (src.idx _).buf ≠ dst.buf from hsd)) i
    rw [writeLoop2_midway C K (fun y x => dst.idx (g * C * K + y * K + x))
      (fun y x h => h.read (src.idx (y * 4 * K + g * K + x))) _ y x hy hx
      (fun _ _ _ _ _ => hsrc _)]
    exact forLoop_read_frame g _ _
      (fun k hk h => writeLoop2_frame C K (fun y x => dst.idx (k * C * K + y * K + x))
        (fun y x h => h.read (src.idx (y * 4 * K + k * K + x))) _
        (fun _ _ _ _ => hsrc _) h) h

/-! The fused layout. -/

/-- The element `(y, x)` of gate slot `g`, addressed from the slot pointer `&fused[g*K]`. -/
theorem slot_ptr (fused : Ptr β) (K g y x : Nat) :
    (fused.idx (g * K)).idx (y * 4 * K + x) = fused.idx (y * (4 * K) + (g * K + x)) := by
  rw [Ptr.idx_idx, Nat.mul_assoc]
  congr 1
  omega

/-- Every index of a fused `rows x 4*cols` buffer is the element `(y, x)` of one slot `g`. -/
theorem fused_cover (rows cols i : Nat) (hi : i < 4 * rows * cols) :
    ∃ g y x, g < 4 ∧ y < rows ∧ x < cols ∧ i = y * (4 * cols) + (g * cols + x) := by
  have hc : 0 < cols := by
    rcases Nat.eq_zero_or_pos cols with h0 | h0
    · subst h0; simp at hi
    · exact h0
  have h4 : 0 < 4 * cols := by omega
  refine ⟨i % (4 * cols) / cols, i / (4 * cols), i % (4 * cols) % cols, ?_, ?_, ?_, ?_⟩
  · apply Nat.div_lt_of_lt_mul
    have := Nat.mod_lt i h4
    omega
  · apply Nat.div_lt_of_lt_mul
    have : 4 * rows * cols = 4 * cols * rows := by ring
    omega
  · exact Nat.mod_lt _ hc
  · have e1 := Nat.div_add_mod i (4 * cols)
    have e2 := Nat.div_add_mod (i % (4 * cols)) cols
    rw [Nat.mul_comm (i / (4 * cols)), Nat.mul_comm (i % (4 * cols) / cols)]
    omega

/-- One placement into slot `g` read at an element of slot `g'`. -/
theorem convert_ck_c4k_slot (C K : Nat) (src fused : Ptr β) (h : Mem β α) (g g' y x : Nat)
    (hg : g < 4) (hg' : g' < 4) (hy : y < C) (hx : x < K) (hsd : src.buf ≠ fused.buf) :
    (convert_ck_c4k C K src (fused.idx (g * K)) h).read
        (fused.idx (y * (4 * K) + (g' * K + x)))
      = if g' = g then h.read (src.idx (y * K + x))
        else h.read (fused.idx (y * (4 * K) + (g' * K + x))) := by
  split
  · next he =>
    subst he
    rw [← slot_ptr]
    exact convert_ck_c4k_value C K src _ h y x hy hx
      (fun _ _ _ _ => idx_ne_of_skip
        (Or.inl (show (src.idx _).buf ≠ (fused.idx _).buf from hsd)) _)
  · next hne =>
    apply convert_ck_c4k_frame
    intro y' x' hy' hx' he
    rw [slot_ptr] at he
    exact hne (fused_inj hg hx' hg' hx (Ptr.idx_inj he)).2.1.symm

/-- The four placements leave `M_g[y*K + x]` at element `(y, x)` of slot `g`. -/
theorem fuse_gates_value (C K : Nat) (M : Nat → Ptr β) (fused : Ptr β) (h : Mem β α)
    (hM : ∀ g, g < 4 → (M g).buf ≠ fused.buf) (g y x : Nat) (hg : g < 4) (hy : y < C)
    (hx : x < K) :
    (fuse_gates C K M fused h).read (fused.idx (y * (4 * K) + (g * K + x)))
      = h.read ((M g).idx (y * K + x)) := by
  have hsk : ∀ (k : Nat) (h : Mem β α) (i : Nat), k < 4 →
      (convert_ck_c4k C K (M k) (fused.idx (k * K)) h).read ((M g).idx i)
        = h.read ((M g).idx i) :=
    fun k h i _ => convert_ck_c4k_skip C K _ _ _ h (Or.inl (hM g hg))
  show (convert_ck_c4k C K (M 3) (fused.idx (3 * K))
    (convert_ck_c4k C K (M 2) (fused.idx (2 * K))
      (convert_ck_c4k C K (M 1) (fused.idx (1 * K))
        (convert_ck_c4k C K (M 0) (fused.idx (0 * K)) h)))).read _ = _
  rw [convert_ck_c4k_slot C K _ fused _ 3 g y x (by omega) hg hy hx (hM 3 (by omega))]
  split
  · next he => subst he; rw [hsk 2 _ _ (by omega), hsk 1 _ _ (by omega), hsk 0 _ _ (by omega)]
  rw [convert_ck_c4k_slot C K _ fused _ 2 g y x (by omega) hg hy hx (hM 2 (by omega))]
  split
  · next he => subst he; rw [hsk 1 _ _ (by omega), hsk 0 _ _ (by omega)]
  rw [convert_ck_c4k_slot C K _ fused _ 1 g y x (by omega) hg hy hx (hM 1 (by omega))]
  split
  · next he => subst he; rw [hsk 0 _ _ (by omega)]
  rw [convert_ck_c4k_slot C K _ fused _ 0 g y x (by omega) hg hy hx (hM 0 (by omega))]
  split
  · next he => subst he; rfl
  · omega

/-- The four placements change nothing outside the fused buffer or below it. -/
theorem fuse_gates_skip (C K : Nat) (M : Nat → Ptr β) (fused q : Ptr β) (h : Mem β α)
    (hq : q.buf ≠ fused.buf ∨ q.off < fused.off) :
    (fuse_gates C K M fused h).read q = h.read q :=
  forLoop_read_frame 4 _ q
    (fun g _ h => convert_ck_c4k_skip C K _ _ q h (by
      rcases hq with hq | hq
      · exact Or.inl hq
      · exact Or.inr (by simp only [Ptr.idx_off]; omega))) h

/-! The concatenation of input and hidden rows. -/

/-- Column `q < C` of row `n` of the concatenated buffer holds `x[n*C + q]`. -/
theorem concat_rows_left (N C K : Nat) (x hp xh : Ptr β) (h : Mem β α)
    (hx : x.buf ≠ xh.buf) (n q : Nat) (hn : n < N) (hq : q < C) :
    (concat_rows N C K x hp xh h).read (xh.idx (n * (C + K) + q)) = h.read (x.idx (n * C + q)) := by
  unfold concat_rows
  rw [convert_nk_nck_frame]
  · exact convert_nk_nck_value N C (C + K) x xh h (by omega) n q hn hq
      (fun _ _ _ _ => idx_ne_of_skip (Or.inl (show (x.idx _).buf ≠ xh.buf from hx)) _)
  · intro y c hy hc he
    rw [Ptr.idx_idx] at he
    have he2 := Ptr.idx_inj he
    have := @two_d_inj (C + K) y (C + c) n q (by omega) (by omega) (by omega)
    omega

/-- Column `C + q`, `q < K`, of row `n` of the concatenated buffer holds `hp[n*K + q]`. -/
theorem concat_rows_right (N C K : Nat) (x hp xh : Ptr β) (h : Mem β α)
    (hx : x.buf ≠ xh.buf) (hh : hp.buf ≠ xh.buf) (n q : Nat) (hn : n < N) (hq : q < K) :
    (concat_rows N C K x hp xh h).read (xh.idx (n * (C + K) + (C + q)))
      = h.read (hp.idx (n * K + q)) := by
  unfold concat_rows
  have e : xh.idx (n * (C + K) + (C + q)) = (xh.idx C).idx (n * (C + K) + q) := by
    rw [Ptr.idx_idx]
    congr 1
    omega
  rw [e, convert_nk_nck_value N K (C + K) hp (xh.idx C) _ (by omega) n q hn hq
    (fun _ _ _ _ => idx_ne_of_skip (Or.inl (show (hp.idx _).buf ≠ (xh.idx C).buf from hh)) _)]
  exact convert_nk_nck_skip N C (C + K) x xh _ h
    (Or.inl (show (hp.idx _).buf ≠ xh.buf from hh))

theorem concat_rows_skip (N C K : Nat) (x hp xh q : Ptr β) (h : Mem β α)
    (hq : q.buf ≠ xh.buf ∨ q.off < xh.off) :
    (concat_rows N C K x hp xh h).read q = h.read q := by
  unfold concat_rows
  rw [convert_nk_nck_skip, convert_nk_nck_skip _ _ _ _ _ _ _ hq]
  rcases hq with hq | hq
  · exact Or.inl hq
  · exact Or.inr (by simp only [Ptr.idx_off]; omega)

/-! The dense multiply. -/

theorem gemm_frame [Zero α] [Add α] [Mul α] (ta tb : Bool) (m n k : Nat) (alpha : α)
    (a : Ptr β) (lda : Nat) (b : Ptr β) (ldb : Nat) (beta : α) (c : Ptr β) (ldc : Nat)
    (q : Ptr β) (h : Mem β α) (hq : ∀ j i, j < n → i < m → c.idx (i + j * ldc) ≠ q) :
    (gemm ta tb m n k alpha a lda b ldb beta c ldc h).read q = h.read q :=
  writeLoop2_frame n m (fun j i => c.idx (i + j * ldc)) _ q hq h

theorem gemm_skip [Zero α] [Add α] [Mul α] (ta tb : Bool) (m n k : Nat) (alpha : α)
    (a : Ptr β) (lda : Nat) (b : Ptr β) (ldb : Nat) (beta : α) (c : Ptr β) (ldc : Nat)
    (q : Ptr β) (h : Mem β α) (hq : q.buf ≠ c.buf ∨ q.off < c.off) :
    (gemm ta tb m n k alpha a lda b ldb beta c ldc h).read q = h.read q :=
  gemm_frame ta tb m n k alpha a lda b ldb beta c ldc q h (fun _ _ _ _ => idx_ne_of_skip hq _)

/-- Element `(i, j)` of the result of the dense multiply. -/
theorem gemm_value [Zero α] [Add α] [Mul α] (ta tb : Bool) (m n k : Nat) (alpha : α)
    (a : Ptr β) (lda : Nat) (b : Ptr β) (ldb : Nat) (beta : α) (c : Ptr β) (ldc : Nat)
    (h : Mem β α) (hld : m ≤ ldc) (i j : Nat) (hi : i < m) (hj : j < n) :
    (gemm ta tb m n k alpha a lda b ldb beta c ldc h).read (c.idx (i + j * ldc))
      = alpha * sumTo k (fun l =>
          (if ta then h.read (a.idx (l + i * lda)) else h.read (a.idx (i + l * lda)))
          * (if tb then h.read (b.idx (j + l * ldb)) else h.read (b.idx (l + j * ldb))))
        + beta * h.read (c.idx (i + j * ldc)) := by
  have hinj : ∀ j' i', j' < n → i' < m → (j', i') ≠ (j, i) →
      c.idx (i' + j' * ldc) ≠ c.idx (i + j * ldc) := by
    intro j' i' _ hi' hne he
    have he2 := Ptr.idx_inj he
    rw [Nat.add_comm i', Nat.add_comm i] at he2
    obtain ⟨h1, h2⟩ := two_d_inj (lt_of_lt_of_le hi' hld) (lt_of_lt_of_le hi hld) he2
    exact hne (by rw [h1, h2])
  refine (writeLoop2_value n m (fun j i => c.idx (i + j * ldc))
    (fun j i h' => alpha * sumTo k (fun l =>
          (if ta then h.read (a.idx (l + i * lda)) else h.read (a.idx (i + l * lda)))
          * (if tb then h.read (b.idx (j + l * ldb)) else h.read (b.idx (l + j * ldb))))
        + beta * h'.read (c.idx (i + j * ldc))) j i hj hi hinj h).trans ?_
  exact congrArg (fun v => alpha * sumTo k (fun l =>
          (if ta then h.read (a.idx (l + i * lda)) else h.read (a.idx (i + l * lda)))
          * (if tb then h.read (b.idx (j + l * ldb)) else h.read (b.idx (l + j * ldb))))
        + beta * v)
    (writeLoop2_midway n m (fun j i => c.idx (i + j * ldc))
      (fun j i h' => alpha * sumTo k (fun l =>
          (if ta then h.read (a.idx (l + i * lda)) else h.read (a.idx (i + l * lda)))
          * (if tb then h.read (b.idx (j + l * ldb)) else h.read (b.idx (l + j * ldb))))
        + beta * h'.read (c.idx (i + j * ldc))) _ j i hj hi hinj h)

theorem gemm_beta0_frame [Zero α] [Add α] [Mul α] (ta tb : Bool) (m n k : Nat) (alpha : α)
    (a : Ptr β) (lda : Nat) (b : Ptr β) (ldb : Nat) (c : Ptr β) (ldc : Nat)
    (q : Ptr β) (h : Mem β α) (hq : ∀ j i, j < n → i < m → c.idx (i + j * ldc) ≠ q) :
    (gemm_beta0 ta tb m n k alpha a lda b ldb c ldc h).read q = h.read q :=
  writeLoop2_frame n m (fun j i => c.idx (i + j * ldc)) _ q hq h

theorem gemm_beta0_skip [Zero α] [Add α] [Mul α] (ta tb : Bool) (m n k : Nat) (alpha : α)
    (a : Ptr β) (lda : Nat) (b : Ptr β) (ldb : Nat) (c : Ptr β) (ldc : Nat)
    (q : Ptr β) (h : Mem β α) (hq : q.buf ≠ c.buf ∨ q.off < c.off) :
    (gemm_beta0 ta tb m n k alpha a lda b ldb c ldc h).read q = h.read q :=
  gemm_beta0_frame ta tb m n k alpha a lda b ldb c ldc q h (fun _ _ _ _ => idx_ne_of_skip hq _)

/-- Element `(i, j)` of the result of the dense multiply with `beta = 0`: what `C` held
plays no part. -/
theorem gemm_beta0_value [Zero α] [Add α] [Mul α] (ta tb : Bool) (m n k : Nat) (alpha : α)
    (a : Ptr β) (lda : Nat) (b : Ptr β) (ldb : Nat) (c : Ptr β) (ldc : Nat)
    (h : Mem β α) (hld : m ≤ ldc) (i j : Nat) (hi : i < m) (hj : j < n) :
    (gemm_beta0 ta tb m n k alpha a lda b ldb c ldc h).read (c.idx (i + j * ldc))
      = alpha * sumTo k (fun l =>
          (if ta then h.read (a.idx (l + i * lda)) else h.read (a.idx (i + l * lda)))
          * (if tb then h.read (b.idx (j + l * ldb)) else h.read (b.idx (l + j * ldb)))) := by
  have hinj : ∀ j' i', j' < n → i' < m → (j', i') ≠ (j, i) →
      c.idx (i' + j' * ldc) ≠ c.idx (i + j * ldc) := by
    intro j' i' _ hi' hne he
    have he2 := Ptr.idx_inj he
    rw [Nat.add_comm i', Nat.add_comm i] at he2
    obtain ⟨h1, h2⟩ := two_d_inj (lt_of_lt_of_le hi' hld) (lt_of_lt_of_le hi hld) he2
    exact hne (by rw [h1, h2])
  exact writeLoop2_value n m (fun j i => c.idx (i + j * ldc))
    (fun j i _ => alpha * sumTo k (fun l =>
          (if ta then h.read (a.idx (l + i * lda)) else h.read (a.idx (i + l * lda)))
          * (if tb then h.read (b.idx (j + l * ldb)) else h.read (b.idx (l + j * ldb)))))
    j i hj hi hinj h

end HelperLemmas

/-! ## Addresses inside the buffers of lstm_ref -/

section Addresses

theorem icfo_at_eq (N K j s : Nat) : icfo_at N K j s = icfo_elem N K j 0 s := rfl

/-- Element `(n, x)` of the tile that starts at column `s` of timestep `j`. -/
theorem icfo_at_idx (N K j s n x : Nat) :
    (icfo_at N K j s).idx (n * (4 * K) + x) = icfo_elem N K j n (s + x) := by
  simp only [icfo_at, icfo_elem, vla3, Ptr.idx_idx, Nat.add_zero, Nat.add_mul]
  congr 1
  omega

/-- Element `(i, n)` of the column-major result matrix of a multiply into `icfo`. -/
theorem icfo_at_gemm (N K j i n : Nat) :
    (icfo_at N K j 0).idx (i + n * (K * 4)) = icfo_elem N K j n i := by
  simp only [icfo_at, icfo_elem, vla3, Ptr.idx_idx, Nat.add_zero, Nat.add_mul, Nat.mul_comm K 4]
  congr 1
  omega

theorem icfo_elem_buf (N K j n c : Nat) : (icfo_elem N K j n c).buf = .icfogoldt := rfl

theorem icfo_elem_off (N K j n c : Nat) :
    (icfo_elem N K j n c).off = (j * N + n) * (4 * K) + c := by
  simp [icfo_elem, vla3, Ptr.idx, base]

theorem icfo_at_off (N K j s : Nat) : (icfo_at N K j s).off = j * N * (4 * K) + s := by
  simp [icfo_at, vla3, Ptr.idx, base]

theorem seq_at_off (b : Buf) (j s e : Nat) : ((seq_at b j s).idx e).off = j * s + e := by
  simp [seq_at, vla2, Ptr.idx, base]

theorem seq_at_off0 (b : Buf) (j s : Nat) : (seq_at b j s).off = j * s := by
  simp [seq_at, vla2, Ptr.idx, base]

theorem seq_at_buf (b : Buf) (j s e : Nat) : ((seq_at b j s).idx e).buf = b := rfl

/-- Elements of an earlier timestep lie below the start of a later timestep. -/
theorem icfo_elem_below {N K j j' n c : Nat} (hj : j < j') (hn : n < N) (hc : c < 4 * K) :
    (icfo_elem N K j n c).off < (icfo_at N K j' 0).off := by
  rw [icfo_elem_off, icfo_at_off]
  have h1 : j * N + n + 1 ≤ j' * N := by
    have : (j + 1) * N ≤ j' * N := Nat.mul_le_mul_right N hj
    rw [Nat.add_mul] at this
    omega
  have h2 : (j * N + n + 1) * (4 * K) ≤ j' * N * (4 * K) := Nat.mul_le_mul_right _ h1
  rw [Nat.add_mul] at h2
  omega

theorem seq_below {b : Buf} {s j j' e : Nat} (hj : j < j') (he : e < s) :
    ((seq_at b j s).idx e).off < (seq_at b j' s).off := by
  rw [seq_at_off, seq_at_off0]
  have : (j + 1) * s ≤ j' * s := Nat.mul_le_mul_right s hj
  rw [Nat.add_mul] at this
  omega

/-- Distinct columns of one row of `icfo` are distinct addresses. -/
theorem icfo_elem_inj {N K j n n' c c' : Nat} (hc : c < 4 * K) (hc' : c' < 4 * K)
    (he : icfo_elem N K j n c = icfo_elem N K j n' c') : n = n' ∧ c = c' := by
  have h1 : (icfo_elem N K j n c).off = (icfo_elem N K j n' c').off := by rw [he]
  rw [icfo_elem_off, icfo_elem_off] at h1
  obtain ⟨h2, h3⟩ := two_d_inj hc hc' h1
  exact ⟨by omega, h3⟩

theorem skip_icfo {N K j : Nat} {q : Ptr Buf}
    (hq : q.buf ≠ .icfogoldt ∨ q.off < (icfo_at N K j 0).off) (s : Nat) :
    q.buf ≠ (icfo_at N K j s).buf ∨ q.off < (icfo_at N K j s).off := by
  rcases hq with hq | hq
  · exact Or.inl hq
  · right
    rw [icfo_at_off] at hq ⊢
    omega

theorem skip_scratch {q : Ptr Buf} (hq : fwd_scratch q.buf = false) (p : Ptr Buf)
    (hp : fwd_scratch p.buf = true) : q.buf ≠ p.buf ∨ q.off < p.off :=
  Or.inl (fun he => by rw [he, hp] at hq; exact Bool.noConfusion hq)

theorem skip_bwd {q : Ptr Buf} (hq : bwd_writes q.buf = false) (p : Ptr Buf)
    (hp : bwd_writes p.buf = true) : q.buf ≠ p.buf ∨ q.off < p.off :=
  Or.inl (fun he => by rw [he, hp] at hq; exact Bool.noConfusion hq)

end Addresses

/-! ## Frames of the stages of lstm_ref -/

section Frames

variable {α : Type} [Zero α] [One α] [Add α] [Sub α] [Mul α] [Div α] [Neg α]

/-- The forward step at timestep `j` changes only the scratch buffers and the slices of
`icfogoldt`, `csgoldt` and `hgoldt` from timestep `j` on. -/
theorem fwd_step_skip (two_gemms : Bool) (lm : Libm α) (N C K j : Nat) (q : Ptr Buf)
    (h : Mem Buf α) (h1 : q.buf ≠ .icfogoldt ∨ q.off < (icfo_at N K j 0).off)
    (h2 : q.buf ≠ .csgoldt ∨ q.off < (seq_at .csgoldt j (K * N)).off)
    (h3 : q.buf ≠ .hgoldt ∨ q.off < (seq_at .hgoldt j (K * N)).off)
    (h4 : fwd_scratch q.buf = false) :
    (fwd_step two_gemms lm N C K j h).read q = h.read q := by
  unfold fwd_step fwd_hidden fwd_cell fwd_nonlin fwd_gemm fwd_bias concat_xh
  cases two_gemms <;> by_cases hj : j = 0
  all_goals simp only [if_true, if_false, Bool.false_eq_true, hj, if_pos, if_neg]
  all_goals (try subst hj)
  all_goals
    simp (disch := with_unfolding_all first
      | exact skip_icfo h1 _
      | exact h2
      | exact h3
      | exact skip_scratch h4 _ rfl) only [matrix_copy_bias_skip, gemm_skip, gemm_beta0_skip,
        convert_nk_nck_skip, matrix_sigmoid_ld_skip, matrix_tanh_ld_skip,
        matrix_eltwise_mult_ld_a_skip, matrix_eltwise_mult_ld_ab_skip, matrix_add_skip,
        matrix_tanh_skip]

/-- The bias-gradient loop writes `dbgold` only. -/
theorem bwd_db_skip (N K j : Nat) (q : Ptr Buf) (h : Mem Buf α) (hq : q.buf ≠ .dbgold) :
    (bwd_db N K j h).read q = h.read q := by
  have hne : ∀ i, (base .dbgold).idx i ≠ q := fun i => idx_ne_of_skip (Or.inl hq) i
  unfold bwd_db
  refine forLoop_read_frame K _ q (fun l _ h => ?_) h
  refine forLoop_read_frame N _ q (fun p _ h => ?_) h
  simp only [Mem.read_write_ne _ _ (hne _)]

/-- The backward step changes none of the buffers outside `bwd_writes`. -/
theorem bwd_step_skip (two_gemms : Bool) (lm : Libm α) (N C K t j : Nat) (q : Ptr Buf)
    (h : Mem Buf α) (hq : bwd_writes q.buf = false) :
    (bwd_step two_gemms lm N C K t j h).read q = h.read q := by
  unfold bwd_step
  rw [bwd_db_skip N K j q _ (fun he => by rw [he] at hq; exact Bool.noConfusion hq)]
  unfold bwd_gemm bwd_dcsp_update bwd_gates bwd_dcsp bwd_delta concat_xh
  cases two_gemms
  all_goals simp only [if_true, if_false, Bool.false_eq_true]
  all_goals split_ifs
  all_goals
    simp (disch := with_unfolding_all exact skip_bwd hq _ rfl) only [matrix_copy_skip,
      matrix_add_skip, matrix_eltwise_mult_ld_a_skip, matrix_tanh_inverse_skip,
      matrix_eltwise_mult_skip, matrix_complement_square_ld_skip,
      matrix_eltwise_mult_ld_c_skip, matrix_complement_ld_skip, matrix_tanh_skip,
      gemm_skip, gemm_beta0_skip, matrix_copy_ld_skip, convert_nk_nck_skip]

/-- The backward loop changes none of the buffers outside `bwd_writes`. -/
theorem bwd_loop_skip (two_gemms : Bool) (lm : Libm α) (N C K t : Nat) (q : Ptr Buf)
    (hq : bwd_writes q.buf = false) (n : Nat) (h : Mem Buf α) :
    (forLoopDown n (bwd_step two_gemms lm N C K t) h).read q = h.read q := by
  induction n generalizing h with
  | zero => rfl
  | succ n ih =>
    show (forLoopDown n _ (bwd_step two_gemms lm N C K t n h)).read q = _
    rw [ih, bwd_step_skip two_gemms lm N C K t n q h hq]

/-- What `lstm_ref` leaves in a buffer the backward loop does not write is what the
forward loop left there. -/
theorem lstm_ref_read_fwd (two_gemms : Bool) (lm : Libm α) (N C K t : Nat) (forget_bias : α)
    (q : Ptr Buf) (hq : bwd_writes q.buf = false) (h : Mem Buf α) :
    (lstm_ref two_gemms lm N C K t forget_bias h).read q
      = (lstm_fwd two_gemms lm N C K t forget_bias h).read q :=
  bwd_loop_skip two_gemms lm N C K t q hq t _

/-- The loop that adds the forget bias writes `bfgold_fb` only. -/
theorem lstm_forget_bias_skip (K : Nat) (forget_bias : α) (q : Ptr Buf) (h : Mem Buf α)
    (hq : q.buf ≠ .bfgold_fb) : (lstm_forget_bias K forget_bias h).read q = h.read q :=
  writeLoop_frame K (fun j => (base .bfgold_fb).idx j) _ q
    (fun i _ => idx_ne_of_skip (Or.inl hq) i) h

theorem lstm_forget_bias_value (K : Nat) (forget_bias : α) (h : Mem Buf α) (k : Nat)
    (hk : k < K) :
    (lstm_forget_bias K forget_bias h).read ((base .bfgold_fb).idx k)
      = h.read ((base .bfgold).idx k) + forget_bias := by
  refine (writeLoop_value K (fun j => (base .bfgold_fb).idx j)
    (fun j h => h.read ((base .bfgold).idx j) + forget_bias) k hk
    (fun i hi _ => idx_ne_idx (by omega)) h).trans ?_
  exact congrArg (· + forget_bias)
    (writeLoop_frame k (fun j => (base .bfgold_fb).idx j) _ _
      (fun i _ => idx_ne_of_skip (Or.inl (show ((base .bfgold).idx k).buf ≠ Buf.bfgold_fb from
        (by decide : Buf.bfgold ≠ Buf.bfgold_fb))) i) h)

/-- The placement of the gate matrices writes the fused weight buffers only. -/
theorem lstm_fuse_weights_skip (two_gemms : Bool) (C K : Nat) (q : Ptr Buf) (h : Mem Buf α)
    (hq : q.buf ≠ .w4gold ∧ q.buf ≠ .r4gold ∧ q.buf ≠ .wr8gold) :
    (lstm_fuse_weights two_gemms C K h).read q = h.read q := by
  obtain ⟨h1, h2, h3⟩ := hq
  unfold lstm_fuse_weights
  cases two_gemms
  all_goals simp only [if_true, if_false, Bool.false_eq_true]
  all_goals
    simp (disch := with_unfolding_all first
      | exact Or.inl h1
      | exact Or.inl h2
      | exact Or.inl h3) only [convert_ck_c4k_skip]

end Frames

/-! ## Values of the stages of the forward step -/

section ForwardValues

variable {α : Type} [Zero α] [One α] [Add α] [Sub α] [Mul α] [Div α] [Neg α]

theorem icfo_ne_of_buf {N K j n c : Nat} {p : Ptr Buf} (hp : p.buf ≠ .icfogoldt) (i : Nat) :
    p.idx i ≠ icfo_elem N K j n c :=
  fun he => hp (by rw [← Ptr.idx_buf p i, he]; rfl)

theorem fwd_hidden_skip (lm : Libm α) (N K j : Nat) (q : Ptr Buf) (h : Mem Buf α)
    (h1 : q.buf ≠ .t3gold)
    (h2 : q.buf ≠ .hgoldt ∨ q.off < (seq_at .hgoldt j (K * N)).off) :
    (fwd_hidden lm N K j h).read q = h.read q := by
  unfold fwd_hidden
  dsimp only
  rw [matrix_eltwise_mult_ld_a_skip _ _ _ _ _ _ _ _ h2,
    matrix_tanh_skip _ _ _ _ _ _ (Or.inl h1)]

/-- Lines 490-493: `h[e] = o[e] * tanh(cs[e])`. -/
theorem fwd_hidden_value (lm : Libm α) (N K j : Nat) (h : Mem Buf α) (e : Nat)
    (he : e < K * N) :
    (fwd_hidden lm N K j h).read ((seq_at .hgoldt j (K * N)).idx e)
      = h.read (icfo_elem N K j (e / K) (3 * K + e % K))
        * lm.tanh (h.read ((seq_at .csgoldt j (K * N)).idx e)) := by
  unfold fwd_hidden
  dsimp only
  rw [matrix_eltwise_mult_ld_a_value K N (4 * K) _ _ _ _ e he, icfo_at_idx, matrix_tanh_skip,
    matrix_tanh_value lm (K * N) _ _ _ e he]
  all_goals first
    | exact Or.inl nofun
    | (intro k _; apply idx_ne_of_skip; exact Or.inl nofun)

theorem fwd_cell_skip (N K j : Nat) (q : Ptr Buf) (h : Mem Buf α)
    (h1 : q.buf ≠ .t1gold) (h2 : q.buf ≠ .t2gold)
    (h3 : q.buf ≠ .csgoldt ∨ q.off < (seq_at .csgoldt j (K * N)).off) :
    (fwd_cell N K j h).read q = h.read q := by
  unfold fwd_cell
  dsimp only
  rw [matrix_add_skip _ _ _ _ _ _ h3, matrix_eltwise_mult_ld_ab_skip _ _ _ _ _ _ _ _ (Or.inl h2)]
  split
  · exact matrix_eltwise_mult_ld_a_skip _ _ _ _ _ _ _ _ (Or.inl h1)
  · exact matrix_eltwise_mult_ld_a_skip _ _ _ _ _ _ _ _ (Or.inl h1)

/-- Lines 480-489: `cs[e] = f[e] * cs_prev[e] + i[e] * c[e]`. -/
theorem fwd_cell_value (N K j : Nat) (h : Mem Buf α) (e : Nat) (he : e < K * N) :
    (fwd_cell N K j h).read ((seq_at .csgoldt j (K * N)).idx e)
      = h.read (icfo_elem N K j (e / K) (2 * K + e % K)) * h.read (cs_prev N K j e)
        + h.read (icfo_elem N K j (e / K) (e % K))
          * h.read (icfo_elem N K j (e / K) (K + e % K)) := by
  unfold fwd_cell
  dsimp only
  rw [matrix_add_value (K * N) _ _ _ _ e he, matrix_eltwise_mult_ld_ab_skip,
    matrix_eltwise_mult_ld_ab_value K N (4 * K) _ _ _ _ e he, icfo_at_idx, icfo_at_idx,
    Nat.zero_add]
  · by_cases hj : j = 0
    · subst hj
      simp only [if_true, cs_prev]
      rw [matrix_eltwise_mult_ld_a_value K N (4 * K) _ _ _ _ e he, icfo_at_idx,
        matrix_eltwise_mult_ld_a_skip, matrix_eltwise_mult_ld_a_skip]
      all_goals first
        | exact Or.inl nofun
        | (intro k _; apply idx_ne_of_skip; exact Or.inl nofun)
    · simp only [hj, if_false, cs_prev]
      rw [matrix_eltwise_mult_ld_a_value K N (4 * K) _ _ _ _ e he, icfo_at_idx,
        matrix_eltwise_mult_ld_a_skip, matrix_eltwise_mult_ld_a_skip]
      all_goals first
        | exact Or.inl nofun
        | (intro k _; apply idx_ne_of_skip; exact Or.inl nofun)
  all_goals first
    | exact Or.inl nofun
    | (intro k _; apply idx_ne_of_skip; exact Or.inl nofun)

/-- A tile in slot `k` does not contain an element of another slot `g`. -/
theorem slot_tile_ne {N K j k g n x : Nat} (hk : k < 4) (hg : g < 4) (hx : x < K)
    (hne : g ≠ k) (row col : Nat) (hcol : col < K) :
    (icfo_at N K j (k * K)).idx (row * (4 * K) + col) ≠ icfo_elem N K j n (g * K + x) := by
  intro he
  rw [icfo_at_idx] at he
  obtain ⟨_, h2⟩ := icfo_elem_inj (slot_lt hk hcol) (slot_lt hg hx) he
  exact hne (two_d_inj hcol hx h2).1.symm

theorem sigmoid_slot (lm : Libm α) (N K j k g n x : Nat) (hk : k < 4) (hg : g < 4)
    (hn : n < N) (hx : x < K) (h : Mem Buf α) :
    (matrix_sigmoid_ld lm K N (4 * K) (icfo_at N K j (k * K)) (icfo_at N K j (k * K)) h).read
        (icfo_elem N K j n (g * K + x))
      = if g = k then sigmoid_value lm (h.read (icfo_elem N K j n (g * K + x)))
        else h.read (icfo_elem N K j n (g * K + x)) := by
  split
  · next he =>
    subst he
    rw [← icfo_at_idx]
    exact matrix_sigmoid_ld_value lm K N (4 * K) _ h (by omega) n x hn hx
  · next hne =>
    exact matrix_sigmoid_ld_frame lm K N (4 * K) _ _ _ h
      (fun row col _ hcol => slot_tile_ne hk hg hx hne row col hcol)

theorem tanh_slot (lm : Libm α) (N K j k g n x : Nat) (hk : k < 4) (hg : g < 4)
    (hn : n < N) (hx : x < K) (h : Mem Buf α) :
    (matrix_tanh_ld lm K N (4 * K) (icfo_at N K j (k * K)) (icfo_at N K j (k * K)) h).read
        (icfo_elem N K j n (g * K + x))
      = if g = k then lm.tanh (h.read (icfo_elem N K j n (g * K + x)))
        else h.read (icfo_elem N K j n (g * K + x)) := by
  split
  · next he =>
    subst he
    rw [← icfo_at_idx]
    exact matrix_tanh_ld_value lm K N (4 * K) _ h (by omega) n x hn hx
  · next hne =>
    exact matrix_tanh_ld_frame lm K N (4 * K) _ _ _ h
      (fun row col _ hcol => slot_tile_ne hk hg hx hne row col hcol)

theorem copy_bias_slot (N K j k g n x : Nat) (src : Ptr Buf) (hs : src.buf ≠ .icfogoldt)
    (hk : k < 4) (hg : g < 4) (hn : n < N) (hx : x < K) (h : Mem Buf α) :
    (matrix_copy_bias K N (4 * K) src (icfo_at N K j (k * K)) h).read
        (icfo_elem N K j n (g * K + x))
      = if g = k then h.read (src.idx x) else h.read (icfo_elem N K j n (g * K + x)) := by
  split
  · next he =>
    subst he
    rw [← icfo_at_idx]
    exact matrix_copy_bias_value K N (4 * K) src _ h (by omega) n x hn hx
      (fun r c _ _ => idx_ne_of_skip (Or.inl hs) _)
  · next hne =>
    exact matrix_copy_bias_frame K N (4 * K) _ _ _ h
      (fun row col _ hcol => slot_tile_ne hk hg hx hne row col hcol)

theorem icfo_at_slots (N K j : Nat) :
    icfo_at N K j 0 = icfo_at N K j (0 * K) ∧ icfo_at N K j K = icfo_at N K j (1 * K) := by
  simp

theorem fwd_nonlin_skip (lm : Libm α) (N K j : Nat) (q : Ptr Buf) (h : Mem Buf α)
    (h1 : q.buf ≠ .icfogoldt ∨ q.off < (icfo_at N K j 0).off) :
    (fwd_nonlin lm N K j h).read q = h.read q := by
  unfold fwd_nonlin
  dsimp only
  rw [matrix_sigmoid_ld_skip _ _ _ _ _ _ _ _ (skip_icfo h1 _),
    matrix_sigmoid_ld_skip _ _ _ _ _ _ _ _ (skip_icfo h1 _),
    matrix_tanh_ld_skip _ _ _ _ _ _ _ _ (skip_icfo h1 _),
    matrix_sigmoid_ld_skip _ _ _ _ _ _ _ _ (skip_icfo h1 _)]

/-- Lines 475-479: slot 1 gets `tanh` and slots 0, 2, 3 get the sigmoid of what they held. -/
theorem fwd_nonlin_value (lm : Libm α) (N K j g n x : Nat) (hg : g < 4) (hn : n < N)
    (hx : x < K) (h : Mem Buf α) :
    (fwd_nonlin lm N K j h).read (icfo_elem N K j n (g * K + x))
      = if g = 1 then lm.tanh (h.read (icfo_elem N K j n (g * K + x)))
        else sigmoid_value lm (h.read (icfo_elem N K j n (g * K + x))) := by
  unfold fwd_nonlin
  dsimp only
  rw [(icfo_at_slots N K j).1, (icfo_at_slots N K j).2,
    sigmoid_slot lm N K j 3 g n x (by omega) hg hn hx,
    sigmoid_slot lm N K j 2 g n x (by omega) hg hn hx,
    tanh_slot lm N K j 1 g n x (by omega) hg hn hx,
    sigmoid_slot lm N K j 0 g n x (by omega) hg hn hx]
  interval_cases g <;> simp

theorem fwd_bias_skip (N K j : Nat) (q : Ptr Buf) (h : Mem Buf α)
    (h1 : q.buf ≠ .icfogoldt ∨ q.off < (icfo_at N K j 0).off) :
    (fwd_bias N K j h).read q = h.read q := by
  unfold fwd_bias
  dsimp only
  rw [matrix_copy_bias_skip _ _ _ _ _ _ _ (skip_icfo h1 _),
    matrix_copy_bias_skip _ _ _ _ _ _ _ (skip_icfo h1 _),
    matrix_copy_bias_skip _ _ _ _ _ _ _ (skip_icfo h1 _),
    matrix_copy_bias_skip _ _ _ _ _ _ _ (skip_icfo h1 _)]

/-- Lines 450-454: slot `g` of every batch row gets the bias vector of gate `g`, the
forget gate from `bfgold_fb`. -/
theorem fwd_bias_value (N K j g n x : Nat) (hg : g < 4) (hn : n < N) (hx : x < K)
    (h : Mem Buf α) :
    (fwd_bias N K j h).read (icfo_elem N K j n (g * K + x))
      = h.read ((base (gate_b_fb g)).idx x) := by
  have hsk : ∀ (b : Buf) (s : Nat) (src : Ptr Buf) (m : Mem Buf α), b ≠ .icfogoldt →
      (matrix_copy_bias K N (4 * K) src (icfo_at N K j s) m).read ((base b).idx x)
        = m.read ((base b).idx x) :=
    fun b s src m hb => matrix_copy_bias_skip _ _ _ _ _ _ _ (Or.inl hb)
  unfold fwd_bias
  dsimp only
  rw [(icfo_at_slots N K j).1, (icfo_at_slots N K j).2,
    copy_bias_slot N K j 3 g n x (base .bogold) nofun (by omega) hg hn hx,
    copy_bias_slot N K j 2 g n x (base .bfgold_fb) nofun (by omega) hg hn hx,
    copy_bias_slot N K j 1 g n x (base .bcgold) nofun (by omega) hg hn hx,
    copy_bias_slot N K j 0 g n x (base .bigold) nofun (by omega) hg hn hx]
  interval_cases g <;> simp [gate_b_fb, hsk]

theorem sumTo_congr {β : Type} [Zero β] [Add β] (n : Nat) (f g : Nat → β)
    (hfg : ∀ l, l < n → f l = g l) : sumTo n f = sumTo n g := by
  induction n with
  | zero => rfl
  | succ n ih =>
    show sumTo n f + f n = sumTo n g + g n
    rw [ih (fun l hl => hfg l (Nat.lt_succ_of_lt hl)), hfg n (Nat.lt_succ_self n)]

theorem concat_xh_eq (N C K j : Nat) (h : Mem Buf α) :
    concat_xh N C K j h
      = concat_rows N C K (seq_at .xgoldt j (N * C))
          (if j = 0 then base .hpgold else seq_at .hgoldt (j - 1) (K * N)) (base .xhgold) h := by
  unfold concat_xh concat_rows
  split <;> rfl

theorem h_prev_eq (N K j e : Nat) :
    h_prev N K j e = (if j = 0 then base .hpgold else seq_at .hgoldt (j - 1) (K * N)).idx e := by
  unfold h_prev
  split <;> rfl

theorem concat_xh_skip (N C K j : Nat) (q : Ptr Buf) (h : Mem Buf α) (hq : q.buf ≠ .xhgold) :
    (concat_xh N C K j h).read q = h.read q := by
  rw [concat_xh_eq]
  exact concat_rows_skip _ _ _ _ _ _ _ _ (Or.inl hq)

/-- The concatenated row `n`: the input of timestep `j` followed by the previous hidden
state. -/
theorem concat_xh_value (N C K j : Nat) (h : Mem Buf α) (n l : Nat) (hn : n < N)
    (hl : l < C + K) :
    (concat_xh N C K j h).read ((base .xhgold).idx (l + n * (C + K)))
      = if l < C then h.read ((seq_at .xgoldt j (N * C)).idx (l + n * C))
        else h.read (h_prev N K j (l - C + n * K)) := by
  rw [concat_xh_eq, h_prev_eq, Nat.add_comm l, Nat.add_comm l, Nat.add_comm (l - C)]
  by_cases hlt : l < C
  · rw [if_pos hlt]
    exact concat_rows_left N C K (seq_at .xgoldt j (N * C)) _ (base .xhgold) h nofun n l hn hlt
  · rw [if_neg hlt]
    have hb : (if j = 0 then base Buf.hpgold else seq_at Buf.hgoldt (j - 1) (K * N)).buf
        ≠ (base Buf.xhgold).buf := by
      split <;> nofun
    have key := concat_rows_right N C K (seq_at .xgoldt j (N * C)) _ (base .xhgold) h nofun hb
      n (l - C) hn (by omega)
    rw [show C + (l - C) = l by omega] at key
    exact key

theorem fwd_gemm_skip (two_gemms : Bool) (N C K j : Nat) (q : Ptr Buf) (h : Mem Buf α)
    (h1 : q.buf ≠ .icfogoldt ∨ q.off < (icfo_at N K j 0).off) (h2 : q.buf ≠ .xhgold) :
    (fwd_gemm two_gemms N C K j h).read q = h.read q := by
  unfold fwd_gemm
  cases two_gemms
  · simp only [if_false, Bool.false_eq_true]
    rw [gemm_skip _ _ _ _ _ _ _ _ _ _ _ _ _ _ _ h1, concat_xh_skip _ _ _ _ _ _ h2]
  · simp only [if_true]
    split
    · next hj =>
      subst hj
      rw [gemm_skip _ _ _ _ _ _ _ _ _ _ _ _ _ _ _ h1, gemm_skip _ _ _ _ _ _ _ _ _ _ _ _ _ _ _ h1]
    · rw [gemm_skip _ _ _ _ _ _ _ _ _ _ _ _ _ _ _ h1, gemm_skip _ _ _ _ _ _ _ _ _ _ _ _ _ _ _ h1]

/-- Lines 465-473, the single multiply over the concatenated input. -/
theorem fwd_gemm_single_value (N C K j : Nat) (h : Mem Buf α) (n c : Nat) (hn : n < N)
    (hc : c < 4 * K) :
    (fwd_gemm false N C K j h).read (icfo_elem N K j n c)
      = 1 * sumTo (C + K) (fun l =>
          h.read ((base .wr8gold).idx (c + l * (K * 4)))
          * (if l < C then h.read ((seq_at .xgoldt j (N * C)).idx (l + n * C))
             else h.read (h_prev N K j (l - C + n * K))))
        + 1 * h.read (icfo_elem N K j n c) := by
  unfold fwd_gemm
  simp only [if_false, Bool.false_eq_true]
  rw [← icfo_at_gemm, gemm_value false false (K * 4) N (C + K) 1 _ _ _ _ 1 _ _ _
    (Nat.le_refl _) c n (by omega) hn]
  simp (disch := with_unfolding_all exact fun he => Buf.noConfusion he) only [concat_xh_skip]
  congr 2
  apply sumTo_congr
  intro l hl
  simp only [if_false, Bool.false_eq_true]
  rw [concat_xh_value N C K j h n l hn hl]

/-- Lines 456-463, the two multiplies of the `TWO_GEMMS` build. -/
theorem fwd_gemm_two_value (N C K j : Nat) (h : Mem Buf α) (n c : Nat) (hn : n < N)
    (hc : c < 4 * K) :
    (fwd_gemm true N C K j h).read (icfo_elem N K j n c)
      = 1 * sumTo K (fun l =>
          h.read ((base .r4gold).idx (c + l * (K * 4))) * h.read (h_prev N K j (l + n * K)))
        + 1 * (1 * sumTo C (fun l =>
            h.read ((base .w4gold).idx (c + l * (K * 4)))
            * h.read ((seq_at .xgoldt j (N * C)).idx (l + n * C)))
          + 1 * h.read (icfo_elem N K j n c)) := by
  have hsk : ∀ (q : Ptr Buf), q.buf ≠ .icfogoldt →
      (gemm false false (K * 4) N C 1 (base .w4gold) (K * 4) (seq_at .xgoldt j (N * C)) C 1
        (icfo_at N K j 0) (K * 4) h).read q = h.read q :=
    fun q hq => gemm_skip _ _ _ _ _ _ _ _ _ _ _ _ _ _ _ (Or.inl hq)
  unfold fwd_gemm
  simp only [if_true]
  by_cases hj : j = 0
  · subst hj
    simp only [if_true]
    rw [← icfo_at_gemm, gemm_value false false (K * 4) N K 1 _ _ _ _ 1 _ _ _
      (Nat.le_refl _) c n (by omega) hn,
      gemm_value false false (K * 4) N C 1 _ _ _ _ 1 _ _ _ (Nat.le_refl _) c n (by omega) hn]
    congr 2
    apply sumTo_congr
    intro l hl
    simp only [if_false, Bool.false_eq_true, h_prev, if_true]
    simp (disch := with_unfolding_all exact fun he => Buf.noConfusion he) only [hsk]
  · simp only [hj, if_false]
    rw [← icfo_at_gemm, gemm_value false false (K * 4) N K 1 _ _ _ _ 1 _ _ _
      (Nat.le_refl _) c n (by omega) hn,
      gemm_value false false (K * 4) N C 1 _ _ _ _ 1 _ _ _ (Nat.le_refl _) c n (by omega) hn]
    congr 2
    apply sumTo_congr
    intro l hl
    simp only [if_false, Bool.false_eq_true, h_prev, hj]
    simp (disch := with_unfolding_all exact fun he => Buf.noConfusion he) only [hsk]

end ForwardValues

/-! ## The forward loop as a whole -/

section ForwardLoop

variable {α : Type} [Zero α] [One α] [Add α] [Sub α] [Mul α] [Div α] [Neg α]

theorem settled_mono {N K j k : Nat} {q : Ptr Buf} (hjk : j ≤ k) (hs : Settled N K j q) :
    Settled N K k q := by
  obtain ⟨h1, h2, h3, h4⟩ := hs
  have e1 : j * N * (4 * K) ≤ k * N * (4 * K) :=
    Nat.mul_le_mul_right _ (Nat.mul_le_mul_right _ hjk)
  have e2 : j * (K * N) ≤ k * (K * N) := Nat.mul_le_mul_right _ hjk
  refine ⟨?_, ?_, ?_, h4⟩
  · rcases h1 with h1 | h1
    · exact Or.inl h1
    · right
      rw [icfo_at_off, Nat.add_zero] at h1 ⊢
      omega
  · rcases h2 with h2 | h2
    · exact Or.inl h2
    · right
      rw [seq_at_off0] at h2 ⊢
      omega
  · rcases h3 with h3 | h3
    · exact Or.inl h3
    · right
      rw [seq_at_off0] at h3 ⊢
      omega

theorem settled_icfo {N K j j' n c : Nat} (hj : j' < j) (hn : n < N) (hc : c < 4 * K) :
    Settled N K j (icfo_elem N K j' n c) :=
  ⟨Or.inr (icfo_elem_below hj hn hc), Or.inl nofun, Or.inl nofun, rfl⟩

theorem settled_cs {N K j j' e : Nat} (hj : j' < j) (he : e < K * N) :
    Settled N K j ((seq_at .csgoldt j' (K * N)).idx e) :=
  ⟨Or.inl nofun, Or.inr (seq_below hj he), Or.inl nofun, rfl⟩

theorem settled_h {N K j j' e : Nat} (hj : j' < j) (he : e < K * N) :
    Settled N K j ((seq_at .hgoldt j' (K * N)).idx e) :=
  ⟨Or.inl nofun, Or.inl nofun, Or.inr (seq_below hj he), rfl⟩

/-- A location in a buffer the forward loop never writes. -/
theorem settled_other {N K j : Nat} {q : Ptr Buf} (h1 : q.buf ≠ .icfogoldt)
    (h2 : q.buf ≠ .csgoldt) (h3 : q.buf ≠ .hgoldt) (h4 : fwd_scratch q.buf = false) :
    Settled N K j q :=
  ⟨Or.inl h1, Or.inl h2, Or.inl h3, h4⟩

theorem settled_cs_prev {N K j e : Nat} (he : e < K * N) : Settled N K j (cs_prev N K j e) := by
  unfold cs_prev
  split
  · exact settled_other nofun nofun nofun rfl
  · exact settled_cs (by omega) he

theorem settled_h_prev {N K j e : Nat} (he : e < K * N) : Settled N K j (h_prev N K j e) := by
  unfold h_prev
  split
  · exact settled_other nofun nofun nofun rfl
  · exact settled_h (by omega) he

theorem fwd_step_settled (two_gemms : Bool) (lm : Libm α) (N C K j : Nat) (q : Ptr Buf)
    (h : Mem Buf α) (hs : Settled N K j q) :
    (fwd_step two_gemms lm N C K j h).read q = h.read q :=
  fwd_step_skip two_gemms lm N C K j q h hs.1 hs.2.1 hs.2.2.1 hs.2.2.2

/-- The iterations from `j` on leave a location settled at `j` as it is. -/
theorem fwd_loop_settled (two_gemms : Bool) (lm : Libm α) (N C K j T : Nat) (q : Ptr Buf)
    (hjT : j ≤ T) (hs : Settled N K j q) (h : Mem Buf α) :
    (forLoop T (fwd_step two_gemms lm N C K) h).read q
      = (forLoop j (fwd_step two_gemms lm N C K) h).read q := by
  induction T with
  | zero =>
    have : j = 0 := by omega
    subst this
    rfl
  | succ T ih =>
    rcases Nat.lt_or_ge j (T + 1) with hlt | hge
    · show (fwd_step two_gemms lm N C K T _).read q = _
      rw [fwd_step_settled two_gemms lm N C K T q _ (settled_mono (by omega) hs),
        ih (by omega)]
    · have : j = T + 1 := by omega
      subst this
      rfl

theorem lstm_fwd_succ (two_gemms : Bool) (lm : Libm α) (N C K j : Nat) (forget_bias : α)
    (h : Mem Buf α) :
    lstm_fwd two_gemms lm N C K (j + 1) forget_bias h
      = fwd_step two_gemms lm N C K j (lstm_fwd two_gemms lm N C K j forget_bias h) := rfl

theorem lstm_fwd_settled (two_gemms : Bool) (lm : Libm α) (N C K j T : Nat) (forget_bias : α)
    (q : Ptr Buf) (hjT : j ≤ T) (hs : Settled N K j q) (h : Mem Buf α) :
    (lstm_fwd two_gemms lm N C K T forget_bias h).read q
      = (lstm_fwd two_gemms lm N C K j forget_bias h).read q :=
  fwd_loop_settled two_gemms lm N C K j T q hjT hs _

/-- What `lstm_ref` returns at a location that is settled at timestep `j` of the forward
loop and that the backward loop does not write. -/
theorem lstm_ref_settled (two_gemms : Bool) (lm : Libm α) (N C K j T : Nat) (forget_bias : α)
    (q : Ptr Buf) (hjT : j ≤ T) (hs : Settled N K j q) (hb : bwd_writes q.buf = false)
    (h : Mem Buf α) :
    (lstm_ref two_gemms lm N C K T forget_bias h).read q
      = (lstm_fwd two_gemms lm N C K j forget_bias h).read q := by
  rw [lstm_ref_read_fwd two_gemms lm N C K T forget_bias q hb h,
    lstm_fwd_settled two_gemms lm N C K j T forget_bias q hjT hs h]

/-- The forward pass leaves the caller's input buffers as they are. -/
theorem lstm_fwd_input (two_gemms : Bool) (lm : Libm α) (N C K j : Nat) (forget_bias : α)
    (q : Ptr Buf) (h : Mem Buf α) (h1 : q.buf ≠ .icfogoldt) (h2 : q.buf ≠ .csgoldt)
    (h3 : q.buf ≠ .hgoldt) (h4 : fwd_scratch q.buf = false) (h5 : q.buf ≠ .bfgold_fb)
    (h6 : q.buf ≠ .w4gold ∧ q.buf ≠ .r4gold ∧ q.buf ≠ .wr8gold) :
    (lstm_fwd two_gemms lm N C K j forget_bias h).read q = h.read q := by
  rw [lstm_fwd_settled two_gemms lm N C K 0 j forget_bias q (Nat.zero_le j)
    (settled_other h1 h2 h3 h4) h]
  show (lstm_fuse_weights two_gemms C K (lstm_forget_bias K forget_bias h)).read q = _
  rw [lstm_fuse_weights_skip two_gemms C K q _ h6, lstm_forget_bias_skip K forget_bias q h h5]

/-- The scratch copy of the forget-gate bias holds `bfgold[k] + forget_bias` throughout
the forward pass. -/
theorem lstm_fwd_bias_fb (two_gemms : Bool) (lm : Libm α) (N C K j : Nat) (forget_bias : α)
    (h : Mem Buf α) (k : Nat) (hk : k < K) :
    (lstm_fwd two_gemms lm N C K j forget_bias h).read ((base .bfgold_fb).idx k)
      = h.read ((base .bfgold).idx k) + forget_bias := by
  rw [lstm_fwd_settled two_gemms lm N C K 0 j forget_bias ((base .bfgold_fb).idx k)
    (Nat.zero_le j) (settled_other nofun nofun nofun rfl) h]
  show (lstm_fuse_weights two_gemms C K (lstm_forget_bias K forget_bias h)).read _ = _
  rw [lstm_fuse_weights_skip two_gemms C K ((base .bfgold_fb).idx k) _ ⟨nofun, nofun, nofun⟩,
    lstm_forget_bias_value K forget_bias h k hk]

theorem ne_xh_of_scratch {b : Buf} (hb : fwd_scratch b = false) : b ≠ .xhgold :=
  fun he => by rw [he] at hb; exact Bool.noConfusion hb

/-- The first three stages of the forward step leave settled locations alone. -/
theorem fwd_pre_settled (two_gemms : Bool) (lm : Libm α) (N C K j : Nat) (q : Ptr Buf)
    (h : Mem Buf α) (hs : Settled N K j q) :
    (fwd_nonlin lm N K j (fwd_gemm two_gemms N C K j (fwd_bias N K j h))).read q = h.read q := by
  rw [fwd_nonlin_skip lm N K j q _ hs.1,
    fwd_gemm_skip two_gemms N C K j q _ hs.1 (ne_xh_of_scratch hs.2.2.2),
    fwd_bias_skip N K j q h hs.1]

/-- The gate activations of timestep `j` are final once the nonlinearity is applied. -/
theorem fwd_step_icfo_post (two_gemms : Bool) (lm : Libm α) (N C K j n c : Nat)
    (h : Mem Buf α) :
    (fwd_step two_gemms lm N C K j h).read (icfo_elem N K j n c)
      = (fwd_nonlin lm N K j (fwd_gemm two_gemms N C K j (fwd_bias N K j h))).read
          (icfo_elem N K j n c) := by
  unfold fwd_step
  dsimp only
  rw [fwd_hidden_skip lm N K j (icfo_elem N K j n c) _ nofun (Or.inl nofun),
    fwd_cell_skip N K j (icfo_elem N K j n c) _ nofun nofun (Or.inl nofun)]

/-- Activation of timestep `j`: slot 1 is `tanh`, slots 0, 2, 3 the sigmoid of the value
held just before the nonlinearity. -/
theorem fwd_step_icfo (two_gemms : Bool) (lm : Libm α) (N C K j g n x : Nat) (hg : g < 4)
    (hn : n < N) (hx : x < K) (h : Mem Buf α) :
    (fwd_step two_gemms lm N C K j h).read (icfo_elem N K j n (g * K + x))
      = if g = 1 then
          lm.tanh ((fwd_gemm two_gemms N C K j (fwd_bias N K j h)).read
            (icfo_elem N K j n (g * K + x)))
        else
          sigmoid_value lm ((fwd_gemm two_gemms N C K j (fwd_bias N K j h)).read
            (icfo_elem N K j n (g * K + x))) := by
  rw [fwd_step_icfo_post, fwd_nonlin_value lm N K j g n x hg hn hx]

/-- Cell state of timestep `j` in terms of the activations of that timestep. -/
theorem fwd_step_cell (two_gemms : Bool) (lm : Libm α) (N C K j : Nat) (h : Mem Buf α)
    (e : Nat) (he : e < K * N) :
    (fwd_step two_gemms lm N C K j h).read ((seq_at .csgoldt j (K * N)).idx e)
      = (fwd_step two_gemms lm N C K j h).read (icfo_elem N K j (e / K) (2 * K + e % K))
          * h.read (cs_prev N K j e)
        + (fwd_step two_gemms lm N C K j h).read (icfo_elem N K j (e / K) (e % K))
          * (fwd_step two_gemms lm N C K j h).read (icfo_elem N K j (e / K) (K + e % K)) := by
  rw [fwd_step_icfo_post, fwd_step_icfo_post, fwd_step_icfo_post]
  unfold fwd_step
  dsimp only
  rw [fwd_hidden_skip lm N K j ((seq_at .csgoldt j (K * N)).idx e) _ nofun (Or.inl nofun),
    fwd_cell_value N K j _ e he,
    fwd_pre_settled two_gemms lm N C K j (cs_prev N K j e) h (settled_cs_prev he)]

/-- Hidden state of timestep `j`. -/
theorem fwd_step_hidden (two_gemms : Bool) (lm : Libm α) (N C K j : Nat) (h : Mem Buf α)
    (e : Nat) (he : e < K * N) :
    (fwd_step two_gemms lm N C K j h).read ((seq_at .hgoldt j (K * N)).idx e)
      = (fwd_step two_gemms lm N C K j h).read (icfo_elem N K j (e / K) (3 * K + e % K))
        * lm.tanh ((fwd_step two_gemms lm N C K j h).read ((seq_at .csgoldt j (K * N)).idx e)) := by
  rw [fwd_step_icfo_post]
  unfold fwd_step
  dsimp only
  rw [fwd_hidden_value lm N K j _ e he,
    fwd_hidden_skip lm N K j ((seq_at .csgoldt j (K * N)).idx e) _ nofun (Or.inl nofun),
    fwd_cell_skip N K j (icfo_elem N K j (e / K) (3 * K + e % K)) _ nofun nofun (Or.inl nofun)]

/-- What `lstm_ref` returns in the slices of timestep `j < T` is what the forward step of
timestep `j` left there. -/
theorem lstm_ref_step (two_gemms : Bool) (lm : Libm α) (N C K j T : Nat) (forget_bias : α)
    (q : Ptr Buf) (hjT : j < T) (hs : Settled N K (j + 1) q) (hb : bwd_writes q.buf = false)
    (h : Mem Buf α) :
    (lstm_ref two_gemms lm N C K T forget_bias h).read q
      = (fwd_step two_gemms lm N C K j
          (lstm_fwd two_gemms lm N C K j forget_bias h)).read q :=
  lstm_ref_settled two_gemms lm N C K (j + 1) T forget_bias q hjT hs hb h

theorem div_mod_lt {N K e : Nat} (he : e < K * N) : e / K < N ∧ e % K < K :=
  ⟨div_lt_of_lt_mul he, mod_lt_of_lt_mul he⟩

end ForwardLoop

/-! ## The fused weights after the setup -/

section Weights

variable {α : Type} [Zero α] [One α] [Add α] [Sub α] [Mul α] [Div α] [Neg α]

theorem Ptr.idx_zero {β : Type} (p : Ptr β) : p.idx 0 = p := rfl

theorem gate_w_ne (g : Nat) :
    gate_w g ≠ .w4gold ∧ gate_w g ≠ .r4gold ∧ gate_w g ≠ .wr8gold := by
  unfold gate_w
  split <;> exact ⟨nofun, nofun, nofun⟩

theorem gate_r_ne (g : Nat) :
    gate_r g ≠ .w4gold ∧ gate_r g ≠ .r4gold ∧ gate_r g ≠ .wr8gold := by
  unfold gate_r
  split <;> exact ⟨nofun, nofun, nofun⟩

theorem fuse_weights_single_eq (C K : Nat) (h : Mem Buf α) :
    lstm_fuse_weights false C K h
      = fuse_gates K K (fun g => base (gate_r g)) ((base .wr8gold).idx (C * K * 4))
          (fuse_gates C K (fun g => base (gate_w g)) (base .wr8gold) h) := by
  unfold lstm_fuse_weights fuse_gates
  simp only [forLoop, if_false, Bool.false_eq_true, gate_w, gate_r, Ptr.idx_idx, Nat.zero_mul,
    Nat.one_mul, Nat.add_zero, Ptr.idx_zero]

theorem fuse_weights_two_eq (C K : Nat) (h : Mem Buf α) :
    lstm_fuse_weights true C K h
      = fuse_gates K K (fun g => base (gate_r g)) (base .r4gold)
          (fuse_gates C K (fun g => base (gate_w g)) (base .w4gold) h) := by
  unfold lstm_fuse_weights fuse_gates
  simp only [forLoop, if_true, gate_w, gate_r, Ptr.idx_idx, Nat.zero_mul,
    Nat.one_mul, Nat.add_zero, Ptr.idx_zero]

/-- Single-multiply build: row `l < C` of the fused buffer holds row `l` of the `W_g`. -/
theorem fuse_weights_single_w (C K : Nat) (h : Mem Buf α) (g x l : Nat) (hg : g < 4)
    (hx : x < K) (hl : l < C) :
    (lstm_fuse_weights false C K h).read ((base .wr8gold).idx (g * K + x + l * (K * 4)))
      = h.read ((base (gate_w g)).idx (l * K + x)) := by
  rw [fuse_weights_single_eq, fuse_gates_skip, Nat.add_comm, Nat.mul_comm K 4]
  · exact fuse_gates_value C K (fun g => base (gate_w g)) (base .wr8gold) h
      (fun g _ => (gate_w_ne g).2.2) g l x hg hl hx
  · right
    show 0 + (g * K + x + l * (K * 4)) < 0 + C * K * 4
    have h1 := slot_lt hg hx
    have h2 : (l + 1) * (K * 4) ≤ C * (K * 4) := Nat.mul_le_mul_right _ hl
    rw [Nat.add_mul, ← Nat.mul_assoc C] at h2
    omega

/-- Single-multiply build: row `C + l`, `l < K`, of the fused buffer holds row `l` of
the `R_g`. -/
theorem fuse_weights_single_r (C K : Nat) (h : Mem Buf α) (g x l : Nat) (hg : g < 4)
    (hx : x < K) (hl : l < K) :
    (lstm_fuse_weights false C K h).read ((base .wr8gold).idx (g * K + x + (C + l) * (K * 4)))
      = h.read ((base (gate_r g)).idx (l * K + x)) := by
  have e : (base Buf.wr8gold).idx (g * K + x + (C + l) * (K * 4))
      = ((base Buf.wr8gold).idx (C * K * 4)).idx (l * (4 * K) + (g * K + x)) := by
    rw [Ptr.idx_idx]
    congr 1
    ring
  rw [fuse_weights_single_eq, e,
    fuse_gates_value K K (fun g => base (gate_r g)) ((base .wr8gold).idx (C * K * 4)) _
      (fun g _ => (gate_r_ne g).2.2) g l x hg hl hx]
  exact fuse_gates_skip C K _ (base .wr8gold) ((base (gate_r g)).idx (l * K + x)) h
    (Or.inl (gate_r_ne g).2.2)

/-- `TWO_GEMMS` build: the fused buffer `w4gold` holds the `W_g`. -/
theorem fuse_weights_two_w (C K : Nat) (h : Mem Buf α) (g x l : Nat) (hg : g < 4)
    (hx : x < K) (hl : l < C) :
    (lstm_fuse_weights true C K h).read ((base .w4gold).idx (g * K + x + l * (K * 4)))
      = h.read ((base (gate_w g)).idx (l * K + x)) := by
  rw [fuse_weights_two_eq, fuse_gates_skip K K _ (base .r4gold)
    ((base .w4gold).idx (g * K + x + l * (K * 4))) _ (Or.inl nofun), Nat.add_comm,
    Nat.mul_comm K 4]
  exact fuse_gates_value C K (fun g => base (gate_w g)) (base .w4gold) h
    (fun g _ => (gate_w_ne g).1) g l x hg hl hx

/-- `TWO_GEMMS` build: the fused buffer `r4gold` holds the `R_g`. -/
theorem fuse_weights_two_r (C K : Nat) (h : Mem Buf α) (g x l : Nat) (hg : g < 4)
    (hx : x < K) (hl : l < K) :
    (lstm_fuse_weights true C K h).read ((base .r4gold).idx (g * K + x + l * (K * 4)))
      = h.read ((base (gate_r g)).idx (l * K + x)) := by
  rw [fuse_weights_two_eq, Nat.add_comm, Nat.mul_comm K 4,
    fuse_gates_value K K (fun g => base (gate_r g)) (base .r4gold) _
      (fun g _ => (gate_r_ne g).2.1) g l x hg hl hx]
  exact fuse_gates_skip C K _ (base .w4gold) ((base (gate_r g)).idx (l * K + x)) h
    (Or.inl (gate_r_ne g).1)

theorem h_prev_buf_ne (N K j e : Nat) : (h_prev N K j e).buf ≠ .icfogoldt := by
  unfold h_prev
  split <;> nofun

/-- The fused weights stay as the setup left them: rows of `W_g`, single-multiply build. -/
theorem lstm_fwd_wr8_w (lm : Libm α) (N C K j : Nat) (forget_bias : α) (h : Mem Buf α)
    (g x l : Nat) (hg : g < 4) (hx : x < K) (hl : l < C) :
    (lstm_fwd false lm N C K j forget_bias h).read
        ((base .wr8gold).idx (g * K + x + l * (K * 4)))
      = h.read ((base (gate_w g)).idx (l * K + x)) := by
  rw [lstm_fwd_settled false lm N C K 0 j forget_bias
    ((base .wr8gold).idx (g * K + x + l * (K * 4))) (Nat.zero_le j)
    (settled_other nofun nofun nofun rfl) h]
  show (lstm_fuse_weights false C K (lstm_forget_bias K forget_bias h)).read _ = _
  rw [fuse_weights_single_w C K _ g x l hg hx hl]
  exact lstm_forget_bias_skip K forget_bias ((base (gate_w g)).idx (l * K + x)) h
    (by unfold gate_w; split <;> nofun)

theorem lstm_fwd_wr8_r (lm : Libm α) (N C K j : Nat) (forget_bias : α) (h : Mem Buf α)
    (g x l : Nat) (hg : g < 4) (hx : x < K) (hl : l < K) :
    (lstm_fwd false lm N C K j forget_bias h).read
        ((base .wr8gold).idx (g * K + x + (C + l) * (K * 4)))
      = h.read ((base (gate_r g)).idx (l * K + x)) := by
  rw [lstm_fwd_settled false lm N C K 0 j forget_bias
    ((base .wr8gold).idx (g * K + x + (C + l) * (K * 4))) (Nat.zero_le j)
    (settled_other nofun nofun nofun rfl) h]
  show (lstm_fuse_weights false C K (lstm_forget_bias K forget_bias h)).read _ = _
  rw [fuse_weights_single_r C K _ g x l hg hx hl]
  exact lstm_forget_bias_skip K forget_bias ((base (gate_r g)).idx (l * K + x)) h
    (by unfold gate_r; split <;> nofun)

theorem lstm_fwd_w4 (lm : Libm α) (N C K j : Nat) (forget_bias : α) (h : Mem Buf α)
    (g x l : Nat) (hg : g < 4) (hx : x < K) (hl : l < C) :
    (lstm_fwd true lm N C K j forget_bias h).read
        ((base .w4gold).idx (g * K + x + l * (K * 4)))
      = h.read ((base (gate_w g)).idx (l * K + x)) := by
  rw [lstm_fwd_settled true lm N C K 0 j forget_bias
    ((base .w4gold).idx (g * K + x + l * (K * 4))) (Nat.zero_le j)
    (settled_other nofun nofun nofun rfl) h]
  show (lstm_fuse_weights true C K (lstm_forget_bias K forget_bias h)).read _ = _
  rw [fuse_weights_two_w C K _ g x l hg hx hl]
  exact lstm_forget_bias_skip K forget_bias ((base (gate_w g)).idx (l * K + x)) h
    (by unfold gate_w; split <;> nofun)

theorem lstm_fwd_r4 (lm : Libm α) (N C K j : Nat) (forget_bias : α) (h : Mem Buf α)
    (g x l : Nat) (hg : g < 4) (hx : x < K) (hl : l < K) :
    (lstm_fwd true lm N C K j forget_bias h).read
        ((base .r4gold).idx (g * K + x + l * (K * 4)))
      = h.read ((base (gate_r g)).idx (l * K + x)) := by
  rw [lstm_fwd_settled true lm N C K 0 j forget_bias
    ((base .r4gold).idx (g * K + x + l * (K * 4))) (Nat.zero_le j)
    (settled_other nofun nofun nofun rfl) h]
  show (lstm_fuse_weights true C K (lstm_forget_bias K forget_bias h)).read _ = _
  rw [fuse_weights_two_r C K _ g x l hg hx hl]
  exact lstm_forget_bias_skip K forget_bias ((base (gate_r g)).idx (l * K + x)) h
    (by unfold gate_r; split <;> nofun)

/-- The input sequence is not changed by the forward pass. -/
theorem lstm_fwd_x (two_gemms : Bool) (lm : Libm α) (N C K j : Nat) (forget_bias : α)
    (h : Mem Buf α) (t i : Nat) :
    (lstm_fwd two_gemms lm N C K j forget_bias h).read ((seq_at .xgoldt t (N * C)).idx i)
      = h.read ((seq_at .xgoldt t (N * C)).idx i) :=
  lstm_fwd_input two_gemms lm N C K j forget_bias _ h nofun nofun nofun rfl nofun
    ⟨nofun, nofun, nofun⟩

end Weights

/-! ## What lstm_ref returns from the forward pass -/

section ForwardResult

variable {α : Type} [Zero α] [One α] [Add α] [Sub α] [Mul α] [Div α] [Neg α]

/-- The previous cell state the forward step of timestep `t` reads. -/
theorem lstm_ref_cs_prev (two_gemms : Bool) (lm : Libm α) (N C K T : Nat) (forget_bias : α)
    (h : Mem Buf α) (t e : Nat) (ht : t < T) (he : e < K * N) :
    (lstm_fwd two_gemms lm N C K t forget_bias h).read (cs_prev N K t e)
      = if t = 0 then h.read ((base .cspgold).idx e)
        else (lstm_ref two_gemms lm N C K T forget_bias h).read
          ((seq_at .csgoldt (t - 1) (K * N)).idx e) := by
  unfold cs_prev
  split
  · exact lstm_fwd_input two_gemms lm N C K t forget_bias _ h nofun nofun nofun rfl nofun
      ⟨nofun, nofun, nofun⟩
  · exact (lstm_ref_settled two_gemms lm N C K t T forget_bias _ (by omega)
      (settled_cs (by omega) he) rfl h).symm

/-- The previous hidden state the forward step of timestep `t` reads. -/
theorem lstm_ref_h_prev (two_gemms : Bool) (lm : Libm α) (N C K T : Nat) (forget_bias : α)
    (h : Mem Buf α) (t e : Nat) (ht : t < T) (he : e < K * N) :
    (lstm_fwd two_gemms lm N C K t forget_bias h).read (h_prev N K t e)
      = if t = 0 then h.read ((base .hpgold).idx e)
        else (lstm_ref two_gemms lm N C K T forget_bias h).read
          ((seq_at .hgoldt (t - 1) (K * N)).idx e) := by
  unfold h_prev
  split
  · exact lstm_fwd_input two_gemms lm N C K t forget_bias _ h nofun nofun nofun rfl nofun
      ⟨nofun, nofun, nofun⟩
  · exact (lstm_ref_settled two_gemms lm N C K t T forget_bias _ (by omega)
      (settled_h (by omega) he) rfl h).symm

/-- The gate activations `lstm_ref` leaves at timestep `t` are those of the forward step. -/
theorem lstm_ref_icfo_step (two_gemms : Bool) (lm : Libm α) (N C K T : Nat) (forget_bias : α)
    (h : Mem Buf α) (t n c : Nat) (ht : t < T) (hn : n < N) (hc : c < 4 * K) :
    (lstm_ref two_gemms lm N C K T forget_bias h).read (icfo_elem N K t n c)
      = (fwd_step two_gemms lm N C K t
          (lstm_fwd two_gemms lm N C K t forget_bias h)).read (icfo_elem N K t n c) :=
  lstm_ref_step two_gemms lm N C K t T forget_bias _ ht
    (settled_icfo (Nat.lt_succ_self t) hn hc) rfl h

/-- The cell-state recurrence on the memory `lstm_ref` returns. -/
theorem lstm_ref_cell (two_gemms : Bool) (lm : Libm α) (N C K T : Nat) (forget_bias : α)
    (h : Mem Buf α) (t e : Nat) (ht : t < T) (he : e < K * N) :
    (lstm_ref two_gemms lm N C K T forget_bias h).read ((seq_at .csgoldt t (K * N)).idx e)
      = (lstm_ref two_gemms lm N C K T forget_bias h).read
            (icfo_elem N K t (e / K) (2 * K + e % K))
          * (if t = 0 then h.read ((base .cspgold).idx e)
             else (lstm_ref two_gemms lm N C K T forget_bias h).read
               ((seq_at .csgoldt (t - 1) (K * N)).idx e))
        + (lstm_ref two_gemms lm N C K T forget_bias h).read (icfo_elem N K t (e / K) (e % K))
          * (lstm_ref two_gemms lm N C K T forget_bias h).read
            (icfo_elem N K t (e / K) (K + e % K)) := by
  obtain ⟨hn, hx⟩ := div_mod_lt he
  rw [lstm_ref_step two_gemms lm N C K t T forget_bias _ ht
      (settled_cs (Nat.lt_succ_self t) he) rfl h,
    lstm_ref_icfo_step two_gemms lm N C K T forget_bias h t _ _ ht hn (by omega),
    lstm_ref_icfo_step two_gemms lm N C K T forget_bias h t _ _ ht hn (by omega),
    lstm_ref_icfo_step two_gemms lm N C K T forget_bias h t _ _ ht hn (by omega),
    fwd_step_cell two_gemms lm N C K t _ e he,
    lstm_ref_cs_prev two_gemms lm N C K T forget_bias h t e ht he]

/-- The hidden-state equation on the memory `lstm_ref` returns. -/
theorem lstm_ref_hidden (two_gemms : Bool) (lm : Libm α) (N C K T : Nat) (forget_bias : α)
    (h : Mem Buf α) (t e : Nat) (ht : t < T) (he : e < K * N) :
    (lstm_ref two_gemms lm N C K T forget_bias h).read ((seq_at .hgoldt t (K * N)).idx e)
      = (lstm_ref two_gemms lm N C K T forget_bias h).read
            (icfo_elem N K t (e / K) (3 * K + e % K))
          * lm.tanh ((lstm_ref two_gemms lm N C K T forget_bias h).read
              ((seq_at .csgoldt t (K * N)).idx e)) := by
  obtain ⟨hn, hx⟩ := div_mod_lt he
  rw [lstm_ref_step two_gemms lm N C K t T forget_bias _ ht
      (settled_h (Nat.lt_succ_self t) he) rfl h,
    lstm_ref_step two_gemms lm N C K t T forget_bias _ ht
      (settled_cs (Nat.lt_succ_self t) he) rfl h,
    lstm_ref_icfo_step two_gemms lm N C K T forget_bias h t _ _ ht hn (by omega),
    fwd_step_hidden two_gemms lm N C K t _ e he]

/-- The activations on the memory `lstm_ref` returns, from the values just before the
nonlinearity. -/
theorem lstm_ref_icfo (two_gemms : Bool) (lm : Libm α) (N C K T : Nat) (forget_bias : α)
    (h : Mem Buf α) (t g n x : Nat) (ht : t < T) (hg : g < 4) (hn : n < N) (hx : x < K) :
    (lstm_ref two_gemms lm N C K T forget_bias h).read (icfo_elem N K t n (g * K + x))
      = if g = 1 then
          lm.tanh ((lstm_pre two_gemms lm N C K t forget_bias h).read
            (icfo_elem N K t n (g * K + x)))
        else
          sigmoid_value lm ((lstm_pre two_gemms lm N C K t forget_bias h).read
            (icfo_elem N K t n (g * K + x))) := by
  rw [lstm_ref_icfo_step two_gemms lm N C K T forget_bias h t n _ ht hn (slot_lt hg hx),
    fwd_step_icfo two_gemms lm N C K t g n x hg hn hx]
  rfl

/-- The bias vectors the forward loop copies, in terms of the caller's buffers. -/
theorem lstm_fwd_bias (two_gemms : Bool) (lm : Libm α) (N C K j : Nat) (forget_bias : α)
    (h : Mem Buf α) (g x : Nat) (hg : g < 4) (hx : x < K) :
    (lstm_fwd two_gemms lm N C K j forget_bias h).read ((base (gate_b_fb g)).idx x)
      = if g = 2 then h.read ((base .bfgold).idx x) + forget_bias
        else h.read ((base (gate_b g)).idx x) := by
  interval_cases g
  · exact lstm_fwd_input two_gemms lm N C K j forget_bias _ h nofun nofun nofun rfl nofun
      ⟨nofun, nofun, nofun⟩
  · exact lstm_fwd_input two_gemms lm N C K j forget_bias _ h nofun nofun nofun rfl nofun
      ⟨nofun, nofun, nofun⟩
  · exact lstm_fwd_bias_fb two_gemms lm N C K j forget_bias h x hx
  · exact lstm_fwd_input two_gemms lm N C K j forget_bias _ h nofun nofun nofun rfl nofun
      ⟨nofun, nofun, nofun⟩

/-- The bias stage of timestep `t`, in terms of the caller's buffers. -/
theorem lstm_biased_value (two_gemms : Bool) (lm : Libm α) (N C K t : Nat) (forget_bias : α)
    (h : Mem Buf α) (g n x : Nat) (hg : g < 4) (hn : n < N) (hx : x < K) :
    (lstm_biased two_gemms lm N C K t forget_bias h).read (icfo_elem N K t n (g * K + x))
      = if g = 2 then h.read ((base .bfgold).idx x) + forget_bias
        else h.read ((base (gate_b g)).idx x) := by
  unfold lstm_biased
  rw [fwd_bias_value N K t g n x hg hn hx,
    lstm_fwd_bias two_gemms lm N C K t forget_bias h g x hg hx]

end ForwardResult

/-! ## Exact arithmetic -/

section Exact

variable {α : Type} [Field α]

theorem sumTo_eq_sum (n : Nat) (f : Nat → α) : sumTo n f = ∑ i in Finset.range n, f i := by
  induction n with
  | zero => simp [sumTo]
  | succ n ih => rw [Finset.sum_range_succ, ← ih]; rfl

/-- The value just before the nonlinearity, in both builds: bias plus `W * x` plus
`R * h_prev`, the weights and inputs being those of the caller. -/
theorem lstm_pre_value (two_gemms : Bool) (lm : Libm α) (N C K t : Nat) (forget_bias : α)
    (h : Mem Buf α) (g n x : Nat) (hg : g < 4) (hn : n < N) (hx : x < K) :
    (lstm_pre two_gemms lm N C K t forget_bias h).read (icfo_elem N K t n (g * K + x))
      = (lstm_fwd two_gemms lm N C K t forget_bias h).read ((base (gate_b_fb g)).idx x)
        + ∑ c in Finset.range C,
            h.read ((base (gate_w g)).idx (c * K + x))
              * h.read ((seq_at .xgoldt t (N * C)).idx (n * C + c))
        + ∑ l in Finset.range K,
            h.read ((base (gate_r g)).idx (l * K + x))
              * (lstm_fwd two_gemms lm N C K t forget_bias h).read (h_prev N K t (n * K + l)) := by
  have hsk : ∀ q : Ptr Buf, q.buf ≠ .icfogoldt →
      (fwd_bias N K t (lstm_fwd two_gemms lm N C K t forget_bias h)).read q
        = (lstm_fwd two_gemms lm N C K t forget_bias h).read q :=
    fun q hq => fwd_bias_skip N K t q _ (Or.inl hq)
  unfold lstm_pre
  cases two_gemms
  · rw [fwd_gemm_single_value N C K t _ n (g * K + x) hn (slot_lt hg hx),
      fwd_bias_value N K t g n x hg hn hx, one_mul, one_mul, sumTo_eq_sum,
      Finset.sum_range_add, add_comm, add_assoc]
    congr 2
    · apply Finset.sum_congr rfl
      intro l hl
      have hl' : l < C := Finset.mem_range.mp hl
      rw [if_pos hl']
      simp (disch := with_unfolding_all exact fun he => Buf.noConfusion he) only [hsk]
      rw [lstm_fwd_wr8_w lm N C K t forget_bias h g x l hg hx hl', lstm_fwd_x, Nat.add_comm l]
    · apply Finset.sum_congr rfl
      intro l hl
      have hl' : l < K := Finset.mem_range.mp hl
      rw [if_neg (by omega), hsk _ (h_prev_buf_ne _ _ _ _)]
      simp (disch := with_unfolding_all exact fun he => Buf.noConfusion he) only [hsk]
      rw [lstm_fwd_wr8_r lm N C K t forget_bias h g x l hg hx hl', Nat.add_sub_cancel_left,
        Nat.add_comm l]
  · have hW : sumTo C (fun l =>
          (fwd_bias N K t (lstm_fwd true lm N C K t forget_bias h)).read
              ((base .w4gold).idx (g * K + x + l * (K * 4)))
            * (fwd_bias N K t (lstm_fwd true lm N C K t forget_bias h)).read
              ((seq_at .xgoldt t (N * C)).idx (l + n * C)))
        = ∑ c in Finset.range C,
            h.read ((base (gate_w g)).idx (c * K + x))
              * h.read ((seq_at .xgoldt t (N * C)).idx (n * C + c)) := by
      rw [sumTo_eq_sum]
      apply Finset.sum_congr rfl
      intro l hl
      have hl' : l < C := Finset.mem_range.mp hl
      simp (disch := with_unfolding_all exact fun he => Buf.noConfusion he) only [hsk]
      rw [lstm_fwd_w4 lm N C K t forget_bias h g x l hg hx hl', lstm_fwd_x, Nat.add_comm l]
    have hR : sumTo K (fun l =>
          (fwd_bias N K t (lstm_fwd true lm N C K t forget_bias h)).read
              ((base .r4gold).idx (g * K + x + l * (K * 4)))
            * (fwd_bias N K t (lstm_fwd true lm N C K t forget_bias h)).read
              (h_prev N K t (l + n * K)))
        = ∑ l in Finset.range K,
            h.read ((base (gate_r g)).idx (l * K + x))
              * (lstm_fwd true lm N C K t forget_bias h).read (h_prev N K t (n * K + l)) := by
      rw [sumTo_eq_sum]
      apply Finset.sum_congr rfl
      intro l hl
      have hl' : l < K := Finset.mem_range.mp hl
      rw [hsk _ (h_prev_buf_ne _ _ _ _)]
      simp (disch := with_unfolding_all exact fun he => Buf.noConfusion he) only [hsk]
      rw [lstm_fwd_r4 lm N C K t forget_bias h g x l hg hx hl', Nat.add_comm l]
    rw [fwd_gemm_two_value N C K t _ n (g * K + x) hn (slot_lt hg hx),
      fwd_bias_value N K t g n x hg hn hx, hW, hR]
    ring

/-- The value just before the nonlinearity of timestep `t`, from the caller's buffers and
the hidden state `lstm_ref` returns for timestep `t - 1`. -/
theorem lstm_pre_final (two_gemms : Bool) (lm : Libm α) (N C K T : Nat) (forget_bias : α)
    (h : Mem Buf α) (t g n x : Nat) (ht : t < T) (hg : g < 4) (hn : n < N) (hx : x < K) :
    (lstm_pre two_gemms lm N C K t forget_bias h).read (icfo_elem N K t n (g * K + x))
      = (if g = 2 then h.read ((base .bfgold).idx x) + forget_bias
          else h.read ((base (gate_b g)).idx x))
        + ∑ c in Finset.range C,
            h.read ((base (gate_w g)).idx (c * K + x))
              * h.read ((seq_at .xgoldt t (N * C)).idx (n * C + c))
        + ∑ l in Finset.range K,
            h.read ((base (gate_r g)).idx (l * K + x))
              * (if t = 0 then h.read ((base .hpgold).idx (n * K + l))
                 else (lstm_ref two_gemms lm N C K T forget_bias h).read
                   ((seq_at .hgoldt (t - 1) (K * N)).idx (n * K + l))) := by
  rw [lstm_pre_value two_gemms lm N C K t forget_bias h g n x hg hn hx,
    lstm_fwd_bias two_gemms lm N C K t forget_bias h g x hg hx]
  congr 1
  apply Finset.sum_congr rfl
  intro l hl
  rw [lstm_ref_h_prev two_gemms lm N C K T forget_bias h t (n * K + l) ht
    (tile_index_lt hn (Finset.mem_range.mp hl))]

/-- Both builds of `lstm_ref` leave the same forward results, timestep by timestep. -/
theorem lstm_builds_agree (lm : Libm α) (N C K T : Nat) (forget_bias : α) (h : Mem Buf α)
    (t : Nat) (ht : t < T) :
    (∀ n c, n < N → c < 4 * K →
      (lstm_pre true lm N C K t forget_bias h).read (icfo_elem N K t n c)
          = (lstm_pre false lm N C K t forget_bias h).read (icfo_elem N K t n c)
      ∧ (lstm_ref true lm N C K T forget_bias h).read (icfo_elem N K t n c)
          = (lstm_ref false lm N C K T forget_bias h).read (icfo_elem N K t n c))
    ∧ (∀ e, e < K * N →
      (lstm_ref true lm N C K T forget_bias h).read ((seq_at .csgoldt t (K * N)).idx e)
          = (lstm_ref false lm N C K T forget_bias h).read ((seq_at .csgoldt t (K * N)).idx e)
      ∧ (lstm_ref true lm N C K T forget_bias h).read ((seq_at .hgoldt t (K * N)).idx e)
          = (lstm_ref false lm N C K T forget_bias h).read ((seq_at .hgoldt t (K * N)).idx e)) := by
  induction t using Nat.strong_induction_on with
  | _ t ih =>
    have hpre : ∀ n c, n < N → c < 4 * K →
        (lstm_pre true lm N C K t forget_bias h).read (icfo_elem N K t n c)
          = (lstm_pre false lm N C K t forget_bias h).read (icfo_elem N K t n c) := by
      intro n c hn hc
      have hK : 0 < K := by omega
      have hg : c / K < 4 := Nat.div_lt_of_lt_mul (by omega)
      have hx : c % K < K := Nat.mod_lt c hK
      have e : c = c / K * K + c % K := by
        rw [Nat.mul_comm]
        exact (Nat.div_add_mod c K).symm
      rw [e, lstm_pre_final true lm N C K T forget_bias h t _ n _ ht hg hn hx,
        lstm_pre_final false lm N C K T forget_bias h t _ n _ ht hg hn hx]
      congr 1
      apply Finset.sum_congr rfl
      intro l hl
      by_cases h0 : t = 0
      · rw [if_pos h0, if_pos h0]
      · rw [if_neg h0, if_neg h0,
          ((ih (t - 1) (by omega) (by omega)).2 (n * K + l)
            (tile_index_lt hn (Finset.mem_range.mp hl))).2]
    have hpost : ∀ n c, n < N → c < 4 * K →
        (lstm_ref true lm N C K T forget_bias h).read (icfo_elem N K t n c)
          = (lstm_ref false lm N C K T forget_bias h).read (icfo_elem N K t n c) := by
      intro n c hn hc
      have hK : 0 < K := by omega
      have hg : c / K < 4 := Nat.div_lt_of_lt_mul (by omega)
      have hx : c % K < K := Nat.mod_lt c hK
      have e : c = c / K * K + c % K := by
        rw [Nat.mul_comm]
        exact (Nat.div_add_mod c K).symm
      have hp := hpre n c hn hc
      rw [e] at hp ⊢
      rw [lstm_ref_icfo true lm N C K T forget_bias h t _ n _ ht hg hn hx,
        lstm_ref_icfo false lm N C K T forget_bias h t _ n _ ht hg hn hx, hp]
    have hcs : ∀ e, e < K * N →
        (lstm_ref true lm N C K T forget_bias h).read ((seq_at .csgoldt t (K * N)).idx e)
          = (lstm_ref false lm N C K T forget_bias h).read
              ((seq_at .csgoldt t (K * N)).idx e) := by
      intro e he
      obtain ⟨hn, hx⟩ := div_mod_lt he
      rw [lstm_ref_cell true lm N C K T forget_bias h t e ht he,
        lstm_ref_cell false lm N C K T forget_bias h t e ht he,
        hpost _ _ hn (by omega), hpost _ _ hn (by omega), hpost _ _ hn (by omega)]
      by_cases h0 : t = 0
      · rw [if_pos h0, if_pos h0]
      · rw [if_neg h0, if_neg h0, ((ih (t - 1) (by omega) (by omega)).2 e he).1]
    refine ⟨fun n c hn hc => ⟨hpre n c hn hc, hpost n c hn hc⟩, fun e he => ⟨hcs e he, ?_⟩⟩
    obtain ⟨hn, hx⟩ := div_mod_lt he
    rw [lstm_ref_hidden true lm N C K T forget_bias h t e ht he,
      lstm_ref_hidden false lm N C K T forget_bias h t e ht he, hpost _ _ hn (by omega),
      hcs e he]

end Exact

/-! ## The backward pass -/

section BackwardHelpers

variable {β α : Type} [DecidableEq β]

/-- A property that every iteration carries on holds after the loop. -/
theorem forLoop_induct {σ : Type} (n : Nat) (body : Nat → σ → σ) (P : Nat → σ → Prop) (s : σ)
    (h0 : P 0 s) (hstep : ∀ i, i < n → ∀ x, P i x → P (i + 1) (body i x)) :
    P n (forLoop n body s) := by
  induction n with
  | zero => exact h0
  | succ n ih =>
    exact hstep n (Nat.lt_succ_self n) _
      (ih (fun i hi x hx => hstep i (Nat.lt_succ_of_lt hi) x hx))

theorem forLoopDownUpto_succ {σ : Type} (n k : Nat) (body : Nat → σ → σ) (s : σ) :
    forLoopDownUpto (n + 1) (k + 1) body s = forLoopDownUpto n k body (body n s) := by
  induction k with
  | zero => rfl
  | succ k ih =>
    show body (n + 1 - 1 - (k + 1)) (forLoopDownUpto (n + 1) (k + 1) body s)
      = body (n - 1 - k) (forLoopDownUpto n k body (body n s))
    rw [ih]
    congr 1
    omega

/-- The downward loop is its first `n` iterations. -/
theorem forLoopDown_eq_upto {σ : Type} (n : Nat) (body : Nat → σ → σ) (s : σ) :
    forLoopDown n body s = forLoopDownUpto n n body s := by
  induction n generalizing s with
  | zero => rfl
  | succ n ih =>
    show forLoopDown n body (body n s) = _
    rw [ih, forLoopDownUpto_succ]

/-- A pointer into another buffer, or at or beyond the end of `dst[0 .. size)`, is none
of these elements. -/
theorem idx_ne_of_above {dst q : Ptr β} {size : Nat}
    (hq : q.buf ≠ dst.buf ∨ dst.off + size ≤ q.off) (i : Nat) (hi : i < size) :
    dst.idx i ≠ q := by
  intro he
  rcases hq with hq | hq
  · exact hq (by rw [← he]; rfl)
  · have : (dst.idx i).off = q.off := by rw [he]
    simp only [Ptr.idx_off] at this
    omega

theorem matrix_copy_above (size : Nat) (src dst q : Ptr β) (h : Mem β α)
    (hq : q.buf ≠ dst.buf ∨ dst.off + size ≤ q.off) :
    (matrix_copy size src dst h).read q = h.read q :=
  matrix_copy_frame size src dst q h (fun i hi => idx_ne_of_above hq i hi)

theorem matrix_add_above [Add α] (size : Nat) (a b c q : Ptr β) (h : Mem β α)
    (hq : q.buf ≠ c.buf ∨ c.off + size ≤ q.off) :
    (matrix_add size a b c h).read q = h.read q :=
  matrix_add_frame size a b c q h (fun i hi => idx_ne_of_above hq i hi)

theorem matrix_copy_ld_above (m n ld : Nat) (src dst q : Ptr β) (h : Mem β α)
    (hq : q.buf ≠ dst.buf ∨ dst.off + m * n ≤ q.off) :
    (matrix_copy_ld m n ld src dst h).read q = h.read q :=
  matrix_copy_ld_frame m n ld src dst q h (fun i hi => idx_ne_of_above hq i hi)

/-- A dense result matrix (`ldc = m`) of the multiply ends at `c + m * n`. -/
theorem gemm_above [Zero α] [Add α] [Mul α] (ta tb : Bool) (m n k : Nat) (alpha : α)
    (a : Ptr β) (lda : Nat) (b : Ptr β) (ldb : Nat) (beta : α) (c : Ptr β)
    (q : Ptr β) (h : Mem β α) (hq : q.buf ≠ c.buf ∨ c.off + m * n ≤ q.off) :
    (gemm ta tb m n k alpha a lda b ldb beta c m h).read q = h.read q := by
  apply gemm_frame
  intro j i hj hi
  apply idx_ne_of_above hq
  have : (j + 1) * m ≤ n * m := Nat.mul_le_mul_right m hj
  rw [Nat.add_mul] at this
  rw [Nat.mul_comm m n]
  omega

theorem gemm_beta0_above [Zero α] [Add α] [Mul α] (ta tb : Bool) (m n k : Nat) (alpha : α)
    (a : Ptr β) (lda : Nat) (b : Ptr β) (ldb : Nat) (c : Ptr β)
    (q : Ptr β) (h : Mem β α) (hq : q.buf ≠ c.buf ∨ c.off + m * n ≤ q.off) :
    (gemm_beta0 ta tb m n k alpha a lda b ldb c m h).read q = h.read q := by
  apply gemm_beta0_frame
  intro j i hj hi
  apply idx_ne_of_above hq
  have : (j + 1) * m ≤ n * m := Nat.mul_le_mul_right m hj
  rw [Nat.add_mul] at this
  rw [Nat.mul_comm m n]
  omega

theorem matrix_copy_value (size : Nat) (src dst : Ptr β) (h : Mem β α) (i : Nat)
    (hi : i < size) (hs : ∀ k, k < i → dst.idx k ≠ src.idx i) :
    (matrix_copy size src dst h).read (dst.idx i) = h.read (src.idx i) :=
  packed1_value size src dst (fun i => i) (fun v => v) h i hi hs

theorem matrix_copy_ld_value (m n ld : Nat) (src dst : Ptr β) (h : Mem β α) (i : Nat)
    (hi : i < m * n) (hs : ∀ k, k < i → dst.idx k ≠ src.idx (i / m * ld + i % m)) :
    (matrix_copy_ld m n ld src dst h).read (dst.idx i) = h.read (src.idx (i / m * ld + i % m)) :=
  packed1_value (m * n) src dst (fun i => i / m * ld + i % m) (fun v => v) h i hi hs

theorem matrix_tanh_inverse_value [One α] [Sub α] [Mul α] (lm : Libm α) (size : Nat)
    (src dst : Ptr β) (h : Mem β α) (i : Nat) (hi : i < size)
    (hs : ∀ k, k < i → dst.idx k ≠ src.idx i) :
    (matrix_tanh_inverse lm size src dst h).read (dst.idx i)
      = 1 - lm.tanh (h.read (src.idx i)) * lm.tanh (h.read (src.idx i)) :=
  packed1_value size src dst (fun i => i) (fun v => 1 - lm.tanh v * lm.tanh v) h i hi hs

theorem matrix_complement_ld_value [One α] [Sub α] (m n ld : Nat) (src dst : Ptr β)
    (h : Mem β α) (i : Nat) (hi : i < m * n)
    (hs : ∀ k, k < i → dst.idx k ≠ src.idx (i / m * ld + i % m)) :
    (matrix_complement_ld m n ld src dst h).read (dst.idx i)
      = 1 - h.read (src.idx (i / m * ld + i % m)) :=
  packed1_value (m * n) src dst (fun i => i / m * ld + i % m) (fun v => 1 - v) h i hi hs

theorem matrix_complement_square_ld_value [One α] [Sub α] [Mul α] (m n ld : Nat)
    (src dst : Ptr β) (h : Mem β α) (i : Nat) (hi : i < m * n)
    (hs : ∀ k, k < i → dst.idx k ≠ src.idx (i / m * ld + i % m)) :
    (matrix_complement_square_ld m n ld src dst h).read (dst.idx i)
      = 1 - h.read (src.idx (i / m * ld + i % m)) * h.read (src.idx (i / m * ld + i % m)) :=
  packed1_value (m * n) src dst (fun i => i / m * ld + i % m) (fun v => 1 - v * v) h i hi hs

theorem matrix_eltwise_mult_ld_c_value [Mul α] (m n ld : Nat) (a b c : Ptr β) (h : Mem β α)
    (hld : m ≤ ld) (row col : Nat) (hrow : row < n) (hcol : col < m)
    (ha : ∀ r x, r < n → x < m → c.idx (r * ld + x) ≠ a.idx (row * m + col))
    (hb : ∀ r x, r < n → x < m → c.idx (r * ld + x) ≠ b.idx (row * m + col)) :
    (matrix_eltwise_mult_ld_c m n ld a b c h).read (c.idx (row * ld + col))
      = h.read (a.idx (row * m + col)) * h.read (b.idx (row * m + col)) :=
  strided2_value m n ld a b c (· * ·) h hld row col hrow hcol ha hb

theorem tile_div {m row col : Nat} (hcol : col < m) : (row * m + col) / m = row :=
  (tile_index m row col hcol).1

theorem tile_mod {m row col : Nat} (hcol : col < m) : (row * m + col) % m = col :=
  (tile_index m row col hcol).2

end BackwardHelpers

section BackwardValues

variable {α : Type} [Zero α] [One α] [Add α] [Sub α] [Mul α] [Div α] [Neg α]

theorem dicfo_at_idx (N K j s n x : Nat) :
    (dicfo_at N K j s).idx (n * (4 * K) + x) = dicfo_elem N K j n (s + x) := by
  simp only [dicfo_at, dicfo_elem, vla3, Ptr.idx_idx, Nat.add_zero, Nat.add_mul]
  congr 1
  omega

theorem dicfo_at_gemm (N K j i n : Nat) :
    (dicfo_at N K j 0).idx (i + n * (K * 4)) = dicfo_elem N K j n i := by
  simp only [dicfo_at, dicfo_elem, vla3, Ptr.idx_idx, Nat.add_zero, Nat.add_mul, Nat.mul_comm K 4]
  congr 1
  omega

theorem dicfo_elem_off (N K j n c : Nat) :
    (dicfo_elem N K j n c).off = (j * N + n) * (4 * K) + c := by
  simp [dicfo_elem, vla3, Ptr.idx, base]

/-- Lines 497-502: `delta` of timestep `j`. -/
theorem bwd_delta_value (N K T j : Nat) (s : Mem Buf α) (e : Nat) (he : e < K * N) :
    (bwd_delta N K T j s).read ((seq_at .deltagoldt j (K * N)).idx e)
      = if j = T - 1 then s.read ((seq_at .dhgoldt j (K * N)).idx e)
        else s.read ((seq_at .doutgoldt j (K * N)).idx e)
          + s.read ((seq_at .dhgoldt j (K * N)).idx e) := by
  unfold bwd_delta
  split
  · next hj =>
    rw [← hj]
    simp (disch := with_unfolding_all first
      | exact he
      | (intro k hk; exact idx_ne_of_skip (Or.inl (fun he => Buf.noConfusion he)) k)) only
      [matrix_copy_value]
  · simp (disch := with_unfolding_all first
      | exact he
      | (intro k hk; exact idx_ne_of_skip (Or.inl (fun he => Buf.noConfusion he)) k)) only
      [matrix_add_value]

/-- Lines 503-511: the cell-state gradient of timestep `j`. -/
theorem bwd_dcsp_value (lm : Libm α) (N K T j : Nat) (s : Mem Buf α) (e : Nat)
    (he : e < K * N) :
    (bwd_dcsp lm N K T j s).read ((base .dcspgold).idx e)
      = s.read (icfo_elem N K j (e / K) (3 * K + e % K))
            * s.read ((seq_at .deltagoldt j (K * N)).idx e)
          * (1 - lm.tanh (s.read ((seq_at .csgoldt j (K * N)).idx e))
              * lm.tanh (s.read ((seq_at .csgoldt j (K * N)).idx e)))
        + (if j = T - 1 then s.read ((base .dcsgold).idx e)
           else s.read ((base .dcspgold).idx e)) := by
  unfold bwd_dcsp
  dsimp only
  split
  all_goals
    simp (disch := with_unfolding_all first
      | exact he
      | exact Or.inl (fun he => Buf.noConfusion he)
      | (intro k hk; exact idx_ne_of_skip (Or.inl (fun he => Buf.noConfusion he)) k)
      | (intro k hk; exact idx_ne_idx (Nat.ne_of_lt hk))) only
      [matrix_add_value, matrix_eltwise_mult_value, matrix_tanh_inverse_value,
        matrix_eltwise_mult_ld_a_value, matrix_eltwise_mult_skip, matrix_tanh_inverse_skip,
        matrix_eltwise_mult_ld_a_skip, icfo_at_idx]

theorem dicfo_elem_inj {N K j j' n n' c c' : Nat} (hn : n < N) (hn' : n' < N)
    (hc : c < 4 * K) (hc' : c' < 4 * K)
    (he : dicfo_elem N K j n c = dicfo_elem N K j' n' c') : j = j' ∧ n = n' ∧ c = c' := by
  have h1 : (dicfo_elem N K j n c).off = (dicfo_elem N K j' n' c').off := by rw [he]
  rw [dicfo_elem_off, dicfo_elem_off] at h1
  obtain ⟨h2, h3⟩ := two_d_inj hc hc' h1
  obtain ⟨h4, h5⟩ := two_d_inj hn hn' h2
  exact ⟨h4, h5, h3⟩

theorem dicfo_at_slots (N K j : Nat) :
    dicfo_at N K j 0 = dicfo_at N K j (0 * K) ∧ dicfo_at N K j K = dicfo_at N K j (1 * K) := by
  simp

/-- A tile in slot `g` of `dicfo` consists of elements of timestep `j`. -/
theorem dslot_tile_ne {N K j g : Nat} {q : Ptr Buf} (hg : g < 4)
    (hq : ∀ row c, row < N → c < 4 * K → dicfo_elem N K j row c ≠ q) (row col : Nat)
    (hrow : row < N) (hcol : col < K) :
    (dicfo_at N K j (g * K)).idx (row * (4 * K) + col) ≠ q := by
  rw [dicfo_at_idx]
  exact hq row _ hrow (slot_lt hg hcol)

/-- Elements of another slot are no elements of slot `g`. -/
theorem dslot_other {N K j g g' n x : Nat} (hg : g < 4) (hg' : g' < 4) (hne : g' ≠ g)
    (hn : n < N) (hx : x < K) (row col : Nat) (hrow : row < N) (hcol : col < K) :
    (dicfo_at N K j (g * K)).idx (row * (4 * K) + col) ≠ dicfo_elem N K j n (g' * K + x) := by
  rw [dicfo_at_idx]
  intro he
  obtain ⟨_, _, h3⟩ := dicfo_elem_inj hrow hn (slot_lt hg hcol) (slot_lt hg' hx) he
  exact hne (two_d_inj hcol hx h3).1.symm

/-- Lines 512-515: `dc = (i * dcs) * (1 - c * c)` goes to slot 1. -/
theorem bwd_gate_dc_value (N K j : Nat) (s : Mem Buf α) (n k : Nat) (hn : n < N) (hk : k < K) :
    (bwd_gate_dc N K j s).read (dicfo_elem N K j n (K + k))
      = s.read (icfo_elem N K j n k) * s.read ((base .dcspgold).idx (n * K + k))
        * (1 - s.read (icfo_elem N K j n (K + k)) * s.read (icfo_elem N K j n (K + k))) := by
  rw [← dicfo_at_idx]
  unfold bwd_gate_dc
  dsimp only
  simp (disch := with_unfolding_all first
      | exact he
      | exact hn
      | exact hk
      | exact tile_index_lt hn hk
      | exact Nat.le_mul_of_pos_left K (by decide)
      | exact Or.inl (fun he => Buf.noConfusion he)
      | (intro k' hk'; exact idx_ne_of_skip (Or.inl (fun he => Buf.noConfusion he)) k')
      | (intro r x hr hx; exact idx_ne_of_skip (Or.inl (fun he => Buf.noConfusion he)) _)
      | (intro k' hk'; exact idx_ne_idx (Nat.ne_of_lt hk'))) only
    [matrix_eltwise_mult_ld_c_value, matrix_complement_square_ld_value,
      matrix_complement_square_ld_skip, matrix_eltwise_mult_ld_a_value,
      matrix_eltwise_mult_ld_a_skip, icfo_at_idx, tile_div, tile_mod, Nat.zero_add]

/-- Lines 516-520: `di = (c * dcs) * (i * (1 - i))` goes to slot 0. -/
theorem bwd_gate_di_value (N K j : Nat) (s : Mem Buf α) (n k : Nat) (hn : n < N) (hk : k < K) :
    (bwd_gate_di N K j s).read (dicfo_elem N K j n k)
      = s.read (icfo_elem N K j n (K + k)) * s.read ((base .dcspgold).idx (n * K + k))
        * (s.read (icfo_elem N K j n k) * (1 - s.read (icfo_elem N K j n k))) := by
  have e : dicfo_elem N K j n k = (dicfo_at N K j 0).idx (n * (4 * K) + k) := by
    rw [dicfo_at_idx, Nat.zero_add]
  rw [e]
  unfold bwd_gate_di
  dsimp only
  simp (disch := with_unfolding_all first
      | exact he
      | exact hn
      | exact hk
      | exact tile_index_lt hn hk
      | exact Nat.le_mul_of_pos_left K (by decide)
      | exact Or.inl (fun he => Buf.noConfusion he)
      | (intro k' hk'; exact idx_ne_of_skip (Or.inl (fun he => Buf.noConfusion he)) k')
      | (intro r x hr hx; exact idx_ne_of_skip (Or.inl (fun he => Buf.noConfusion he)) _)
      | (intro k' hk'; exact idx_ne_idx (Nat.ne_of_lt hk'))) only
    [matrix_eltwise_mult_ld_c_value, matrix_complement_ld_value,
      matrix_complement_ld_skip, matrix_eltwise_mult_ld_a_value,
      matrix_eltwise_mult_ld_a_skip, icfo_at_idx, tile_div, tile_mod, Nat.zero_add]

/-- Lines 521-529: `df = (dcs * cs_prev) * (f * (1 - f))` goes to slot 2. -/
theorem bwd_gate_df_value (N K j : Nat) (s : Mem Buf α) (n k : Nat) (hn : n < N) (hk : k < K) :
    (bwd_gate_df N K j s).read (dicfo_elem N K j n (2 * K + k))
      = s.read ((base .dcspgold).idx (n * K + k)) * s.read (cs_prev N K j (n * K + k))
        * (s.read (icfo_elem N K j n (2 * K + k))
            * (1 - s.read (icfo_elem N K j n (2 * K + k)))) := by
  rw [← dicfo_at_idx]
  unfold bwd_gate_df cs_prev
  dsimp only
  split
  all_goals
    simp (disch := with_unfolding_all first
      | exact he
      | exact hn
      | exact hk
      | exact tile_index_lt hn hk
      | exact Nat.le_mul_of_pos_left K (by decide)
      | exact Or.inl (fun he => Buf.noConfusion he)
      | (intro k' hk'; exact idx_ne_of_skip (Or.inl (fun he => Buf.noConfusion he)) k')
      | (intro r x hr hx; exact idx_ne_of_skip (Or.inl (fun he => Buf.noConfusion he)) _)
      | (intro k' hk'; exact idx_ne_idx (Nat.ne_of_lt hk'))) only
      [matrix_eltwise_mult_ld_c_value, matrix_complement_ld_value,
        matrix_complement_ld_skip, matrix_eltwise_mult_ld_a_value,
        matrix_eltwise_mult_ld_a_skip, matrix_eltwise_mult_value, matrix_eltwise_mult_skip,
        icfo_at_idx, tile_div, tile_mod, Nat.zero_add]

/-- Lines 530-535: `do = (delta * tanh(cs)) * (o * (1 - o))` goes to slot 3. -/
theorem bwd_gate_do_value (lm : Libm α) (N K j : Nat) (s : Mem Buf α) (n k : Nat)
    (hn : n < N) (hk : k < K) :
    (bwd_gate_do lm N K j s).read (dicfo_elem N K j n (3 * K + k))
      = s.read ((seq_at .deltagoldt j (K * N)).idx (n * K + k))
          * lm.tanh (s.read ((seq_at .csgoldt j (K * N)).idx (n * K + k)))
        * (s.read (icfo_elem N K j n (3 * K + k))
            * (1 - s.read (icfo_elem N K j n (3 * K + k)))) := by
  rw [← dicfo_at_idx]
  unfold bwd_gate_do
  dsimp only
  simp (disch := with_unfolding_all first
      | exact he
      | exact hn
      | exact hk
      | exact tile_index_lt hn hk
      | exact Nat.le_mul_of_pos_left K (by decide)
      | exact Or.inl (fun he => Buf.noConfusion he)
      | (intro k' hk'; exact idx_ne_of_skip (Or.inl (fun he => Buf.noConfusion he)) k')
      | (intro r x hr hx; exact idx_ne_of_skip (Or.inl (fun he => Buf.noConfusion he)) _)
      | (intro k' hk'; exact idx_ne_idx (Nat.ne_of_lt hk'))) only
    [matrix_eltwise_mult_ld_c_value, matrix_complement_ld_value,
      matrix_complement_ld_skip, matrix_eltwise_mult_ld_a_value,
      matrix_eltwise_mult_ld_a_skip, matrix_eltwise_mult_value, matrix_eltwise_mult_skip,
      matrix_tanh_value, matrix_tanh_skip, icfo_at_idx, tile_div, tile_mod, Nat.zero_add]

end BackwardValues

section BackwardFrames

variable {α : Type} [Zero α] [One α] [Add α] [Sub α] [Mul α] [Div α] [Neg α]

theorem seq_above {b : Buf} {q : Ptr Buf} {j s : Nat} (hq : q.buf ≠ b ∨ (j + 1) * s ≤ q.off) :
    q.buf ≠ (seq_at b j s).buf ∨ (seq_at b j s).off + s ≤ q.off := by
  rcases hq with hq | hq
  · exact Or.inl hq
  · right
    rw [seq_at_off0]
    rw [Nat.add_mul] at hq
    omega

theorem bwd_delta_skip (N K T j : Nat) (q : Ptr Buf) (s : Mem Buf α)
    (hq : q.buf ≠ .deltagoldt ∨ (j + 1) * (K * N) ≤ q.off) :
    (bwd_delta N K T j s).read q = s.read q := by
  unfold bwd_delta
  split
  · rename_i hj
    rw [← hj]
    exact matrix_copy_above _ _ _ _ _ (seq_above hq)
  · exact matrix_add_above _ _ _ _ _ _ (seq_above hq)

theorem bwd_dcsp_skip (lm : Libm α) (N K T j : Nat) (q : Ptr Buf) (s : Mem Buf α)
    (h1 : q.buf ≠ .t1gold) (h2 : q.buf ≠ .t2gold) (h3 : q.buf ≠ .t3gold)
    (h4 : q.buf ≠ .dcspgold) :
    (bwd_dcsp lm N K T j s).read q = s.read q := by
  unfold bwd_dcsp
  dsimp only
  split
  all_goals
    simp (disch := with_unfolding_all first
      | exact Or.inl h1 | exact Or.inl h2 | exact Or.inl h3 | exact Or.inl h4) only
      [matrix_add_skip, matrix_eltwise_mult_skip, matrix_tanh_inverse_skip,
        matrix_eltwise_mult_ld_a_skip]

/-- A location at or beyond the end of timestep `j` of `dicfogoldt` is none of its
elements. -/
theorem dicfo_above {N K j : Nat} {q : Ptr Buf}
    (hq : q.buf ≠ .dicfogoldt ∨ (j + 1) * (N * (4 * K)) ≤ q.off) (row c : Nat)
    (hrow : row < N) (hc : c < 4 * K) : dicfo_elem N K j row c ≠ q := by
  intro he
  rcases hq with hq | hq
  · exact hq (by rw [← he]; rfl)
  · have h1 : (dicfo_elem N K j row c).off = q.off := by rw [he]
    rw [dicfo_elem_off] at h1
    have h2 : (row + 1) * (4 * K) ≤ N * (4 * K) := Nat.mul_le_mul_right _ hrow
    rw [Nat.add_mul] at h2 hq
    rw [Nat.add_mul] at h1
    rw [Nat.mul_assoc] at h1
    omega

theorem bwd_gate_dc_frame (N K j : Nat) (q : Ptr Buf) (s : Mem Buf α)
    (h1 : q.buf ≠ .t1gold) (h2 : q.buf ≠ .t2gold)
    (h4 : ∀ row col, row < N → col < K → dicfo_elem N K j row (K + col) ≠ q) :
    (bwd_gate_dc N K j s).read q = s.read q := by
  unfold bwd_gate_dc
  dsimp only
  rw [matrix_eltwise_mult_ld_c_frame _ _ _ _ _ _ _ _
    (fun row col hrow hcol => by rw [dicfo_at_idx]; exact h4 row col hrow hcol)]
  simp (disch := with_unfolding_all first
      | exact Or.inl h1 | exact Or.inl h2) only
      [matrix_complement_square_ld_skip, matrix_eltwise_mult_ld_a_skip]

theorem bwd_gate_di_frame (N K j : Nat) (q : Ptr Buf) (s : Mem Buf α)
    (h1 : q.buf ≠ .t1gold) (h2 : q.buf ≠ .t2gold) (h3 : q.buf ≠ .t3gold)
    (h4 : ∀ row col, row < N → col < K → dicfo_elem N K j row col ≠ q) :
    (bwd_gate_di N K j s).read q = s.read q := by
  unfold bwd_gate_di
  dsimp only
  rw [matrix_eltwise_mult_ld_c_frame _ _ _ _ _ _ _ _
    (fun row col hrow hcol => by
      rw [dicfo_at_idx, Nat.zero_add]; exact h4 row col hrow hcol)]
  simp (disch := with_unfolding_all first
      | exact Or.inl h1 | exact Or.inl h2 | exact Or.inl h3) only
      [matrix_complement_ld_skip, matrix_eltwise_mult_ld_a_skip]

theorem bwd_gate_df_frame (N K j : Nat) (q : Ptr Buf) (s : Mem Buf α)
    (h1 : q.buf ≠ .t1gold) (h2 : q.buf ≠ .t2gold) (h3 : q.buf ≠ .t3gold)
    (h4 : ∀ row col, row < N → col < K → dicfo_elem N K j row (2 * K + col) ≠ q) :
    (bwd_gate_df N K j s).read q = s.read q := by
  unfold bwd_gate_df
  dsimp only
  rw [matrix_eltwise_mult_ld_c_frame _ _ _ _ _ _ _ _
    (fun row col hrow hcol => by rw [dicfo_at_idx]; exact h4 row col hrow hcol)]
  split
  all_goals
    simp (disch := with_unfolding_all first
        | exact Or.inl h1 | exact Or.inl h2 | exact Or.inl h3) only
        [matrix_complement_ld_skip, matrix_eltwise_mult_ld_a_skip, matrix_eltwise_mult_skip]

theorem bwd_gate_do_frame (lm : Libm α) (N K j : Nat) (q : Ptr Buf) (s : Mem Buf α)
    (h1 : q.buf ≠ .t1gold) (h2 : q.buf ≠ .t2gold)
    (h4 : ∀ row col, row < N → col < K → dicfo_elem N K j row (3 * K + col) ≠ q) :
    (bwd_gate_do lm N K j s).read q = s.read q := by
  unfold bwd_gate_do
  dsimp only
  rw [matrix_eltwise_mult_ld_c_frame _ _ _ _ _ _ _ _
    (fun row col hrow hcol => by rw [dicfo_at_idx]; exact h4 row col hrow hcol)]
  simp (disch := with_unfolding_all first
      | exact Or.inl h1 | exact Or.inl h2) only
      [matrix_complement_ld_skip, matrix_eltwise_mult_ld_a_skip, matrix_eltwise_mult_skip,
        matrix_tanh_skip]

/-- The gate gradients are the four sub-chains in the order of the source. -/
theorem bwd_gates_eq (lm : Libm α) (N K j : Nat) (s : Mem Buf α) :
    bwd_gates lm N K j s
      = bwd_gate_do lm N K j (bwd_gate_df N K j (bwd_gate_di N K j (bwd_gate_dc N K j s))) :=
  rfl

theorem bwd_gates_frame (lm : Libm α) (N K j : Nat) (q : Ptr Buf) (s : Mem Buf α)
    (h1 : q.buf ≠ .t1gold) (h2 : q.buf ≠ .t2gold) (h3 : q.buf ≠ .t3gold)
    (h4 : ∀ row c, row < N → c < 4 * K → dicfo_elem N K j row c ≠ q) :
    (bwd_gates lm N K j s).read q = s.read q := by
  rw [bwd_gates_eq,
    bwd_gate_do_frame lm N K j q _ h1 h2 (fun r x hr hx => h4 r _ hr (by omega)),
    bwd_gate_df_frame N K j q _ h1 h2 h3 (fun r x hr hx => h4 r _ hr (by omega)),
    bwd_gate_di_frame N K j q _ h1 h2 h3 (fun r x hr hx => h4 r _ hr (by omega)),
    bwd_gate_dc_frame N K j q _ h1 h2 (fun r x hr hx => h4 r _ hr (by omega))]

theorem bwd_gates_skip (lm : Libm α) (N K j : Nat) (q : Ptr Buf) (s : Mem Buf α)
    (h1 : q.buf ≠ .t1gold) (h2 : q.buf ≠ .t2gold) (h3 : q.buf ≠ .t3gold)
    (h4 : q.buf ≠ .dicfogoldt ∨ (j + 1) * (N * (4 * K)) ≤ q.off) :
    (bwd_gates lm N K j s).read q = s.read q :=
  bwd_gates_frame lm N K j q s h1 h2 h3 (dicfo_above h4)

theorem bwd_dcsp_update_skip (N K j : Nat) (q : Ptr Buf) (s : Mem Buf α)
    (h1 : q.buf ≠ .dcspgold) :
    (bwd_dcsp_update N K j s).read q = s.read q :=
  matrix_eltwise_mult_ld_a_skip _ _ _ _ _ _ _ _ (Or.inl h1)

end BackwardFrames

section BackwardGates

variable {α : Type} [Zero α] [One α] [Add α] [Sub α] [Mul α] [Div α] [Neg α]

theorem dicfo_elem_ne {N K j n n' c c' : Nat} (hn : n < N) (hn' : n' < N) (hc : c < 4 * K)
    (hc' : c' < 4 * K) (hne : c ≠ c') : dicfo_elem N K j n c ≠ dicfo_elem N K j n' c' :=
  fun he => hne (dicfo_elem_inj hn hn' hc hc' he).2.2

/-- The gate gradients leave every buffer but `t1gold`, `t2gold`, `t3gold` and
`dicfogoldt` as it is, also midway. -/
theorem bwd_gate_dc_skip (N K j : Nat) (q : Ptr Buf) (s : Mem Buf α)
    (h1 : q.buf ≠ .t1gold) (h2 : q.buf ≠ .t2gold) (h4 : q.buf ≠ .dicfogoldt) :
    (bwd_gate_dc N K j s).read q = s.read q :=
  bwd_gate_dc_frame N K j q s h1 h2 (fun r x hr hx => dicfo_above (Or.inl h4) r _ hr (by omega))

theorem bwd_gate_di_skip (N K j : Nat) (q : Ptr Buf) (s : Mem Buf α)
    (h1 : q.buf ≠ .t1gold) (h2 : q.buf ≠ .t2gold) (h3 : q.buf ≠ .t3gold)
    (h4 : q.buf ≠ .dicfogoldt) :
    (bwd_gate_di N K j s).read q = s.read q :=
  bwd_gate_di_frame N K j q s h1 h2 h3
    (fun r x hr hx => dicfo_above (Or.inl h4) r _ hr (by omega))

theorem bwd_gate_df_skip (N K j : Nat) (q : Ptr Buf) (s : Mem Buf α)
    (h1 : q.buf ≠ .t1gold) (h2 : q.buf ≠ .t2gold) (h3 : q.buf ≠ .t3gold)
    (h4 : q.buf ≠ .dicfogoldt) :
    (bwd_gate_df N K j s).read q = s.read q :=
  bwd_gate_df_frame N K j q s h1 h2 h3
    (fun r x hr hx => dicfo_above (Or.inl h4) r _ hr (by omega))

/-- Slot 0 of `dicfo` after the gate gradients: `di = (c * dcs) * (i * (1 - i))`. -/
theorem bwd_gates_di (lm : Libm α) (N K j : Nat) (s : Mem Buf α) (n k : Nat) (hn : n < N)
    (hk : k < K) :
    (bwd_gates lm N K j s).read (dicfo_elem N K j n k)
      = s.read (icfo_elem N K j n (K + k)) * s.read ((base .dcspgold).idx (n * K + k))
        * (s.read (icfo_elem N K j n k) * (1 - s.read (icfo_elem N K j n k))) := by
  rw [bwd_gates_eq,
    bwd_gate_do_frame lm N K j (dicfo_elem N K j n k) _ nofun nofun
      (fun r x hr hx => dicfo_elem_ne hr hn (by omega) (by omega) (by omega)),
    bwd_gate_df_frame N K j (dicfo_elem N K j n k) _ nofun nofun nofun
      (fun r x hr hx => dicfo_elem_ne hr hn (by omega) (by omega) (by omega)),
    bwd_gate_di_value N K j _ n k hn hk]
  simp (disch := with_unfolding_all exact fun he => Buf.noConfusion he) only [bwd_gate_dc_skip]

/-- Slot 1 of `dicfo` after the gate gradients: `dc = (i * dcs) * (1 - c * c)`. -/
theorem bwd_gates_dc (lm : Libm α) (N K j : Nat) (s : Mem Buf α) (n k : Nat) (hn : n < N)
    (hk : k < K) :
    (bwd_gates lm N K j s).read (dicfo_elem N K j n (K + k))
      = s.read (icfo_elem N K j n k) * s.read ((base .dcspgold).idx (n * K + k))
        * (1 - s.read (icfo_elem N K j n (K + k)) * s.read (icfo_elem N K j n (K + k))) := by
  rw [bwd_gates_eq,
    bwd_gate_do_frame lm N K j (dicfo_elem N K j n (K + k)) _ nofun nofun
      (fun r x hr hx => dicfo_elem_ne hr hn (by omega) (by omega) (by omega)),
    bwd_gate_df_frame N K j (dicfo_elem N K j n (K + k)) _ nofun nofun nofun
      (fun r x hr hx => dicfo_elem_ne hr hn (by omega) (by omega) (by omega)),
    bwd_gate_di_frame N K j (dicfo_elem N K j n (K + k)) _ nofun nofun nofun
      (fun r x hr hx => dicfo_elem_ne hr hn (by omega) (by omega) (by omega)),
    bwd_gate_dc_value N K j _ n k hn hk]

/-- Slot 2 of `dicfo` after the gate gradients: `df = (dcs * cs_prev) * (f * (1 - f))`. -/
theorem bwd_gates_df (lm : Libm α) (N K j : Nat) (s : Mem Buf α) (n k : Nat) (hn : n < N)
    (hk : k < K) :
    (bwd_gates lm N K j s).read (dicfo_elem N K j n (2 * K + k))
      = s.read ((base .dcspgold).idx (n * K + k)) * s.read (cs_prev N K j (n * K + k))
        * (s.read (icfo_elem N K j n (2 * K + k))
            * (1 - s.read (icfo_elem N K j n (2 * K + k)))) := by
  have hcs : (cs_prev N K j (n * K + k)).buf ≠ .t1gold
      ∧ (cs_prev N K j (n * K + k)).buf ≠ .t2gold
      ∧ (cs_prev N K j (n * K + k)).buf ≠ .t3gold
      ∧ (cs_prev N K j (n * K + k)).buf ≠ .dicfogoldt := by
    unfold cs_prev
    split <;> exact ⟨nofun, nofun, nofun, nofun⟩
  rw [bwd_gates_eq,
    bwd_gate_do_frame lm N K j (dicfo_elem N K j n (2 * K + k)) _ nofun nofun
      (fun r x hr hx => dicfo_elem_ne hr hn (by omega) (by omega) (by omega)),
    bwd_gate_df_value N K j _ n k hn hk,
    bwd_gate_di_skip N K j (cs_prev N K j (n * K + k)) _ hcs.1 hcs.2.1 hcs.2.2.1 hcs.2.2.2,
    bwd_gate_dc_skip N K j (cs_prev N K j (n * K + k)) _ hcs.1 hcs.2.1 hcs.2.2.2]
  simp (disch := with_unfolding_all exact fun he => Buf.noConfusion he) only
    [bwd_gate_dc_skip, bwd_gate_di_skip]

/-- Slot 3 of `dicfo` after the gate gradients:
`do = (delta * tanh(cs)) * (o * (1 - o))`. -/
theorem bwd_gates_do (lm : Libm α) (N K j : Nat) (s : Mem Buf α) (n k : Nat) (hn : n < N)
    (hk : k < K) :
    (bwd_gates lm N K j s).read (dicfo_elem N K j n (3 * K + k))
      = s.read ((seq_at .deltagoldt j (K * N)).idx (n * K + k))
          * lm.tanh (s.read ((seq_at .csgoldt j (K * N)).idx (n * K + k)))
        * (s.read (icfo_elem N K j n (3 * K + k))
            * (1 - s.read (icfo_elem N K j n (3 * K + k)))) := by
  rw [bwd_gates_eq, bwd_gate_do_value lm N K j _ n k hn hk]
  simp (disch := with_unfolding_all exact fun he => Buf.noConfusion he) only
    [bwd_gate_dc_skip, bwd_gate_di_skip, bwd_gate_df_skip]

/-- Lines 536-537: `dcsp = f * dcsp`. -/
theorem bwd_dcsp_update_value (N K j : Nat) (s : Mem Buf α) (e : Nat) (he : e < K * N) :
    (bwd_dcsp_update N K j s).read ((base .dcspgold).idx e)
      = s.read (icfo_elem N K j (e / K) (2 * K + e % K)) * s.read ((base .dcspgold).idx e) := by
  unfold bwd_dcsp_update
  rw [matrix_eltwise_mult_ld_a_value K N (4 * K) (icfo_at N K j (2 * K)) (base .dcspgold)
      (base .dcspgold) s e he (fun k _ => by apply idx_ne_of_skip; exact Or.inl nofun)
      (fun k hk => idx_ne_idx (Nat.ne_of_lt hk)),
    icfo_at_idx]

end BackwardGates

section BackwardGemm

variable {α : Type} [Zero α] [One α] [Add α] [Sub α] [Mul α] [Div α] [Neg α]

theorem dx_above {N C j : Nat} {q : Ptr Buf}
    (hq : q.buf ≠ .dxgoldt ∨ (j + 1) * (N * C) ≤ q.off) :
    q.buf ≠ (seq_at .dxgoldt j (N * C)).buf
      ∨ (seq_at .dxgoldt j (N * C)).off + C * N ≤ q.off := by
  rw [Nat.mul_comm C N]
  exact seq_above hq

theorem dout_above {N K j : Nat} {q : Ptr Buf} (hj : j > 0)
    (hq : q.buf ≠ .doutgoldt ∨ j * (K * N) ≤ q.off) :
    q.buf ≠ (seq_at .doutgoldt (j - 1) (K * N)).buf
      ∨ (seq_at .doutgoldt (j - 1) (K * N)).off + K * N ≤ q.off := by
  apply seq_above
  rw [Nat.sub_add_cancel hj]
  exact hq

/-- The multiplies of the backward step of timestep `j` write whole scratch buffers, the
slice of timestep `j` of `dxgoldt` and the slice of timestep `j - 1` of `doutgoldt`. -/
theorem bwd_gemm_skip (two_gemms : Bool) (N C K j : Nat) (q : Ptr Buf) (s : Mem Buf α)
    (h1 : q.buf ≠ .dhpgold) (h2 : q.buf ≠ .dwgold) (h3 : q.buf ≠ .drgold)
    (h4 : q.buf ≠ .dxhgold) (h5 : q.buf ≠ .xhgold)
    (hx : q.buf ≠ .dxgoldt ∨ (j + 1) * (N * C) ≤ q.off)
    (ho : q.buf ≠ .doutgoldt ∨ j * (K * N) ≤ q.off) :
    (bwd_gemm two_gemms N C K j s).read q = s.read q := by
  unfold bwd_gemm
  rcases Nat.eq_zero_or_pos j with hj | hj
  · subst hj
    cases two_gemms
    all_goals simp only [if_true, if_false, Bool.false_eq_true, gt_iff_lt, Nat.lt_irrefl]
    all_goals
      simp (disch := with_unfolding_all first
        | exact Or.inl h1 | exact Or.inl h2 | exact Or.inl h3 | exact Or.inl h4
        | exact h5 | exact dx_above hx) only
        [gemm_skip, gemm_beta0_skip, gemm_above, gemm_beta0_above, matrix_copy_ld_above, concat_xh_skip]
  · have hj0 : j ≠ 0 := Nat.pos_iff_ne_zero.mp hj
    cases two_gemms
    all_goals simp only [if_true, if_false, Bool.false_eq_true, gt_iff_lt, hj, hj0]
    all_goals
      simp (disch := with_unfolding_all first
        | exact Or.inl h1 | exact Or.inl h2 | exact Or.inl h3 | exact Or.inl h4
        | exact h5 | exact dx_above hx | exact dout_above hj ho) only
        [gemm_skip, gemm_beta0_skip, gemm_above, gemm_beta0_above, matrix_copy_ld_above, concat_xh_skip]

theorem dout_prev_eq (N K j e : Nat) :
    dout_prev N K j e
      = (if j = 0 then base .dhpgold else seq_at .doutgoldt (j - 1) (K * N)).idx e := by
  unfold dout_prev
  split <;> rfl

/-- Lines 541-546: `dout = R4^T * dicfo` under `TWO_GEMMS`, with `beta0 = 0`. -/
theorem bwd_gemm_two_rec (N C K j : Nat) (s : Mem Buf α) (n k : Nat) (hn : n < N)
    (hk : k < K) :
    (bwd_gemm true N C K j s).read (dout_prev N K j (k + n * K))
      = 1 * sumTo (K * 4) (fun l =>
          s.read ((base .r4gold).idx (l + k * (K * 4))) * s.read (dicfo_elem N K j n l)) := by
  unfold bwd_gemm dout_prev
  simp only [if_true]
  by_cases hj : j = 0
  · subst hj
    simp only [if_true, gt_iff_lt, Nat.lt_irrefl, if_false]
    simp (disch := with_unfolding_all exact Or.inl (fun he => Buf.noConfusion he)) only
      [gemm_skip, gemm_beta0_skip]
    rw [gemm_beta0_value true false K N (K * 4) 1 _ _ _ _ _ _ _ (Nat.le_refl _) k n hk hn]
    simp only [if_true, if_false, Bool.false_eq_true, dicfo_at_gemm]
  · have hj2 : j > 0 := Nat.pos_of_ne_zero hj
    simp only [hj, hj2, if_true, if_false]
    simp (disch := with_unfolding_all exact Or.inl (fun he => Buf.noConfusion he)) only
      [gemm_skip, gemm_beta0_skip]
    rw [gemm_beta0_value true false K N (K * 4) 1 _ _ _ _ _ _ _ (Nat.le_refl _) k n hk hn]
    simp only [if_true, if_false, Bool.false_eq_true, dicfo_at_gemm]

/-- Lines 548-549: the input gradient under `TWO_GEMMS`, with `beta = 1`. -/
theorem bwd_gemm_two_dx (N C K j : Nat) (s : Mem Buf α) (n c : Nat) (hn : n < N)
    (hc : c < C) :
    (bwd_gemm true N C K j s).read ((seq_at .dxgoldt j (N * C)).idx (c + n * C))
      = 1 * sumTo (K * 4) (fun l =>
          s.read ((base .w4gold).idx (l + c * (K * 4))) * s.read (dicfo_elem N K j n l))
        + 1 * s.read ((seq_at .dxgoldt j (N * C)).idx (c + n * C)) := by
  unfold bwd_gemm
  simp only [if_true]
  split_ifs
  all_goals
    simp (disch := with_unfolding_all exact Or.inl (fun he => Buf.noConfusion he)) only
      [gemm_skip, gemm_beta0_skip]
    rw [gemm_value true false C N (K * 4) 1 _ _ _ _ 1 _ _ _ (Nat.le_refl _) c n hc hn]
    simp (disch := with_unfolding_all exact Or.inl (fun he => Buf.noConfusion he)) only
      [if_true, if_false, Bool.false_eq_true, dicfo_at_gemm, gemm_skip, gemm_beta0_skip]

/-- Lines 551-552: the weight gradient under `TWO_GEMMS`. -/
theorem bwd_gemm_two_dw (N C K j : Nat) (s : Mem Buf α) (c q : Nat) (hc : c < C)
    (hq : q < 4 * K) :
    (bwd_gemm true N C K j s).read ((base .dwgold).idx (q + c * (K * 4)))
      = 1 * sumTo N (fun n =>
          s.read (dicfo_elem N K j n q) * s.read ((seq_at .xgoldt j (N * C)).idx (c + n * C)))
        + 1 * s.read ((base .dwgold).idx (q + c * (K * 4))) := by
  unfold bwd_gemm
  simp only [if_true]
  split_ifs
  all_goals
    simp (disch := with_unfolding_all exact Or.inl (fun he => Buf.noConfusion he)) only
      [gemm_skip, gemm_beta0_skip]
    rw [gemm_value false true (K * 4) C N 1 _ _ _ _ 1 _ _ _ (Nat.le_refl _) q c (by omega) hc]
    simp (disch := with_unfolding_all exact Or.inl (fun he => Buf.noConfusion he)) only
      [if_true, if_false, Bool.false_eq_true, dicfo_at_gemm, gemm_skip, gemm_beta0_skip]

/-- Lines 554-559: the recurrent-weight gradient under `TWO_GEMMS`. -/
theorem bwd_gemm_two_dr (N C K j : Nat) (s : Mem Buf α) (i q : Nat) (hi : i < K)
    (hq : q < 4 * K) :
    (bwd_gemm true N C K j s).read ((base .drgold).idx (q + i * (K * 4)))
      = 1 * sumTo N (fun n =>
          s.read (dicfo_elem N K j n q) * s.read (h_prev N K j (i + n * K)))
        + 1 * s.read ((base .drgold).idx (q + i * (K * 4))) := by
  unfold bwd_gemm h_prev
  simp only [if_true]
  by_cases hj : j = 0
  · subst hj
    simp only [if_true, gt_iff_lt, Nat.lt_irrefl, if_false]
    rw [gemm_value false true (K * 4) K N 1 _ _ _ _ 1 _ _ _ (Nat.le_refl _) q i (by omega) hi]
    simp (disch := with_unfolding_all exact Or.inl (fun he => Buf.noConfusion he)) only
      [if_true, if_false, Bool.false_eq_true, dicfo_at_gemm, gemm_skip, gemm_beta0_skip]
  · have hj2 : j > 0 := Nat.pos_of_ne_zero hj
    simp only [hj, hj2, if_true, if_false]
    rw [gemm_value false true (K * 4) K N 1 _ _ _ _ 1 _ _ _ (Nat.le_refl _) q i (by omega) hi]
    simp (disch := with_unfolding_all exact Or.inl (fun he => Buf.noConfusion he)) only
      [if_true, if_false, Bool.false_eq_true, dicfo_at_gemm, gemm_skip, gemm_beta0_skip]

/-- The state of the default build after the multiply into `dxhgold` and the two copies
out of it keeps every buffer but `dxhgold`, `dxgoldt`, `doutgoldt` and `dhpgold`. -/
theorem bwd_gemm_single_dxh (N C K j : Nat) (s : Mem Buf α) (n i : Nat) (hn : n < N)
    (hi : i < C + K) :
    (gemm_beta0 true false (C + K) N (K * 4) 1 (base .wr8gold) (K * 4) (dicfo_at N K j 0)
        (K * 4) (base .dxhgold) (C + K) s).read ((base .dxhgold).idx (i + n * (C + K)))
      = 1 * sumTo (K * 4) (fun l =>
          s.read ((base .wr8gold).idx (l + i * (K * 4))) * s.read (dicfo_elem N K j n l)) := by
  rw [gemm_beta0_value true false (C + K) N (K * 4) 1 _ _ _ _ _ _ _ (Nat.le_refl _) i n hi hn]
  simp only [if_true, if_false, Bool.false_eq_true, dicfo_at_gemm]

/-- Lines 560-562: the input gradient of the default build, copied out of `dxhgold`. -/
theorem bwd_gemm_single_dx (N C K j : Nat) (s : Mem Buf α) (n c : Nat) (hn : n < N)
    (hc : c < C) :
    (bwd_gemm false N C K j s).read ((seq_at .dxgoldt j (N * C)).idx (n * C + c))
      = 1 * sumTo (K * 4) (fun l =>
          s.read ((base .wr8gold).idx (l + c * (K * 4))) * s.read (dicfo_elem N K j n l)) := by
  unfold bwd_gemm
  simp only [if_false, Bool.false_eq_true]
  split_ifs
  all_goals
    simp (disch := with_unfolding_all first
      | exact Or.inl (fun he => Buf.noConfusion he)
      | exact fun he => Buf.noConfusion he) only
      [gemm_skip, gemm_beta0_skip, concat_xh_skip, matrix_copy_ld_skip]
    rw [matrix_copy_ld_value C N (C + K) (base .dxhgold) (seq_at .dxgoldt j (N * C)) _
      (n * C + c) (tile_index_lt hn hc)
      (fun k _ => by apply idx_ne_of_skip; exact Or.inl nofun),
      tile_div hc, tile_mod hc, Nat.add_comm (n * (C + K)) c,
      bwd_gemm_single_dxh N C K j s n c hn (by omega)]

/-- Lines 563-567: the recurrent delta of the default build, copied out of `dxhgold`. -/
theorem bwd_gemm_single_rec (N C K j : Nat) (s : Mem Buf α) (n k : Nat) (hn : n < N)
    (hk : k < K) :
    (bwd_gemm false N C K j s).read (dout_prev N K j (n * K + k))
      = 1 * sumTo (K * 4) (fun l =>
          s.read ((base .wr8gold).idx (l + (C + k) * (K * 4)))
            * s.read (dicfo_elem N K j n l)) := by
  have hp : ∀ x : Nat, ((base Buf.dxhgold).idx C).idx (n * (C + K) + x)
      = (base Buf.dxhgold).idx (C + x + n * (C + K)) := by
    intro x
    rw [Ptr.idx_idx]
    congr 1
    omega
  unfold bwd_gemm dout_prev
  simp only [if_false, Bool.false_eq_true]
  rcases Nat.eq_zero_or_pos j with hj | hj
  · subst hj
    simp only [if_true, if_false, gt_iff_lt, Nat.lt_irrefl]
    simp (disch := with_unfolding_all first
      | exact Or.inl (fun he => Buf.noConfusion he)
      | exact fun he => Buf.noConfusion he) only
      [gemm_skip, gemm_beta0_skip, concat_xh_skip]
    rw [matrix_copy_ld_value K N (C + K) ((base .dxhgold).idx C) (base .dhpgold) _
      (n * K + k) (tile_index_lt hn hk)
      (fun k _ => by apply idx_ne_of_skip; exact Or.inl nofun),
      tile_div hk, tile_mod hk, hp]
    simp (disch := with_unfolding_all exact Or.inl (fun he => Buf.noConfusion he)) only
      [matrix_copy_ld_skip]
    rw [bwd_gemm_single_dxh N C K 0 s n (C + k) hn (by omega)]
  · have hj0 : j ≠ 0 := Nat.pos_iff_ne_zero.mp hj
    simp only [if_true, if_false, gt_iff_lt, hj, hj0]
    simp (disch := with_unfolding_all first
      | exact Or.inl (fun he => Buf.noConfusion he)
      | exact fun he => Buf.noConfusion he) only
      [gemm_skip, gemm_beta0_skip, concat_xh_skip]
    rw [matrix_copy_ld_value K N (C + K) ((base .dxhgold).idx C)
      (seq_at .doutgoldt (j - 1) (K * N)) _
      (n * K + k) (tile_index_lt hn hk)
      (fun k _ => by apply idx_ne_of_skip; exact Or.inl nofun),
      tile_div hk, tile_mod hk, hp]
    simp (disch := with_unfolding_all exact Or.inl (fun he => Buf.noConfusion he)) only
      [matrix_copy_ld_skip]
    rw [bwd_gemm_single_dxh N C K j s n (C + k) hn (by omega)]

/-- Lines 569-576: the gradient of the fused `(C+K) x 4K` weight of the default build. -/
theorem bwd_gemm_single_dw (N C K j : Nat) (s : Mem Buf α) (r q : Nat) (hr : r < C + K)
    (hq : q < 4 * K) :
    (bwd_gemm false N C K j s).read ((base .dwgold).idx (q + r * (K * 4)))
      = 1 * sumTo N (fun n =>
          s.read (dicfo_elem N K j n q)
            * (if r < C then s.read ((seq_at .xgoldt j (N * C)).idx (r + n * C))
               else s.read (h_prev N K j (r - C + n * K))))
        + 1 * s.read ((base .dwgold).idx (q + r * (K * 4))) := by
  have hpb : (h_prev N K j 0).buf ≠ .dxhgold ∧ (h_prev N K j 0).buf ≠ .dxgoldt
      ∧ (h_prev N K j 0).buf ≠ .doutgoldt ∧ (h_prev N K j 0).buf ≠ .dhpgold := by
    unfold h_prev
    split <;> exact ⟨nofun, nofun, nofun, nofun⟩
  have hpe : ∀ e, (h_prev N K j e).buf = (h_prev N K j 0).buf := by
    intro e
    unfold h_prev
    split <;> rfl
  unfold bwd_gemm
  simp only [if_false, Bool.false_eq_true]
  rw [gemm_value false true (K * 4) (C + K) N 1 _ _ _ _ 1 _ _ _ (Nat.le_refl _) q r
    (by omega) hr]
  simp only [if_true, if_false, Bool.false_eq_true, dicfo_at_gemm]
  congr 2
  · apply sumTo_congr
    intro n hn
    rw [concat_xh_value N C K j _ n r hn hr]
    split_ifs
    all_goals
      simp (disch := with_unfolding_all first
        | exact Or.inl (fun he => Buf.noConfusion he)
        | exact fun he => Buf.noConfusion he
        | (rw [hpe]; exact Or.inl hpb.1)
        | (rw [hpe]; exact Or.inl hpb.2.1)
        | (rw [hpe]; exact Or.inl hpb.2.2.1)
        | (rw [hpe]; exact Or.inl hpb.2.2.2)) only
        [gemm_skip, gemm_beta0_skip, concat_xh_skip, matrix_copy_ld_skip]
  · split_ifs
    all_goals
      simp (disch := with_unfolding_all first
        | exact Or.inl (fun he => Buf.noConfusion he)
        | exact fun he => Buf.noConfusion he) only
        [gemm_skip, gemm_beta0_skip, concat_xh_skip, matrix_copy_ld_skip]

end BackwardGemm

section BackwardBias

variable {α : Type} [Zero α] [One α] [Add α] [Sub α] [Mul α] [Div α] [Neg α]

theorem dicfo_vla3 (N K j p c : Nat) :
    (base .dicfogoldt).idx (vla3 j p c N (4 * K)) = dicfo_elem N K j p c := rfl

/-- The bias-gradient loop at an element of `dbgold` in the index form of the source:
`l`, `l + K`, `l + 2*K` or `l + 3*K`. -/
theorem bwd_db_slot (N K j : Nat) (s : Mem Buf α) (k c : Nat) (hk : k < K)
    (hc : c = k ∨ c = k + K ∨ c = k + 2 * K ∨ c = k + 3 * K) :
    (bwd_db N K j s).read ((base .dbgold).idx c)
      = sumFrom (s.read ((base .dbgold).idx c)) N
          (fun p => s.read (dicfo_elem N K j p c)) := by
  unfold bwd_db
  rw [forLoop_read_last K _ _ k hk]
  · have hpre : ∀ q : Ptr Buf, (q.buf ≠ .dbgold ∨ q = (base .dbgold).idx c) →
        (forLoop k (fun l h => forLoop N (fun p h =>
          let h := h.write ((base .dbgold).idx l)
            (h.read ((base .dbgold).idx l)
              + h.read ((base .dicfogoldt).idx (vla3 j p l N (4 * K))))
          let h := h.write ((base .dbgold).idx (l + K))
            (h.read ((base .dbgold).idx (l + K))
              + h.read ((base .dicfogoldt).idx (vla3 j p (l + K) N (4 * K))))
          let h := h.write ((base .dbgold).idx (l + 2 * K))
            (h.read ((base .dbgold).idx (l + 2 * K))
              + h.read ((base .dicfogoldt).idx (vla3 j p (l + 2 * K) N (4 * K))))
          h.write ((base .dbgold).idx (l + 3 * K))
            (h.read ((base .dbgold).idx (l + 3 * K))
              + h.read ((base .dicfogoldt).idx (vla3 j p (l + 3 * K) N (4 * K))))) h) s).read q
          = s.read q := by
      intro q hq
      refine forLoop_read_frame k _ q (fun l hl h => ?_) s
      refine forLoop_read_frame N _ q (fun p _ h => ?_) h
      rcases hq with hq | hq
      · have hne : ∀ i, (base .dbgold).idx i ≠ q := fun i => idx_ne_of_skip (Or.inl hq) i
        simp only [Mem.read_write_ne _ _ (hne _)]
      · subst hq
        dsimp only
        rcases hc with rfl | rfl | rfl | rfl
        all_goals
          simp (disch := with_unfolding_all first
            | exact fun he => Buf.noConfusion (congrArg Ptr.buf he)
            | (intro he; have h9 := congrArg Ptr.off he; simp only [Ptr.idx_off] at h9; omega))
            only [Mem.read_write_ne]
    refine (forLoop_induct N _
      (fun p (x : Mem Buf α) => x.read ((base .dbgold).idx c)
          = sumFrom (s.read ((base .dbgold).idx c)) p
              (fun p => s.read (dicfo_elem N K j p c))
        ∧ ∀ q : Ptr Buf, q.buf ≠ .dbgold → x.read q = s.read q) _ ⟨?_, ?_⟩ ?_).1
    · exact hpre _ (Or.inr rfl)
    · exact fun q hq => hpre q (Or.inl hq)
    · intro p hp x ⟨hx1, hx2⟩
      constructor
      · show _ = sumFrom _ p _ + s.read (dicfo_elem N K j p c)
        rw [← hx1, ← hx2 (dicfo_elem N K j p c) nofun]
        dsimp only
        rcases hc with rfl | rfl | rfl | rfl
        all_goals
          simp (disch := with_unfolding_all first
            | exact fun he => Buf.noConfusion (congrArg Ptr.buf he)
            | (intro he; have h9 := congrArg Ptr.off he; simp only [Ptr.idx_off] at h9; omega))
            only
            [Mem.read_write_ne, Mem.read_write_same, dicfo_vla3]
      · intro q hq
        have hne : ∀ i, (base .dbgold).idx i ≠ q := fun i => idx_ne_of_skip (Or.inl hq) i
        simp only [Mem.read_write_ne _ _ (hne _)]
        exact hx2 q hq
  · intro l hkl hlK h
    refine forLoop_read_frame N _ _ (fun p _ h => ?_) h
    dsimp only
    rcases hc with rfl | rfl | rfl | rfl
    all_goals
      simp (disch := with_unfolding_all first
            | exact fun he => Buf.noConfusion (congrArg Ptr.buf he)
            | (intro he; have h9 := congrArg Ptr.off he; simp only [Ptr.idx_off] at h9; omega))
            only [Mem.read_write_ne]

/-- Lines 579-590: element `k` of gate slot `g` of `dbgold` accumulates column `g*K + k`
of `dicfo` over the batch, in the order of the loop. -/
theorem bwd_db_value (N K j : Nat) (s : Mem Buf α) (g k : Nat) (hg : g < 4) (hk : k < K) :
    (bwd_db N K j s).read ((base .dbgold).idx (g * K + k))
      = sumFrom (s.read ((base .dbgold).idx (g * K + k))) N
          (fun p => s.read (dicfo_elem N K j p (g * K + k))) :=
  bwd_db_slot N K j s k (g * K + k) hk (by interval_cases g <;> omega)

end BackwardBias

section BackwardLoop

variable {α : Type} [Zero α] [One α] [Add α] [Sub α] [Mul α] [Div α] [Neg α]

theorem scratch_ne {b c : Buf} (hb : bwd_scratch b = false) (hc : bwd_scratch c = true) :
    b ≠ c :=
  fun he => by rw [he, hc] at hb; exact Bool.noConfusion hb

theorem writes_ne {b c : Buf} (hb : bwd_writes b = false) (hc : bwd_writes c = true) :
    b ≠ c :=
  fun he => by rw [he, hc] at hb; exact Bool.noConfusion hb

theorem kept_mono {N C K i j : Nat} {q : Ptr Buf} (hij : i ≤ j) (hk : Kept N C K j q) :
    Kept N C K i q := by
  obtain ⟨h0, h1, h2, h3, h4⟩ := hk
  have e1 : (i + 1) * (K * N) ≤ (j + 1) * (K * N) := Nat.mul_le_mul_right _ (by omega)
  have e2 : (i + 1) * (N * (4 * K)) ≤ (j + 1) * (N * (4 * K)) :=
    Nat.mul_le_mul_right _ (by omega)
  have e3 : (i + 1) * (N * C) ≤ (j + 1) * (N * C) := Nat.mul_le_mul_right _ (by omega)
  have e4 : i * (K * N) ≤ j * (K * N) := Nat.mul_le_mul_right _ hij
  exact ⟨h0, h1.imp_right (le_trans e1), h2.imp_right (le_trans e2),
    h3.imp_right (le_trans e3), h4.imp_right (le_trans e4)⟩

theorem kept_of_writes {N C K j : Nat} {q : Ptr Buf} (hq : bwd_writes q.buf = false) :
    Kept N C K j q := by
  refine ⟨?_, Or.inl (writes_ne hq rfl), Or.inl (writes_ne hq rfl), Or.inl (writes_ne hq rfl),
    Or.inl (writes_ne hq rfl)⟩
  revert hq
  cases q.buf <;> simp [bwd_writes, bwd_scratch]

/-- The backward step of timestep `j` leaves a kept location as it is. -/
theorem bwd_step_kept (two_gemms : Bool) (lm : Libm α) (N C K T j : Nat) (q : Ptr Buf)
    (s : Mem Buf α) (hk : Kept N C K j q) :
    (bwd_step two_gemms lm N C K T j s).read q = s.read q := by
  obtain ⟨h0, h1, h2, h3, h4⟩ := hk
  unfold bwd_step
  dsimp only
  rw [bwd_db_skip N K j q _ (scratch_ne h0 rfl),
    bwd_gemm_skip two_gemms N C K j q _ (scratch_ne h0 rfl) (scratch_ne h0 rfl)
      (scratch_ne h0 rfl) (scratch_ne h0 rfl) (scratch_ne h0 rfl) h3 h4,
    bwd_dcsp_update_skip N K j q _ (scratch_ne h0 rfl),
    bwd_gates_skip lm N K j q _ (scratch_ne h0 rfl) (scratch_ne h0 rfl) (scratch_ne h0 rfl) h2,
    bwd_dcsp_skip lm N K T j q _ (scratch_ne h0 rfl) (scratch_ne h0 rfl) (scratch_ne h0 rfl)
      (scratch_ne h0 rfl),
    bwd_delta_skip N K T j q _ h1]

/-! The backward loop, one timestep after the other. -/

theorem lstm_bwd_top (two_gemms : Bool) (lm : Libm α) (N C K T : Nat) (forget_bias : α)
    (h : Mem Buf α) :
    lstm_bwd two_gemms lm N C K T forget_bias T h
      = lstm_fwd two_gemms lm N C K T forget_bias h := by
  unfold lstm_bwd
  rw [Nat.sub_self]
  rfl

theorem lstm_bwd_step (two_gemms : Bool) (lm : Libm α) (N C K T : Nat) (forget_bias : α)
    (h : Mem Buf α) (t : Nat) (ht : t < T) :
    lstm_bwd two_gemms lm N C K T forget_bias t h
      = bwd_step two_gemms lm N C K T t (lstm_bwd two_gemms lm N C K T forget_bias (t + 1) h) := by
  unfold lstm_bwd
  have e1 : T - t = (T - (t + 1)) + 1 := by omega
  rw [e1]
  show bwd_step two_gemms lm N C K T (T - 1 - (T - (t + 1))) _ = _
  have e2 : T - 1 - (T - (t + 1)) = t := by omega
  rw [e2]

theorem lstm_ref_eq_bwd (two_gemms : Bool) (lm : Libm α) (N C K T : Nat) (forget_bias : α)
    (h : Mem Buf α) :
    lstm_ref two_gemms lm N C K T forget_bias h
      = lstm_bwd two_gemms lm N C K T forget_bias 0 h := by
  unfold lstm_ref lstm_bwd
  exact forLoopDown_eq_upto T _ _

/-- The backward step in stages: the multiplies and the bias gradient after the gate
gradients. -/
theorem lstm_bwd_stages (two_gemms : Bool) (lm : Libm α) (N C K T : Nat) (forget_bias : α)
    (h : Mem Buf α) (t : Nat) (ht : t < T) :
    lstm_bwd two_gemms lm N C K T forget_bias t h
      = bwd_db N K t (bwd_gemm two_gemms N C K t
          (lstm_dgates two_gemms lm N C K T forget_bias t h)) := by
  rw [lstm_bwd_step two_gemms lm N C K T forget_bias h t ht]
  rfl

/-- A location that the steps of the timesteps `i, ..., j - 1` keep has after them the
value it had before them. -/
theorem lstm_bwd_kept (two_gemms : Bool) (lm : Libm α) (N C K T : Nat) (forget_bias : α)
    (h : Mem Buf α) (q : Ptr Buf) (i j : Nat) (hij : i ≤ j) (hjT : j ≤ T)
    (hk : ∀ l, i ≤ l → l < j → Kept N C K l q) :
    (lstm_bwd two_gemms lm N C K T forget_bias i h).read q
      = (lstm_bwd two_gemms lm N C K T forget_bias j h).read q := by
  obtain ⟨d, rfl⟩ := Nat.exists_eq_add_of_le hij
  induction d generalizing i with
  | zero => rfl
  | succ d ih =>
    rw [lstm_bwd_step two_gemms lm N C K T forget_bias h i (by omega),
      bwd_step_kept two_gemms lm N C K T i q _ (hk i (Nat.le_refl i) (by omega))]
    have := ih (i + 1) (by omega) (by omega) (fun l h1 h2 => hk l (by omega) (by omega))
    rw [this]
    congr 2
    omega

/-- What `lstm_ref` returns at a location that the steps of the timesteps below `t` keep
is what the step of timestep `t` left there. -/
theorem lstm_ref_owned (two_gemms : Bool) (lm : Libm α) (N C K T : Nat) (forget_bias : α)
    (h : Mem Buf α) (q : Ptr Buf) (t : Nat) (ht : t ≤ T)
    (hk : ∀ l, l < t → Kept N C K l q) :
    (lstm_ref two_gemms lm N C K T forget_bias h).read q
      = (lstm_bwd two_gemms lm N C K T forget_bias t h).read q := by
  rw [lstm_ref_eq_bwd]
  exact lstm_bwd_kept two_gemms lm N C K T forget_bias h q 0 t (Nat.zero_le t) ht
    (fun l _ hl => hk l hl)

/-- A buffer the backward loop does not write holds, at every timestep of the backward
loop, what `lstm_ref` returns in it. -/
theorem lstm_bwd_fwd (two_gemms : Bool) (lm : Libm α) (N C K T : Nat) (forget_bias : α)
    (h : Mem Buf α) (q : Ptr Buf) (hq : bwd_writes q.buf = false) (t : Nat) (ht : t ≤ T) :
    (lstm_bwd two_gemms lm N C K T forget_bias t h).read q
      = (lstm_ref two_gemms lm N C K T forget_bias h).read q :=
  (lstm_ref_owned two_gemms lm N C K T forget_bias h q t ht
    (fun l _ => kept_of_writes hq)).symm

end BackwardLoop

section BackwardStates

variable {α : Type} [Zero α] [One α] [Add α] [Sub α] [Mul α] [Div α] [Neg α]

theorem kept_delta {N C K l t e : Nat} (hl : l < t) :
    Kept N C K l ((seq_at .deltagoldt t (K * N)).idx e) := by
  refine ⟨rfl, Or.inr ?_, Or.inl nofun, Or.inl nofun, Or.inl nofun⟩
  rw [seq_at_off]
  have : (l + 1) * (K * N) ≤ t * (K * N) := Nat.mul_le_mul_right _ hl
  omega

theorem kept_dx {N C K l t e : Nat} (hl : l < t) :
    Kept N C K l ((seq_at .dxgoldt t (N * C)).idx e) := by
  refine ⟨rfl, Or.inl nofun, Or.inl nofun, Or.inr ?_, Or.inl nofun⟩
  rw [seq_at_off]
  have : (l + 1) * (N * C) ≤ t * (N * C) := Nat.mul_le_mul_right _ hl
  omega

theorem kept_dout {N C K l t e : Nat} (hl : l ≤ t) :
    Kept N C K l ((seq_at .doutgoldt t (K * N)).idx e) := by
  refine ⟨rfl, Or.inl nofun, Or.inl nofun, Or.inl nofun, Or.inr ?_⟩
  rw [seq_at_off]
  have : l * (K * N) ≤ t * (K * N) := Nat.mul_le_mul_right _ hl
  omega

theorem kept_dicfo {N C K l t n c : Nat} (hl : l < t) :
    Kept N C K l (dicfo_elem N K t n c) := by
  refine ⟨rfl, Or.inl nofun, Or.inr ?_, Or.inl nofun, Or.inl nofun⟩
  rw [dicfo_elem_off]
  have h1 : (l + 1) * N ≤ t * N := Nat.mul_le_mul_right _ hl
  have h2 : (l + 1) * N * (4 * K) ≤ (t * N + n) * (4 * K) :=
    Nat.mul_le_mul_right _ (by omega)
  rw [Nat.mul_assoc] at h2
  omega

theorem kept_dout_prev {N C K l t e : Nat} (hl : l < t) :
    Kept N C K l (dout_prev N K t e) := by
  unfold dout_prev
  rw [if_neg (by omega)]
  exact kept_dout (by omega)

/-- The stages of the backward step before the multiplies write `deltagoldt`, `t1gold`,
`t2gold`, `t3gold`, `dcspgold` and `dicfogoldt` only. -/
theorem lstm_dgates_skip (two_gemms : Bool) (lm : Libm α) (N C K T : Nat) (forget_bias : α)
    (h : Mem Buf α) (t : Nat) (q : Ptr Buf) (h0 : q.buf ≠ .deltagoldt)
    (h1 : q.buf ≠ .t1gold) (h2 : q.buf ≠ .t2gold) (h3 : q.buf ≠ .t3gold)
    (h4 : q.buf ≠ .dcspgold) (h5 : q.buf ≠ .dicfogoldt) :
    (lstm_dgates two_gemms lm N C K T forget_bias t h).read q
      = (lstm_bwd two_gemms lm N C K T forget_bias (t + 1) h).read q := by
  unfold lstm_dgates lstm_dcs
  rw [bwd_dcsp_update_skip N K t q _ h4, bwd_gates_skip lm N K t q _ h1 h2 h3 (Or.inl h5),
    bwd_dcsp_skip lm N K T t q _ h1 h2 h3 h4, bwd_delta_skip N K T t q _ (Or.inl h0)]

/-- Buffers the backward loop does not write, as the stages of the backward step see
them. -/
theorem bwd_delta_fwd (two_gemms : Bool) (lm : Libm α) (N C K T : Nat) (forget_bias : α)
    (h : Mem Buf α) (t : Nat) (ht : t < T) (q : Ptr Buf) (hq : bwd_writes q.buf = false) :
    (bwd_delta N K T t (lstm_bwd two_gemms lm N C K T forget_bias (t + 1) h)).read q
      = (lstm_ref two_gemms lm N C K T forget_bias h).read q := by
  rw [bwd_delta_skip N K T t q _ (Or.inl (writes_ne hq rfl)),
    lstm_bwd_fwd two_gemms lm N C K T forget_bias h q hq (t + 1) ht]

theorem lstm_dcs_fwd (two_gemms : Bool) (lm : Libm α) (N C K T : Nat) (forget_bias : α)
    (h : Mem Buf α) (t : Nat) (ht : t < T) (q : Ptr Buf) (hq : bwd_writes q.buf = false) :
    (lstm_dcs two_gemms lm N C K T forget_bias t h).read q
      = (lstm_ref two_gemms lm N C K T forget_bias h).read q := by
  unfold lstm_dcs
  rw [bwd_dcsp_skip lm N K T t q _ (writes_ne hq rfl) (writes_ne hq rfl) (writes_ne hq rfl)
      (writes_ne hq rfl),
    bwd_delta_fwd two_gemms lm N C K T forget_bias h t ht q hq]

theorem lstm_dgates_fwd (two_gemms : Bool) (lm : Libm α) (N C K T : Nat) (forget_bias : α)
    (h : Mem Buf α) (t : Nat) (ht : t < T) (q : Ptr Buf) (hq : bwd_writes q.buf = false) :
    (lstm_dgates two_gemms lm N C K T forget_bias t h).read q
      = (lstm_ref two_gemms lm N C K T forget_bias h).read q := by
  rw [lstm_dgates_skip two_gemms lm N C K T forget_bias h t q (writes_ne hq rfl)
      (writes_ne hq rfl) (writes_ne hq rfl) (writes_ne hq rfl) (writes_ne hq rfl)
      (writes_ne hq rfl),
    lstm_bwd_fwd two_gemms lm N C K T forget_bias h q hq (t + 1) ht]

/-- What the caller passed in a buffer that neither pass writes is what `lstm_ref`
returns in it. -/
theorem lstm_ref_input (two_gemms : Bool) (lm : Libm α) (N C K T : Nat) (forget_bias : α)
    (h : Mem Buf α) (q : Ptr Buf) (hb : bwd_writes q.buf = false) (h1 : q.buf ≠ .icfogoldt)
    (h2 : q.buf ≠ .csgoldt) (h3 : q.buf ≠ .hgoldt) (h5 : q.buf ≠ .bfgold_fb)
    (h6 : q.buf ≠ .w4gold ∧ q.buf ≠ .r4gold ∧ q.buf ≠ .wr8gold) :
    (lstm_ref two_gemms lm N C K T forget_bias h).read q = h.read q := by
  have h4 : fwd_scratch q.buf = false := by
    revert hb
    cases q.buf <;> simp [bwd_writes, fwd_scratch]
  rw [lstm_ref_read_fwd two_gemms lm N C K T forget_bias q hb h,
    lstm_fwd_input two_gemms lm N C K T forget_bias q h h1 h2 h3 h4 h5 h6]

/-! The slices of timestep `t` as `lstm_ref` returns them. -/

/-- The `delta` of timestep `t` that `lstm_ref` leaves is what "compute delta" wrote. -/
theorem lstm_ref_delta_step (two_gemms : Bool) (lm : Libm α) (N C K T : Nat)
    (forget_bias : α) (h : Mem Buf α) (t e : Nat) (ht : t < T) :
    (lstm_ref two_gemms lm N C K T forget_bias h).read ((seq_at .deltagoldt t (K * N)).idx e)
      = (bwd_delta N K T t (lstm_bwd two_gemms lm N C K T forget_bias (t + 1) h)).read
          ((seq_at .deltagoldt t (K * N)).idx e) := by
  rw [lstm_ref_owned two_gemms lm N C K T forget_bias h _ t (Nat.le_of_lt ht)
      (fun l hl => kept_delta hl),
    lstm_bwd_step two_gemms lm N C K T forget_bias h t ht]
  unfold bwd_step
  dsimp only
  simp (disch := with_unfolding_all first
    | exact fun he => Buf.noConfusion he
    | exact Or.inl (fun he => Buf.noConfusion he)) only
    [bwd_db_skip, bwd_gemm_skip, gemm_beta0_skip, bwd_dcsp_update_skip, bwd_gates_skip, bwd_dcsp_skip]

theorem lstm_dcs_delta (two_gemms : Bool) (lm : Libm α) (N C K T : Nat)
    (forget_bias : α) (h : Mem Buf α) (t e : Nat) (ht : t < T) :
    (lstm_dcs two_gemms lm N C K T forget_bias t h).read ((seq_at .deltagoldt t (K * N)).idx e)
      = (lstm_ref two_gemms lm N C K T forget_bias h).read
          ((seq_at .deltagoldt t (K * N)).idx e) := by
  rw [lstm_ref_delta_step two_gemms lm N C K T forget_bias h t e ht]
  unfold lstm_dcs
  simp (disch := with_unfolding_all first
    | exact fun he => Buf.noConfusion he
    | exact Or.inl (fun he => Buf.noConfusion he)) only [bwd_dcsp_skip]

/-- The gate gradients of timestep `t` that `lstm_ref` leaves are what the gate stage
wrote. -/
theorem lstm_ref_dicfo_step (two_gemms : Bool) (lm : Libm α) (N C K T : Nat)
    (forget_bias : α) (h : Mem Buf α) (t n c : Nat) (ht : t < T) :
    (lstm_ref two_gemms lm N C K T forget_bias h).read (dicfo_elem N K t n c)
      = (bwd_gates lm N K t (lstm_dcs two_gemms lm N C K T forget_bias t h)).read
          (dicfo_elem N K t n c) := by
  rw [lstm_ref_owned two_gemms lm N C K T forget_bias h _ t (Nat.le_of_lt ht)
      (fun l hl => kept_dicfo hl),
    lstm_bwd_stages two_gemms lm N C K T forget_bias h t ht]
  unfold lstm_dgates
  simp (disch := with_unfolding_all first
    | exact fun he => Buf.noConfusion he
    | exact Or.inl (fun he => Buf.noConfusion he)) only
    [bwd_db_skip, bwd_gemm_skip, gemm_beta0_skip, bwd_dcsp_update_skip]

theorem lstm_dgates_dicfo (two_gemms : Bool) (lm : Libm α) (N C K T : Nat)
    (forget_bias : α) (h : Mem Buf α) (t n c : Nat) (ht : t < T) :
    (lstm_dgates two_gemms lm N C K T forget_bias t h).read (dicfo_elem N K t n c)
      = (lstm_ref two_gemms lm N C K T forget_bias h).read (dicfo_elem N K t n c) := by
  rw [lstm_ref_dicfo_step two_gemms lm N C K T forget_bias h t n c ht]
  unfold lstm_dgates
  simp (disch := with_unfolding_all first
    | exact fun he => Buf.noConfusion he
    | exact Or.inl (fun he => Buf.noConfusion he)) only [bwd_dcsp_update_skip]

theorem bwd_gemm_dicfo (two_gemms : Bool) (lm : Libm α) (N C K T : Nat)
    (forget_bias : α) (h : Mem Buf α) (t n c : Nat) (ht : t < T) :
    (bwd_gemm two_gemms N C K t (lstm_dgates two_gemms lm N C K T forget_bias t h)).read
        (dicfo_elem N K t n c)
      = (lstm_ref two_gemms lm N C K T forget_bias h).read (dicfo_elem N K t n c) := by
  rw [← lstm_dgates_dicfo two_gemms lm N C K T forget_bias h t n c ht]
  simp (disch := with_unfolding_all first
    | exact fun he => Buf.noConfusion he
    | exact Or.inl (fun he => Buf.noConfusion he)) only [bwd_gemm_skip, gemm_beta0_skip]

/-- The cell-state gradient after "update dcsp" of timestep `t`: `f_t * dCS_t`. -/
theorem lstm_dgates_dcsp (two_gemms : Bool) (lm : Libm α) (N C K T : Nat)
    (forget_bias : α) (h : Mem Buf α) (t e : Nat) (ht : t < T) (he : e < K * N) :
    (lstm_dgates two_gemms lm N C K T forget_bias t h).read ((base .dcspgold).idx e)
      = (lstm_ref two_gemms lm N C K T forget_bias h).read
            (icfo_elem N K t (e / K) (2 * K + e % K))
          * (lstm_dcs two_gemms lm N C K T forget_bias t h).read ((base .dcspgold).idx e) := by
  unfold lstm_dgates
  rw [bwd_dcsp_update_value N K t _ e he]
  simp (disch := with_unfolding_all first
    | exact fun he => Buf.noConfusion he
    | exact Or.inl (fun he => Buf.noConfusion he)) only [bwd_gates_skip]
  rw [lstm_dcs_fwd two_gemms lm N C K T forget_bias h t ht
    (icfo_elem N K t (e / K) (2 * K + e % K)) rfl]

/-- The backward step of timestep `t` leaves `f_t * dCS_t` in `dcspgold`. -/
theorem lstm_bwd_dcsp (two_gemms : Bool) (lm : Libm α) (N C K T : Nat)
    (forget_bias : α) (h : Mem Buf α) (t e : Nat) (ht : t < T) (he : e < K * N) :
    (lstm_bwd two_gemms lm N C K T forget_bias t h).read ((base .dcspgold).idx e)
      = (lstm_ref two_gemms lm N C K T forget_bias h).read
            (icfo_elem N K t (e / K) (2 * K + e % K))
          * (lstm_dcs two_gemms lm N C K T forget_bias t h).read ((base .dcspgold).idx e) := by
  rw [lstm_bwd_stages two_gemms lm N C K T forget_bias h t ht,
    ← lstm_dgates_dcsp two_gemms lm N C K T forget_bias h t e ht he]
  simp (disch := with_unfolding_all first
    | exact fun he => Buf.noConfusion he
    | exact Or.inl (fun he => Buf.noConfusion he)) only [bwd_db_skip, bwd_gemm_skip, gemm_beta0_skip]

end BackwardStates

section BackwardResult

variable {α : Type} [Zero α] [One α] [Add α] [Sub α] [Mul α] [Div α] [Neg α]

/-- The `delta` of timestep `t` on the memory `lstm_ref` returns. -/
theorem lstm_ref_delta (two_gemms : Bool) (lm : Libm α) (N C K T : Nat) (forget_bias : α)
    (h : Mem Buf α) (t e : Nat) (ht : t < T) (he : e < K * N) :
    (lstm_ref two_gemms lm N C K T forget_bias h).read ((seq_at .deltagoldt t (K * N)).idx e)
      = if t = T - 1 then h.read ((seq_at .dhgoldt t (K * N)).idx e)
        else (lstm_ref two_gemms lm N C K T forget_bias h).read
            ((seq_at .doutgoldt t (K * N)).idx e)
          + h.read ((seq_at .dhgoldt t (K * N)).idx e) := by
  have hdh : (lstm_bwd two_gemms lm N C K T forget_bias (t + 1) h).read
      ((seq_at .dhgoldt t (K * N)).idx e) = h.read ((seq_at .dhgoldt t (K * N)).idx e) := by
    rw [lstm_bwd_fwd two_gemms lm N C K T forget_bias h
      ((seq_at .dhgoldt t (K * N)).idx e) rfl (t + 1) ht]
    exact lstm_ref_input two_gemms lm N C K T forget_bias h _ rfl nofun nofun nofun nofun
      ⟨nofun, nofun, nofun⟩
  rw [lstm_ref_delta_step two_gemms lm N C K T forget_bias h t e ht,
    bwd_delta_value N K T t _ e he, hdh,
    ← lstm_ref_owned two_gemms lm N C K T forget_bias h
      ((seq_at .doutgoldt t (K * N)).idx e) (t + 1) ht
      (fun l hl => kept_dout (Nat.le_of_lt_succ hl))]

/-- The cell-state gradient `dCS_t` that the gate gradients of timestep `t` are computed
from, in the order of evaluation of the source. -/
theorem lstm_dcs_value (two_gemms : Bool) (lm : Libm α) (N C K T : Nat) (forget_bias : α)
    (h : Mem Buf α) (t e : Nat) (ht : t < T) (he : e < K * N) :
    (lstm_dcs two_gemms lm N C K T forget_bias t h).read ((base .dcspgold).idx e)
      = (lstm_ref two_gemms lm N C K T forget_bias h).read
              (icfo_elem N K t (e / K) (3 * K + e % K))
            * (lstm_ref two_gemms lm N C K T forget_bias h).read
              ((seq_at .deltagoldt t (K * N)).idx e)
          * (1 - lm.tanh ((lstm_ref two_gemms lm N C K T forget_bias h).read
                ((seq_at .csgoldt t (K * N)).idx e))
              * lm.tanh ((lstm_ref two_gemms lm N C K T forget_bias h).read
                ((seq_at .csgoldt t (K * N)).idx e)))
        + (if t = T - 1 then h.read ((base .dcsgold).idx e)
           else (lstm_ref two_gemms lm N C K T forget_bias h).read
               (icfo_elem N K (t + 1) (e / K) (2 * K + e % K))
             * (lstm_dcs two_gemms lm N C K T forget_bias (t + 1) h).read
               ((base .dcspgold).idx e)) := by
  have hin : (lstm_ref two_gemms lm N C K T forget_bias h).read ((base .dcsgold).idx e)
      = h.read ((base .dcsgold).idx e) :=
    lstm_ref_input two_gemms lm N C K T forget_bias h _ rfl nofun nofun nofun nofun
      ⟨nofun, nofun, nofun⟩
  show (bwd_dcsp lm N K T t (bwd_delta N K T t
    (lstm_bwd two_gemms lm N C K T forget_bias (t + 1) h))).read _ = _
  rw [bwd_dcsp_value lm N K T t _ e he,
    bwd_delta_fwd two_gemms lm N C K T forget_bias h t ht
      (icfo_elem N K t (e / K) (3 * K + e % K)) rfl,
    bwd_delta_fwd two_gemms lm N C K T forget_bias h t ht
      ((seq_at .csgoldt t (K * N)).idx e) rfl,
    ← lstm_ref_delta_step two_gemms lm N C K T forget_bias h t e ht]
  congr 1
  by_cases hl : t = T - 1
  · rw [if_pos hl, if_pos hl,
      bwd_delta_fwd two_gemms lm N C K T forget_bias h t ht ((base .dcsgold).idx e) rfl, hin]
  · rw [if_neg hl, if_neg hl,
      bwd_delta_skip N K T t ((base .dcspgold).idx e) _ (Or.inl nofun),
      lstm_bwd_dcsp two_gemms lm N C K T forget_bias h (t + 1) e (by omega) he]

/-- Slot 0 of the gate gradients of timestep `t` on the memory `lstm_ref` returns. -/
theorem lstm_ref_di (two_gemms : Bool) (lm : Libm α) (N C K T : Nat) (forget_bias : α)
    (h : Mem Buf α) (t n k : Nat) (ht : t < T) (hn : n < N) (hk : k < K) :
    (lstm_ref two_gemms lm N C K T forget_bias h).read (dicfo_elem N K t n k)
      = (lstm_ref two_gemms lm N C K T forget_bias h).read (icfo_elem N K t n (K + k))
          * (lstm_dcs two_gemms lm N C K T forget_bias t h).read
            ((base .dcspgold).idx (n * K + k))
        * ((lstm_ref two_gemms lm N C K T forget_bias h).read (icfo_elem N K t n k)
          * (1 - (lstm_ref two_gemms lm N C K T forget_bias h).read (icfo_elem N K t n k))) := by
  rw [lstm_ref_dicfo_step two_gemms lm N C K T forget_bias h t n k ht,
    bwd_gates_di lm N K t _ n k hn hk,
    lstm_dcs_fwd two_gemms lm N C K T forget_bias h t ht (icfo_elem N K t n (K + k)) rfl,
    lstm_dcs_fwd two_gemms lm N C K T forget_bias h t ht (icfo_elem N K t n k) rfl]

/-- Slot 1 of the gate gradients of timestep `t` on the memory `lstm_ref` returns. -/
theorem lstm_ref_dc (two_gemms : Bool) (lm : Libm α) (N C K T : Nat) (forget_bias : α)
    (h : Mem Buf α) (t n k : Nat) (ht : t < T) (hn : n < N) (hk : k < K) :
    (lstm_ref two_gemms lm N C K T forget_bias h).read (dicfo_elem N K t n (K + k))
      = (lstm_ref two_gemms lm N C K T forget_bias h).read (icfo_elem N K t n k)
          * (lstm_dcs two_gemms lm N C K T forget_bias t h).read
            ((base .dcspgold).idx (n * K + k))
        * (1 - (lstm_ref two_gemms lm N C K T forget_bias h).read (icfo_elem N K t n (K + k))
            * (lstm_ref two_gemms lm N C K T forget_bias h).read
              (icfo_elem N K t n (K + k))) := by
  rw [lstm_ref_dicfo_step two_gemms lm N C K T forget_bias h t n (K + k) ht,
    bwd_gates_dc lm N K t _ n k hn hk,
    lstm_dcs_fwd two_gemms lm N C K T forget_bias h t ht (icfo_elem N K t n (K + k)) rfl,
    lstm_dcs_fwd two_gemms lm N C K T forget_bias h t ht (icfo_elem N K t n k) rfl]

theorem cs_prev_writes (N K t e : Nat) : bwd_writes (cs_prev N K t e).buf = false := by
  unfold cs_prev
  split <;> rfl

/-- The previous cell state of timestep `t` on the memory `lstm_ref` returns. -/
theorem lstm_ref_cs_before (two_gemms : Bool) (lm : Libm α) (N C K T : Nat) (forget_bias : α)
    (h : Mem Buf α) (t e : Nat) :
    (lstm_ref two_gemms lm N C K T forget_bias h).read (cs_prev N K t e)
      = if t = 0 then h.read ((base .cspgold).idx e)
        else (lstm_ref two_gemms lm N C K T forget_bias h).read
          ((seq_at .csgoldt (t - 1) (K * N)).idx e) := by
  unfold cs_prev
  split
  · exact lstm_ref_input two_gemms lm N C K T forget_bias h _ rfl nofun nofun nofun nofun
      ⟨nofun, nofun, nofun⟩
  · rfl

/-- Slot 2 of the gate gradients of timestep `t` on the memory `lstm_ref` returns. -/
theorem lstm_ref_df (two_gemms : Bool) (lm : Libm α) (N C K T : Nat) (forget_bias : α)
    (h : Mem Buf α) (t n k : Nat) (ht : t < T) (hn : n < N) (hk : k < K) :
    (lstm_ref two_gemms lm N C K T forget_bias h).read (dicfo_elem N K t n (2 * K + k))
      = (lstm_dcs two_gemms lm N C K T forget_bias t h).read
            ((base .dcspgold).idx (n * K + k))
          * (if t = 0 then h.read ((base .cspgold).idx (n * K + k))
             else (lstm_ref two_gemms lm N C K T forget_bias h).read
               ((seq_at .csgoldt (t - 1) (K * N)).idx (n * K + k)))
        * ((lstm_ref two_gemms lm N C K T forget_bias h).read (icfo_elem N K t n (2 * K + k))
          * (1 - (lstm_ref two_gemms lm N C K T forget_bias h).read
              (icfo_elem N K t n (2 * K + k)))) := by
  rw [lstm_ref_dicfo_step two_gemms lm N C K T forget_bias h t n (2 * K + k) ht,
    bwd_gates_df lm N K t _ n k hn hk,
    lstm_dcs_fwd two_gemms lm N C K T forget_bias h t ht (icfo_elem N K t n (2 * K + k)) rfl,
    lstm_dcs_fwd two_gemms lm N C K T forget_bias h t ht (cs_prev N K t (n * K + k))
      (cs_prev_writes N K t _),
    lstm_ref_cs_before two_gemms lm N C K T forget_bias h t (n * K + k)]

/-- Slot 3 of the gate gradients of timestep `t` on the memory `lstm_ref` returns. -/
theorem lstm_ref_do (two_gemms : Bool) (lm : Libm α) (N C K T : Nat) (forget_bias : α)
    (h : Mem Buf α) (t n k : Nat) (ht : t < T) (hn : n < N) (hk : k < K) :
    (lstm_ref two_gemms lm N C K T forget_bias h).read (dicfo_elem N K t n (3 * K + k))
      = (lstm_ref two_gemms lm N C K T forget_bias h).read
            ((seq_at .deltagoldt t (K * N)).idx (n * K + k))
          * lm.tanh ((lstm_ref two_gemms lm N C K T forget_bias h).read
            ((seq_at .csgoldt t (K * N)).idx (n * K + k)))
        * ((lstm_ref two_gemms lm N C K T forget_bias h).read (icfo_elem N K t n (3 * K + k))
          * (1 - (lstm_ref two_gemms lm N C K T forget_bias h).read
              (icfo_elem N K t n (3 * K + k)))) := by
  rw [lstm_ref_dicfo_step two_gemms lm N C K T forget_bias h t n (3 * K + k) ht,
    bwd_gates_do lm N K t _ n k hn hk,
    lstm_dcs_fwd two_gemms lm N C K T forget_bias h t ht (icfo_elem N K t n (3 * K + k)) rfl,
    lstm_dcs_fwd two_gemms lm N C K T forget_bias h t ht
      ((seq_at .csgoldt t (K * N)).idx (n * K + k)) rfl,
    lstm_dcs_delta two_gemms lm N C K T forget_bias h t (n * K + k) ht]

/-- What `lstm_ref` returns in `dcspgold`: `f_0 * dCS_0`. -/
theorem lstm_ref_dcsp (two_gemms : Bool) (lm : Libm α) (N C K T : Nat) (forget_bias : α)
    (h : Mem Buf α) (e : Nat) (hT : 0 < T) (he : e < K * N) :
    (lstm_ref two_gemms lm N C K T forget_bias h).read ((base .dcspgold).idx e)
      = (lstm_ref two_gemms lm N C K T forget_bias h).read
            (icfo_elem N K 0 (e / K) (2 * K + e % K))
          * (lstm_dcs two_gemms lm N C K T forget_bias 0 h).read ((base .dcspgold).idx e) := by
  have key := lstm_bwd_dcsp two_gemms lm N C K T forget_bias h 0 e hT he
  rw [← lstm_ref_eq_bwd] at key
  exact key

end BackwardResult

section BackwardExact

variable {α : Type} [Field α]

theorem sumFrom_eq_sum (init : α) (n : Nat) (f : Nat → α) :
    sumFrom init n f = init + ∑ i in Finset.range n, f i := by
  induction n with
  | zero => simp [sumFrom]
  | succ n ih =>
    rw [Finset.sum_range_succ, ← add_assoc, ← ih]
    rfl

/-- An accumulator that every backward step adds to holds, after the steps of the
timesteps `T-1, ..., j`, its initial value plus the sum of what they added. -/
theorem acc_down (A S : Nat → α) (T : Nat) (hstep : ∀ j, j < T → A j = A (j + 1) + S j)
    (j : Nat) (hj : j ≤ T) : A j = A T + ∑ t in Finset.Ico j T, S t := by
  have key : ∀ d j, j + d = T → A j = A T + ∑ t in Finset.Ico j T, S t := by
    intro d
    induction d with
    | zero =>
      intro j hj
      have : j = T := by omega
      subst this
      simp
    | succ d ih =>
      intro j hj
      rw [hstep j (by omega), ih (j + 1) (by omega),
        Finset.sum_eq_sum_Ico_succ_bot (by omega : j < T)]
      ring
  exact key (T - j) j (by omega)

theorem dout_prev_writes (N K t e : Nat) :
    (dout_prev N K t e).buf ≠ .dbgold ∧ (dout_prev N K t e).buf ≠ .deltagoldt := by
  unfold dout_prev
  split <;> exact ⟨nofun, nofun⟩

/-- The recurrent delta that the backward step of timestep `t` produced, on the memory
`lstm_ref` returns: `R4^T * dICFO_t`, in both builds. -/
theorem lstm_ref_dout (two_gemms : Bool) (lm : Libm α) (N C K T : Nat) (forget_bias : α)
    (h : Mem Buf α) (t n k : Nat) (ht : t < T) (hn : n < N) (hk : k < K) :
    (lstm_ref two_gemms lm N C K T forget_bias h).read (dout_prev N K t (n * K + k))
      = ∑ q in Finset.range (4 * K),
          (lstm_ref two_gemms lm N C K T forget_bias h).read (r4_elem two_gemms C K k q)
            * (lstm_ref two_gemms lm N C K T forget_bias h).read (dicfo_elem N K t n q) := by
  rw [lstm_ref_owned two_gemms lm N C K T forget_bias h _ t (Nat.le_of_lt ht)
      (fun l hl => kept_dout_prev hl),
    lstm_bwd_stages two_gemms lm N C K T forget_bias h t ht,
    bwd_db_skip N K t _ _ (dout_prev_writes N K t _).1]
  cases two_gemms
  · rw [bwd_gemm_single_rec N C K t _ n k hn hk, one_mul, sumTo_eq_sum, Nat.mul_comm K 4]
    refine Finset.sum_congr rfl (fun q _ => ?_)
    rw [lstm_dgates_dicfo false lm N C K T forget_bias h t n q ht,
      lstm_dgates_fwd false lm N C K T forget_bias h t ht
        ((base .wr8gold).idx (q + (C + k) * (4 * K))) rfl]
    unfold r4_elem
    rw [if_neg (by decide), Nat.add_comm q]
  · rw [Nat.add_comm (n * K) k, bwd_gemm_two_rec N C K t _ n k hn hk, one_mul, sumTo_eq_sum,
      Nat.mul_comm K 4]
    refine Finset.sum_congr rfl (fun q _ => ?_)
    rw [lstm_dgates_dicfo true lm N C K T forget_bias h t n q ht,
      lstm_dgates_fwd true lm N C K T forget_bias h t ht
        ((base .r4gold).idx (q + k * (4 * K))) rfl]
    unfold r4_elem
    rw [if_pos rfl, Nat.add_comm q]

/-- The input gradient of timestep `t` that the default build returns:
`W4^T * dICFO_t`. -/
theorem lstm_ref_dx_single (lm : Libm α) (N C K T : Nat) (forget_bias : α)
    (h : Mem Buf α) (t n c : Nat) (ht : t < T) (hn : n < N) (hc : c < C) :
    (lstm_ref false lm N C K T forget_bias h).read ((seq_at .dxgoldt t (N * C)).idx (n * C + c))
      = ∑ q in Finset.range (4 * K),
          (lstm_ref false lm N C K T forget_bias h).read (w4_elem false K c q)
            * (lstm_ref false lm N C K T forget_bias h).read (dicfo_elem N K t n q) := by
  rw [lstm_ref_owned false lm N C K T forget_bias h _ t (Nat.le_of_lt ht)
      (fun l hl => kept_dx hl),
    lstm_bwd_stages false lm N C K T forget_bias h t ht,
    bwd_db_skip N K t ((seq_at .dxgoldt t (N * C)).idx (n * C + c)) _ nofun,
    bwd_gemm_single_dx N C K t _ n c hn hc, one_mul, sumTo_eq_sum, Nat.mul_comm K 4]
  refine Finset.sum_congr rfl (fun q _ => ?_)
  rw [lstm_dgates_dicfo false lm N C K T forget_bias h t n q ht,
    lstm_dgates_fwd false lm N C K T forget_bias h t ht
      ((base .wr8gold).idx (q + c * (4 * K))) rfl]
  unfold w4_elem
  rw [if_neg (by decide), Nat.add_comm q]

/-- The input gradient of timestep `t` that the `TWO_GEMMS` build returns: the multiply
of lines 548-549 is called with `beta = 1`, so `W4^T * dICFO_t` is added to what the
buffer held when the step of timestep `t` began. -/
theorem lstm_ref_dx_two (lm : Libm α) (N C K T : Nat) (forget_bias : α)
    (h : Mem Buf α) (t n c : Nat) (ht : t < T) (hn : n < N) (hc : c < C) :
    (lstm_ref true lm N C K T forget_bias h).read ((seq_at .dxgoldt t (N * C)).idx (n * C + c))
      = (∑ q in Finset.range (4 * K),
          (lstm_ref true lm N C K T forget_bias h).read (w4_elem true K c q)
            * (lstm_ref true lm N C K T forget_bias h).read (dicfo_elem N K t n q))
        + (lstm_bwd true lm N C K T forget_bias (t + 1) h).read
            ((seq_at .dxgoldt t (N * C)).idx (n * C + c)) := by
  rw [lstm_ref_owned true lm N C K T forget_bias h _ t (Nat.le_of_lt ht)
      (fun l hl => kept_dx hl),
    lstm_bwd_stages true lm N C K T forget_bias h t ht,
    bwd_db_skip N K t ((seq_at .dxgoldt t (N * C)).idx (n * C + c)) _ nofun,
    Nat.add_comm (n * C) c,
    bwd_gemm_two_dx N C K t _ n c hn hc, one_mul, one_mul, sumTo_eq_sum,
    Nat.mul_comm K 4,
    lstm_dgates_skip true lm N C K T forget_bias h t
      ((seq_at .dxgoldt t (N * C)).idx (c + n * C)) nofun nofun nofun nofun nofun nofun]
  congr 1
  refine Finset.sum_congr rfl (fun q _ => ?_)
  rw [lstm_dgates_dicfo true lm N C K T forget_bias h t n q ht,
    lstm_dgates_fwd true lm N C K T forget_bias h t ht
      ((base .w4gold).idx (q + c * (4 * K))) rfl]
  unfold w4_elem
  rw [if_pos rfl, Nat.add_comm q]

end BackwardExact

section BackwardAccumulators

variable {α : Type} [Field α]

theorem dr_elem_buf (two_gemms : Bool) (C K i q : Nat) :
    (dr_elem two_gemms C K i q).buf ≠ .dbgold ∧ (dr_elem two_gemms C K i q).buf ≠ .deltagoldt
      ∧ (dr_elem two_gemms C K i q).buf ≠ .t1gold ∧ (dr_elem two_gemms C K i q).buf ≠ .t2gold
      ∧ (dr_elem two_gemms C K i q).buf ≠ .t3gold
      ∧ (dr_elem two_gemms C K i q).buf ≠ .dcspgold
      ∧ (dr_elem two_gemms C K i q).buf ≠ .dicfogoldt := by
  unfold dr_elem
  cases two_gemms <;> exact ⟨nofun, nofun, nofun, nofun, nofun, nofun, nofun⟩

/-- The previous hidden state of timestep `t` on the memory `lstm_ref` returns. -/
theorem lstm_ref_h_before (two_gemms : Bool) (lm : Libm α) (N C K T : Nat) (forget_bias : α)
    (h : Mem Buf α) (t e : Nat) :
    (lstm_ref two_gemms lm N C K T forget_bias h).read (h_prev N K t e)
      = if t = 0 then h.read ((base .hpgold).idx e)
        else (lstm_ref two_gemms lm N C K T forget_bias h).read
          ((seq_at .hgoldt (t - 1) (K * N)).idx e) := by
  unfold h_prev
  split
  · exact lstm_ref_input two_gemms lm N C K T forget_bias h _ rfl nofun nofun nofun nofun
      ⟨nofun, nofun, nofun⟩
  · rfl

theorem h_prev_writes (N K t e : Nat) : bwd_writes (h_prev N K t e).buf = false := by
  unfold h_prev
  split <;> rfl

/-- Lines 551-552 and 569-576: what the backward step of timestep `j` adds to the weight
gradient, in both builds. -/
theorem lstm_bwd_dw (two_gemms : Bool) (lm : Libm α) (N C K T : Nat) (forget_bias : α)
    (h : Mem Buf α) (c q : Nat) (hc : c < C) (hq : q < 4 * K) (j : Nat) (hj : j < T) :
    (lstm_bwd two_gemms lm N C K T forget_bias j h).read ((base .dwgold).idx (c * (4 * K) + q))
      = (lstm_bwd two_gemms lm N C K T forget_bias (j + 1) h).read
          ((base .dwgold).idx (c * (4 * K) + q))
        + ∑ n in Finset.range N,
            (lstm_ref two_gemms lm N C K T forget_bias h).read (dicfo_elem N K j n q)
              * h.read ((seq_at .xgoldt j (N * C)).idx (n * C + c)) := by
  have hx : ∀ n, (lstm_dgates two_gemms lm N C K T forget_bias j h).read
      ((seq_at .xgoldt j (N * C)).idx (c + n * C))
        = h.read ((seq_at .xgoldt j (N * C)).idx (n * C + c)) := by
    intro n
    rw [lstm_dgates_fwd two_gemms lm N C K T forget_bias h j hj
        ((seq_at .xgoldt j (N * C)).idx (c + n * C)) rfl, Nat.add_comm c]
    exact lstm_ref_input two_gemms lm N C K T forget_bias h _ rfl nofun nofun nofun nofun
      ⟨nofun, nofun, nofun⟩
  rw [lstm_bwd_stages two_gemms lm N C K T forget_bias h j hj,
    bwd_db_skip N K j ((base .dwgold).idx (c * (4 * K) + q)) _ nofun,
    Nat.add_comm (c * (4 * K)) q, Nat.mul_comm 4 K]
  cases two_gemms
  · rw [bwd_gemm_single_dw N C K j _ c q (by omega) hq, one_mul, one_mul, sumTo_eq_sum,
      lstm_dgates_skip false lm N C K T forget_bias h j
        ((base .dwgold).idx (q + c * (K * 4))) nofun nofun nofun nofun nofun nofun,
      add_comm]
    congr 1
    refine Finset.sum_congr rfl (fun n _ => ?_)
    rw [if_pos hc, lstm_dgates_dicfo false lm N C K T forget_bias h j n q hj, hx]
  · rw [bwd_gemm_two_dw N C K j _ c q hc hq, one_mul, one_mul, sumTo_eq_sum,
      lstm_dgates_skip true lm N C K T forget_bias h j
        ((base .dwgold).idx (q + c * (K * 4))) nofun nofun nofun nofun nofun nofun,
      add_comm]
    congr 1
    refine Finset.sum_congr rfl (fun n _ => ?_)
    rw [lstm_dgates_dicfo true lm N C K T forget_bias h j n q hj, hx]

/-- Lines 554-559 and 569-576: what the backward step of timestep `j` adds to the
recurrent-weight gradient, in both builds. -/
theorem lstm_bwd_dr (two_gemms : Bool) (lm : Libm α) (N C K T : Nat) (forget_bias : α)
    (h : Mem Buf α) (i q : Nat) (hi : i < K) (hq : q < 4 * K) (j : Nat) (hj : j < T) :
    (lstm_bwd two_gemms lm N C K T forget_bias j h).read (dr_elem two_gemms C K i q)
      = (lstm_bwd two_gemms lm N C K T forget_bias (j + 1) h).read (dr_elem two_gemms C K i q)
        + ∑ n in Finset.range N,
            (lstm_ref two_gemms lm N C K T forget_bias h).read (dicfo_elem N K j n q)
              * (if j = 0 then h.read ((base .hpgold).idx (n * K + i))
                 else (lstm_ref two_gemms lm N C K T forget_bias h).read
                   ((seq_at .hgoldt (j - 1) (K * N)).idx (n * K + i))) := by
  have hb := dr_elem_buf two_gemms C K i q
  have hx : ∀ n, (lstm_dgates two_gemms lm N C K T forget_bias j h).read
      (h_prev N K j (i + n * K))
        = if j = 0 then h.read ((base .hpgold).idx (n * K + i))
          else (lstm_ref two_gemms lm N C K T forget_bias h).read
            ((seq_at .hgoldt (j - 1) (K * N)).idx (n * K + i)) := by
    intro n
    rw [lstm_dgates_fwd two_gemms lm N C K T forget_bias h j hj _ (h_prev_writes N K j _),
      Nat.add_comm i, lstm_ref_h_before]
  rw [lstm_bwd_stages two_gemms lm N C K T forget_bias h j hj,
    bwd_db_skip N K j _ _ hb.1,
    ← lstm_dgates_skip two_gemms lm N C K T forget_bias h j _ hb.2.1 hb.2.2.1 hb.2.2.2.1
      hb.2.2.2.2.1 hb.2.2.2.2.2.1 hb.2.2.2.2.2.2]
  unfold dr_elem
  cases two_gemms
  · simp only [if_false, Bool.false_eq_true]
    rw [Nat.add_comm ((C + i) * (4 * K)) q, Nat.mul_comm 4 K,
      bwd_gemm_single_dw N C K j _ (C + i) q (by omega) hq, one_mul, one_mul, sumTo_eq_sum,
      add_comm]
    congr 1
    refine Finset.sum_congr rfl (fun n _ => ?_)
    rw [if_neg (by omega), Nat.add_sub_cancel_left,
      lstm_dgates_dicfo false lm N C K T forget_bias h j n q hj, hx]
  · simp only [if_true]
    rw [Nat.add_comm (i * (4 * K)) q, Nat.mul_comm 4 K,
      bwd_gemm_two_dr N C K j _ i q hi hq, one_mul, one_mul, sumTo_eq_sum, add_comm]
    congr 1
    refine Finset.sum_congr rfl (fun n _ => ?_)
    rw [lstm_dgates_dicfo true lm N C K T forget_bias h j n q hj, hx]

/-- Lines 579-590: what the backward step of timestep `j` adds to the bias gradient. -/
theorem lstm_bwd_db (two_gemms : Bool) (lm : Libm α) (N C K T : Nat) (forget_bias : α)
    (h : Mem Buf α) (g k : Nat) (hg : g < 4) (hk : k < K) (j : Nat) (hj : j < T) :
    (lstm_bwd two_gemms lm N C K T forget_bias j h).read ((base .dbgold).idx (g * K + k))
      = (lstm_bwd two_gemms lm N C K T forget_bias (j + 1) h).read
          ((base .dbgold).idx (g * K + k))
        + ∑ n in Finset.range N,
            (lstm_ref two_gemms lm N C K T forget_bias h).read
              (dicfo_elem N K j n (g * K + k)) := by
  rw [lstm_bwd_stages two_gemms lm N C K T forget_bias h j hj,
    bwd_db_value N K j _ g k hg hk, sumFrom_eq_sum,
    bwd_gemm_skip two_gemms N C K j ((base .dbgold).idx (g * K + k)) _ nofun nofun nofun
      nofun nofun (Or.inl nofun) (Or.inl nofun),
    lstm_dgates_skip two_gemms lm N C K T forget_bias h j
      ((base .dbgold).idx (g * K + k)) nofun nofun nofun nofun nofun nofun]
  congr 1
  refine Finset.sum_congr rfl (fun n _ => ?_)
  rw [bwd_gemm_dicfo two_gemms lm N C K T forget_bias h j n _ hj]

/-- What the caller passed in an accumulator is what the backward loop starts from. -/
theorem lstm_bwd_top_input (two_gemms : Bool) (lm : Libm α) (N C K T : Nat) (forget_bias : α)
    (h : Mem Buf α) (q : Ptr Buf) (h1 : q.buf ≠ .icfogoldt) (h2 : q.buf ≠ .csgoldt)
    (h3 : q.buf ≠ .hgoldt) (h4 : fwd_scratch q.buf = false) (h5 : q.buf ≠ .bfgold_fb)
    (h6 : q.buf ≠ .w4gold ∧ q.buf ≠ .r4gold ∧ q.buf ≠ .wr8gold) :
    (lstm_bwd two_gemms lm N C K T forget_bias T h).read q = h.read q := by
  rw [lstm_bwd_top]
  exact lstm_fwd_input two_gemms lm N C K T forget_bias q h h1 h2 h3 h4 h5 h6

/-- The weight gradient `lstm_ref` returns. -/
theorem lstm_ref_dw (two_gemms : Bool) (lm : Libm α) (N C K T : Nat) (forget_bias : α)
    (h : Mem Buf α) (c q : Nat) (hc : c < C) (hq : q < 4 * K) :
    (lstm_ref two_gemms lm N C K T forget_bias h).read ((base .dwgold).idx (c * (4 * K) + q))
      = h.read ((base .dwgold).idx (c * (4 * K) + q))
        + ∑ t in Finset.range T, ∑ n in Finset.range N,
            (lstm_ref two_gemms lm N C K T forget_bias h).read (dicfo_elem N K t n q)
              * h.read ((seq_at .xgoldt t (N * C)).idx (n * C + c)) := by
  have key := acc_down
    (fun j => (lstm_bwd two_gemms lm N C K T forget_bias j h).read
      ((base .dwgold).idx (c * (4 * K) + q)))
    (fun t => ∑ n in Finset.range N,
      (lstm_ref two_gemms lm N C K T forget_bias h).read (dicfo_elem N K t n q)
        * h.read ((seq_at .xgoldt t (N * C)).idx (n * C + c))) T
    (fun j hj => lstm_bwd_dw two_gemms lm N C K T forget_bias h c q hc hq j hj) 0
    (Nat.zero_le T)
  dsimp only at key
  rw [← lstm_ref_eq_bwd, lstm_bwd_top_input two_gemms lm N C K T forget_bias h
    ((base .dwgold).idx (c * (4 * K) + q)) nofun nofun nofun rfl nofun ⟨nofun, nofun, nofun⟩,
    ← Finset.range_eq_Ico] at key
  exact key

/-- The recurrent-weight gradient `lstm_ref` returns. -/
theorem lstm_ref_dr (two_gemms : Bool) (lm : Libm α) (N C K T : Nat) (forget_bias : α)
    (h : Mem Buf α) (i q : Nat) (hi : i < K) (hq : q < 4 * K) :
    (lstm_ref two_gemms lm N C K T forget_bias h).read (dr_elem two_gemms C K i q)
      = h.read (dr_elem two_gemms C K i q)
        + ∑ t in Finset.range T, ∑ n in Finset.range N,
            (lstm_ref two_gemms lm N C K T forget_bias h).read (dicfo_elem N K t n q)
              * (if t = 0 then h.read ((base .hpgold).idx (n * K + i))
                 else (lstm_ref two_gemms lm N C K T forget_bias h).read
                   ((seq_at .hgoldt (t - 1) (K * N)).idx (n * K + i))) := by
  have hb : (dr_elem two_gemms C K i q).buf ≠ .icfogoldt
      ∧ (dr_elem two_gemms C K i q).buf ≠ .csgoldt ∧ (dr_elem two_gemms C K i q).buf ≠ .hgoldt
      ∧ fwd_scratch (dr_elem two_gemms C K i q).buf = false
      ∧ (dr_elem two_gemms C K i q).buf ≠ .bfgold_fb
      ∧ (dr_elem two_gemms C K i q).buf ≠ .w4gold ∧ (dr_elem two_gemms C K i q).buf ≠ .r4gold
      ∧ (dr_elem two_gemms C K i q).buf ≠ .wr8gold := by
    unfold dr_elem
    cases two_gemms <;> exact ⟨nofun, nofun, nofun, rfl, nofun, nofun, nofun, nofun⟩
  have key := acc_down
    (fun j => (lstm_bwd two_gemms lm N C K T forget_bias j h).read (dr_elem two_gemms C K i q))
    (fun t => ∑ n in Finset.range N,
      (lstm_ref two_gemms lm N C K T forget_bias h).read (dicfo_elem N K t n q)
        * (if t = 0 then h.read ((base .hpgold).idx (n * K + i))
           else (lstm_ref two_gemms lm N C K T forget_bias h).read
             ((seq_at .hgoldt (t - 1) (K * N)).idx (n * K + i)))) T
    (fun j hj => lstm_bwd_dr two_gemms lm N C K T forget_bias h i q hi hq j hj) 0
    (Nat.zero_le T)
  dsimp only at key
  rw [← lstm_ref_eq_bwd, lstm_bwd_top_input two_gemms lm N C K T forget_bias h
    (dr_elem two_gemms C K i q) hb.1 hb.2.1 hb.2.2.1 hb.2.2.2.1 hb.2.2.2.2.1
    ⟨hb.2.2.2.2.2.1, hb.2.2.2.2.2.2.1, hb.2.2.2.2.2.2.2⟩,
    ← Finset.range_eq_Ico] at key
  exact key

/-- The bias gradient `lstm_ref` returns. -/
theorem lstm_ref_db (two_gemms : Bool) (lm : Libm α) (N C K T : Nat) (forget_bias : α)
    (h : Mem Buf α) (g k : Nat) (hg : g < 4) (hk : k < K) :
    (lstm_ref two_gemms lm N C K T forget_bias h).read ((base .dbgold).idx (g * K + k))
      = h.read ((base .dbgold).idx (g * K + k))
        + ∑ t in Finset.range T, ∑ n in Finset.range N,
            (lstm_ref two_gemms lm N C K T forget_bias h).read
              (dicfo_elem N K t n (g * K + k)) := by
  have key := acc_down
    (fun j => (lstm_bwd two_gemms lm N C K T forget_bias j h).read
      ((base .dbgold).idx (g * K + k)))
    (fun t => ∑ n in Finset.range N,
      (lstm_ref two_gemms lm N C K T forget_bias h).read (dicfo_elem N K t n (g * K + k))) T
    (fun j hj => lstm_bwd_db two_gemms lm N C K T forget_bias h g k hg hk j hj) 0
    (Nat.zero_le T)
  dsimp only at key
  rw [← lstm_ref_eq_bwd, lstm_bwd_top_input two_gemms lm N C K T forget_bias h
    ((base .dbgold).idx (g * K + k)) nofun nofun nofun rfl nofun ⟨nofun, nofun, nofun⟩,
    ← Finset.range_eq_Ico] at key
  exact key

end BackwardAccumulators

/-! ## What the helpers read -/

section Agreement

variable {β α : Type} [DecidableEq β]

theorem AgreeOff.mono {S S' : Ptr β → Prop} {h h' : Mem β α} (hh : AgreeOff S h h')
    (hS : ∀ q, S q → S' q) : AgreeOff S' h h' :=
  fun q hq => hh q (fun hs => hq (hS q hs))

/-- Writing equal values at one location keeps two memories in agreement, and brings the
location into agreement. -/
theorem AgreeOff.write {S : Ptr β → Prop} {h h' : Mem β α} (hh : AgreeOff S h h')
    (p : Ptr β) {v v' : α} (hv : v = v') :
    AgreeOff (fun q => S q ∧ q ≠ p) (h.write p v) (h'.write p v') := by
  intro q hq
  by_cases hpq : p = q
  · subst hpq
    rw [Mem.read_write_same, Mem.read_write_same, hv]
  · rw [Mem.read_write_ne _ _ hpq, Mem.read_write_ne _ _ hpq]
    exact hh q (fun hs => hq ⟨hs, fun he => hpq he.symm⟩)

/-- A relation between two runs of a loop that every iteration carries on. -/
theorem forLoop_rel {σ : Type} (n : Nat) (body body' : Nat → σ → σ)
    (R : Nat → σ → σ → Prop) (s s' : σ) (h0 : R 0 s s')
    (hstep : ∀ i, i < n → ∀ x x', R i x x' → R (i + 1) (body i x) (body' i x')) :
    R n (forLoop n body s) (forLoop n body' s') := by
  induction n with
  | zero => exact h0
  | succ n ih =>
    exact hstep n (Nat.lt_succ_self n) _ _
      (ih (fun i hi x x' hx => hstep i (Nat.lt_succ_of_lt hi) x x' hx))

/-- A loop whose iterations keep two memories in agreement keeps them in agreement. -/
theorem forLoop_agree (n : Nat) (body : Nat → Mem β α → Mem β α) (S : Ptr β → Prop)
    (hb : ∀ i, i < n → ∀ x x', AgreeOff S x x' → AgreeOff S (body i x) (body i x'))
    (h h' : Mem β α) (hh : AgreeOff S h h') :
    AgreeOff S (forLoop n body h) (forLoop n body h') :=
  forLoop_rel n body body (fun _ x x' => AgreeOff S x x') h h' hh hb

/-- A loop of single writes whose values depend only on locations outside `S` keeps two
memories in agreement outside `S`, and brings the locations it writes into agreement. -/
theorem writeLoop_agree_clear (n : Nat) (d : Nat → Ptr β) (g : Nat → Mem β α → α)
    (S : Ptr β → Prop) (hg : ∀ i, i < n → ∀ x x', AgreeOff S x x' → g i x = g i x')
    (h h' : Mem β α) (hh : AgreeOff S h h') :
    AgreeOff (fun q => S q ∧ ∀ i, i < n → q ≠ d i)
      (forLoop n (fun i h => h.write (d i) (g i h)) h)
      (forLoop n (fun i h => h.write (d i) (g i h)) h') := by
  refine forLoop_rel n _ _ (fun k x x' => AgreeOff (fun q => S q ∧ ∀ i, i < k → q ≠ d i) x x')
    h h' (hh.mono (fun q hq => ⟨hq, fun i hi => absurd hi (Nat.not_lt_zero i)⟩))
    (fun i hi x x' hx => ?_)
  have hv : g i x = g i x' := hg i hi x x' (hx.mono (fun q hq => hq.1))
  refine (hx.write (d i) hv).mono (fun q hq => ⟨hq.1.1, fun k hk => ?_⟩)
  rcases Nat.lt_succ_iff_lt_or_eq.mp hk with hlt | heq
  · exact hq.1.2 k hlt
  · rw [heq]
    exact hq.2

/-- A loop of single writes whose values depend only on locations outside `S` keeps two
memories in agreement outside `S`. -/
theorem writeLoop_agree (n : Nat) (d : Nat → Ptr β) (g : Nat → Mem β α → α)
    (S : Ptr β → Prop) (hg : ∀ i, i < n → ∀ x x', AgreeOff S x x' → g i x = g i x')
    (h h' : Mem β α) (hh : AgreeOff S h h') :
    AgreeOff S (forLoop n (fun i h => h.write (d i) (g i h)) h)
      (forLoop n (fun i h => h.write (d i) (g i h)) h') :=
  (writeLoop_agree_clear n d g S hg h h' hh).mono (fun q hq => hq.1)

theorem matrix_add_agree [Add α] (S : Ptr β → Prop) (size : Nat) (a b c : Ptr β)
    (h h' : Mem β α) (hh : AgreeOff S h h') (ha : ∀ i, i < size → ¬ S (a.idx i))
    (hb : ∀ i, i < size → ¬ S (b.idx i)) :
    AgreeOff S (matrix_add size a b c h) (matrix_add size a b c h') :=
  writeLoop_agree _ _ _ S
    (fun i hi x x' hx => by simp only [hx _ (ha i hi), hx _ (hb i hi)]) h h' hh

theorem matrix_eltwise_mult_agree [Mul α] (S : Ptr β → Prop) (size : Nat) (a b c : Ptr β)
    (h h' : Mem β α) (hh : AgreeOff S h h') (ha : ∀ i, i < size → ¬ S (a.idx i))
    (hb : ∀ i, i < size → ¬ S (b.idx i)) :
    AgreeOff S (matrix_eltwise_mult size a b c h) (matrix_eltwise_mult size a b c h') :=
  writeLoop_agree _ _ _ S
    (fun i hi x x' hx => by simp only [hx _ (ha i hi), hx _ (hb i hi)]) h h' hh

theorem matrix_eltwise_mult_ld_a_agree [Mul α] (S : Ptr β → Prop) (m n ld : Nat) (a b c : Ptr β)
    (h h' : Mem β α) (hh : AgreeOff S h h') (ha : ∀ i, ¬ S (a.idx i))
    (hb : ∀ i, i < m * n → ¬ S (b.idx i)) :
    AgreeOff S (matrix_eltwise_mult_ld_a m n ld a b c h) (matrix_eltwise_mult_ld_a m n ld a b c h') :=
  writeLoop_agree _ _ _ S
    (fun i hi x x' hx => by simp only [hx _ (ha _), hx _ (hb i hi)]) h h' hh

theorem matrix_eltwise_mult_ld_ab_agree [Mul α] (S : Ptr β → Prop) (m n ld : Nat) (a b c : Ptr β)
    (h h' : Mem β α) (hh : AgreeOff S h h') (ha : ∀ i, ¬ S (a.idx i))
    (hb : ∀ i, ¬ S (b.idx i)) :
    AgreeOff S (matrix_eltwise_mult_ld_ab m n ld a b c h) (matrix_eltwise_mult_ld_ab m n ld a b c h') :=
  writeLoop_agree _ _ _ S
    (fun i hi x x' hx => by simp only [hx _ (ha _), hx _ (hb _)]) h h' hh

theorem matrix_eltwise_mult_ld_c_agree [Mul α] (S : Ptr β → Prop) (m n ld : Nat) (a b c : Ptr β)
    (h h' : Mem β α) (hh : AgreeOff S h h') (ha : ∀ i, i < m * n → ¬ S (a.idx i))
    (hb : ∀ i, i < m * n → ¬ S (b.idx i)) :
    AgreeOff S (matrix_eltwise_mult_ld_c m n ld a b c h) (matrix_eltwise_mult_ld_c m n ld a b c h') :=
  writeLoop_agree _ _ _ S
    (fun i hi x x' hx => by simp only [hx _ (ha i hi), hx _ (hb i hi)]) h h' hh

theorem matrix_sigmoid_ld_agree [One α] [Add α] [Neg α] [Div α] (S : Ptr β → Prop) (lm : Libm α) (m n ld : Nat) (src dst : Ptr β)
    (h h' : Mem β α) (hh : AgreeOff S h h') (hs : ∀ i, ¬ S (src.idx i)) :
    AgreeOff S (matrix_sigmoid_ld lm m n ld src dst h) (matrix_sigmoid_ld lm m n ld src dst h') :=
  writeLoop_agree _ _ _ S (fun i hi x x' hx => by simp only [hx _ (hs _)]) h h' hh

theorem matrix_tanh_agree (S : Ptr β → Prop) (lm : Libm α) (size : Nat) (src dst : Ptr β)
    (h h' : Mem β α) (hh : AgreeOff S h h') (hs : ∀ i, i < size → ¬ S (src.idx i)) :
    AgreeOff S (matrix_tanh lm size src dst h) (matrix_tanh lm size src dst h') :=
  writeLoop_agree _ _ _ S (fun i hi x x' hx => by simp only [hx _ (hs i hi)]) h h' hh

theorem matrix_tanh_ld_agree (S : Ptr β → Prop) (lm : Libm α) (m n ld : Nat) (src dst : Ptr β)
    (h h' : Mem β α) (hh : AgreeOff S h h') (hs : ∀ i, ¬ S (src.idx i)) :
    AgreeOff S (matrix_tanh_ld lm m n ld src dst h) (matrix_tanh_ld lm m n ld src dst h') :=
  writeLoop_agree _ _ _ S (fun i hi x x' hx => by simp only [hx _ (hs _)]) h h' hh

theorem matrix_tanh_inverse_agree [One α] [Sub α] [Mul α] (S : Ptr β → Prop) (lm : Libm α) (size : Nat) (src dst : Ptr β)
    (h h' : Mem β α) (hh : AgreeOff S h h') (hs : ∀ i, i < size → ¬ S (src.idx i)) :
    AgreeOff S (matrix_tanh_inverse lm size src dst h) (matrix_tanh_inverse lm size src dst h') :=
  writeLoop_agree _ _ _ S (fun i hi x x' hx => by simp only [hx _ (hs i hi)]) h h' hh

theorem matrix_copy_agree (S : Ptr β → Prop) (size : Nat) (src dst : Ptr β)
    (h h' : Mem β α) (hh : AgreeOff S h h') (hs : ∀ i, i < size → ¬ S (src.idx i)) :
    AgreeOff S (matrix_copy size src dst h) (matrix_copy size src dst h') :=
  writeLoop_agree _ _ _ S (fun i hi x x' hx => by simp only [hx _ (hs i hi)]) h h' hh

theorem matrix_copy_ld_agree (S : Ptr β → Prop) (m n ld : Nat) (src dst : Ptr β)
    (h h' : Mem β α) (hh : AgreeOff S h h') (hs : ∀ i, ¬ S (src.idx i)) :
    AgreeOff S (matrix_copy_ld m n ld src dst h) (matrix_copy_ld m n ld src dst h') :=
  writeLoop_agree _ _ _ S (fun i hi x x' hx => by simp only [hx _ (hs _)]) h h' hh

theorem matrix_copy_bias_agree (S : Ptr β → Prop) (m n ld : Nat) (src dst : Ptr β)
    (h h' : Mem β α) (hh : AgreeOff S h h') (hs : ∀ i, ¬ S (src.idx i)) :
    AgreeOff S (matrix_copy_bias m n ld src dst h) (matrix_copy_bias m n ld src dst h') :=
  writeLoop_agree _ _ _ S (fun i hi x x' hx => by simp only [hx _ (hs _)]) h h' hh

theorem matrix_complement_ld_agree [One α] [Sub α] (S : Ptr β → Prop) (m n ld : Nat) (src dst : Ptr β)
    (h h' : Mem β α) (hh : AgreeOff S h h') (hs : ∀ i, ¬ S (src.idx i)) :
    AgreeOff S (matrix_complement_ld m n ld src dst h) (matrix_complement_ld m n ld src dst h') :=
  writeLoop_agree _ _ _ S (fun i hi x x' hx => by simp only [hx _ (hs _)]) h h' hh

theorem matrix_complement_square_ld_agree [One α] [Sub α] [Mul α] (S : Ptr β → Prop) (m n ld : Nat) (src dst : Ptr β)
    (h h' : Mem β α) (hh : AgreeOff S h h') (hs : ∀ i, ¬ S (src.idx i)) :
    AgreeOff S (matrix_complement_square_ld m n ld src dst h) (matrix_complement_square_ld m n ld src dst h') :=
  writeLoop_agree _ _ _ S (fun i hi x x' hx => by simp only [hx _ (hs _)]) h h' hh

theorem convert_ck_c4k_agree (S : Ptr β → Prop) (C K : Nat) (src dst : Ptr β)
    (h h' : Mem β α) (hh : AgreeOff S h h') (hs : ∀ i, ¬ S (src.idx i)) :
    AgreeOff S (convert_ck_c4k C K src dst h) (convert_ck_c4k C K src dst h') := by
  unfold convert_ck_c4k
  refine forLoop_agree C _ S (fun y _ x x' hx => ?_) h h' hh
  exact writeLoop_agree K _ _ S (fun i hi x x' hx => by simp only [hx _ (hs _)]) x x' hx

theorem convert_nk_nck_agree (S : Ptr β → Prop) (N K CK : Nat) (src dst : Ptr β)
    (h h' : Mem β α) (hh : AgreeOff S h h') (hs : ∀ i, ¬ S (src.idx i)) :
    AgreeOff S (convert_nk_nck N K CK src dst h) (convert_nk_nck N K CK src dst h') := by
  unfold convert_nk_nck
  refine forLoop_agree N _ S (fun y _ x x' hx => ?_) h h' hh
  exact writeLoop_agree K _ _ S (fun i hi x x' hx => by simp only [hx _ (hs _)]) x x' hx

/-- The dense multiply reads its two operands and, scaled by `beta`, its result matrix. -/
theorem gemm_agree [Zero α] [Add α] [Mul α] (S : Ptr β → Prop) (ta tb : Bool) (m n k : Nat)
    (alpha : α) (a : Ptr β) (lda : Nat) (b : Ptr β) (ldb : Nat) (beta : α) (c : Ptr β)
    (ldc : Nat) (h h' : Mem β α) (hh : AgreeOff S h h') (ha : ∀ i, ¬ S (a.idx i))
    (hb : ∀ i, ¬ S (b.idx i)) (hc : ∀ i, ¬ S (c.idx i)) :
    AgreeOff S (gemm ta tb m n k alpha a lda b ldb beta c ldc h)
      (gemm ta tb m n k alpha a lda b ldb beta c ldc h') := by
  unfold gemm
  dsimp only
  refine forLoop_rel n _ _ (fun _ x x' => AgreeOff S x x') h h' hh (fun j _ x x' hx => ?_)
  refine forLoop_rel m _ _ (fun _ x x' => AgreeOff S x x') x x' hx (fun i _ y y' hy => ?_)
  refine (hy.write _ ?_).mono (fun q hq => hq.1)
  simp only [hh _ (ha _), hh _ (hb _), hy _ (hc _)]

/-- The dense multiply with `beta = 0` reads its two operands only. -/
theorem gemm_beta0_agree [Zero α] [Add α] [Mul α] (S : Ptr β → Prop) (ta tb : Bool)
    (m n k : Nat) (alpha : α) (a : Ptr β) (lda : Nat) (b : Ptr β) (ldb : Nat) (c : Ptr β)
    (ldc : Nat) (h h' : Mem β α) (hh : AgreeOff S h h') (ha : ∀ i, ¬ S (a.idx i))
    (hb : ∀ i, ¬ S (b.idx i)) :
    AgreeOff S (gemm_beta0 ta tb m n k alpha a lda b ldb c ldc h)
      (gemm_beta0 ta tb m n k alpha a lda b ldb c ldc h') := by
  unfold gemm_beta0
  dsimp only
  refine forLoop_rel n _ _ (fun _ x x' => AgreeOff S x x') h h' hh (fun j _ x x' hx => ?_)
  refine forLoop_rel m _ _ (fun _ x x' => AgreeOff S x x') x x' hx (fun i _ y y' hy => ?_)
  refine (hy.write _ ?_).mono (fun q hq => hq.1)
  simp only [hh _ (ha _), hh _ (hb _)]

theorem matrix_add_agree_clear [Add α] (S : Ptr β → Prop) (size : Nat) (a b c : Ptr β)
    (h h' : Mem β α) (hh : AgreeOff S h h') (ha : ∀ i, i < size → ¬ S (a.idx i))
    (hb : ∀ i, i < size → ¬ S (b.idx i)) :
    AgreeOff (fun q => S q ∧ ∀ i, i < size → q ≠ c.idx i)
      (matrix_add size a b c h) (matrix_add size a b c h') :=
  writeLoop_agree_clear _ _ _ S
    (fun i hi x x' hx => by simp only [hx _ (ha i hi), hx _ (hb i hi)]) h h' hh

theorem AgreeOff.write_same {S : Ptr β → Prop} {h h' : Mem β α} (hh : AgreeOff S h h')
    (p : Ptr β) {v v' : α} (hv : v = v') : AgreeOff S (h.write p v) (h'.write p v') :=
  (hh.write p hv).mono (fun q hq => hq.1)

/-- The accumulation `*d += *e` reads `d` and `e`. -/
theorem agree_acc [Add α] {S : Ptr β → Prop} {h h' : Mem β α} (d e : Ptr β)
    (hh : AgreeOff S h h') (hd : ¬ S d) (he : ¬ S e) :
    AgreeOff S (h.write d (h.read d + h.read e)) (h'.write d (h'.read d + h'.read e)) :=
  hh.write_same d (by rw [hh _ hd, hh _ he])

end Agreement

section StageAgreement

variable {α : Type} [Zero α] [One α] [Add α] [Sub α] [Mul α] [Div α] [Neg α]

/-- The setup and the forward loop read neither `doutgoldt` nor `dcspgold`. -/
theorem lstm_fwd_agree (two_gemms : Bool) (lm : Libm α) (N C K j : Nat) (forget_bias : α)
    (S : Ptr Buf → Prop) (hS : ∀ q, S q → q.buf = .doutgoldt ∨ q.buf = .dcspgold)
    (h h' : Mem Buf α) (hh : AgreeOff S h h') :
    AgreeOff S (lstm_fwd two_gemms lm N C K j forget_bias h)
      (lstm_fwd two_gemms lm N C K j forget_bias h') := by
  have h1 : AgreeOff S (lstm_fuse_weights two_gemms C K (lstm_forget_bias K forget_bias h))
      (lstm_fuse_weights two_gemms C K (lstm_forget_bias K forget_bias h')) := by
    have h0 : AgreeOff S (lstm_forget_bias K forget_bias h)
        (lstm_forget_bias K forget_bias h') := by
      unfold lstm_forget_bias
      refine writeLoop_agree _ _ _ S (fun i hi x x' hx => ?_) h h' hh
      have hq : ¬ S ((base .bfgold).idx i) := by
        intro hq
        rcases hS _ hq with e | e <;> exact Buf.noConfusion e
      simp only [hx _ hq]
    unfold lstm_fuse_weights
    cases two_gemms
    all_goals simp only [if_true, if_false, Bool.false_eq_true]
    all_goals
      repeat' (first | exact h0 | with_reducible apply convert_ck_c4k_agree)
    all_goals
      intro i hq
      rcases hS _ hq with e | e <;> exact Buf.noConfusion e
  unfold lstm_fwd
  dsimp only
  refine forLoop_agree j _ S (fun t _ x x' hx => ?_) _ _ h1
  unfold fwd_step fwd_hidden fwd_cell fwd_nonlin fwd_gemm fwd_bias concat_xh
  cases two_gemms <;> by_cases ht : t = 0
  all_goals simp only [if_true, if_false, Bool.false_eq_true, ht, if_pos, if_neg]
  all_goals
    repeat' (first
      | exact hx
      | with_reducible apply matrix_eltwise_mult_ld_a_agree
      | with_reducible apply matrix_eltwise_mult_ld_ab_agree
      | with_reducible apply matrix_add_agree
      | with_reducible apply matrix_tanh_agree
      | with_reducible apply matrix_sigmoid_ld_agree
      | with_reducible apply matrix_tanh_ld_agree
      | with_reducible apply gemm_agree
      | with_reducible apply gemm_beta0_agree
      | with_reducible apply convert_nk_nck_agree
      | with_reducible apply matrix_copy_bias_agree)
  all_goals
    first
    | (intro i hi hq
       rcases hS _ hq with e | e <;> exact Buf.noConfusion e)
    | (intro i hq
       rcases hS _ hq with e | e <;> exact Buf.noConfusion e)

/-- "Compute delta" reads `dhgoldt`, and `doutgoldt` unless it is at the last timestep. -/
theorem bwd_delta_agree (N K T j : Nat) (S : Ptr Buf → Prop)
    (hS : ∀ q, S q → q.buf = .doutgoldt ∨ q.buf = .dcspgold)
    (hd : j = T - 1 ∨ ∀ q, S q → q.buf ≠ .doutgoldt)
    (s s' : Mem Buf α) (hh : AgreeOff S s s') :
    AgreeOff S (bwd_delta N K T j s) (bwd_delta N K T j s') := by
  unfold bwd_delta
  split
  · refine matrix_copy_agree S _ _ _ s s' hh (fun i hi hq => ?_)
    rcases hS _ hq with e | e <;> exact Buf.noConfusion e
  · next hj =>
    refine matrix_add_agree S _ _ _ _ s s' hh (fun i hi hq => ?_) (fun i hi hq => ?_)
    · exact hd.resolve_left hj _ hq rfl
    · rcases hS _ hq with e | e <;> exact Buf.noConfusion e

/-- "Compute dcsp" reads the first `K * N` elements of `dcspgold`, and only when it is not
at the last timestep. -/
theorem bwd_dcsp_agree (lm : Libm α) (N K T j : Nat) (S : Ptr Buf → Prop)
    (hS : ∀ q, S q → q.buf = .doutgoldt ∨ q.buf = .dcspgold)
    (hc : ∀ i, i < K * N → ¬ S ((base .dcspgold).idx i))
    (s s' : Mem Buf α) (hh : AgreeOff S s s') :
    AgreeOff S (bwd_dcsp lm N K T j s) (bwd_dcsp lm N K T j s') := by
  unfold bwd_dcsp
  dsimp only
  split
  all_goals
    repeat' (first
      | exact hh
      | exact hc
      | with_reducible apply matrix_eltwise_mult_ld_a_agree
      | with_reducible apply matrix_tanh_inverse_agree
      | with_reducible apply matrix_eltwise_mult_agree
      | with_reducible apply matrix_add_agree)
  all_goals
    first
    | (intro i hi hq
       rcases hS _ hq with e | e <;> exact Buf.noConfusion e)
    | (intro i hq
       rcases hS _ hq with e | e <;> exact Buf.noConfusion e)

/-- At the last timestep "compute dcsp" reads nothing of `dcspgold` and overwrites its
first `K * N` elements. -/
theorem bwd_dcsp_agree_first (lm : Libm α) (N K T : Nat) (S : Ptr Buf → Prop)
    (hS : ∀ q, S q → q.buf = .doutgoldt ∨ q.buf = .dcspgold)
    (s s' : Mem Buf α) (hh : AgreeOff S s s') :
    AgreeOff (fun q => S q ∧ ∀ i, i < K * N → q ≠ (base .dcspgold).idx i)
      (bwd_dcsp lm N K T (T - 1) s) (bwd_dcsp lm N K T (T - 1) s') := by
  unfold bwd_dcsp
  dsimp only
  rw [if_pos rfl, if_pos rfl]
  apply matrix_add_agree_clear
  repeat' (first
    | exact hh
    | with_reducible apply matrix_eltwise_mult_ld_a_agree
    | with_reducible apply matrix_tanh_inverse_agree
    | with_reducible apply matrix_eltwise_mult_agree)
  all_goals
    first
    | (intro i hi hq
       rcases hS _ hq with e | e <;> exact Buf.noConfusion e)
    | (intro i hq
       rcases hS _ hq with e | e <;> exact Buf.noConfusion e)

/-- The bias-gradient loop reads `dbgold` and `dicfogoldt`. -/
theorem bwd_db_agree (N K j : Nat) (S : Ptr Buf → Prop)
    (hS : ∀ q, S q → q.buf = .doutgoldt ∨ q.buf = .dcspgold)
    (s s' : Mem Buf α) (hh : AgreeOff S s s') :
    AgreeOff S (bwd_db N K j s) (bwd_db N K j s') := by
  unfold bwd_db
  refine forLoop_agree K _ S (fun l _ x x' hx => ?_) s s' hh
  refine forLoop_agree N _ S (fun p _ y y' hy => ?_) x x' hx
  dsimp only
  repeat' (first | exact hy | with_reducible apply agree_acc)
  all_goals
    intro hq
    rcases hS _ hq with e | e <;> exact Buf.noConfusion e

/-- The gate gradients, "update dcsp", the multiplies and the bias gradient of timestep
`j` read the first `K * N` elements of `dcspgold`, and `doutgoldt` only as the result
matrix of a multiply at `j > 0`. -/
theorem bwd_tail_agree (two_gemms : Bool) (lm : Libm α) (N C K j : Nat) (S : Ptr Buf → Prop)
    (hS : ∀ q, S q → q.buf = .doutgoldt ∨ q.buf = .dcspgold)
    (hc : ∀ i, i < K * N → ¬ S ((base .dcspgold).idx i))
    (hd : j = 0 ∨ ∀ q, S q → q.buf ≠ .doutgoldt)
    (s s' : Mem Buf α) (hh : AgreeOff S s s') :
    AgreeOff S
      (bwd_db N K j (bwd_gemm two_gemms N C K j (bwd_dcsp_update N K j (bwd_gates lm N K j s))))
      (bwd_db N K j (bwd_gemm two_gemms N C K j
        (bwd_dcsp_update N K j (bwd_gates lm N K j s')))) := by
  apply bwd_db_agree N K j S hS
  unfold bwd_gemm bwd_dcsp_update bwd_gates concat_xh
  rcases Nat.eq_zero_or_pos j with hj | hj
  · subst hj
    cases two_gemms
    all_goals simp only [if_true, if_false, Bool.false_eq_true, gt_iff_lt, Nat.lt_irrefl]
    all_goals
      repeat' (first
        | exact hh
        | exact hc
        | with_reducible apply gemm_agree
        | with_reducible apply gemm_beta0_agree
        | with_reducible apply matrix_copy_ld_agree
        | with_reducible apply convert_nk_nck_agree
        | with_reducible apply matrix_eltwise_mult_ld_a_agree
        | with_reducible apply matrix_eltwise_mult_ld_c_agree
        | with_reducible apply matrix_eltwise_mult_agree
        | with_reducible apply matrix_complement_ld_agree
        | with_reducible apply matrix_complement_square_ld_agree
        | with_reducible apply matrix_tanh_agree)
    all_goals
      first
      | (intro i hi hq
         rcases hS _ hq with e | e <;> exact Buf.noConfusion e)
      | (intro i hq
         rcases hS _ hq with e | e <;> exact Buf.noConfusion e)
  · have hj0 : j ≠ 0 := Nat.pos_iff_ne_zero.mp hj
    have hd2 := hd.resolve_left hj0
    cases two_gemms
    all_goals simp only [if_true, if_false, Bool.false_eq_true, gt_iff_lt, hj, hj0]
    all_goals
      repeat' (first
        | exact hh
        | exact hc
        | with_reducible apply gemm_agree
        | with_reducible apply gemm_beta0_agree
        | with_reducible apply matrix_copy_ld_agree
        | with_reducible apply convert_nk_nck_agree
        | with_reducible apply matrix_eltwise_mult_ld_a_agree
        | with_reducible apply matrix_eltwise_mult_ld_c_agree
        | with_reducible apply matrix_eltwise_mult_agree
        | with_reducible apply matrix_complement_ld_agree
        | with_reducible apply matrix_complement_square_ld_agree
        | with_reducible apply matrix_tanh_agree)
    all_goals
      first
      | (intro i hi hq
         rcases hS _ hq with e | e <;> exact Buf.noConfusion e)
      | (intro i hq
         rcases hS _ hq with e | e <;> exact Buf.noConfusion e)
      | (intro i hq
         exact hd2 _ hq rfl)

/-- The backward step of timestep `j`, on two memories that agree where it reads. -/
theorem bwd_step_agree (two_gemms : Bool) (lm : Libm α) (N C K T j : Nat)
    (S : Ptr Buf → Prop) (hS : ∀ q, S q → q.buf = .doutgoldt ∨ q.buf = .dcspgold)
    (hc : ∀ i, i < K * N → ¬ S ((base .dcspgold).idx i))
    (hd : j = T - 1 ∨ ∀ q, S q → q.buf ≠ .doutgoldt)
    (hd0 : j = 0 ∨ ∀ q, S q → q.buf ≠ .doutgoldt)
    (s s' : Mem Buf α) (hh : AgreeOff S s s') :
    AgreeOff S (bwd_step two_gemms lm N C K T j s) (bwd_step two_gemms lm N C K T j s') :=
  bwd_tail_agree two_gemms lm N C K j S hS hc hd0 _ _
    (bwd_dcsp_agree lm N K T j S hS hc _ _ (bwd_delta_agree N K T j S hS hd s s' hh))

end StageAgreement

section Unread

variable {α : Type} [Zero α] [One α] [Add α] [Sub α] [Mul α] [Div α] [Neg α]

/-- For a single timestep nothing that `lstm_ref` computes depends on `doutgoldt`: two
calls on memories that differ in `doutgoldt` only return memories that differ in
`doutgoldt` only. -/
theorem lstm_ref_dout_unread (two_gemms : Bool) (lm : Libm α) (N C K : Nat) (forget_bias : α)
    (h h' : Mem Buf α) (hh : ∀ q : Ptr Buf, q.buf ≠ .doutgoldt → h.read q = h'.read q)
    (q : Ptr Buf) (hq : q.buf ≠ .doutgoldt) :
    (lstm_ref two_gemms lm N C K 1 forget_bias h).read q
      = (lstm_ref two_gemms lm N C K 1 forget_bias h').read q := by
  have hS : ∀ q : Ptr Buf, q.buf = .doutgoldt → q.buf = .doutgoldt ∨ q.buf = .dcspgold :=
    fun q hq => Or.inl hq
  have h1 : AgreeOff (fun q : Ptr Buf => q.buf = .doutgoldt)
      (lstm_fwd two_gemms lm N C K 1 forget_bias h)
      (lstm_fwd two_gemms lm N C K 1 forget_bias h') :=
    lstm_fwd_agree two_gemms lm N C K 1 forget_bias _ hS h h' hh
  exact bwd_step_agree two_gemms lm N C K 1 0 _ hS
    (fun i _ he => Buf.noConfusion he) (Or.inl rfl) (Or.inl rfl) _ _ h1 q hq

/-- The part of `dcspgold` beyond the `K * N` elements that the backward loop uses. -/
theorem dcsp_tail_unread {N K : Nat} (i : Nat) (hi : i < K * N) :
    ¬ ((fun q : Ptr Buf => q.buf = .dcspgold ∧ ∀ i, i < K * N → q ≠ (base .dcspgold).idx i)
      ((base .dcspgold).idx i)) :=
  fun hq => hq.2 i hi rfl

/-- After every backward step, two runs of `lstm_ref` on memories that differ in
`dcspgold` only agree everywhere but beyond the first `K * N` elements of `dcspgold`. -/
theorem lstm_bwd_agree (two_gemms : Bool) (lm : Libm α) (N C K T : Nat) (forget_bias : α)
    (h h' : Mem Buf α) (hh : ∀ q : Ptr Buf, q.buf ≠ .dcspgold → h.read q = h'.read q)
    (j : Nat) (hj : j < T) :
    AgreeOff (fun q : Ptr Buf => q.buf = .dcspgold ∧ ∀ i, i < K * N → q ≠ (base .dcspgold).idx i)
      (lstm_bwd two_gemms lm N C K T forget_bias j h)
      (lstm_bwd two_gemms lm N C K T forget_bias j h') := by
  have hS0 : ∀ q : Ptr Buf, q.buf = .dcspgold → q.buf = .doutgoldt ∨ q.buf = .dcspgold :=
    fun q hq => Or.inr hq
  have hS1 : ∀ q : Ptr Buf,
      (q.buf = .dcspgold ∧ ∀ i, i < K * N → q ≠ (base .dcspgold).idx i)
        → q.buf = .doutgoldt ∨ q.buf = .dcspgold :=
    fun q hq => Or.inr hq.1
  have hnd : ∀ q : Ptr Buf,
      (q.buf = .dcspgold ∧ ∀ i, i < K * N → q ≠ (base .dcspgold).idx i)
        → q.buf ≠ .doutgoldt :=
    fun q hq he => by rw [hq.1] at he; exact Buf.noConfusion he
  have key : ∀ d j, j + d + 1 = T →
      AgreeOff (fun q : Ptr Buf =>
          q.buf = .dcspgold ∧ ∀ i, i < K * N → q ≠ (base .dcspgold).idx i)
        (lstm_bwd two_gemms lm N C K T forget_bias j h)
        (lstm_bwd two_gemms lm N C K T forget_bias j h') := by
    intro d
    induction d with
    | zero =>
      intro j hj
      have hjT : j = T - 1 := by omega
      subst hjT
      rw [lstm_bwd_step two_gemms lm N C K T forget_bias h (T - 1) (by omega),
        lstm_bwd_step two_gemms lm N C K T forget_bias h' (T - 1) (by omega),
        show T - 1 + 1 = T by omega, lstm_bwd_top, lstm_bwd_top]
      exact bwd_tail_agree two_gemms lm N C K (T - 1) _ hS1 dcsp_tail_unread (Or.inr hnd) _ _
        (bwd_dcsp_agree_first lm N K T _ hS0 _ _
          (bwd_delta_agree N K T (T - 1) _ hS0 (Or.inl rfl) _ _
            (lstm_fwd_agree two_gemms lm N C K T forget_bias _ hS0 h h' hh)))
    | succ d ih =>
      intro j hj
      rw [lstm_bwd_step two_gemms lm N C K T forget_bias h j (by omega),
        lstm_bwd_step two_gemms lm N C K T forget_bias h' j (by omega)]
      exact bwd_step_agree two_gemms lm N C K T j _ hS1 dcsp_tail_unread (Or.inr hnd)
        (Or.inr hnd) _ _ (ih (j + 1) (by omega))
  exact key (T - 1 - j) j (by omega)

/-- The cell-state gradient `dCS_t` does not depend on what `dcspgold` held at the call. -/
theorem lstm_dcs_unread (two_gemms : Bool) (lm : Libm α) (N C K T : Nat) (forget_bias : α)
    (h h' : Mem Buf α) (hh : ∀ q : Ptr Buf, q.buf ≠ .dcspgold → h.read q = h'.read q)
    (t e : Nat) (ht : t < T) (he : e < K * N) :
    (lstm_dcs two_gemms lm N C K T forget_bias t h).read ((base .dcspgold).idx e)
      = (lstm_dcs two_gemms lm N C K T forget_bias t h').read ((base .dcspgold).idx e) := by
  have hS0 : ∀ q : Ptr Buf, q.buf = .dcspgold → q.buf = .doutgoldt ∨ q.buf = .dcspgold :=
    fun q hq => Or.inr hq
  have hS1 : ∀ q : Ptr Buf,
      (q.buf = .dcspgold ∧ ∀ i, i < K * N → q ≠ (base .dcspgold).idx i)
        → q.buf = .doutgoldt ∨ q.buf = .dcspgold :=
    fun q hq => Or.inr hq.1
  have hnd : ∀ q : Ptr Buf,
      (q.buf = .dcspgold ∧ ∀ i, i < K * N → q ≠ (base .dcspgold).idx i)
        → q.buf ≠ .doutgoldt :=
    fun q hq he => by rw [hq.1] at he; exact Buf.noConfusion he
  unfold lstm_dcs
  by_cases hl : t = T - 1
  · subst hl
    rw [show T - 1 + 1 = T by omega, lstm_bwd_top, lstm_bwd_top]
    exact bwd_dcsp_agree_first lm N K T _ hS0 _ _
      (bwd_delta_agree N K T (T - 1) _ hS0 (Or.inl rfl) _ _
        (lstm_fwd_agree two_gemms lm N C K T forget_bias _ hS0 h h' hh)) _
      (dcsp_tail_unread e he)
  · exact bwd_dcsp_agree lm N K T t _ hS1 dcsp_tail_unread _ _
      (bwd_delta_agree N K T t _ hS1 (Or.inr hnd) _ _
        (lstm_bwd_agree two_gemms lm N C K T forget_bias h h' hh (t + 1) (by omega))) _
      (dcsp_tail_unread e he)

end Unread

section InputGradient

variable {α : Type} [Zero α] [One α] [Add α] [Sub α] [Mul α] [Div α] [Neg α]

/-- The backward step of timestep `j` leaves the slices of `dxgoldt` below timestep `j`
as they are. -/
theorem bwd_step_dx_below (two_gemms : Bool) (lm : Libm α) (N C K T j : Nat) (q : Ptr Buf)
    (s : Mem Buf α) (hq : q.buf = .dxgoldt) (ho : q.off < j * (N * C)) :
    (bwd_step two_gemms lm N C K T j s).read q = s.read q := by
  have hne : ∀ b : Buf, b ≠ .dxgoldt → q.buf ≠ b := fun b hb he => hb (he.symm.trans hq)
  have hlt : q.off < (seq_at .dxgoldt j (N * C)).off := by
    rw [seq_at_off0]
    exact ho
  unfold bwd_step
  dsimp only
  rw [bwd_db_skip N K j q _ (hne _ nofun)]
  have hg : ∀ x : Mem Buf α, (bwd_gemm two_gemms N C K j x).read q = x.read q := by
    intro x
    unfold bwd_gemm concat_xh
    cases two_gemms
    all_goals simp only [if_true, if_false, Bool.false_eq_true]
    all_goals split_ifs
    all_goals
      simp (disch := with_unfolding_all first
        | exact Or.inr hlt
        | exact Or.inl (hne _ (fun he => Buf.noConfusion he))) only
        [gemm_skip, gemm_beta0_skip, matrix_copy_ld_skip, convert_nk_nck_skip]
  rw [hg, bwd_dcsp_update_skip N K j q _ (hne _ nofun),
    bwd_gates_skip lm N K j q _ (hne _ nofun) (hne _ nofun) (hne _ nofun)
      (Or.inl (hne _ nofun)),
    bwd_dcsp_skip lm N K T j q _ (hne _ nofun) (hne _ nofun) (hne _ nofun) (hne _ nofun),
    bwd_delta_skip N K T j q _ (Or.inl (hne _ nofun))]

/-- Until the backward loop reaches timestep `t`, the slice of timestep `t` of `dxgoldt`
holds what the caller passed. -/
theorem lstm_bwd_dx_prior (two_gemms : Bool) (lm : Libm α) (N C K T : Nat) (forget_bias : α)
    (h : Mem Buf α) (t e : Nat) (he : e < N * C) (j : Nat) (hj : t < j) (hjT : j ≤ T) :
    (lstm_bwd two_gemms lm N C K T forget_bias j h).read ((seq_at .dxgoldt t (N * C)).idx e)
      = h.read ((seq_at .dxgoldt t (N * C)).idx e) := by
  have key : ∀ d j, t < j → j + d = T →
      (lstm_bwd two_gemms lm N C K T forget_bias j h).read ((seq_at .dxgoldt t (N * C)).idx e)
        = h.read ((seq_at .dxgoldt t (N * C)).idx e) := by
    intro d
    induction d with
    | zero =>
      intro j _ hj
      have : j = T := by omega
      subst this
      rw [lstm_bwd_top]
      exact lstm_fwd_input two_gemms lm N C K j forget_bias _ h nofun nofun nofun rfl nofun
        ⟨nofun, nofun, nofun⟩
    | succ d ih =>
      intro j hj1 hj2
      rw [lstm_bwd_step two_gemms lm N C K T forget_bias h j (by omega),
        bwd_step_dx_below two_gemms lm N C K T j _ _ rfl
          (by
            rw [seq_at_off]
            have : (t + 1) * (N * C) ≤ j * (N * C) := Nat.mul_le_mul_right _ hj1
            rw [Nat.add_mul] at this
            omega)]
      exact ih (j + 1) (by omega) (by omega)
  exact key (T - j) j hj (by omega)

end InputGradient

section InputGradientExact

variable {α : Type} [Field α]

/-- The input gradient of timestep `t` that the `TWO_GEMMS` build returns is
`W4^T * dICFO_t` plus what the caller passed in `dxgoldt`. -/
theorem lstm_ref_dx_two_prior (lm : Libm α) (N C K T : Nat) (forget_bias : α)
    (h : Mem Buf α) (t n c : Nat) (ht : t < T) (hn : n < N) (hc : c < C) :
    (lstm_ref true lm N C K T forget_bias h).read ((seq_at .dxgoldt t (N * C)).idx (n * C + c))
      = (∑ q in Finset.range (4 * K),
          (lstm_ref true lm N C K T forget_bias h).read (w4_elem true K c q)
            * (lstm_ref true lm N C K T forget_bias h).read (dicfo_elem N K t n q))
        + h.read ((seq_at .dxgoldt t (N * C)).idx (n * C + c)) := by
  rw [lstm_ref_dx_two lm N C K T forget_bias h t n c ht hn hc,
    lstm_bwd_dx_prior true lm N C K T forget_bias h t (n * C + c)
      (by rw [Nat.mul_comm N C]; exact tile_index_lt hn hc)
      (t + 1) (Nat.lt_succ_self t) ht]

end InputGradientExact

/-! ## Retention of the activations, helper compositions and value ranges -/

section Retention

variable {α : Type} [Zero α] [One α] [Add α] [Sub α] [Mul α] [Div α] [Neg α]

/-- A location of the slices of timestep `t` in `icfogoldt`, `csgoldt` and `hgoldt` holds,
at the stages of every backward step `j`, what the forward step of timestep `t` left
there. -/
theorem lstm_bwd_retained (two_gemms : Bool) (lm : Libm α) (N C K T : Nat) (forget_bias : α)
    (h : Mem Buf α) (q : Ptr Buf) (t j : Nat) (ht : t < T) (hj : j < T)
    (hs : Settled N K (t + 1) q) (hb : bwd_writes q.buf = false) :
    (lstm_fwd two_gemms lm N C K T forget_bias h).read q
        = (lstm_fwd two_gemms lm N C K (t + 1) forget_bias h).read q
    ∧ (lstm_ref two_gemms lm N C K T forget_bias h).read q
        = (lstm_fwd two_gemms lm N C K (t + 1) forget_bias h).read q
    ∧ (lstm_bwd two_gemms lm N C K T forget_bias (j + 1) h).read q
        = (lstm_fwd two_gemms lm N C K (t + 1) forget_bias h).read q
    ∧ (lstm_dcs two_gemms lm N C K T forget_bias j h).read q
        = (lstm_fwd two_gemms lm N C K (t + 1) forget_bias h).read q
    ∧ (lstm_dgates two_gemms lm N C K T forget_bias j h).read q
        = (lstm_fwd two_gemms lm N C K (t + 1) forget_bias h).read q := by
  have e := lstm_ref_settled two_gemms lm N C K (t + 1) T forget_bias q ht hs hb h
  refine ⟨lstm_fwd_settled two_gemms lm N C K (t + 1) T forget_bias q ht hs h, e, ?_, ?_, ?_⟩
  · rw [lstm_bwd_fwd two_gemms lm N C K T forget_bias h q hb (j + 1) hj, e]
  · rw [lstm_dcs_fwd two_gemms lm N C K T forget_bias h j hj q hb, e]
  · rw [lstm_dgates_fwd two_gemms lm N C K T forget_bias h j hj q hb, e]

end Retention

section HelperComposition

variable {β α : Type} [DecidableEq β]

/-- Value of `matrix_complement_square` when the part of `dst` written so far does not
cover the element of `src` that is read. -/
theorem matrix_complement_square_value [One α] [Sub α] [Mul α] (size : Nat)
    (src dst : Ptr β) (h : Mem β α) (i : Nat) (hi : i < size)
    (hs : ∀ k, k < i → dst.idx k ≠ src.idx i) :
    (matrix_complement_square size src dst h).read (dst.idx i)
      = 1 - h.read (src.idx i) * h.read (src.idx i) :=
  packed1_value size src dst (fun i => i) (fun v => 1 - v * v) h i hi hs

/-- The composition `matrix_complement_square(size, tmp, dst)` after
`matrix_tanh(size, src, tmp)` leaves `1 - tanh(src[i]) * tanh(src[i])` in `dst[i]`. -/
theorem tanh_then_complement_square [One α] [Sub α] [Mul α] (lm : Libm α) (size : Nat)
    (src tmp dst : Ptr β) (h : Mem β α) (i : Nat) (hi : i < size)
    (h1 : ∀ k, k < i → tmp.idx k ≠ src.idx i)
    (h2 : ∀ k, k < i → dst.idx k ≠ tmp.idx i) :
    (matrix_complement_square size tmp dst (matrix_tanh lm size src tmp h)).read (dst.idx i)
      = 1 - lm.tanh (h.read (src.idx i)) * lm.tanh (h.read (src.idx i)) := by
  rw [matrix_complement_square_value size tmp dst _ i hi h2,
    matrix_tanh_value lm size src tmp h i hi h1]

/-- Outside the intermediate buffer and outside `dst`, the composition leaves the memory
as it is. -/
theorem tanh_then_complement_square_frame [One α] [Sub α] [Mul α] (lm : Libm α) (size : Nat)
    (src tmp dst q : Ptr β) (h : Mem β α) (h1 : ∀ i, i < size → tmp.idx i ≠ q)
    (h2 : ∀ i, i < size → dst.idx i ≠ q) :
    (matrix_complement_square size tmp dst (matrix_tanh lm size src tmp h)).read q
      = h.read q := by
  rw [matrix_complement_square_frame size tmp dst q _ h2,
    matrix_tanh_frame lm size src tmp q h h1]

end HelperComposition

section RangeLemmas

/-- The sigmoid of the driver over the reals: the denominator is positive and the value
lies strictly between 0 and 1. -/
theorem sigmoid_value_real (x : ℝ) :
    0 < 1 + Real.exp (-x)
    ∧ 0 < sigmoid_value (Libm.mk Real.exp Real.tanh) x
    ∧ sigmoid_value (Libm.mk Real.exp Real.tanh) x < 1 := by
  have he : 0 < Real.exp (-x) := Real.exp_pos _
  have hd : 0 < 1 + Real.exp (-x) := by linarith
  refine ⟨hd, ?_, ?_⟩
  · exact div_pos one_pos hd
  · show 1 / (1 + Real.exp (-x)) < 1
    rw [div_lt_one hd]
    linarith

/-- The hyperbolic tangent lies strictly between -1 and 1. -/
theorem tanh_real_range (x : ℝ) : -1 < Real.tanh x ∧ Real.tanh x < 1 := by
  have hc : 0 < Real.cosh x := Real.cosh_pos x
  have h1 : Real.cosh x - Real.sinh x = Real.exp (-x) := Real.cosh_sub_sinh x
  have h2 : Real.cosh x + Real.sinh x = Real.exp x := Real.cosh_add_sinh x
  have p1 : 0 < Real.exp (-x) := Real.exp_pos _
  have p2 : 0 < Real.exp x := Real.exp_pos _
  rw [Real.tanh_eq_sinh_div_cosh]
  constructor
  · rw [lt_div_iff₀ hc]
    linarith
  · rw [div_lt_one hc]
    linarith

variable {β α : Type} [DecidableEq β]

/-- A loop of single writes: a location that some iteration writes holds a value that one
of the iterations computed. -/
theorem writeLoop_range (P : α → Prop) (n : Nat) (d : Nat → Ptr β) (g : Nat → Mem β α → α)
    (hP : ∀ i h, P (g i h)) (q : Ptr β) (hq : ∃ i, i < n ∧ d i = q) (h : Mem β α) :
    P ((forLoop n (fun i h => h.write (d i) (g i h)) h).read q) := by
  induction n with
  | zero =>
    obtain ⟨i, hi, _⟩ := hq
    omega
  | succ n ih =>
    show P ((Mem.write _ (d n) _).read q)
    by_cases he : d n = q
    · rw [← he, Mem.read_write_same]
      exact hP _ _
    · rw [Mem.read_write_ne _ _ he]
      obtain ⟨i, hi, hiq⟩ := hq
      refine ih ⟨i, ?_, hiq⟩
      rcases Nat.lt_or_ge i n with hlt | hge
      · exact hlt
      · have : i = n := by omega
        subst this
        exact absurd hiq he

/-- Element `(row, col)` of an `n x m` tile is among the elements a strided helper
writes. -/
theorem strided_written (m n ld row col : Nat) (dst : Ptr β) (hrow : row < n)
    (hcol : col < m) :
    ∃ i, i < m * n ∧ (fun i => dst.idx (i / m * ld + i % m)) i = dst.idx (row * ld + col) :=
  ⟨row * m + col, tile_index_lt hrow hcol, by
    show dst.idx ((row * m + col) / m * ld + (row * m + col) % m) = _
    rw [(tile_index m row col hcol).1, (tile_index m row col hcol).2]⟩

end RangeLemmas

section ForwardOnly

/-- The cell-state gradient `lstm_ref` returns for a single timestep of a scalar LSTM over
the reals, when the caller passes `dh = 0` and `dcs = 1`: it is the forget gate, which is
positive, whatever `dcspgold` held before the call. -/
theorem lstm_ref_dcsp_scalar (two_gemms : Bool) (forget_bias : ℝ) (h : Mem Buf ℝ)
    (hdh : h.read (base .dhgoldt) = 0) (hdcs : h.read (base .dcsgold) = 1) :
    0 < (lstm_ref two_gemms (Libm.mk Real.exp Real.tanh) 1 1 1 1 forget_bias h).read
      (base .dcspgold) := by
  have h1 := lstm_ref_dcsp two_gemms (Libm.mk Real.exp Real.tanh) 1 1 1 1 forget_bias h 0
    Nat.one_pos Nat.one_pos
  have h2 := lstm_dcs_value two_gemms (Libm.mk Real.exp Real.tanh) 1 1 1 1 forget_bias h 0 0
    Nat.one_pos Nat.one_pos
  have h3 := lstm_ref_delta two_gemms (Libm.mk Real.exp Real.tanh) 1 1 1 1 forget_bias h 0 0
    Nat.one_pos Nat.one_pos
  have h4 := lstm_ref_icfo two_gemms (Libm.mk Real.exp Real.tanh) 1 1 1 1 forget_bias h 0 2 0 0
    Nat.one_pos (by decide) Nat.one_pos Nat.one_pos
  rw [if_pos rfl] at h2 h3
  rw [if_neg (by decide)] at h4
  have e1 : h.read ((seq_at .dhgoldt 0 (1 * 1)).idx 0) = 0 := hdh
  have e2 : h.read ((base .dcsgold).idx 0) = 1 := hdcs
  rw [e1] at h3
  rw [h3, e2, mul_zero, zero_mul, zero_add] at h2
  have e3 : (lstm_ref two_gemms (Libm.mk Real.exp Real.tanh) 1 1 1 1 forget_bias h).read
      (base .dcspgold)
      = (lstm_ref two_gemms (Libm.mk Real.exp Real.tanh) 1 1 1 1 forget_bias h).read
          (icfo_elem 1 1 0 (0 / 1) (2 * 1 + 0 % 1)) * 1 := by
    rw [← h2]
    exact h1
  rw [e3, mul_one]
  have e4 : icfo_elem 1 1 0 (0 / 1) (2 * 1 + 0 % 1) = icfo_elem 1 1 0 0 (2 * 1 + 0) := rfl
  rw [e4, h4]
  exact (sigmoid_value_real _).2.1

end ForwardOnly

/-! ## The results as functions of the caller's buffers -/

section FusedWeights

variable {α : Type} [Zero α] [One α] [Add α] [Sub α] [Mul α] [Div α] [Neg α]

theorem input_gate_w (g : Nat) : lstm_input (gate_w g) = true := by
  unfold gate_w
  split <;> rfl

theorem input_gate_r (g : Nat) : lstm_input (gate_r g) = true := by
  unfold gate_r
  split <;> rfl

theorem input_gate_b (g : Nat) : lstm_input (gate_b g) = true := by
  unfold gate_b
  split <;> rfl

theorem input_mem_args {b : Buf} (hb : lstm_input b = true) : b ∈ lstm_ref_args := by
  revert hb
  cases b <;> simp [lstm_input, lstm_ref_args]

theorem slot_split {K c : Nat} (hc : c < 4 * K) :
    c / K < 4 ∧ c % K < K ∧ c / K * K + c % K = c := by
  have hK : 0 < K := by omega
  refine ⟨Nat.div_lt_of_lt_mul (by omega), Nat.mod_lt c hK, ?_⟩
  rw [Nat.mul_comm]
  exact Nat.div_add_mod c K

/-- The fused recurrent weight `R4` that `lstm_ref` holds is the caller's `R_g`. -/
theorem lstm_ref_r4 (two_gemms : Bool) (lm : Libm α) (N C K T : Nat) (forget_bias : α)
    (h : Mem Buf α) (k q : Nat) (hk : k < K) (hq : q < 4 * K) :
    (lstm_ref two_gemms lm N C K T forget_bias h).read (r4_elem two_gemms C K k q)
      = h.read ((base (gate_r (q / K))).idx (k * K + q % K)) := by
  obtain ⟨hg, hx, e⟩ := slot_split hq
  unfold r4_elem
  cases two_gemms
  · rw [if_neg (by decide),
      show (C + k) * (4 * K) + q = q / K * K + q % K + (C + k) * (K * 4) by
        rw [e, Nat.mul_comm 4 K, Nat.add_comm],
      lstm_ref_read_fwd false lm N C K T forget_bias
        ((base .wr8gold).idx (q / K * K + q % K + (C + k) * (K * 4))) rfl h,
      lstm_fwd_wr8_r lm N C K T forget_bias h _ _ k hg hx hk]
  · rw [if_pos rfl,
      show k * (4 * K) + q = q / K * K + q % K + k * (K * 4) by
        rw [e, Nat.mul_comm 4 K, Nat.add_comm],
      lstm_ref_read_fwd true lm N C K T forget_bias
        ((base .r4gold).idx (q / K * K + q % K + k * (K * 4))) rfl h,
      lstm_fwd_r4 lm N C K T forget_bias h _ _ k hg hx hk]

/-- The fused weight `W4` that `lstm_ref` holds is the caller's `W_g`. -/
theorem lstm_ref_w4 (two_gemms : Bool) (lm : Libm α) (N C K T : Nat) (forget_bias : α)
    (h : Mem Buf α) (c q : Nat) (hc : c < C) (hq : q < 4 * K) :
    (lstm_ref two_gemms lm N C K T forget_bias h).read (w4_elem two_gemms K c q)
      = h.read ((base (gate_w (q / K))).idx (c * K + q % K)) := by
  obtain ⟨hg, hx, e⟩ := slot_split hq
  unfold w4_elem
  cases two_gemms
  · rw [if_neg (by decide),
      show c * (4 * K) + q = q / K * K + q % K + c * (K * 4) by
        rw [e, Nat.mul_comm 4 K, Nat.add_comm],
      lstm_ref_read_fwd false lm N C K T forget_bias
        ((base .wr8gold).idx (q / K * K + q % K + c * (K * 4))) rfl h,
      lstm_fwd_wr8_w lm N C K T forget_bias h _ _ c hg hx hc]
  · rw [if_pos rfl,
      show c * (4 * K) + q = q / K * K + q % K + c * (K * 4) by
        rw [e, Nat.mul_comm 4 K, Nat.add_comm],
      lstm_ref_read_fwd true lm N C K T forget_bias
        ((base .w4gold).idx (q / K * K + q % K + c * (K * 4))) rfl h,
      lstm_fwd_w4 lm N C K T forget_bias h _ _ c hg hx hc]

end FusedWeights

section Determinacy

variable {α : Type} [Field α]

/-- The forward results of `lstm_ref` are determined by the buffers it only reads: two
calls, of either build, on memories that agree there leave the same `ICFO_t` (before and
after the nonlinearity), `CS_t` and `H_t`. -/
theorem lstm_fwd_determined (tg tg' : Bool) (lm : Libm α) (N C K T : Nat) (forget_bias : α)
    (h h' : Mem Buf α) (hin : ∀ q, lstm_input q.buf = true → h.read q = h'.read q)
    (t : Nat) (ht : t < T) :
    (∀ n c, n < N → c < 4 * K →
      (lstm_pre tg lm N C K t forget_bias h).read (icfo_elem N K t n c)
          = (lstm_pre tg' lm N C K t forget_bias h').read (icfo_elem N K t n c)
      ∧ (lstm_ref tg lm N C K T forget_bias h).read (icfo_elem N K t n c)
          = (lstm_ref tg' lm N C K T forget_bias h').read (icfo_elem N K t n c))
    ∧ (∀ e, e < K * N →
      (lstm_ref tg lm N C K T forget_bias h).read ((seq_at .csgoldt t (K * N)).idx e)
          = (lstm_ref tg' lm N C K T forget_bias h').read ((seq_at .csgoldt t (K * N)).idx e)
      ∧ (lstm_ref tg lm N C K T forget_bias h).read ((seq_at .hgoldt t (K * N)).idx e)
          = (lstm_ref tg' lm N C K T forget_bias h').read
              ((seq_at .hgoldt t (K * N)).idx e)) := by
  induction t using Nat.strong_induction_on with
  | _ t ih =>
    have hpre : ∀ n c, n < N → c < 4 * K →
        (lstm_pre tg lm N C K t forget_bias h).read (icfo_elem N K t n c)
          = (lstm_pre tg' lm N C K t forget_bias h').read (icfo_elem N K t n c) := by
      intro n c hn hc
      obtain ⟨hg, hx, e⟩ := slot_split hc
      rw [← e, lstm_pre_final tg lm N C K T forget_bias h t _ n _ ht hg hn hx,
        lstm_pre_final tg' lm N C K T forget_bias h' t _ n _ ht hg hn hx,
        hin ((base .bfgold).idx (c % K)) rfl,
        hin ((base (gate_b (c / K))).idx (c % K)) (input_gate_b _)]
      congr 1
      · congr 1
        apply Finset.sum_congr rfl
        intro l _
        rw [hin ((base (gate_w (c / K))).idx (l * K + c % K)) (input_gate_w _),
          hin ((seq_at .xgoldt t (N * C)).idx (n * C + l)) rfl]
      · apply Finset.sum_congr rfl
        intro l hl
        rw [hin ((base (gate_r (c / K))).idx (l * K + c % K)) (input_gate_r _),
          hin ((base .hpgold).idx (n * K + l)) rfl]
        by_cases h0 : t = 0
        · rw [if_pos h0, if_pos h0]
        · rw [if_neg h0, if_neg h0,
            ((ih (t - 1) (by omega) (by omega)).2 (n * K + l)
              (tile_index_lt hn (Finset.mem_range.mp hl))).2]
    have hpost : ∀ n c, n < N → c < 4 * K →
        (lstm_ref tg lm N C K T forget_bias h).read (icfo_elem N K t n c)
          = (lstm_ref tg' lm N C K T forget_bias h').read (icfo_elem N K t n c) := by
      intro n c hn hc
      obtain ⟨hg, hx, e⟩ := slot_split hc
      have hp := hpre n c hn hc
      rw [← e] at hp ⊢
      rw [lstm_ref_icfo tg lm N C K T forget_bias h t _ n _ ht hg hn hx,
        lstm_ref_icfo tg' lm N C K T forget_bias h' t _ n _ ht hg hn hx, hp]
    have hcs : ∀ e, e < K * N →
        (lstm_ref tg lm N C K T forget_bias h).read ((seq_at .csgoldt t (K * N)).idx e)
          = (lstm_ref tg' lm N C K T forget_bias h').read
              ((seq_at .csgoldt t (K * N)).idx e) := by
      intro e he
      obtain ⟨hn, hx⟩ := div_mod_lt he
      rw [lstm_ref_cell tg lm N C K T forget_bias h t e ht he,
        lstm_ref_cell tg' lm N C K T forget_bias h' t e ht he,
        hpost _ _ hn (by omega), hpost _ _ hn (by omega), hpost _ _ hn (by omega),
        hin ((base .cspgold).idx e) rfl]
      by_cases h0 : t = 0
      · rw [if_pos h0, if_pos h0]
      · rw [if_neg h0, if_neg h0, ((ih (t - 1) (by omega) (by omega)).2 e he).1]
    refine ⟨fun n c hn hc => ⟨hpre n c hn hc, hpost n c hn hc⟩, fun e he => ⟨hcs e he, ?_⟩⟩
    obtain ⟨hn, hx⟩ := div_mod_lt he
    rw [lstm_ref_hidden tg lm N C K T forget_bias h t e ht he,
      lstm_ref_hidden tg' lm N C K T forget_bias h' t e ht he, hpost _ _ hn (by omega),
      hcs e he]

end Determinacy

section BackwardDeterminacy

variable {α : Type} [Field α]

theorem dout_prev_succ (N K t e : Nat) :
    dout_prev N K (t + 1) e = (seq_at .doutgoldt t (K * N)).idx e := by
  unfold dout_prev
  rw [if_neg (Nat.succ_ne_zero t), Nat.add_sub_cancel]

theorem elem_split {N K e : Nat} (he : e < K * N) :
    e / K < N ∧ e % K < K ∧ e / K * K + e % K = e := by
  obtain ⟨h1, h2⟩ := div_mod_lt he
  refine ⟨h1, h2, ?_⟩
  rw [Nat.mul_comm]
  exact Nat.div_add_mod e K

/-- One timestep of `lstm_bwd_determined`, from the timestep above it. -/
theorem lstm_bwd_determined_step (tg tg' : Bool) (lm : Libm α) (N C K T : Nat)
    (forget_bias : α) (h h' : Mem Buf α)
    (hin : ∀ q, lstm_input q.buf = true → h.read q = h'.read q) (t : Nat) (ht : t < T)
    (hnext : t + 1 < T → ∀ e, e < K * N →
      (lstm_dcs tg lm N C K T forget_bias (t + 1) h).read ((base .dcspgold).idx e)
          = (lstm_dcs tg' lm N C K T forget_bias (t + 1) h').read ((base .dcspgold).idx e)
      ∧ (lstm_ref tg lm N C K T forget_bias h).read (dout_prev N K (t + 1) e)
          = (lstm_ref tg' lm N C K T forget_bias h').read (dout_prev N K (t + 1) e)) :
    (∀ e, e < K * N →
      (lstm_ref tg lm N C K T forget_bias h).read ((seq_at .deltagoldt t (K * N)).idx e)
          = (lstm_ref tg' lm N C K T forget_bias h').read
              ((seq_at .deltagoldt t (K * N)).idx e)
      ∧ (lstm_dcs tg lm N C K T forget_bias t h).read ((base .dcspgold).idx e)
          = (lstm_dcs tg' lm N C K T forget_bias t h').read ((base .dcspgold).idx e)
      ∧ (lstm_ref tg lm N C K T forget_bias h).read (dout_prev N K t e)
          = (lstm_ref tg' lm N C K T forget_bias h').read (dout_prev N K t e))
    ∧ (∀ n c, n < N → c < 4 * K →
      (lstm_ref tg lm N C K T forget_bias h).read (dicfo_elem N K t n c)
          = (lstm_ref tg' lm N C K T forget_bias h').read (dicfo_elem N K t n c)) := by
  have fwd := lstm_fwd_determined tg tg' lm N C K T forget_bias h h' hin
  have hdelta : ∀ e, e < K * N →
      (lstm_ref tg lm N C K T forget_bias h).read ((seq_at .deltagoldt t (K * N)).idx e)
        = (lstm_ref tg' lm N C K T forget_bias h').read
            ((seq_at .deltagoldt t (K * N)).idx e) := by
    intro e he
    rw [lstm_ref_delta tg lm N C K T forget_bias h t e ht he,
      lstm_ref_delta tg' lm N C K T forget_bias h' t e ht he,
      hin ((seq_at .dhgoldt t (K * N)).idx e) rfl]
    by_cases hl : t = T - 1
    · rw [if_pos hl, if_pos hl]
    · rw [if_neg hl, if_neg hl, ← dout_prev_succ, (hnext (by omega) e he).2]
  have hdcs : ∀ e, e < K * N →
      (lstm_dcs tg lm N C K T forget_bias t h).read ((base .dcspgold).idx e)
        = (lstm_dcs tg' lm N C K T forget_bias t h').read ((base .dcspgold).idx e) := by
    intro e he
    obtain ⟨hn, hx, _⟩ := elem_split he
    rw [lstm_dcs_value tg lm N C K T forget_bias h t e ht he,
      lstm_dcs_value tg' lm N C K T forget_bias h' t e ht he,
      ((fwd t ht).1 _ _ hn (by omega)).2, hdelta e he, ((fwd t ht).2 e he).1,
      hin ((base .dcsgold).idx e) rfl]
    by_cases hl : t = T - 1
    · rw [if_pos hl, if_pos hl]
    · rw [if_neg hl, if_neg hl, ((fwd (t + 1) (by omega)).1 _ _ hn (by omega)).2,
        (hnext (by omega) e he).1]
  have hcsp : ∀ e, e < K * N →
      (if t = 0 then h.read ((base .cspgold).idx e)
        else (lstm_ref tg lm N C K T forget_bias h).read
          ((seq_at .csgoldt (t - 1) (K * N)).idx e))
      = (if t = 0 then h'.read ((base .cspgold).idx e)
        else (lstm_ref tg' lm N C K T forget_bias h').read
          ((seq_at .csgoldt (t - 1) (K * N)).idx e)) := by
    intro e he
    by_cases h0 : t = 0
    · rw [if_pos h0, if_pos h0, hin ((base .cspgold).idx e) rfl]
    · rw [if_neg h0, if_neg h0, ((fwd (t - 1) (by omega)).2 e he).1]
  have hdicfo : ∀ n c, n < N → c < 4 * K →
      (lstm_ref tg lm N C K T forget_bias h).read (dicfo_elem N K t n c)
        = (lstm_ref tg' lm N C K T forget_bias h').read (dicfo_elem N K t n c) := by
    intro n c hn hc
    obtain ⟨hg, hk, e⟩ := slot_split hc
    have hek : n * K + c % K < K * N := tile_index_lt hn hk
    have i0 := ((fwd t ht).1 n (c % K) hn (by omega)).2
    have i1 := ((fwd t ht).1 n (K + c % K) hn (by omega)).2
    have i2 := ((fwd t ht).1 n (2 * K + c % K) hn (by omega)).2
    have i3 := ((fwd t ht).1 n (3 * K + c % K) hn (by omega)).2
    rw [← e]
    generalize c / K = g at hg
    interval_cases g
    · rw [Nat.zero_mul, Nat.zero_add,
        lstm_ref_di tg lm N C K T forget_bias h t n _ ht hn hk,
        lstm_ref_di tg' lm N C K T forget_bias h' t n _ ht hn hk, i0, i1, hdcs _ hek]
    · rw [Nat.one_mul,
        lstm_ref_dc tg lm N C K T forget_bias h t n _ ht hn hk,
        lstm_ref_dc tg' lm N C K T forget_bias h' t n _ ht hn hk, i0, i1, hdcs _ hek]
    · rw [lstm_ref_df tg lm N C K T forget_bias h t n _ ht hn hk,
        lstm_ref_df tg' lm N C K T forget_bias h' t n _ ht hn hk, i2, hdcs _ hek,
        hcsp _ hek]
    · rw [lstm_ref_do tg lm N C K T forget_bias h t n _ ht hn hk,
        lstm_ref_do tg' lm N C K T forget_bias h' t n _ ht hn hk, i3, hdelta _ hek,
        ((fwd t ht).2 _ hek).1]
  refine ⟨fun e he => ⟨hdelta e he, hdcs e he, ?_⟩, hdicfo⟩
  obtain ⟨hn, hk, e1⟩ := elem_split he
  rw [← e1, lstm_ref_dout tg lm N C K T forget_bias h t _ _ ht hn hk,
    lstm_ref_dout tg' lm N C K T forget_bias h' t _ _ ht hn hk]
  apply Finset.sum_congr rfl
  intro q hq
  have hq' : q < 4 * K := Finset.mem_range.mp hq
  rw [lstm_ref_r4 tg lm N C K T forget_bias h _ q hk hq',
    lstm_ref_r4 tg' lm N C K T forget_bias h' _ q hk hq',
    hin ((base (gate_r (q / K))).idx (e % K * K + q % K)) (input_gate_r _),
    hdicfo _ q hn hq']

/-- The values of the backward pass of `lstm_ref` are determined by the buffers it only
reads: two calls, of either build, on memories that agree there compute the same `delta_t`,
the same cell-state gradient `dCS_t`, the same gate gradients `dICFO_t` and the same
recurrent delta (`dout_{t-1}`, or `dhpgold` at `t = 0`). -/
theorem lstm_bwd_determined (tg tg' : Bool) (lm : Libm α) (N C K T : Nat) (forget_bias : α)
    (h h' : Mem Buf α) (hin : ∀ q, lstm_input q.buf = true → h.read q = h'.read q)
    (t : Nat) (ht : t < T) :
    (∀ e, e < K * N →
      (lstm_ref tg lm N C K T forget_bias h).read ((seq_at .deltagoldt t (K * N)).idx e)
          = (lstm_ref tg' lm N C K T forget_bias h').read
              ((seq_at .deltagoldt t (K * N)).idx e)
      ∧ (lstm_dcs tg lm N C K T forget_bias t h).read ((base .dcspgold).idx e)
          = (lstm_dcs tg' lm N C K T forget_bias t h').read ((base .dcspgold).idx e)
      ∧ (lstm_ref tg lm N C K T forget_bias h).read (dout_prev N K t e)
          = (lstm_ref tg' lm N C K T forget_bias h').read (dout_prev N K t e))
    ∧ (∀ n c, n < N → c < 4 * K →
      (lstm_ref tg lm N C K T forget_bias h).read (dicfo_elem N K t n c)
          = (lstm_ref tg' lm N C K T forget_bias h').read (dicfo_elem N K t n c)) := by
  have key : ∀ d t, t + d + 1 = T →
      (∀ e, e < K * N →
        (lstm_ref tg lm N C K T forget_bias h).read ((seq_at .deltagoldt t (K * N)).idx e)
            = (lstm_ref tg' lm N C K T forget_bias h').read
                ((seq_at .deltagoldt t (K * N)).idx e)
        ∧ (lstm_dcs tg lm N C K T forget_bias t h).read ((base .dcspgold).idx e)
            = (lstm_dcs tg' lm N C K T forget_bias t h').read ((base .dcspgold).idx e)
        ∧ (lstm_ref tg lm N C K T forget_bias h).read (dout_prev N K t e)
            = (lstm_ref tg' lm N C K T forget_bias h').read (dout_prev N K t e))
      ∧ (∀ n c, n < N → c < 4 * K →
        (lstm_ref tg lm N C K T forget_bias h).read (dicfo_elem N K t n c)
            = (lstm_ref tg' lm N C K T forget_bias h').read (dicfo_elem N K t n c)) := by
    intro d
    induction d with
    | zero =>
      intro t hT
      exact lstm_bwd_determined_step tg tg' lm N C K T forget_bias h h' hin t (by omega)
        (fun hlt => absurd hlt (by omega))
    | succ d ih =>
      intro t hT
      exact lstm_bwd_determined_step tg tg' lm N C K T forget_bias h h' hin t (by omega)
        (fun _ e he => ⟨((ih (t + 1) (by omega)).1 e he).2.1,
          ((ih (t + 1) (by omega)).1 e he).2.2⟩)
  exact key (T - 1 - t) t (by omega)

end BackwardDeterminacy

section OutputDeterminacy

variable {α : Type} [Field α]

/-- With no timestep, `lstm_ref` leaves the buffers outside the setup as they are. -/
theorem lstm_ref_no_step (two_gemms : Bool) (lm : Libm α) (N C K : Nat) (forget_bias : α)
    (h : Mem Buf α) (q : Ptr Buf) (h5 : q.buf ≠ .bfgold_fb)
    (h6 : q.buf ≠ .w4gold ∧ q.buf ≠ .r4gold ∧ q.buf ≠ .wr8gold) :
    (lstm_ref two_gemms lm N C K 0 forget_bias h).read q = h.read q := by
  show (lstm_fuse_weights two_gemms C K (lstm_forget_bias K forget_bias h)).read q = _
  rw [lstm_fuse_weights_skip two_gemms C K q _ h6, lstm_forget_bias_skip K forget_bias q h h5]

/-- The gradients `lstm_ref` returns for the previous cell and hidden state are determined
by the buffers it only reads. -/
theorem lstm_ref_prev_determined (tg tg' : Bool) (lm : Libm α) (N C K T : Nat)
    (forget_bias : α) (h h' : Mem Buf α)
    (hin : ∀ q, lstm_input q.buf = true → h.read q = h'.read q) (hT : 0 < T)
    (e : Nat) (he : e < K * N) :
    (lstm_ref tg lm N C K T forget_bias h).read ((base .dcspgold).idx e)
        = (lstm_ref tg' lm N C K T forget_bias h').read ((base .dcspgold).idx e)
    ∧ (lstm_ref tg lm N C K T forget_bias h).read ((base .dhpgold).idx e)
        = (lstm_ref tg' lm N C K T forget_bias h').read ((base .dhpgold).idx e) := by
  obtain ⟨hn, hk, _⟩ := elem_split he
  have b0 := (lstm_bwd_determined tg tg' lm N C K T forget_bias h h' hin 0 hT).1 e he
  constructor
  · rw [lstm_ref_dcsp tg lm N C K T forget_bias h e hT he,
      lstm_ref_dcsp tg' lm N C K T forget_bias h' e hT he,
      ((lstm_fwd_determined tg tg' lm N C K T forget_bias h h' hin 0 hT).1 _ _ hn
        (by omega)).2, b0.2.1]
  · have e0 : dout_prev N K 0 e = (base .dhpgold).idx e := by
      unfold dout_prev
      rw [if_pos rfl]
    rw [← e0]
    exact b0.2.2

/-- The product `W4^T * dICFO_t` is determined by the buffers `lstm_ref` only reads. -/
theorem lstm_ref_dx_sum_determined (tg tg' : Bool) (lm : Libm α) (N C K T : Nat)
    (forget_bias : α) (h h' : Mem Buf α)
    (hin : ∀ q, lstm_input q.buf = true → h.read q = h'.read q)
    (t n c : Nat) (ht : t < T) (hn : n < N) (hc : c < C) :
    ∑ q in Finset.range (4 * K),
        (lstm_ref tg lm N C K T forget_bias h).read (w4_elem tg K c q)
          * (lstm_ref tg lm N C K T forget_bias h).read (dicfo_elem N K t n q)
      = ∑ q in Finset.range (4 * K),
        (lstm_ref tg' lm N C K T forget_bias h').read (w4_elem tg' K c q)
          * (lstm_ref tg' lm N C K T forget_bias h').read (dicfo_elem N K t n q) := by
  apply Finset.sum_congr rfl
  intro q hq
  have hq' : q < 4 * K := Finset.mem_range.mp hq
  rw [lstm_ref_w4 tg lm N C K T forget_bias h c q hc hq',
    lstm_ref_w4 tg' lm N C K T forget_bias h' c q hc hq',
    hin ((base (gate_w (q / K))).idx (c * K + q % K)) (input_gate_w _),
    (lstm_bwd_determined tg tg' lm N C K T forget_bias h h' hin t ht).2 n q hn hq']

/-- The input gradient of the two builds, on memories that agree on the buffers
`lstm_ref` only reads: the `TWO_GEMMS` build returns what the default build returns plus
what its `dxgoldt` held before the call. -/
theorem lstm_ref_dx_builds (lm : Libm α) (N C K T : Nat) (forget_bias : α)
    (h h' : Mem Buf α) (hin : ∀ q, lstm_input q.buf = true → h.read q = h'.read q)
    (t n c : Nat) (ht : t < T) (hn : n < N) (hc : c < C) :
    (lstm_ref true lm N C K T forget_bias h).read ((seq_at .dxgoldt t (N * C)).idx (n * C + c))
      = (lstm_ref false lm N C K T forget_bias h').read
            ((seq_at .dxgoldt t (N * C)).idx (n * C + c))
        + h.read ((seq_at .dxgoldt t (N * C)).idx (n * C + c)) := by
  rw [lstm_ref_dx_two_prior lm N C K T forget_bias h t n c ht hn hc,
    lstm_ref_dx_single lm N C K T forget_bias h' t n c ht hn hc,
    lstm_ref_dx_sum_determined true false lm N C K T forget_bias h h' hin t n c ht hn hc]

/-- The input gradient is determined by the buffers `lstm_ref` only reads and, in the
`TWO_GEMMS` build, by what `dxgoldt` held before the call. -/
theorem lstm_ref_dx_determined (two_gemms : Bool) (lm : Libm α) (N C K T : Nat)
    (forget_bias : α) (h h' : Mem Buf α)
    (hin : ∀ q, lstm_input q.buf = true → h.read q = h'.read q)
    (hdx : ∀ q, q.buf = .dxgoldt → h.read q = h'.read q)
    (t n c : Nat) (ht : t < T) (hn : n < N) (hc : c < C) :
    (lstm_ref two_gemms lm N C K T forget_bias h).read
        ((seq_at .dxgoldt t (N * C)).idx (n * C + c))
      = (lstm_ref two_gemms lm N C K T forget_bias h').read
        ((seq_at .dxgoldt t (N * C)).idx (n * C + c)) := by
  cases two_gemms
  · rw [lstm_ref_dx_single lm N C K T forget_bias h t n c ht hn hc,
      lstm_ref_dx_single lm N C K T forget_bias h' t n c ht hn hc,
      lstm_ref_dx_sum_determined false false lm N C K T forget_bias h h' hin t n c ht hn hc]
  · rw [lstm_ref_dx_two_prior lm N C K T forget_bias h t n c ht hn hc,
      lstm_ref_dx_two_prior lm N C K T forget_bias h' t n c ht hn hc,
      lstm_ref_dx_sum_determined true true lm N C K T forget_bias h h' hin t n c ht hn hc,
      hdx ((seq_at .dxgoldt t (N * C)).idx (n * C + c)) rfl]

/-- The weight, recurrent-weight and bias gradients are determined by the buffers
`lstm_ref` only reads and by what the gradient buffers held before the call; the
recurrent-weight gradient is `drgold` under `TWO_GEMMS` and rows `C ..` of `dwgold`
otherwise. -/
theorem lstm_ref_acc_determined (tg tg' : Bool) (lm : Libm α) (N C K T : Nat)
    (forget_bias : α) (h h' : Mem Buf α)
    (hin : ∀ q, lstm_input q.buf = true → h.read q = h'.read q) :
    (∀ c q, c < C → q < 4 * K →
      h.read ((base .dwgold).idx (c * (4 * K) + q))
        = h'.read ((base .dwgold).idx (c * (4 * K) + q)) →
      (lstm_ref tg lm N C K T forget_bias h).read ((base .dwgold).idx (c * (4 * K) + q))
        = (lstm_ref tg' lm N C K T forget_bias h').read
            ((base .dwgold).idx (c * (4 * K) + q)))
    ∧ (∀ i q, i < K → q < 4 * K →
      h.read (dr_elem tg C K i q) = h'.read (dr_elem tg' C K i q) →
      (lstm_ref tg lm N C K T forget_bias h).read (dr_elem tg C K i q)
        = (lstm_ref tg' lm N C K T forget_bias h').read (dr_elem tg' C K i q))
    ∧ (∀ i, i < 4 * K →
      h.read ((base .dbgold).idx i) = h'.read ((base .dbgold).idx i) →
      (lstm_ref tg lm N C K T forget_bias h).read ((base .dbgold).idx i)
        = (lstm_ref tg' lm N C K T forget_bias h').read ((base .dbgold).idx i)) := by
  have fwd := lstm_fwd_determined tg tg' lm N C K T forget_bias h h' hin
  have bwd := lstm_bwd_determined tg tg' lm N C K T forget_bias h h' hin
  refine ⟨fun c q hc hq h0 => ?_, fun i q hi hq h0 => ?_, fun i hi h0 => ?_⟩
  · rw [lstm_ref_dw tg lm N C K T forget_bias h c q hc hq,
      lstm_ref_dw tg' lm N C K T forget_bias h' c q hc hq, h0]
    congr 1
    apply Finset.sum_congr rfl
    intro t ht
    apply Finset.sum_congr rfl
    intro n hn
    rw [(bwd t (Finset.mem_range.mp ht)).2 n q (Finset.mem_range.mp hn) hq,
      hin ((seq_at .xgoldt t (N * C)).idx (n * C + c)) rfl]
  · rw [lstm_ref_dr tg lm N C K T forget_bias h i q hi hq,
      lstm_ref_dr tg' lm N C K T forget_bias h' i q hi hq, h0]
    congr 1
    apply Finset.sum_congr rfl
    intro t ht
    apply Finset.sum_congr rfl
    intro n hn
    have ht' : t < T := Finset.mem_range.mp ht
    have hn' : n < N := Finset.mem_range.mp hn
    rw [(bwd t ht').2 n q hn' hq, hin ((base .hpgold).idx (n * K + i)) rfl]
    by_cases ht0 : t = 0
    · rw [if_pos ht0, if_pos ht0]
    · rw [if_neg ht0, if_neg ht0,
        ((fwd (t - 1) (by omega)).2 (n * K + i) (tile_index_lt hn' hi)).2]
  · obtain ⟨hg, hk, e⟩ := slot_split hi
    rw [← e] at h0 ⊢
    rw [lstm_ref_db tg lm N C K T forget_bias h _ _ hg hk,
      lstm_ref_db tg' lm N C K T forget_bias h' _ _ hg hk, h0]
    congr 1
    apply Finset.sum_congr rfl
    intro t ht
    apply Finset.sum_congr rfl
    intro n hn
    rw [(bwd t (Finset.mem_range.mp ht)).2 n _ (Finset.mem_range.mp hn) (by rw [e]; exact hi)]

end OutputDeterminacy

/-! ## The accumulated gradients as derivatives of a loss -/

section Sums

variable {α : Type} [AddCommMonoid α]

/-- A sum over the `K * N` elements of an `N x K` tile, row by row. -/
theorem sum_rows (N K : Nat) (F : Nat → α) :
    ∑ e in Finset.range (K * N), F e
      = ∑ n in Finset.range N, ∑ k in Finset.range K, F (n * K + k) := by
  induction N with
  | zero => simp
  | succ N ih =>
    rw [Nat.mul_succ, Finset.sum_range_add, ih, Finset.sum_range_succ, Nat.mul_comm K N]

/-- A sum over the `4 * K` columns of a fused row, slot by slot. -/
theorem sum_slots (K : Nat) (F : Nat → α) :
    ∑ q in Finset.range (4 * K), F q
      = ∑ k in Finset.range K, (F k + F (K + k) + F (2 * K + k) + F (3 * K + k)) := by
  have e : 4 * K = K + K + K + K := by omega
  rw [e, Finset.sum_range_add, Finset.sum_range_add, Finset.sum_range_add,
    Finset.sum_add_distrib, Finset.sum_add_distrib, Finset.sum_add_distrib]
  have e2 : ∀ k, K + K + k = 2 * K + k := fun k => by omega
  have e3 : ∀ k, 2 * K + K + k = 3 * K + k := fun k => by omega
  simp only [e2, e3]

end Sums

section Calculus

/-- The derivative of the sigmoid `1 / (1 + exp(-x))` of the driver, for an `exp` that is
positive and its own derivative: `sig' = sig * (1 - sig)`. -/
theorem sigmoid_hasDerivAt (lm : Libm ℝ) (hpos : ∀ x, 0 < lm.exp x)
    (hexp : ∀ x, HasDerivAt lm.exp (lm.exp x) x) (f : ℝ → ℝ) (f' s : ℝ)
    (hf : HasDerivAt f f' s) :
    HasDerivAt (fun y => sigmoid_value lm (f y))
      (sigmoid_value lm (f s) * (1 - sigmoid_value lm (f s)) * f') s := by
  have hne : 1 + lm.exp (-(f s)) ≠ 0 := ne_of_gt (by have := hpos (-(f s)); linarith)
  have h1 : HasDerivAt (fun y => lm.exp (-(f y))) (lm.exp (-(f s)) * (-f')) s :=
    (hexp (-(f s))).comp s hf.neg
  have h2 : HasDerivAt (fun y => 1 + lm.exp (-(f y))) (lm.exp (-(f s)) * (-f')) s :=
    h1.const_add 1
  have h3 := (hasDerivAt_const s (1 : ℝ)).div h2 hne
  unfold sigmoid_value
  refine h3.congr_deriv ?_
  field_simp
  left
  ring

/-- The derivative of `tanh` after a differentiable function. -/
theorem tanh_hasDerivAt (lm : Libm ℝ)
    (htanh : ∀ x, HasDerivAt lm.tanh (1 - lm.tanh x * lm.tanh x) x) (f : ℝ → ℝ) (f' s : ℝ)
    (hf : HasDerivAt f f' s) :
    HasDerivAt (fun y => lm.tanh (f y)) ((1 - lm.tanh (f s) * lm.tanh (f s)) * f') s :=
  (htanh (f s)).comp s hf

/-- The real hyperbolic tangent has the derivative `1 - tanh^2`. -/
theorem real_tanh_hasDerivAt (x : ℝ) :
    HasDerivAt Real.tanh (1 - Real.tanh x * Real.tanh x) x := by
  have hc : Real.cosh x ≠ 0 := ne_of_gt (Real.cosh_pos x)
  have h1 := (Real.hasDerivAt_sinh x).div (Real.hasDerivAt_cosh x) hc
  have hval : (Real.cosh x * Real.cosh x - Real.sinh x * Real.sinh x) / Real.cosh x ^ 2
      = 1 - Real.tanh x * Real.tanh x := by
    rw [Real.tanh_eq_sinh_div_cosh]
    field_simp
    left
    ring
  exact (h1.congr_deriv hval).congr_of_eventuallyEq
    (Filter.Eventually.of_forall (fun y => Real.tanh_eq_sinh_div_cosh y))

end Calculus

section Adjoint

/-- One timestep of backpropagation through time, as an identity between sums: the
adjoints `delta`, `cin` of the outputs of the timestep, paired with the tangents `hd`,
`csd` of the outputs, equal the adjoints of its inputs paired with the tangents `hpd`,
`cspd` of the inputs, plus the gate gradients paired with the direct effect of the
parameter on the pre-activations. -/
theorem adjoint_step (N K : Nat) (a pd ad dicfo direct R : Nat → Nat → ℝ)
    (csp cspd hpd th csd hd delta cin dcsv doutp : Nat → ℝ)
    (Ti : ∀ n k, n < N → k < K → ad n k = a n k * (1 - a n k) * pd n k)
    (Tc : ∀ n k, n < N → k < K →
      ad n (K + k) = (1 - a n (K + k) * a n (K + k)) * pd n (K + k))
    (Tf : ∀ n k, n < N → k < K →
      ad n (2 * K + k) = a n (2 * K + k) * (1 - a n (2 * K + k)) * pd n (2 * K + k))
    (To : ∀ n k, n < N → k < K →
      ad n (3 * K + k) = a n (3 * K + k) * (1 - a n (3 * K + k)) * pd n (3 * K + k))
    (Tcs : ∀ n k, n < N → k < K →
      csd (n * K + k) = ad n (2 * K + k) * csp (n * K + k) + a n (2 * K + k) * cspd (n * K + k)
        + (ad n k * a n (K + k) + a n k * ad n (K + k)))
    (Th : ∀ n k, n < N → k < K →
      hd (n * K + k) = ad n (3 * K + k) * th (n * K + k)
        + a n (3 * K + k) * ((1 - th (n * K + k) * th (n * K + k)) * csd (n * K + k)))
    (Tp : ∀ n q, n < N → q < 4 * K →
      pd n q = direct n q + ∑ l in Finset.range K, R l q * hpd (n * K + l))
    (Bcs : ∀ n k, n < N → k < K →
      dcsv (n * K + k) = a n (3 * K + k) * delta (n * K + k)
          * (1 - th (n * K + k) * th (n * K + k)) + cin (n * K + k))
    (Bi : ∀ n k, n < N → k < K →
      dicfo n k = a n (K + k) * dcsv (n * K + k) * (a n k * (1 - a n k)))
    (Bc : ∀ n k, n < N → k < K →
      dicfo n (K + k) = a n k * dcsv (n * K + k) * (1 - a n (K + k) * a n (K + k)))
    (Bf : ∀ n k, n < N → k < K →
      dicfo n (2 * K + k) = dcsv (n * K + k) * csp (n * K + k)
        * (a n (2 * K + k) * (1 - a n (2 * K + k))))
    (Bo : ∀ n k, n < N → k < K →
      dicfo n (3 * K + k) = delta (n * K + k) * th (n * K + k)
        * (a n (3 * K + k) * (1 - a n (3 * K + k))))
    (Bout : ∀ n l, n < N → l < K →
      doutp (n * K + l) = ∑ q in Finset.range (4 * K), R l q * dicfo n q) :
    ∑ e in Finset.range (K * N), (delta e * hd e + cin e * csd e)
      = ∑ e in Finset.range (K * N),
          (doutp e * hpd e + a (e / K) (2 * K + e % K) * dcsv e * cspd e)
        + ∑ n in Finset.range N, ∑ q in Finset.range (4 * K), dicfo n q * direct n q := by
  rw [sum_rows, sum_rows, ← Finset.sum_add_distrib]
  apply Finset.sum_congr rfl
  intro n hn
  have hn' : n < N := Finset.mem_range.mp hn
  -- the gate gradients paired with the tangents of the pre-activations
  have key : ∑ k in Finset.range K,
        (delta (n * K + k) * hd (n * K + k) + cin (n * K + k) * csd (n * K + k))
      = ∑ q in Finset.range (4 * K), dicfo n q * pd n q
        + ∑ k in Finset.range K,
            a n (2 * K + k) * dcsv (n * K + k) * cspd (n * K + k) := by
    rw [sum_slots, ← Finset.sum_add_distrib]
    apply Finset.sum_congr rfl
    intro k hk
    have hk' : k < K := Finset.mem_range.mp hk
    rw [Th n k hn' hk', Tcs n k hn' hk', Bi n k hn' hk', Bc n k hn' hk', Bf n k hn' hk',
      Bo n k hn' hk', Ti n k hn' hk', Tc n k hn' hk', Tf n k hn' hk', To n k hn' hk',
      Bcs n k hn' hk']
    ring
  -- the part of the pre-activation tangents that comes through the previous hidden state
  have hrec : ∑ q in Finset.range (4 * K), dicfo n q * pd n q
      = ∑ q in Finset.range (4 * K), dicfo n q * direct n q
        + ∑ l in Finset.range K, doutp (n * K + l) * hpd (n * K + l) := by
    have e1 : ∀ q ∈ Finset.range (4 * K), dicfo n q * pd n q
        = dicfo n q * direct n q
          + ∑ l in Finset.range K, R l q * dicfo n q * hpd (n * K + l) := by
      intro q hq
      rw [Tp n q hn' (Finset.mem_range.mp hq), mul_add, Finset.mul_sum]
      congr 1
      apply Finset.sum_congr rfl
      intro l _
      ring
    rw [Finset.sum_congr rfl e1, Finset.sum_add_distrib, Finset.sum_comm]
    congr 1
    apply Finset.sum_congr rfl
    intro l hl
    rw [Bout n l hn' (Finset.mem_range.mp hl), Finset.sum_mul]
  have e2 : ∀ k ∈ Finset.range K,
      a ((n * K + k) / K) (2 * K + (n * K + k) % K) = a n (2 * K + k) := by
    intro k hk
    rw [(tile_index K n k (Finset.mem_range.mp hk)).1,
      (tile_index K n k (Finset.mem_range.mp hk)).2]
  rw [key, hrec, Finset.sum_add_distrib]
  have e3 : ∑ k in Finset.range K,
        a ((n * K + k) / K) (2 * K + (n * K + k) % K) * dcsv (n * K + k) * cspd (n * K + k)
      = ∑ k in Finset.range K, a n (2 * K + k) * dcsv (n * K + k) * cspd (n * K + k) :=
    Finset.sum_congr rfl (fun k hk => by rw [e2 k hk])
  rw [e3]
  ring

end Adjoint

section AdjointTotal

/-- Backpropagation through time as an identity between sums: the adjoints `dh`, `dcs`
that are supplied from outside, paired with the tangents of the outputs, equal the gate
gradients of all timesteps paired with the direct effect of the parameter on the
pre-activations. -/
theorem adjoint_total (N K T : Nat) (hT : 0 < T)
    (a pd ad dicfo direct : Nat → Nat → Nat → ℝ) (R : Nat → Nat → ℝ)
    (csp th csd hd delta dcsv doutp dh : Nat → Nat → ℝ) (dcs : Nat → ℝ)
    (Ti : ∀ t n k, t < T → n < N → k < K → ad t n k = a t n k * (1 - a t n k) * pd t n k)
    (Tc : ∀ t n k, t < T → n < N → k < K →
      ad t n (K + k) = (1 - a t n (K + k) * a t n (K + k)) * pd t n (K + k))
    (Tf : ∀ t n k, t < T → n < N → k < K →
      ad t n (2 * K + k)
        = a t n (2 * K + k) * (1 - a t n (2 * K + k)) * pd t n (2 * K + k))
    (To : ∀ t n k, t < T → n < N → k < K →
      ad t n (3 * K + k)
        = a t n (3 * K + k) * (1 - a t n (3 * K + k)) * pd t n (3 * K + k))
    (Tcs : ∀ t n k, t < T → n < N → k < K →
      csd t (n * K + k) = ad t n (2 * K + k) * csp t (n * K + k)
        + a t n (2 * K + k) * (if t = 0 then 0 else csd (t - 1) (n * K + k))
        + (ad t n k * a t n (K + k) + a t n k * ad t n (K + k)))
    (Th : ∀ t n k, t < T → n < N → k < K →
      hd t (n * K + k) = ad t n (3 * K + k) * th t (n * K + k)
        + a t n (3 * K + k)
          * ((1 - th t (n * K + k) * th t (n * K + k)) * csd t (n * K + k)))
    (Tp : ∀ t n q, t < T → n < N → q < 4 * K →
      pd t n q = direct t n q
        + ∑ l in Finset.range K, R l q * (if t = 0 then 0 else hd (t - 1) (n * K + l)))
    (B1 : ∀ t e, t < T → e < K * N →
      delta t e = if t = T - 1 then dh t e else doutp (t + 1) e + dh t e)
    (B2 : ∀ t e, t < T → e < K * N →
      dcsv t e = a t (e / K) (3 * K + e % K) * delta t e * (1 - th t e * th t e)
        + (if t = T - 1 then dcs e
           else a (t + 1) (e / K) (2 * K + e % K) * dcsv (t + 1) e))
    (Bi : ∀ t n k, t < T → n < N → k < K →
      dicfo t n k = a t n (K + k) * dcsv t (n * K + k) * (a t n k * (1 - a t n k)))
    (Bc : ∀ t n k, t < T → n < N → k < K →
      dicfo t n (K + k) = a t n k * dcsv t (n * K + k) * (1 - a t n (K + k) * a t n (K + k)))
    (Bf : ∀ t n k, t < T → n < N → k < K →
      dicfo t n (2 * K + k) = dcsv t (n * K + k) * csp t (n * K + k)
        * (a t n (2 * K + k) * (1 - a t n (2 * K + k))))
    (Bo : ∀ t n k, t < T → n < N → k < K →
      dicfo t n (3 * K + k) = delta t (n * K + k) * th t (n * K + k)
        * (a t n (3 * K + k) * (1 - a t n (3 * K + k))))
    (Bout : ∀ t n l, t < T → n < N → l < K →
      doutp t (n * K + l) = ∑ q in Finset.range (4 * K), R l q * dicfo t n q) :
    ∑ t in Finset.range T, ∑ e in Finset.range (K * N), dh t e * hd t e
        + ∑ e in Finset.range (K * N), dcs e * csd (T - 1) e
      = ∑ t in Finset.range T, ∑ n in Finset.range N, ∑ q in Finset.range (4 * K),
          dicfo t n q * direct t n q := by
  -- the adjoints that enter timestep `j - 1` from timestep `j`
  have key : ∀ j, j ≤ T →
      ∑ t in Finset.range j, ∑ e in Finset.range (K * N), dh t e * hd t e
        + ∑ e in Finset.range (K * N),
            ((if j = T then 0 else doutp j e) * (if j = 0 then 0 else hd (j - 1) e)
              + (if j = T then dcs e else a j (e / K) (2 * K + e % K) * dcsv j e)
                * (if j = 0 then 0 else csd (j - 1) e))
      = ∑ t in Finset.range j, ∑ n in Finset.range N, ∑ q in Finset.range (4 * K),
          dicfo t n q * direct t n q := by
    intro j
    induction j with
    | zero =>
      intro _
      simp
    | succ j ih =>
      intro hj
      have hjT : j < T := hj
      have step := adjoint_step N K (a j) (pd j) (ad j) (dicfo j) (direct j) R (csp j)
        (fun e => if j = 0 then 0 else csd (j - 1) e)
        (fun e => if j = 0 then 0 else hd (j - 1) e) (th j) (csd j) (hd j) (delta j)
        (fun e => if j = T - 1 then dcs e
          else a (j + 1) (e / K) (2 * K + e % K) * dcsv (j + 1) e)
        (dcsv j) (doutp j)
        (fun n k hn hk => Ti j n k hjT hn hk) (fun n k hn hk => Tc j n k hjT hn hk)
        (fun n k hn hk => Tf j n k hjT hn hk) (fun n k hn hk => To j n k hjT hn hk)
        (fun n k hn hk => Tcs j n k hjT hn hk) (fun n k hn hk => Th j n k hjT hn hk)
        (fun n q hn hq => Tp j n q hjT hn hq)
        (fun n k hn hk => by
          beta_reduce
          rw [B2 j (n * K + k) hjT (tile_index_lt hn hk), (tile_index K n k hk).1,
            (tile_index K n k hk).2])
        (fun n k hn hk => Bi j n k hjT hn hk) (fun n k hn hk => Bc j n k hjT hn hk)
        (fun n k hn hk => Bf j n k hjT hn hk) (fun n k hn hk => Bo j n k hjT hn hk)
        (fun n l hn hl => Bout j n l hjT hn hl)
      have ih' := ih (Nat.le_of_lt hjT)
      simp only [if_neg (Nat.ne_of_lt hjT)] at ih'
      beta_reduce at step
      have e1 : ∀ e ∈ Finset.range (K * N),
          dh j e * hd j e
            + ((if j + 1 = T then 0 else doutp (j + 1) e) * hd j e
              + (if j + 1 = T then dcs e
                  else a (j + 1) (e / K) (2 * K + e % K) * dcsv (j + 1) e) * csd j e)
          = delta j e * hd j e
            + (if j = T - 1 then dcs e
                else a (j + 1) (e / K) (2 * K + e % K) * dcsv (j + 1) e) * csd j e := by
        intro e he
        rw [B1 j e hjT (Finset.mem_range.mp he)]
        by_cases hl : j = T - 1
        · rw [if_pos hl, if_pos hl, if_pos (by omega), if_pos (by omega)]
          ring
        · rw [if_neg hl, if_neg hl, if_neg (by omega), if_neg (by omega)]
          ring
      have e2 : ∑ e in Finset.range (K * N), dh j e * hd j e
          + ∑ e in Finset.range (K * N),
              ((if j + 1 = T then 0 else doutp (j + 1) e) * hd j e
                + (if j + 1 = T then dcs e
                    else a (j + 1) (e / K) (2 * K + e % K) * dcsv (j + 1) e) * csd j e)
          = ∑ e in Finset.range (K * N), (delta j e * hd j e
            + (if j = T - 1 then dcs e
                else a (j + 1) (e / K) (2 * K + e % K) * dcsv (j + 1) e) * csd j e) := by
        rw [← Finset.sum_add_distrib]
        exact Finset.sum_congr rfl e1
      rw [Finset.sum_range_succ, Finset.sum_range_succ]
      simp only [Nat.succ_ne_zero, if_false, Nat.add_sub_cancel]
      linear_combination ih' + step + e2
  have final := key T (Nat.le_refl T)
  rw [← final]
  congr 1
  apply Finset.sum_congr rfl
  intro e _
  rw [if_pos rfl, if_pos rfl, if_neg (by omega), if_neg (by omega)]
  ring

end AdjointTotal

section Tangents

/-- The tangents of a recurrence of the shape of the forward pass: if the pre-activations,
activations, cell states and hidden states are functions of a real parameter `s` that
satisfy the equations of the forward pass for every `s`, then at every timestep they are
differentiable at `s0` and their derivatives satisfy the linearised equations. -/
theorem fwd_tangents (lm : Libm ℝ) (hpos : ∀ x, 0 < lm.exp x)
    (hexp : ∀ x, HasDerivAt lm.exp (lm.exp x) x)
    (htanh : ∀ x, HasDerivAt lm.tanh (1 - lm.tanh x * lm.tanh x) x)
    (N C K T : Nat) (s0 : ℝ)
    (Bq : Nat → ℝ → ℝ) (Wq Rq : Nat → Nat → ℝ → ℝ) (Bq' : Nat → ℝ) (Wq' Rq' : Nat → Nat → ℝ)
    (hB : ∀ q, HasDerivAt (Bq q) (Bq' q) s0)
    (hW : ∀ c q, HasDerivAt (Wq c q) (Wq' c q) s0)
    (hR : ∀ l q, HasDerivAt (Rq l q) (Rq' l q) s0)
    (X : Nat → Nat → Nat → ℝ) (hp0 csp0 : Nat → ℝ)
    (pre icfo : Nat → Nat → Nat → ℝ → ℝ) (cs hh : Nat → Nat → ℝ → ℝ)
    (E1 : ∀ t n q s, t < T → n < N → q < 4 * K →
      pre t n q s = Bq q s + ∑ c in Finset.range C, Wq c q s * X t n c
        + ∑ l in Finset.range K,
            Rq l q s * (if t = 0 then hp0 (n * K + l) else hh (t - 1) (n * K + l) s))
    (Ei : ∀ t n k s, t < T → n < N → k < K →
      icfo t n k s = sigmoid_value lm (pre t n k s))
    (Ec : ∀ t n k s, t < T → n < N → k < K →
      icfo t n (K + k) s = lm.tanh (pre t n (K + k) s))
    (Ef : ∀ t n k s, t < T → n < N → k < K →
      icfo t n (2 * K + k) s = sigmoid_value lm (pre t n (2 * K + k) s))
    (Eo : ∀ t n k s, t < T → n < N → k < K →
      icfo t n (3 * K + k) s = sigmoid_value lm (pre t n (3 * K + k) s))
    (E2 : ∀ t n k s, t < T → n < N → k < K →
      cs t (n * K + k) s
        = icfo t n (2 * K + k) s
            * (if t = 0 then csp0 (n * K + k) else cs (t - 1) (n * K + k) s)
          + icfo t n k s * icfo t n (K + k) s)
    (E3 : ∀ t n k s, t < T → n < N → k < K →
      hh t (n * K + k) s = icfo t n (3 * K + k) s * lm.tanh (cs t (n * K + k) s))
    (t : Nat) (ht : t < T) :
    (∀ n q, n < N → q < 4 * K →
      HasDerivAt (pre t n q)
        (Bq' q + ∑ c in Finset.range C, Wq' c q * X t n c
          + ∑ l in Finset.range K,
              Rq' l q * (if t = 0 then hp0 (n * K + l) else hh (t - 1) (n * K + l) s0)
          + ∑ l in Finset.range K,
              Rq l q s0 * (if t = 0 then 0 else deriv (hh (t - 1) (n * K + l)) s0)) s0)
    ∧ (∀ n k, n < N → k < K →
      HasDerivAt (icfo t n k)
          (icfo t n k s0 * (1 - icfo t n k s0) * deriv (pre t n k) s0) s0
      ∧ HasDerivAt (icfo t n (K + k))
          ((1 - icfo t n (K + k) s0 * icfo t n (K + k) s0) * deriv (pre t n (K + k)) s0) s0
      ∧ HasDerivAt (icfo t n (2 * K + k))
          (icfo t n (2 * K + k) s0 * (1 - icfo t n (2 * K + k) s0)
            * deriv (pre t n (2 * K + k)) s0) s0
      ∧ HasDerivAt (icfo t n (3 * K + k))
          (icfo t n (3 * K + k) s0 * (1 - icfo t n (3 * K + k) s0)
            * deriv (pre t n (3 * K + k)) s0) s0
      ∧ HasDerivAt (cs t (n * K + k))
          (deriv (icfo t n (2 * K + k)) s0
              * (if t = 0 then csp0 (n * K + k) else cs (t - 1) (n * K + k) s0)
            + icfo t n (2 * K + k) s0
              * (if t = 0 then 0 else deriv (cs (t - 1) (n * K + k)) s0)
            + (deriv (icfo t n k) s0 * icfo t n (K + k) s0
              + icfo t n k s0 * deriv (icfo t n (K + k)) s0)) s0
      ∧ HasDerivAt (hh t (n * K + k))
          (deriv (icfo t n (3 * K + k)) s0 * lm.tanh (cs t (n * K + k) s0)
            + icfo t n (3 * K + k) s0
              * ((1 - lm.tanh (cs t (n * K + k) s0) * lm.tanh (cs t (n * K + k) s0))
                * deriv (cs t (n * K + k)) s0)) s0) := by
  induction t using Nat.strong_induction_on with
  | _ t ih =>
    -- the previous hidden and cell state as functions of the parameter
    have hprev : ∀ n l, n < N → l < K →
        HasDerivAt (fun s => if t = 0 then hp0 (n * K + l) else hh (t - 1) (n * K + l) s)
          (if t = 0 then 0 else deriv (hh (t - 1) (n * K + l)) s0) s0 := by
      intro n l hn hl
      by_cases h0 : t = 0
      · simp only [h0, if_true]
        exact hasDerivAt_const s0 _
      · simp only [h0, if_false]
        exact ((ih (t - 1) (by omega) (by omega)).2 n l hn hl).2.2.2.2.2.differentiableAt.hasDerivAt
    have cprev : ∀ n k, n < N → k < K →
        HasDerivAt (fun s => if t = 0 then csp0 (n * K + k) else cs (t - 1) (n * K + k) s)
          (if t = 0 then 0 else deriv (cs (t - 1) (n * K + k)) s0) s0 := by
      intro n k hn hk
      by_cases h0 : t = 0
      · simp only [h0, if_true]
        exact hasDerivAt_const s0 _
      · simp only [h0, if_false]
        exact ((ih (t - 1) (by omega) (by omega)).2 n k hn hk).2.2.2.2.1.differentiableAt.hasDerivAt
    have hpre : ∀ n q, n < N → q < 4 * K →
        HasDerivAt (pre t n q)
          (Bq' q + ∑ c in Finset.range C, Wq' c q * X t n c
            + ∑ l in Finset.range K,
                Rq' l q * (if t = 0 then hp0 (n * K + l) else hh (t - 1) (n * K + l) s0)
            + ∑ l in Finset.range K,
                Rq l q s0 * (if t = 0 then 0 else deriv (hh (t - 1) (n * K + l)) s0)) s0 := by
      intro n q hn hq
      have h1 : HasDerivAt (fun s => ∑ c in Finset.range C, Wq c q s * X t n c)
          (∑ c in Finset.range C, Wq' c q * X t n c) s0 :=
        HasDerivAt.sum (fun c _ => (hW c q).mul_const (X t n c))
      have h2 : HasDerivAt (fun s => ∑ l in Finset.range K,
            Rq l q s * (if t = 0 then hp0 (n * K + l) else hh (t - 1) (n * K + l) s))
          (∑ l in Finset.range K,
            (Rq' l q * (if t = 0 then hp0 (n * K + l) else hh (t - 1) (n * K + l) s0)
              + Rq l q s0 * (if t = 0 then 0 else deriv (hh (t - 1) (n * K + l)) s0))) s0 :=
        HasDerivAt.sum (fun l hl => (hR l q).mul (hprev n l hn (Finset.mem_range.mp hl)))
      have h3 := ((hB q).add h1).add h2
      refine (h3.congr_of_eventuallyEq
        (Filter.Eventually.of_forall (fun s => E1 t n q s ht hn hq))).congr_deriv ?_
      rw [Finset.sum_add_distrib]
      ring
    refine ⟨hpre, fun n k hn hk => ?_⟩
    have p0 := (hpre n k hn (by omega)).differentiableAt.hasDerivAt
    have p1 := (hpre n (K + k) hn (by omega)).differentiableAt.hasDerivAt
    have p2 := (hpre n (2 * K + k) hn (by omega)).differentiableAt.hasDerivAt
    have p3 := (hpre n (3 * K + k) hn (by omega)).differentiableAt.hasDerivAt
    have a0 : HasDerivAt (icfo t n k)
        (icfo t n k s0 * (1 - icfo t n k s0) * deriv (pre t n k) s0) s0 := by
      rw [Ei t n k s0 ht hn hk]
      exact (sigmoid_hasDerivAt lm hpos hexp _ _ s0 p0).congr_of_eventuallyEq
        (Filter.Eventually.of_forall (fun s => Ei t n k s ht hn hk))
    have a1 : HasDerivAt (icfo t n (K + k))
        ((1 - icfo t n (K + k) s0 * icfo t n (K + k) s0) * deriv (pre t n (K + k)) s0) s0 := by
      rw [Ec t n k s0 ht hn hk]
      exact (tanh_hasDerivAt lm htanh _ _ s0 p1).congr_of_eventuallyEq
        (Filter.Eventually.of_forall (fun s => Ec t n k s ht hn hk))
    have a2 : HasDerivAt (icfo t n (2 * K + k))
        (icfo t n (2 * K + k) s0 * (1 - icfo t n (2 * K + k) s0)
          * deriv (pre t n (2 * K + k)) s0) s0 := by
      rw [Ef t n k s0 ht hn hk]
      exact (sigmoid_hasDerivAt lm hpos hexp _ _ s0 p2).congr_of_eventuallyEq
        (Filter.Eventually.of_forall (fun s => Ef t n k s ht hn hk))
    have a3 : HasDerivAt (icfo t n (3 * K + k))
        (icfo t n (3 * K + k) s0 * (1 - icfo t n (3 * K + k) s0)
          * deriv (pre t n (3 * K + k)) s0) s0 := by
      rw [Eo t n k s0 ht hn hk]
      exact (sigmoid_hasDerivAt lm hpos hexp _ _ s0 p3).congr_of_eventuallyEq
        (Filter.Eventually.of_forall (fun s => Eo t n k s ht hn hk))
    have c0 : HasDerivAt (cs t (n * K + k))
        (deriv (icfo t n (2 * K + k)) s0
            * (if t = 0 then csp0 (n * K + k) else cs (t - 1) (n * K + k) s0)
          + icfo t n (2 * K + k) s0
            * (if t = 0 then 0 else deriv (cs (t - 1) (n * K + k)) s0)
          + (deriv (icfo t n k) s0 * icfo t n (K + k) s0
            + icfo t n k s0 * deriv (icfo t n (K + k)) s0)) s0 :=
      ((a2.differentiableAt.hasDerivAt.mul (cprev n k hn hk)).add
        (a0.differentiableAt.hasDerivAt.mul a1.differentiableAt.hasDerivAt)).congr_of_eventuallyEq
        (Filter.Eventually.of_forall (fun s => E2 t n k s ht hn hk))
    refine ⟨a0, a1, a2, a3, c0, ?_⟩
    exact (a3.differentiableAt.hasDerivAt.mul
      (tanh_hasDerivAt lm htanh _ _ s0 c0.differentiableAt.hasDerivAt)).congr_of_eventuallyEq
      (Filter.Eventually.of_forall (fun s => E3 t n k s ht hn hk))

end Tangents

section Bptt

/-- Backpropagation through time computes the derivative.  For a recurrence of the shape
of the forward pass, whose parameters are differentiable functions of a real `s`, and
arrays `delta`, `dcsv`, `dicfo`, `doutp` that satisfy the equations of the backward pass at
`s0`: the function `s ↦ sum_t <dh_t, H_t(s)> + <dcs, CS_{T-1}(s)>` has at `s0` the
derivative `sum_t sum_n sum_q dicfo_t[n][q] * (direct effect of s on pre_t[n][q])`. -/
theorem bptt_hasDerivAt (lm : Libm ℝ) (hpos : ∀ x, 0 < lm.exp x)
    (hexp : ∀ x, HasDerivAt lm.exp (lm.exp x) x)
    (htanh : ∀ x, HasDerivAt lm.tanh (1 - lm.tanh x * lm.tanh x) x)
    (N C K T : Nat) (hT : 0 < T) (s0 : ℝ)
    (Bq : Nat → ℝ → ℝ) (Wq Rq : Nat → Nat → ℝ → ℝ) (Bq' : Nat → ℝ) (Wq' Rq' : Nat → Nat → ℝ)
    (hB : ∀ q, HasDerivAt (Bq q) (Bq' q) s0)
    (hW : ∀ c q, HasDerivAt (Wq c q) (Wq' c q) s0)
    (hR : ∀ l q, HasDerivAt (Rq l q) (Rq' l q) s0)
    (X : Nat → Nat → Nat → ℝ) (hp0 csp0 : Nat → ℝ)
    (pre icfo : Nat → Nat → Nat → ℝ → ℝ) (cs hh : Nat → Nat → ℝ → ℝ)
    (E1 : ∀ t n q s, t < T → n < N → q < 4 * K →
      pre t n q s = Bq q s + ∑ c in Finset.range C, Wq c q s * X t n c
        + ∑ l in Finset.range K,
            Rq l q s * (if t = 0 then hp0 (n * K + l) else hh (t - 1) (n * K + l) s))
    (Ei : ∀ t n k s, t < T → n < N → k < K →
      icfo t n k s = sigmoid_value lm (pre t n k s))
    (Ec : ∀ t n k s, t < T → n < N → k < K →
      icfo t n (K + k) s = lm.tanh (pre t n (K + k) s))
    (Ef : ∀ t n k s, t < T → n < N → k < K →
      icfo t n (2 * K + k) s = sigmoid_value lm (pre t n (2 * K + k) s))
    (Eo : ∀ t n k s, t < T → n < N → k < K →
      icfo t n (3 * K + k) s = sigmoid_value lm (pre t n (3 * K + k) s))
    (E2 : ∀ t n k s, t < T → n < N → k < K →
      cs t (n * K + k) s
        = icfo t n (2 * K + k) s
            * (if t = 0 then csp0 (n * K + k) else cs (t - 1) (n * K + k) s)
          + icfo t n k s * icfo t n (K + k) s)
    (E3 : ∀ t n k s, t < T → n < N → k < K →
      hh t (n * K + k) s = icfo t n (3 * K + k) s * lm.tanh (cs t (n * K + k) s))
    (dh : Nat → Nat → ℝ) (dcs : Nat → ℝ) (delta dcsv doutp : Nat → Nat → ℝ)
    (dicfo : Nat → Nat → Nat → ℝ)
    (B1 : ∀ t e, t < T → e < K * N →
      delta t e = if t = T - 1 then dh t e else doutp (t + 1) e + dh t e)
    (B2 : ∀ t e, t < T → e < K * N →
      dcsv t e = icfo t (e / K) (3 * K + e % K) s0 * delta t e
          * (1 - lm.tanh (cs t e s0) * lm.tanh (cs t e s0))
        + (if t = T - 1 then dcs e
           else icfo (t + 1) (e / K) (2 * K + e % K) s0 * dcsv (t + 1) e))
    (Bi : ∀ t n k, t < T → n < N → k < K →
      dicfo t n k = icfo t n (K + k) s0 * dcsv t (n * K + k)
        * (icfo t n k s0 * (1 - icfo t n k s0)))
    (Bc : ∀ t n k, t < T → n < N → k < K →
      dicfo t n (K + k) = icfo t n k s0 * dcsv t (n * K + k)
        * (1 - icfo t n (K + k) s0 * icfo t n (K + k) s0))
    (Bf : ∀ t n k, t < T → n < N → k < K →
      dicfo t n (2 * K + k)
        = dcsv t (n * K + k)
          * (if t = 0 then csp0 (n * K + k) else cs (t - 1) (n * K + k) s0)
          * (icfo t n (2 * K + k) s0 * (1 - icfo t n (2 * K + k) s0)))
    (Bo : ∀ t n k, t < T → n < N → k < K →
      dicfo t n (3 * K + k) = delta t (n * K + k) * lm.tanh (cs t (n * K + k) s0)
        * (icfo t n (3 * K + k) s0 * (1 - icfo t n (3 * K + k) s0)))
    (Bout : ∀ t n l, t < T → n < N → l < K →
      doutp t (n * K + l) = ∑ q in Finset.range (4 * K), Rq l q s0 * dicfo t n q) :
    HasDerivAt
      (fun s => ∑ t in Finset.range T, ∑ e in Finset.range (K * N), dh t e * hh t e s
        + ∑ e in Finset.range (K * N), dcs e * cs (T - 1) e s)
      (∑ t in Finset.range T, ∑ n in Finset.range N, ∑ q in Finset.range (4 * K),
        dicfo t n q * (Bq' q + ∑ c in Finset.range C, Wq' c q * X t n c
          + ∑ l in Finset.range K,
              Rq' l q * (if t = 0 then hp0 (n * K + l) else hh (t - 1) (n * K + l) s0)))
      s0 := by
  have tan := fwd_tangents lm hpos hexp htanh N C K T s0 Bq Wq Rq Bq' Wq' Rq' hB hW hR X hp0
    csp0 pre icfo cs hh E1 Ei Ec Ef Eo E2 E3
  -- the outputs are differentiable
  have dif : ∀ t e, t < T → e < K * N →
      HasDerivAt (hh t e) (deriv (hh t e) s0) s0
      ∧ HasDerivAt (cs t e) (deriv (cs t e) s0) s0 := by
    intro t e ht he
    obtain ⟨hn, hk, e1⟩ := elem_split he
    have := (tan t ht).2 (e / K) (e % K) hn hk
    rw [e1] at this
    exact ⟨this.2.2.2.2.2.differentiableAt.hasDerivAt,
      this.2.2.2.2.1.differentiableAt.hasDerivAt⟩
  have hL : HasDerivAt
      (fun s => ∑ t in Finset.range T, ∑ e in Finset.range (K * N), dh t e * hh t e s
        + ∑ e in Finset.range (K * N), dcs e * cs (T - 1) e s)
      (∑ t in Finset.range T, ∑ e in Finset.range (K * N), dh t e * deriv (hh t e) s0
        + ∑ e in Finset.range (K * N), dcs e * deriv (cs (T - 1) e) s0) s0 := by
    refine HasDerivAt.add ?_ ?_
    · refine HasDerivAt.sum (fun t ht => ?_)
      refine HasDerivAt.sum (fun e he => ?_)
      exact (dif t e (Finset.mem_range.mp ht) (Finset.mem_range.mp he)).1.const_mul (dh t e)
    · refine HasDerivAt.sum (fun e he => ?_)
      exact (dif (T - 1) e (by omega) (Finset.mem_range.mp he)).2.const_mul (dcs e)
  refine hL.congr_deriv ?_
  exact adjoint_total N K T hT (fun t n q => icfo t n q s0)
    (fun t n q => deriv (pre t n q) s0) (fun t n q => deriv (icfo t n q) s0) dicfo
    (fun t n q => Bq' q + ∑ c in Finset.range C, Wq' c q * X t n c
      + ∑ l in Finset.range K,
          Rq' l q * (if t = 0 then hp0 (n * K + l) else hh (t - 1) (n * K + l) s0))
    (fun l q => Rq l q s0)
    (fun t e => if t = 0 then csp0 e else cs (t - 1) e s0)
    (fun t e => lm.tanh (cs t e s0)) (fun t e => deriv (cs t e) s0)
    (fun t e => deriv (hh t e) s0) delta dcsv doutp dh dcs
    (fun t n k ht hn hk => ((tan t ht).2 n k hn hk).1.deriv)
    (fun t n k ht hn hk => ((tan t ht).2 n k hn hk).2.1.deriv)
    (fun t n k ht hn hk => ((tan t ht).2 n k hn hk).2.2.1.deriv)
    (fun t n k ht hn hk => ((tan t ht).2 n k hn hk).2.2.2.1.deriv)
    (fun t n k ht hn hk => ((tan t ht).2 n k hn hk).2.2.2.2.1.deriv)
    (fun t n k ht hn hk => ((tan t ht).2 n k hn hk).2.2.2.2.2.deriv)
    (fun t n q ht hn hq => ((tan t ht).1 n q hn hq).deriv)
    B1 B2 Bi Bc Bf Bo Bout

end Bptt

section Perturbation

variable {β α : Type} [DecidableEq β]

/-- Writing back the value a location holds changes nothing. -/
theorem Mem.write_read_self (h : Mem β α) (p : Ptr β) : h.write p (h.read p) = h := by
  cases h with
  | mk g =>
    unfold Mem.write Mem.read
    congr 1
    funext b i
    split_ifs with hc
    · obtain ⟨h1, h2⟩ := hc
      rw [h1, h2]
    · rfl

/-- A write into one buffer is not seen by a read of another buffer. -/
theorem Mem.read_write_other (h : Mem β α) (p q : Ptr β) (v : α) (hq : q.buf ≠ p.buf) :
    (h.write p v).read q = h.read q :=
  Mem.read_write_ne h v (fun he => hq (by rw [he]))

/-- The content of the location `q` as a function of the value written at `p`. -/
theorem read_write_hasDerivAt (h : Mem β ℝ) (p q : Ptr β) (s0 : ℝ) :
    HasDerivAt (fun s => (h.write p s).read q) (if q = p then 1 else 0) s0 := by
  by_cases hc : q = p
  · rw [if_pos hc, hc]
    have e : (fun s => (h.write p s).read p) = fun s => s := by
      funext s
      exact Mem.read_write_same h p s
    rw [e]
    exact hasDerivAt_id s0
  · rw [if_neg hc]
    have e : (fun s => (h.write p s).read q) = fun _ => h.read q := by
      funext s
      exact Mem.read_write_ne h s (fun he => hc he.symm)
    rw [e]
    exact hasDerivAt_const s0 _

end Perturbation

section LossGradient

/-- The loss `sum_t <dH_t, H_t> + <dCS, CS_{T-1}>` of the forward outputs of `lstm_ref`, as a
function of the value `s` of one element `p` of the caller's buffers (outside the input
sequence and the initial states), has at the value `p` holds the derivative
`sum_t sum_n sum_q dICFO_t[n][q] * D_t[n][q]`, where `dICFO_t` are the gate gradients
`lstm_ref` computes and `D_t[n][q]` is the direct effect of `p` on the pre-activation
`(n, q)` of timestep `t`: 1 if `p` is its bias, `X_t[n][c]` if `p` is its weight from input
`c`, `H_{t-1}[n][l]` if `p` is its recurrent weight from hidden unit `l`. -/
theorem lstm_ref_loss_hasDerivAt (two_gemms : Bool) (lm : Libm ℝ)
    (hpos : ∀ x, 0 < lm.exp x) (hexp : ∀ x, HasDerivAt lm.exp (lm.exp x) x)
    (htanh : ∀ x, HasDerivAt lm.tanh (1 - lm.tanh x * lm.tanh x) x)
    (N C K T : Nat) (hT : 0 < T) (forget_bias : ℝ) (h : Mem Buf ℝ) (p : Ptr Buf)
    (hp : p.buf ≠ .xgoldt ∧ p.buf ≠ .hpgold ∧ p.buf ≠ .cspgold) :
    HasDerivAt
      (fun s => ∑ t in Finset.range T, ∑ e in Finset.range (K * N),
            h.read ((seq_at .dhgoldt t (K * N)).idx e)
              * (lstm_ref two_gemms lm N C K T forget_bias (h.write p s)).read
                  ((seq_at .hgoldt t (K * N)).idx e)
          + ∑ e in Finset.range (K * N), h.read ((base .dcsgold).idx e)
              * (lstm_ref two_gemms lm N C K T forget_bias (h.write p s)).read
                  ((seq_at .csgoldt (T - 1) (K * N)).idx e))
      (∑ t in Finset.range T, ∑ n in Finset.range N, ∑ q in Finset.range (4 * K),
          (lstm_ref two_gemms lm N C K T forget_bias h).read (dicfo_elem N K t n q)
            * ((if (base (gate_b (q / K))).idx (q % K) = p then 1 else 0)
              + ∑ c in Finset.range C,
                  (if (base (gate_w (q / K))).idx (c * K + q % K) = p then 1 else 0)
                    * h.read ((seq_at .xgoldt t (N * C)).idx (n * C + c))
              + ∑ l in Finset.range K,
                  (if (base (gate_r (q / K))).idx (l * K + q % K) = p then 1 else 0)
                    * (if t = 0 then h.read ((base .hpgold).idx (n * K + l))
                       else (lstm_ref two_gemms lm N C K T forget_bias h).read
                         ((seq_at .hgoldt (t - 1) (K * N)).idx (n * K + l)))))
      (h.read p) := by
  have hx : ∀ s i t, (h.write p s).read ((seq_at .xgoldt t (N * C)).idx i)
      = h.read ((seq_at .xgoldt t (N * C)).idx i) :=
    fun s i t => Mem.read_write_other h p _ s (fun he => hp.1 he.symm)
  have hhp : ∀ s i, (h.write p s).read ((base .hpgold).idx i) = h.read ((base .hpgold).idx i) :=
    fun s i => Mem.read_write_other h p _ s (fun he => hp.2.1 he.symm)
  have hcsp : ∀ s i, (h.write p s).read ((base .cspgold).idx i)
      = h.read ((base .cspgold).idx i) :=
    fun s i => Mem.read_write_other h p _ s (fun he => hp.2.2 he.symm)
  refine (bptt_hasDerivAt lm hpos hexp htanh N C K T hT (h.read p)
    (fun q s => if q / K = 2 then (h.write p s).read ((base .bfgold).idx (q % K)) + forget_bias
      else (h.write p s).read ((base (gate_b (q / K))).idx (q % K)))
    (fun c q s => (h.write p s).read ((base (gate_w (q / K))).idx (c * K + q % K)))
    (fun l q s => (h.write p s).read ((base (gate_r (q / K))).idx (l * K + q % K)))
    (fun q => if (base (gate_b (q / K))).idx (q % K) = p then 1 else 0)
    (fun c q => if (base (gate_w (q / K))).idx (c * K + q % K) = p then 1 else 0)
    (fun l q => if (base (gate_r (q / K))).idx (l * K + q % K) = p then 1 else 0)
    ?hB ?hW ?hR
    (fun t n c => h.read ((seq_at .xgoldt t (N * C)).idx (n * C + c)))
    (fun e => h.read ((base .hpgold).idx e)) (fun e => h.read ((base .cspgold).idx e))
    (fun t n q s => (lstm_pre two_gemms lm N C K t forget_bias (h.write p s)).read
      (icfo_elem N K t n q))
    (fun t n q s => (lstm_ref two_gemms lm N C K T forget_bias (h.write p s)).read
      (icfo_elem N K t n q))
    (fun t e s => (lstm_ref two_gemms lm N C K T forget_bias (h.write p s)).read
      ((seq_at .csgoldt t (K * N)).idx e))
    (fun t e s => (lstm_ref two_gemms lm N C K T forget_bias (h.write p s)).read
      ((seq_at .hgoldt t (K * N)).idx e))
    ?E1 ?Ei ?Ec ?Ef ?Eo ?E2 ?E3
    (fun t e => h.read ((seq_at .dhgoldt t (K * N)).idx e))
    (fun e => h.read ((base .dcsgold).idx e))
    (fun t e => (lstm_ref two_gemms lm N C K T forget_bias h).read
      ((seq_at .deltagoldt t (K * N)).idx e))
    (fun t e => (lstm_dcs two_gemms lm N C K T forget_bias t h).read ((base .dcspgold).idx e))
    (fun t e => (lstm_ref two_gemms lm N C K T forget_bias h).read (dout_prev N K t e))
    (fun t n q => (lstm_ref two_gemms lm N C K T forget_bias h).read (dicfo_elem N K t n q))
    ?B1 ?B2 ?Bi ?Bc ?Bf ?Bo ?Bout).congr_deriv ?_
  case hB =>
    intro q
    by_cases hq2 : q / K = 2
    · simp only [hq2, if_true]
      exact (read_write_hasDerivAt h p ((base .bfgold).idx (q % K)) (h.read p)).add_const
        forget_bias
    · simp only [hq2, if_false]
      exact read_write_hasDerivAt h p _ (h.read p)
  case hW => exact fun c q => read_write_hasDerivAt h p _ (h.read p)
  case hR => exact fun l q => read_write_hasDerivAt h p _ (h.read p)
  case E1 =>
    intro t n q s ht hn hq
    obtain ⟨hg, hk, e⟩ := slot_split hq
    beta_reduce
    have key := lstm_pre_final two_gemms lm N C K T forget_bias (h.write p s) t (q / K) n
      (q % K) ht hg hn hk
    rw [e] at key
    rw [key]
    simp only [hx, hhp]
  case Ei =>
    intro t n k s ht hn hk
    have key := lstm_ref_icfo two_gemms lm N C K T forget_bias (h.write p s) t 0 n k ht
      (by omega) hn hk
    rw [Nat.zero_mul, Nat.zero_add, if_neg (by decide)] at key
    exact key
  case Ec =>
    intro t n k s ht hn hk
    have key := lstm_ref_icfo two_gemms lm N C K T forget_bias (h.write p s) t 1 n k ht
      (by omega) hn hk
    rw [Nat.one_mul, if_pos rfl] at key
    exact key
  case Ef =>
    intro t n k s ht hn hk
    have key := lstm_ref_icfo two_gemms lm N C K T forget_bias (h.write p s) t 2 n k ht
      (by omega) hn hk
    rw [if_neg (by decide)] at key
    exact key
  case Eo =>
    intro t n k s ht hn hk
    have key := lstm_ref_icfo two_gemms lm N C K T forget_bias (h.write p s) t 3 n k ht
      (by omega) hn hk
    rw [if_neg (by decide)] at key
    exact key
  case E2 =>
    intro t n k s ht hn hk
    have key := lstm_ref_cell two_gemms lm N C K T forget_bias (h.write p s) t (n * K + k) ht
      (tile_index_lt hn hk)
    rw [(tile_index K n k hk).1, (tile_index K n k hk).2, hcsp] at key
    exact key
  case E3 =>
    intro t n k s ht hn hk
    have key := lstm_ref_hidden two_gemms lm N C K T forget_bias (h.write p s) t (n * K + k)
      ht (tile_index_lt hn hk)
    rw [(tile_index K n k hk).1, (tile_index K n k hk).2] at key
    exact key
  case B1 =>
    intro t e ht he
    beta_reduce
    rw [dout_prev_succ]
    exact lstm_ref_delta two_gemms lm N C K T forget_bias h t e ht he
  case B2 =>
    intro t e ht he
    beta_reduce
    rw [Mem.write_read_self]
    exact lstm_dcs_value two_gemms lm N C K T forget_bias h t e ht he
  case Bi =>
    intro t n k ht hn hk
    beta_reduce
    rw [Mem.write_read_self]
    exact lstm_ref_di two_gemms lm N C K T forget_bias h t n k ht hn hk
  case Bc =>
    intro t n k ht hn hk
    beta_reduce
    rw [Mem.write_read_self]
    exact lstm_ref_dc two_gemms lm N C K T forget_bias h t n k ht hn hk
  case Bf =>
    intro t n k ht hn hk
    beta_reduce
    rw [Mem.write_read_self]
    exact lstm_ref_df two_gemms lm N C K T forget_bias h t n k ht hn hk
  case Bo =>
    intro t n k ht hn hk
    beta_reduce
    rw [Mem.write_read_self]
    exact lstm_ref_do two_gemms lm N C K T forget_bias h t n k ht hn hk
  case Bout =>
    intro t n l ht hn hl
    beta_reduce
    rw [Mem.write_read_self, lstm_ref_dout two_gemms lm N C K T forget_bias h t n l ht hn hl]
    apply Finset.sum_congr rfl
    intro q hq
    rw [lstm_ref_r4 two_gemms lm N C K T forget_bias h l q hl (Finset.mem_range.mp hq)]
  · beta_reduce
    rw [Mem.write_read_self]

end LossGradient

section ParameterAddresses

theorem gate_w_inj {g g' : Nat} (hg : g < 4) (hg' : g' < 4) (he : gate_w g = gate_w g') :
    g = g' := by
  interval_cases g <;> interval_cases g' <;> first | rfl | exact Buf.noConfusion he

theorem gate_r_inj {g g' : Nat} (hg : g < 4) (hg' : g' < 4) (he : gate_r g = gate_r g') :
    g = g' := by
  interval_cases g <;> interval_cases g' <;> first | rfl | exact Buf.noConfusion he

theorem gate_b_inj {g g' : Nat} (hg : g < 4) (hg' : g' < 4) (he : gate_b g = gate_b g') :
    g = g' := by
  interval_cases g <;> interval_cases g' <;> first | rfl | exact Buf.noConfusion he

/-- The weights, the recurrent weights and the biases are different buffers. -/
theorem gate_bufs_ne (g g' : Nat) :
    gate_w g ≠ gate_r g' ∧ gate_w g ≠ gate_b g' ∧ gate_r g ≠ gate_b g' := by
  unfold gate_w gate_r gate_b
  refine ⟨?_, ?_, ?_⟩ <;> split <;> split <;> exact fun he => Buf.noConfusion he

/-- The element `(r, q % K)` of the gate matrix of slot `q / K` is the element `(r0, x)` of
the gate matrix `g` exactly for `q = g * K + x` and `r = r0`. -/
theorem gate_elem_eq (gate : Nat → Buf)
    (hinj : ∀ a b, a < 4 → b < 4 → gate a = gate b → a = b) (K g x r r0 q : Nat)
    (hg : g < 4) (hx : x < K) (hq : q < 4 * K) :
    (base (gate (q / K))).idx (r * K + q % K) = (base (gate g)).idx (r0 * K + x)
      ↔ q = g * K + x ∧ r = r0 := by
  obtain ⟨hg', hk, e⟩ := slot_split hq
  constructor
  · intro he
    have h1 : gate (q / K) = gate g := congrArg Ptr.buf he
    have h2 : r * K + q % K = r0 * K + x := by
      have := congrArg Ptr.off he
      simp only [Ptr.idx_off, base] at this
      omega
    have h3 := hinj _ _ hg' hg h1
    obtain ⟨h4, h5⟩ := two_d_inj hk hx h2
    exact ⟨by rw [← e, h3, h5], h4⟩
  · rintro ⟨rfl, rfl⟩
    rw [(tile_index K g x hx).1, (tile_index K g x hx).2]

end ParameterAddresses

section DirectEffect

/-- The direct effect of the weight `W_g[c0][x]` on the pre-activations of one batch row,
paired with the gate gradients of the row. -/
theorem direct_sum_weight (C K g x c0 : Nat) (hg : g < 4) (hx : x < K) (hc0 : c0 < C)
    (d Xv Hv : Nat → ℝ) :
    ∑ q in Finset.range (4 * K),
        d q * ((if (base (gate_b (q / K))).idx (q % K) = (base (gate_w g)).idx (c0 * K + x)
                then 1 else 0)
          + ∑ c in Finset.range C,
              (if (base (gate_w (q / K))).idx (c * K + q % K)
                  = (base (gate_w g)).idx (c0 * K + x) then 1 else 0) * Xv c
          + ∑ l in Finset.range K,
              (if (base (gate_r (q / K))).idx (l * K + q % K)
                  = (base (gate_w g)).idx (c0 * K + x) then 1 else 0) * Hv l)
      = d (g * K + x) * Xv c0 := by
  have hb : ∀ q, ¬ ((base (gate_b (q / K))).idx (q % K) = (base (gate_w g)).idx (c0 * K + x)) :=
    fun q he => (gate_bufs_ne g (q / K)).2.1 (congrArg Ptr.buf he).symm
  have hr : ∀ q l, ¬ ((base (gate_r (q / K))).idx (l * K + q % K)
      = (base (gate_w g)).idx (c0 * K + x)) :=
    fun q l he => (gate_bufs_ne g (q / K)).1 (congrArg Ptr.buf he).symm
  have hw : ∀ q, q ∈ Finset.range (4 * K) →
      d q * ((if (base (gate_b (q / K))).idx (q % K) = (base (gate_w g)).idx (c0 * K + x)
                then 1 else 0)
          + ∑ c in Finset.range C,
              (if (base (gate_w (q / K))).idx (c * K + q % K)
                  = (base (gate_w g)).idx (c0 * K + x) then 1 else 0) * Xv c
          + ∑ l in Finset.range K,
              (if (base (gate_r (q / K))).idx (l * K + q % K)
                  = (base (gate_w g)).idx (c0 * K + x) then 1 else 0) * Hv l)
        = if q = g * K + x then d q * Xv c0 else 0 := by
    intro q hq
    have hq' : q < 4 * K := Finset.mem_range.mp hq
    simp only [if_neg (hb q), if_neg (hr q _), zero_mul, Finset.sum_const_zero, add_zero,
      zero_add, gate_elem_eq gate_w (fun a b => gate_w_inj) K g x _ c0 q hg hx hq']
    by_cases hc : q = g * K + x
    · simp only [hc, true_and, if_true, ite_mul, one_mul, zero_mul, Finset.sum_ite_eq',
        Finset.mem_range, hc0]
    · simp only [hc, false_and, if_false, zero_mul, Finset.sum_const_zero, mul_zero]
  rw [Finset.sum_congr rfl hw, Finset.sum_ite_eq', if_pos (Finset.mem_range.mpr (slot_lt hg hx))]

/-- The direct effect of the recurrent weight `R_g[l0][x]` on the pre-activations of one
batch row, paired with the gate gradients of the row. -/
theorem direct_sum_recurrent (C K g x l0 : Nat) (hg : g < 4) (hx : x < K) (hl0 : l0 < K)
    (d Xv Hv : Nat → ℝ) :
    ∑ q in Finset.range (4 * K),
        d q * ((if (base (gate_b (q / K))).idx (q % K) = (base (gate_r g)).idx (l0 * K + x)
                then 1 else 0)
          + ∑ c in Finset.range C,
              (if (base (gate_w (q / K))).idx (c * K + q % K)
                  = (base (gate_r g)).idx (l0 * K + x) then 1 else 0) * Xv c
          + ∑ l in Finset.range K,
              (if (base (gate_r (q / K))).idx (l * K + q % K)
                  = (base (gate_r g)).idx (l0 * K + x) then 1 else 0) * Hv l)
      = d (g * K + x) * Hv l0 := by
  have hb : ∀ q, ¬ ((base (gate_b (q / K))).idx (q % K) = (base (gate_r g)).idx (l0 * K + x)) :=
    fun q he => (gate_bufs_ne g (q / K)).2.2 (congrArg Ptr.buf he).symm
  have hw' : ∀ q c, ¬ ((base (gate_w (q / K))).idx (c * K + q % K)
      = (base (gate_r g)).idx (l0 * K + x)) :=
    fun q c he => (gate_bufs_ne (q / K) g).1 (congrArg Ptr.buf he)
  have hw : ∀ q, q ∈ Finset.range (4 * K) →
      d q * ((if (base (gate_b (q / K))).idx (q % K) = (base (gate_r g)).idx (l0 * K + x)
                then 1 else 0)
          + ∑ c in Finset.range C,
              (if (base (gate_w (q / K))).idx (c * K + q % K)
                  = (base (gate_r g)).idx (l0 * K + x) then 1 else 0) * Xv c
          + ∑ l in Finset.range K,
              (if (base (gate_r (q / K))).idx (l * K + q % K)
                  = (base (gate_r g)).idx (l0 * K + x) then 1 else 0) * Hv l)
        = if q = g * K + x then d q * Hv l0 else 0 := by
    intro q hq
    have hq' : q < 4 * K := Finset.mem_range.mp hq
    simp only [if_neg (hb q), if_neg (hw' q _), zero_mul, Finset.sum_const_zero, add_zero,
      zero_add, gate_elem_eq gate_r (fun a b => gate_r_inj) K g x _ l0 q hg hx hq']
    by_cases hc : q = g * K + x
    · simp only [hc, true_and, if_true, ite_mul, one_mul, zero_mul, Finset.sum_ite_eq',
        Finset.mem_range, hl0]
    · simp only [hc, false_and, if_false, zero_mul, Finset.sum_const_zero, mul_zero]
  rw [Finset.sum_congr rfl hw, Finset.sum_ite_eq', if_pos (Finset.mem_range.mpr (slot_lt hg hx))]

/-- The direct effect of the bias `b_g[x]` on the pre-activations of one batch row, paired
with the gate gradients of the row. -/
theorem direct_sum_bias (C K g x : Nat) (hg : g < 4) (hx : x < K) (d Xv Hv : Nat → ℝ) :
    ∑ q in Finset.range (4 * K),
        d q * ((if (base (gate_b (q / K))).idx (q % K) = (base (gate_b g)).idx x
                then 1 else 0)
          + ∑ c in Finset.range C,
              (if (base (gate_w (q / K))).idx (c * K + q % K)
                  = (base (gate_b g)).idx x then 1 else 0) * Xv c
          + ∑ l in Finset.range K,
              (if (base (gate_r (q / K))).idx (l * K + q % K)
                  = (base (gate_b g)).idx x then 1 else 0) * Hv l)
      = d (g * K + x) := by
  have hw' : ∀ q c, ¬ ((base (gate_w (q / K))).idx (c * K + q % K) = (base (gate_b g)).idx x) :=
    fun q c he => (gate_bufs_ne (q / K) g).2.1 (congrArg Ptr.buf he)
  have hr : ∀ q l, ¬ ((base (gate_r (q / K))).idx (l * K + q % K) = (base (gate_b g)).idx x) :=
    fun q l he => (gate_bufs_ne (q / K) g).2.2 (congrArg Ptr.buf he)
  have hb : ∀ q, q < 4 * K →
      ((base (gate_b (q / K))).idx (q % K) = (base (gate_b g)).idx x ↔ q = g * K + x) := by
    intro q hq
    have := gate_elem_eq gate_b (fun a b => gate_b_inj) K g x 0 0 q hg hx hq
    rw [Nat.zero_mul, Nat.zero_add, Nat.zero_add] at this
    rw [this]
    exact ⟨fun hh => hh.1, fun hh => ⟨hh, rfl⟩⟩
  have hw : ∀ q, q ∈ Finset.range (4 * K) →
      d q * ((if (base (gate_b (q / K))).idx (q % K) = (base (gate_b g)).idx x
                then 1 else 0)
          + ∑ c in Finset.range C,
              (if (base (gate_w (q / K))).idx (c * K + q % K)
                  = (base (gate_b g)).idx x then 1 else 0) * Xv c
          + ∑ l in Finset.range K,
              (if (base (gate_r (q / K))).idx (l * K + q % K)
                  = (base (gate_b g)).idx x then 1 else 0) * Hv l)
        = if q = g * K + x then d q else 0 := by
    intro q hq
    have hq' : q < 4 * K := Finset.mem_range.mp hq
    simp only [if_neg (hw' q _), if_neg (hr q _), zero_mul, Finset.sum_const_zero, add_zero,
      hb q hq']
    by_cases hc : q = g * K + x
    · simp only [hc, if_true, mul_one]
    · simp only [hc, if_false, mul_zero]
  rw [Finset.sum_congr rfl hw, Finset.sum_ite_eq', if_pos (Finset.mem_range.mpr (slot_lt hg hx))]

end DirectEffect

section GradientIsDerivative

theorem gate_bufs_param (g : Nat) :
    (gate_w g ≠ .xgoldt ∧ gate_w g ≠ .hpgold ∧ gate_w g ≠ .cspgold)
    ∧ (gate_r g ≠ .xgoldt ∧ gate_r g ≠ .hpgold ∧ gate_r g ≠ .cspgold)
    ∧ (gate_b g ≠ .xgoldt ∧ gate_b g ≠ .hpgold ∧ gate_b g ≠ .cspgold) := by
  unfold gate_w gate_r gate_b
  refine ⟨?_, ?_, ?_⟩ <;> split <;>
    exact ⟨fun he => Buf.noConfusion he, fun he => Buf.noConfusion he,
      fun he => Buf.noConfusion he⟩

/-- What `lstm_ref` adds to the weight gradient of `W_g[c][x]` is the derivative of the loss
with respect to `W_g[c][x]`. -/
theorem lstm_ref_dw_derivative (two_gemms : Bool) (lm : Libm ℝ)
    (hpos : ∀ x, 0 < lm.exp x) (hexp : ∀ x, HasDerivAt lm.exp (lm.exp x) x)
    (htanh : ∀ x, HasDerivAt lm.tanh (1 - lm.tanh x * lm.tanh x) x)
    (N C K T : Nat) (hT : 0 < T) (forget_bias : ℝ) (h : Mem Buf ℝ)
    (g x c : Nat) (hg : g < 4) (hx : x < K) (hc : c < C) :
    HasDerivAt
      (fun s => ∑ t in Finset.range T, ∑ e in Finset.range (K * N),
            h.read ((seq_at .dhgoldt t (K * N)).idx e)
              * (lstm_ref two_gemms lm N C K T forget_bias
                  (h.write ((base (gate_w g)).idx (c * K + x)) s)).read
                  ((seq_at .hgoldt t (K * N)).idx e)
          + ∑ e in Finset.range (K * N), h.read ((base .dcsgold).idx e)
              * (lstm_ref two_gemms lm N C K T forget_bias
                  (h.write ((base (gate_w g)).idx (c * K + x)) s)).read
                  ((seq_at .csgoldt (T - 1) (K * N)).idx e))
      ((lstm_ref two_gemms lm N C K T forget_bias h).read
          ((base .dwgold).idx (c * (4 * K) + (g * K + x)))
        - h.read ((base .dwgold).idx (c * (4 * K) + (g * K + x))))
      (h.read ((base (gate_w g)).idx (c * K + x))) := by
  refine (lstm_ref_loss_hasDerivAt two_gemms lm hpos hexp htanh N C K T hT forget_bias h
    ((base (gate_w g)).idx (c * K + x)) (gate_bufs_param g).1).congr_deriv ?_
  rw [lstm_ref_dw two_gemms lm N C K T forget_bias h c (g * K + x) hc (slot_lt hg hx),
    add_sub_cancel_left]
  apply Finset.sum_congr rfl
  intro t _
  apply Finset.sum_congr rfl
  intro n _
  exact direct_sum_weight C K g x c hg hx hc
    (fun q => (lstm_ref two_gemms lm N C K T forget_bias h).read (dicfo_elem N K t n q))
    (fun c => h.read ((seq_at .xgoldt t (N * C)).idx (n * C + c)))
    (fun l => if t = 0 then h.read ((base .hpgold).idx (n * K + l))
      else (lstm_ref two_gemms lm N C K T forget_bias h).read
        ((seq_at .hgoldt (t - 1) (K * N)).idx (n * K + l)))

/-- What `lstm_ref` adds to the recurrent-weight gradient of `R_g[l][x]` is the derivative
of the loss with respect to `R_g[l][x]`. -/
theorem lstm_ref_dr_derivative (two_gemms : Bool) (lm : Libm ℝ)
    (hpos : ∀ x, 0 < lm.exp x) (hexp : ∀ x, HasDerivAt lm.exp (lm.exp x) x)
    (htanh : ∀ x, HasDerivAt lm.tanh (1 - lm.tanh x * lm.tanh x) x)
    (N C K T : Nat) (hT : 0 < T) (forget_bias : ℝ) (h : Mem Buf ℝ)
    (g x l : Nat) (hg : g < 4) (hx : x < K) (hl : l < K) :
    HasDerivAt
      (fun s => ∑ t in Finset.range T, ∑ e in Finset.range (K * N),
            h.read ((seq_at .dhgoldt t (K * N)).idx e)
              * (lstm_ref two_gemms lm N C K T forget_bias
                  (h.write ((base (gate_r g)).idx (l * K + x)) s)).read
                  ((seq_at .hgoldt t (K * N)).idx e)
          + ∑ e in Finset.range (K * N), h.read ((base .dcsgold).idx e)
              * (lstm_ref two_gemms lm N C K T forget_bias
                  (h.write ((base (gate_r g)).idx (l * K + x)) s)).read
                  ((seq_at .csgoldt (T - 1) (K * N)).idx e))
      ((lstm_ref two_gemms lm N C K T forget_bias h).read (dr_elem two_gemms C K l (g * K + x))
        - h.read (dr_elem two_gemms C K l (g * K + x)))
      (h.read ((base (gate_r g)).idx (l * K + x))) := by
  refine (lstm_ref_loss_hasDerivAt two_gemms lm hpos hexp htanh N C K T hT forget_bias h
    ((base (gate_r g)).idx (l * K + x)) (gate_bufs_param g).2.1).congr_deriv ?_
  rw [lstm_ref_dr two_gemms lm N C K T forget_bias h l (g * K + x) hl (slot_lt hg hx),
    add_sub_cancel_left]
  apply Finset.sum_congr rfl
  intro t _
  apply Finset.sum_congr rfl
  intro n _
  exact direct_sum_recurrent C K g x l hg hx hl
    (fun q => (lstm_ref two_gemms lm N C K T forget_bias h).read (dicfo_elem N K t n q))
    (fun c => h.read ((seq_at .xgoldt t (N * C)).idx (n * C + c)))
    (fun l => if t = 0 then h.read ((base .hpgold).idx (n * K + l))
      else (lstm_ref two_gemms lm N C K T forget_bias h).read
        ((seq_at .hgoldt (t - 1) (K * N)).idx (n * K + l)))

/-- What `lstm_ref` adds to the bias gradient of `b_g[x]` is the derivative of the loss with
respect to `b_g[x]`. -/
theorem lstm_ref_db_derivative (two_gemms : Bool) (lm : Libm ℝ)
    (hpos : ∀ x, 0 < lm.exp x) (hexp : ∀ x, HasDerivAt lm.exp (lm.exp x) x)
    (htanh : ∀ x, HasDerivAt lm.tanh (1 - lm.tanh x * lm.tanh x) x)
    (N C K T : Nat) (hT : 0 < T) (forget_bias : ℝ) (h : Mem Buf ℝ)
    (g x : Nat) (hg : g < 4) (hx : x < K) :
    HasDerivAt
      (fun s => ∑ t in Finset.range T, ∑ e in Finset.range (K * N),
            h.read ((seq_at .dhgoldt t (K * N)).idx e)
              * (lstm_ref two_gemms lm N C K T forget_bias
                  (h.write ((base (gate_b g)).idx x) s)).read
                  ((seq_at .hgoldt t (K * N)).idx e)
          + ∑ e in Finset.range (K * N), h.read ((base .dcsgold).idx e)
              * (lstm_ref two_gemms lm N C K T forget_bias
                  (h.write ((base (gate_b g)).idx x) s)).read
                  ((seq_at .csgoldt (T - 1) (K * N)).idx e))
      ((lstm_ref two_gemms lm N C K T forget_bias h).read ((base .dbgold).idx (g * K + x))
        - h.read ((base .dbgold).idx (g * K + x)))
      (h.read ((base (gate_b g)).idx x)) := by
  refine (lstm_ref_loss_hasDerivAt two_gemms lm hpos hexp htanh N C K T hT forget_bias h
    ((base (gate_b g)).idx x) (gate_bufs_param g).2.2).congr_deriv ?_
  rw [lstm_ref_db two_gemms lm N C K T forget_bias h g x hg hx, add_sub_cancel_left]
  apply Finset.sum_congr rfl
  intro t _
  apply Finset.sum_congr rfl
  intro n _
  exact direct_sum_bias C K g x hg hx
    (fun q => (lstm_ref two_gemms lm N C K T forget_bias h).read (dicfo_elem N K t n q))
    (fun c => h.read ((seq_at .xgoldt t (N * C)).idx (n * C + c)))
    (fun l => if t = 0 then h.read ((base .hpgold).idx (n * K + l))
      else (lstm_ref two_gemms lm N C K T forget_bias h).read
        ((seq_at .hgoldt (t - 1) (K * N)).idx (n * K + l)))

end GradientIsDerivative

section StridedHelpers

variable {β α : Type} [DecidableEq β]

/-- With the leading dimension equal to the row width the strided address of loop index
`i` is `i` itself. -/
theorem strided_packed (m i : Nat) : i / m * m + i % m = i := Nat.div_add_mod' i m

theorem matrix_sigmoid_ld_packed [One α] [Add α] [Neg α] [Div α] (lm : Libm α) (m n : Nat)
    (src dst : Ptr β) (h : Mem β α) :
    matrix_sigmoid_ld lm m n m src dst h = matrix_sigmoid lm (m * n) src dst h := by
  unfold matrix_sigmoid_ld matrix_sigmoid
  simp only [strided_packed]

theorem matrix_tanh_ld_packed (lm : Libm α) (m n : Nat) (src dst : Ptr β) (h : Mem β α) :
    matrix_tanh_ld lm m n m src dst h = matrix_tanh lm (m * n) src dst h := by
  unfold matrix_tanh_ld matrix_tanh
  simp only [strided_packed]

theorem matrix_complement_ld_packed [One α] [Sub α] (m n : Nat) (src dst : Ptr β)
    (h : Mem β α) :
    matrix_complement_ld m n m src dst h = matrix_complement (m * n) src dst h := by
  unfold matrix_complement_ld matrix_complement
  simp only [strided_packed]

theorem matrix_complement_square_ld_packed [One α] [Sub α] [Mul α] (m n : Nat)
    (src dst : Ptr β) (h : Mem β α) :
    matrix_complement_square_ld m n m src dst h
      = matrix_complement_square (m * n) src dst h := by
  unfold matrix_complement_square_ld matrix_complement_square
  simp only [strided_packed]

theorem matrix_copy_ld_packed (m n : Nat) (src dst : Ptr β) (h : Mem β α) :
    matrix_copy_ld m n m src dst h = matrix_copy (m * n) src dst h := by
  unfold matrix_copy_ld matrix_copy
  simp only [strided_packed]

/-- Element `x` of gate slot `g2` in row `r` of an `N x 4K` buffer is not an element of the
`N x K` tile of another gate slot `g`. -/
theorem slot_disjoint {K g g2 r x : Nat} (buf : Ptr β) (hg : g < 4) (hg2 : g2 < 4)
    (hne : g ≠ g2) (hx : x < K) (row col : Nat) (hcol : col < K) :
    buf.idx (r * (4 * K) + g2 * K + x) ≠ (buf.idx (g * K)).idx (row * (4 * K) + col) := by
  intro he
  rw [Ptr.idx_idx] at he
  have h1 := Ptr.idx_inj he
  have h2 : r * (4 * K) + (g2 * K + x) = row * (4 * K) + (g * K + col) := by omega
  exact hne (fused_inj hg2 hx hg hcol h2).2.1.symm

/-- Distinct loop indices of a strided helper write distinct locations when `m ≤ ld`. -/
theorem strided_dst_ne {m n ld i k : Nat} (dst : Ptr β) (hld : m ≤ ld) (hi : i < m * n)
    (hk : k < m * n) (hne : i ≠ k) :
    dst.idx (i / m * ld + i % m) ≠ dst.idx (k / m * ld + k % m) :=
  fun he => hne (strided_inj hld hk hi (Ptr.idx_inj he))

end StridedHelpers

section BiasLoop

variable {α : Type} [Zero α] [One α] [Add α] [Sub α] [Mul α] [Div α] [Neg α]

/-- The loop of "compute db" is the loop of its iterations. -/
theorem bwd_db_eq_iter (N K j : Nat) (h : Mem Buf α) :
    bwd_db N K j h = forLoop K (bwd_db_iter N K j) h := rfl

/-- Iteration `l` of "compute db" changes only the elements `l`, `l + K`, `l + 2K` and
`l + 3K` of `dbgold`. -/
theorem bwd_db_iter_frame (N K j l : Nat) (h : Mem Buf α) (q : Ptr Buf)
    (hq : ∀ g, g < 4 → q ≠ (base .dbgold).idx (l + g * K)) :
    (bwd_db_iter N K j l h).read q = h.read q := by
  have h0 : (base .dbgold).idx l ≠ q := fun he => hq 0 (by decide) (by rw [← he]; simp)
  have h1 : (base .dbgold).idx (l + K) ≠ q :=
    fun he => hq 1 (by decide) (by rw [← he, Nat.one_mul])
  have h2 : (base .dbgold).idx (l + 2 * K) ≠ q := fun he => hq 2 (by decide) he.symm
  have h3 : (base .dbgold).idx (l + 3 * K) ≠ q := fun he => hq 3 (by decide) he.symm
  unfold bwd_db_iter
  refine forLoop_read_frame N _ q (fun p _ s => ?_) h
  dsimp only
  rw [Mem.read_write_ne _ _ h3, Mem.read_write_ne _ _ h2, Mem.read_write_ne _ _ h1,
    Mem.read_write_ne _ _ h0]

/-- Two iterations of "compute db" write disjoint elements of `dbgold`. -/
theorem db_slots_disjoint {K l l2 g g2 : Nat} (hl : l < K) (hl2 : l2 < K) (hne : l ≠ l2) :
    (base Buf.dbgold).idx (l + g * K) ≠ (base Buf.dbgold).idx (l2 + g2 * K) := by
  intro he
  have h1 := Ptr.idx_inj he
  have h2 : g * K + l = g2 * K + l2 := by omega
  exact hne (two_d_inj hl hl2 h2).2

end BiasLoop

section DefaultBuild

variable {α : Type} [Zero α] [One α] [Add α] [Sub α] [Mul α] [Div α] [Neg α]

/-- A relation between two runs of a downward loop that every iteration carries on. -/
theorem forLoopDown_rel {σ : Type} (n : Nat) (body : Nat → σ → σ) (R : σ → σ → Prop)
    (hstep : ∀ i, i < n → ∀ x x', R x x' → R (body i x) (body i x')) (s s' : σ)
    (h0 : R s s') : R (forLoopDown n body s) (forLoopDown n body s') := by
  induction n generalizing s s' with
  | zero => exact h0
  | succ n ih =>
    exact ih (fun i hi x x' hx => hstep i (Nat.lt_succ_of_lt hi) x x' hx) _ _
      (hstep n (Nat.lt_succ_self n) s s' h0)

/-- The backward step of the default build does not write `drgold`. -/
theorem bwd_step_single_drgold (lm : Libm α) (N C K t j : Nat) (q : Ptr Buf)
    (h : Mem Buf α) (hq : q.buf = .drgold) :
    (bwd_step false lm N C K t j h).read q = h.read q := by
  have hne : ∀ p : Ptr Buf, p.buf ≠ .drgold → q.buf ≠ p.buf ∨ q.off < p.off :=
    fun p hp => Or.inl (fun he => hp (he.symm.trans hq))
  unfold bwd_step
  rw [bwd_db_skip N K j q _ (fun he => Buf.noConfusion (hq.symm.trans he))]
  unfold bwd_gemm bwd_dcsp_update bwd_gates bwd_dcsp bwd_delta concat_xh
  simp only [if_false, Bool.false_eq_true]
  split_ifs
  all_goals
    simp (disch := with_unfolding_all exact hne _ (fun he => Buf.noConfusion he)) only
      [matrix_copy_skip,
      matrix_add_skip, matrix_eltwise_mult_ld_a_skip, matrix_tanh_inverse_skip,
      matrix_eltwise_mult_skip, matrix_complement_square_ld_skip,
      matrix_eltwise_mult_ld_c_skip, matrix_complement_ld_skip, matrix_tanh_skip,
      gemm_skip, gemm_beta0_skip, matrix_copy_ld_skip, convert_nk_nck_skip]

/-- The default build of `lstm_ref` leaves `drgold` as it is. -/
theorem lstm_ref_single_drgold (lm : Libm α) (N C K T : Nat) (forget_bias : α)
    (h : Mem Buf α) (q : Ptr Buf) (hq : q.buf = .drgold) :
    (lstm_ref false lm N C K T forget_bias h).read q = h.read q := by
  have hb : ∀ b : Buf, b ≠ .drgold → q.buf ≠ b := fun b hb he => hb (he.symm.trans hq)
  have key : ∀ (n : Nat) (s : Mem Buf α),
      (forLoopDown n (bwd_step false lm N C K T) s).read q = s.read q := by
    intro n
    induction n with
    | zero => intro s; rfl
    | succ n ih =>
      intro s
      show (forLoopDown n _ (bwd_step false lm N C K T n s)).read q = _
      rw [ih, bwd_step_single_drgold lm N C K T n q s hq]
  unfold lstm_ref
  rw [key]
  exact lstm_fwd_input false lm N C K T forget_bias q h (hb _ nofun) (hb _ nofun)
    (hb _ nofun) (by rw [hq]; rfl) (hb _ nofun) ⟨hb _ nofun, hb _ nofun, hb _ nofun⟩

/-- The setup and the forward loop do not read `drgold`. -/
theorem lstm_fwd_agree_drgold (two_gemms : Bool) (lm : Libm α) (N C K j : Nat)
    (forget_bias : α) (S : Ptr Buf → Prop) (hS : ∀ q, S q → q.buf = .drgold)
    (h h' : Mem Buf α) (hh : AgreeOff S h h') :
    AgreeOff S (lstm_fwd two_gemms lm N C K j forget_bias h)
      (lstm_fwd two_gemms lm N C K j forget_bias h') := by
  have h1 : AgreeOff S (lstm_fuse_weights two_gemms C K (lstm_forget_bias K forget_bias h))
      (lstm_fuse_weights two_gemms C K (lstm_forget_bias K forget_bias h')) := by
    have h0 : AgreeOff S (lstm_forget_bias K forget_bias h)
        (lstm_forget_bias K forget_bias h') := by
      unfold lstm_forget_bias
      refine writeLoop_agree _ _ _ S (fun i hi x x' hx => ?_) h h' hh
      have hq : ¬ S ((base .bfgold).idx i) := fun hq => Buf.noConfusion (hS _ hq)
      simp only [hx _ hq]
    unfold lstm_fuse_weights
    cases two_gemms
    all_goals simp only [if_true, if_false, Bool.false_eq_true]
    all_goals
      repeat' (first | exact h0 | with_reducible apply convert_ck_c4k_agree)
    all_goals
      intro i hq
      exact Buf.noConfusion (hS _ hq)
  unfold lstm_fwd
  dsimp only
  refine forLoop_agree j _ S (fun t _ x x' hx => ?_) _ _ h1
  unfold fwd_step fwd_hidden fwd_cell fwd_nonlin fwd_gemm fwd_bias concat_xh
  cases two_gemms <;> by_cases ht : t = 0
  all_goals simp only [if_true, if_false, Bool.false_eq_true, ht, if_pos, if_neg]
  all_goals
    repeat' (first
      | exact hx
      | with_reducible apply matrix_eltwise_mult_ld_a_agree
      | with_reducible apply matrix_eltwise_mult_ld_ab_agree
      | with_reducible apply matrix_add_agree
      | with_reducible apply matrix_tanh_agree
      | with_reducible apply matrix_sigmoid_ld_agree
      | with_reducible apply matrix_tanh_ld_agree
      | with_reducible apply gemm_agree
      | with_reducible apply gemm_beta0_agree
      | with_reducible apply convert_nk_nck_agree
      | with_reducible apply matrix_copy_bias_agree)
  all_goals
    first
    | (intro i hi hq
       exact Buf.noConfusion (hS _ hq))
    | (intro i hq
       exact Buf.noConfusion (hS _ hq))

/-- The backward step of the default build does not read `drgold`. -/
theorem bwd_step_single_agree_drgold (lm : Libm α) (N C K T j : Nat)
    (S : Ptr Buf → Prop) (hS : ∀ q, S q → q.buf = .drgold)
    (s s' : Mem Buf α) (hh : AgreeOff S s s') :
    AgreeOff S (bwd_step false lm N C K T j s) (bwd_step false lm N C K T j s') := by
  unfold bwd_step
  dsimp only
  have hdb : ∀ x x' : Mem Buf α, AgreeOff S x x' →
      AgreeOff S (bwd_db N K j x) (bwd_db N K j x') := by
    intro x x' hx
    unfold bwd_db
    refine forLoop_agree K _ S (fun l _ x x' hx => ?_) x x' hx
    refine forLoop_agree N _ S (fun p _ y y' hy => ?_) x x' hx
    dsimp only
    repeat' (first | exact hy | with_reducible apply agree_acc)
    all_goals
      intro hq
      exact Buf.noConfusion (hS _ hq)
  apply hdb
  unfold bwd_gemm bwd_dcsp_update bwd_gates bwd_dcsp bwd_delta concat_xh
  simp only [if_false, Bool.false_eq_true]
  split_ifs
  all_goals
    repeat' (first
      | exact hh
      | with_reducible apply gemm_agree
      | with_reducible apply gemm_beta0_agree
      | with_reducible apply matrix_copy_ld_agree
      | with_reducible apply matrix_copy_agree
      | with_reducible apply matrix_add_agree
      | with_reducible apply convert_nk_nck_agree
      | with_reducible apply matrix_eltwise_mult_ld_a_agree
      | with_reducible apply matrix_eltwise_mult_ld_c_agree
      | with_reducible apply matrix_eltwise_mult_agree
      | with_reducible apply matrix_complement_ld_agree
      | with_reducible apply matrix_complement_square_ld_agree
      | with_reducible apply matrix_tanh_inverse_agree
      | with_reducible apply matrix_tanh_agree)
  all_goals
    first
    | (intro i hi hq
       exact Buf.noConfusion (hS _ hq))
    | (intro i hq
       exact Buf.noConfusion (hS _ hq))

/-- Nothing that the default build of `lstm_ref` computes depends on `drgold`: two calls on
memories that differ in `drgold` only return memories that differ in `drgold` only. -/
theorem lstm_ref_single_unread_drgold (lm : Libm α) (N C K T : Nat) (forget_bias : α)
    (h h' : Mem Buf α) (hh : ∀ q : Ptr Buf, q.buf ≠ .drgold → h.read q = h'.read q)
    (q : Ptr Buf) (hq : q.buf ≠ .drgold) :
    (lstm_ref false lm N C K T forget_bias h).read q
      = (lstm_ref false lm N C K T forget_bias h').read q := by
  have hS : ∀ q : Ptr Buf, q.buf = .drgold → q.buf = .drgold := fun _ hq => hq
  have h1 : AgreeOff (fun q : Ptr Buf => q.buf = .drgold)
      (lstm_fwd false lm N C K T forget_bias h) (lstm_fwd false lm N C K T forget_bias h') :=
    lstm_fwd_agree_drgold false lm N C K T forget_bias _ hS h h' hh
  exact forLoopDown_rel T (bwd_step false lm N C K T)
    (fun x x' => AgreeOff (fun q : Ptr Buf => q.buf = .drgold) x x')
    (fun j _ x x' hx => bwd_step_single_agree_drgold lm N C K T j _ hS x x' hx) _ _ h1 q hq

/-- Lines 569-576: what the multiply of the update pass of timestep `j` adds to row `C + i`
of `dwgold` in the default build. -/
theorem bwd_gemm_single_dr (N C K j : Nat) (s : Mem Buf α) (i q : Nat) (hi : i < K)
    (hq : q < 4 * K) :
    (bwd_gemm false N C K j s).read (dr_elem false C K i q)
      = 1 * sumTo N (fun n =>
          s.read (dicfo_elem N K j n q) * s.read (h_prev N K j (i + n * K)))
        + 1 * s.read (dr_elem false C K i q) := by
  have key := bwd_gemm_single_dw N C K j s (C + i) q (by omega) hq
  simp only [show ¬ (C + i < C) by omega, if_false, Nat.add_sub_cancel_left] at key
  have e : dr_elem false C K i q = (base .dwgold).idx (q + (C + i) * (K * 4)) := by
    simp only [dr_elem, Bool.false_eq_true, if_false]
    congr 1
    rw [Nat.mul_comm 4 K, Nat.add_comm]
  rw [e]
  exact key

end DefaultBuild

section ZeroSeed

variable {α : Type} [Field α]

/-- One timestep of `lstm_ref_zero_bwd`, from the timestep above it. -/
theorem lstm_ref_zero_step (tg : Bool) (lm : Libm α) (N C K T : Nat) (forget_bias : α)
    (h : Mem Buf α)
    (hdh : ∀ t e, t < T → e < K * N → h.read ((seq_at .dhgoldt t (K * N)).idx e) = 0)
    (hdcs : ∀ e, e < K * N → h.read ((base .dcsgold).idx e) = 0)
    (t : Nat) (ht : t < T)
    (hnext : t + 1 < T → ∀ e, e < K * N →
      (lstm_dcs tg lm N C K T forget_bias (t + 1) h).read ((base .dcspgold).idx e) = 0
      ∧ (lstm_ref tg lm N C K T forget_bias h).read (dout_prev N K (t + 1) e) = 0) :
    (∀ e, e < K * N →
      (lstm_ref tg lm N C K T forget_bias h).read ((seq_at .deltagoldt t (K * N)).idx e) = 0
      ∧ (lstm_dcs tg lm N C K T forget_bias t h).read ((base .dcspgold).idx e) = 0
      ∧ (lstm_ref tg lm N C K T forget_bias h).read (dout_prev N K t e) = 0)
    ∧ (∀ n c, n < N → c < 4 * K →
      (lstm_ref tg lm N C K T forget_bias h).read (dicfo_elem N K t n c) = 0) := by
  have hdelta : ∀ e, e < K * N →
      (lstm_ref tg lm N C K T forget_bias h).read ((seq_at .deltagoldt t (K * N)).idx e)
        = 0 := by
    intro e he
    rw [lstm_ref_delta tg lm N C K T forget_bias h t e ht he, hdh t e ht he]
    by_cases hl : t = T - 1
    · rw [if_pos hl]
    · rw [if_neg hl, ← dout_prev_succ, (hnext (by omega) e he).2, add_zero]
  have hdc : ∀ e, e < K * N →
      (lstm_dcs tg lm N C K T forget_bias t h).read ((base .dcspgold).idx e) = 0 := by
    intro e he
    rw [lstm_dcs_value tg lm N C K T forget_bias h t e ht he, hdelta e he, hdcs e he]
    by_cases hl : t = T - 1
    · rw [if_pos hl]
      ring
    · rw [if_neg hl, (hnext (by omega) e he).1]
      ring
  have hdicfo : ∀ n c, n < N → c < 4 * K →
      (lstm_ref tg lm N C K T forget_bias h).read (dicfo_elem N K t n c) = 0 := by
    intro n c hn hc
    obtain ⟨hg, hk, e⟩ := slot_split hc
    have hek : n * K + c % K < K * N := tile_index_lt hn hk
    rw [← e]
    generalize c / K = g at hg
    interval_cases g
    · rw [Nat.zero_mul, Nat.zero_add,
        lstm_ref_di tg lm N C K T forget_bias h t n _ ht hn hk, hdc _ hek]
      ring
    · rw [Nat.one_mul, lstm_ref_dc tg lm N C K T forget_bias h t n _ ht hn hk, hdc _ hek]
      ring
    · rw [lstm_ref_df tg lm N C K T forget_bias h t n _ ht hn hk, hdc _ hek]
      ring
    · rw [lstm_ref_do tg lm N C K T forget_bias h t n _ ht hn hk, hdelta _ hek]
      ring
  refine ⟨fun e he => ⟨hdelta e he, hdc e he, ?_⟩, hdicfo⟩
  obtain ⟨hn, hk, e1⟩ := elem_split he
  rw [← e1, lstm_ref_dout tg lm N C K T forget_bias h t _ _ ht hn hk]
  apply Finset.sum_eq_zero
  intro q hq
  rw [hdicfo _ q hn (Finset.mem_range.mp hq), mul_zero]

/-- With zero external gradients (`dhgoldt` and `dcsgold`) every `delta_t`, every
cell-state gradient `dCS_t`, every recurrent delta and every gate gradient `dICFO_t` that
`lstm_ref` computes is zero, in both builds. -/
theorem lstm_ref_zero_bwd (tg : Bool) (lm : Libm α) (N C K T : Nat) (forget_bias : α)
    (h : Mem Buf α)
    (hdh : ∀ t e, t < T → e < K * N → h.read ((seq_at .dhgoldt t (K * N)).idx e) = 0)
    (hdcs : ∀ e, e < K * N → h.read ((base .dcsgold).idx e) = 0)
    (t : Nat) (ht : t < T) :
    (∀ e, e < K * N →
      (lstm_ref tg lm N C K T forget_bias h).read ((seq_at .deltagoldt t (K * N)).idx e) = 0
      ∧ (lstm_dcs tg lm N C K T forget_bias t h).read ((base .dcspgold).idx e) = 0
      ∧ (lstm_ref tg lm N C K T forget_bias h).read (dout_prev N K t e) = 0)
    ∧ (∀ n c, n < N → c < 4 * K →
      (lstm_ref tg lm N C K T forget_bias h).read (dicfo_elem N K t n c) = 0) := by
  have key : ∀ d t, t + d + 1 = T →
      (∀ e, e < K * N →
        (lstm_ref tg lm N C K T forget_bias h).read ((seq_at .deltagoldt t (K * N)).idx e)
          = 0
        ∧ (lstm_dcs tg lm N C K T forget_bias t h).read ((base .dcspgold).idx e) = 0
        ∧ (lstm_ref tg lm N C K T forget_bias h).read (dout_prev N K t e) = 0)
      ∧ (∀ n c, n < N → c < 4 * K →
        (lstm_ref tg lm N C K T forget_bias h).read (dicfo_elem N K t n c) = 0) := by
    intro d
    induction d with
    | zero =>
      intro t hT
      exact lstm_ref_zero_step tg lm N C K T forget_bias h hdh hdcs t (by omega)
        (fun hlt => absurd hlt (by omega))
    | succ d ih =>
      intro t hT
      exact lstm_ref_zero_step tg lm N C K T forget_bias h hdh hdcs t (by omega)
        (fun _ e he => ⟨((ih (t + 1) (by omega)).1 e he).2.1,
          ((ih (t + 1) (by omega)).1 e he).2.2⟩)
  exact key (T - 1 - t) t (by omega)

/-- With zero external gradients `lstm_ref` returns zero boundary gradients `dH_prev` and
`dCS_prev` and leaves `dW`, `dR` and `db` as they were at the call, in both builds. -/
theorem lstm_ref_zero_outputs (tg : Bool) (lm : Libm α) (N C K T : Nat) (hT : 0 < T)
    (forget_bias : α) (h : Mem Buf α)
    (hdh : ∀ t e, t < T → e < K * N → h.read ((seq_at .dhgoldt t (K * N)).idx e) = 0)
    (hdcs : ∀ e, e < K * N → h.read ((base .dcsgold).idx e) = 0) :
    (∀ e, e < K * N →
      (lstm_ref tg lm N C K T forget_bias h).read ((base .dhpgold).idx e) = 0
      ∧ (lstm_ref tg lm N C K T forget_bias h).read ((base .dcspgold).idx e) = 0)
    ∧ (∀ c q, c < C → q < 4 * K →
      (lstm_ref tg lm N C K T forget_bias h).read ((base .dwgold).idx (c * (4 * K) + q))
        = h.read ((base .dwgold).idx (c * (4 * K) + q)))
    ∧ (∀ i q, i < K → q < 4 * K →
      (lstm_ref tg lm N C K T forget_bias h).read (dr_elem tg C K i q)
        = h.read (dr_elem tg C K i q))
    ∧ (∀ g k, g < 4 → k < K →
      (lstm_ref tg lm N C K T forget_bias h).read ((base .dbgold).idx (g * K + k))
        = h.read ((base .dbgold).idx (g * K + k))) := by
  have z := lstm_ref_zero_bwd tg lm N C K T forget_bias h hdh hdcs
  refine ⟨fun e he => ⟨?_, ?_⟩, fun c q hc hq => ?_, fun i q hi hq => ?_, fun g k hg hk => ?_⟩
  · have := ((z 0 hT).1 e he).2.2
    rw [dout_prev_eq, if_pos rfl] at this
    exact this
  · rw [lstm_ref_dcsp tg lm N C K T forget_bias h e hT he, ((z 0 hT).1 e he).2.1, mul_zero]
  · rw [lstm_ref_dw tg lm N C K T forget_bias h c q hc hq]
    refine add_right_eq_self.mpr (Finset.sum_eq_zero (fun t ht => Finset.sum_eq_zero
      (fun n hn => ?_)))
    rw [(z t (Finset.mem_range.mp ht)).2 n q (Finset.mem_range.mp hn) hq, zero_mul]
  · rw [lstm_ref_dr tg lm N C K T forget_bias h i q hi hq]
    refine add_right_eq_self.mpr (Finset.sum_eq_zero (fun t ht => Finset.sum_eq_zero
      (fun n hn => ?_)))
    rw [(z t (Finset.mem_range.mp ht)).2 n q (Finset.mem_range.mp hn) hq, zero_mul]
  · rw [lstm_ref_db tg lm N C K T forget_bias h g k hg hk]
    refine add_right_eq_self.mpr (Finset.sum_eq_zero (fun t ht => Finset.sum_eq_zero
      (fun n hn => ?_)))
    exact (z t (Finset.mem_range.mp ht)).2 n _ (Finset.mem_range.mp hn) (slot_lt hg hk)

/-- With zero external gradients the default build returns a zero input gradient, and the
`TWO_GEMMS` build returns what `dxgoldt` held at the call. -/
theorem lstm_ref_zero_dx (lm : Libm α) (N C K T : Nat) (forget_bias : α) (h : Mem Buf α)
    (hdh : ∀ t e, t < T → e < K * N → h.read ((seq_at .dhgoldt t (K * N)).idx e) = 0)
    (hdcs : ∀ e, e < K * N → h.read ((base .dcsgold).idx e) = 0)
    (t n c : Nat) (ht : t < T) (hn : n < N) (hc : c < C) :
    (lstm_ref false lm N C K T forget_bias h).read
        ((seq_at .dxgoldt t (N * C)).idx (n * C + c)) = 0
    ∧ (lstm_ref true lm N C K T forget_bias h).read
        ((seq_at .dxgoldt t (N * C)).idx (n * C + c))
      = h.read ((seq_at .dxgoldt t (N * C)).idx (n * C + c)) := by
  constructor
  · rw [lstm_ref_dx_single lm N C K T forget_bias h t n c ht hn hc]
    refine Finset.sum_eq_zero (fun q hq => ?_)
    rw [(lstm_ref_zero_bwd false lm N C K T forget_bias h hdh hdcs t ht).2 n q hn
      (Finset.mem_range.mp hq), mul_zero]
  · rw [lstm_ref_dx_two_prior lm N C K T forget_bias h t n c ht hn hc]
    refine add_left_eq_self.mpr (Finset.sum_eq_zero (fun q hq => ?_))
    rw [(lstm_ref_zero_bwd true lm N C K T forget_bias h hdh hdcs t ht).2 n q hn
      (Finset.mem_range.mp hq), mul_zero]

end ZeroSeed

section Chaining

variable {α : Type} [Zero α] [One α] [Add α] [Sub α] [Mul α] [Div α] [Neg α]

/-- The value just before the nonlinearity in the default build, whatever the arithmetic
is: the multiply over the concatenated row, added to the bias. -/
theorem lstm_pre_raw_single (lm : Libm α) (N C K t : Nat) (forget_bias : α)
    (h : Mem Buf α) (g n x : Nat) (hg : g < 4) (hn : n < N) (hx : x < K) :
    (lstm_pre false lm N C K t forget_bias h).read (icfo_elem N K t n (g * K + x))
      = 1 * sumTo (C + K) (fun l =>
          (if l < C then h.read ((base (gate_w g)).idx (l * K + x))
            else h.read ((base (gate_r g)).idx ((l - C) * K + x)))
          * (if l < C then h.read ((seq_at .xgoldt t (N * C)).idx (l + n * C))
             else (lstm_fwd false lm N C K t forget_bias h).read
               (h_prev N K t (l - C + n * K))))
        + 1 * (if g = 2 then h.read ((base .bfgold).idx x) + forget_bias
               else h.read ((base (gate_b g)).idx x)) := by
  have hsk : ∀ q : Ptr Buf, q.buf ≠ .icfogoldt →
      (fwd_bias N K t (lstm_fwd false lm N C K t forget_bias h)).read q
        = (lstm_fwd false lm N C K t forget_bias h).read q :=
    fun q hq => fwd_bias_skip N K t q _ (Or.inl hq)
  unfold lstm_pre
  rw [fwd_gemm_single_value N C K t _ n (g * K + x) hn (slot_lt hg hx),
    fwd_bias_value N K t g n x hg hn hx,
    lstm_fwd_bias false lm N C K t forget_bias h g x hg hx]
  congr 2
  apply sumTo_congr
  intro l hl
  by_cases hlC : l < C
  · simp only [if_pos hlC]
    simp (disch := with_unfolding_all exact fun he => Buf.noConfusion he) only [hsk]
    rw [lstm_fwd_wr8_w lm N C K t forget_bias h g x l hg hx hlC, lstm_fwd_x]
  · simp only [if_neg hlC]
    rw [hsk _ (h_prev_buf_ne _ _ _ _)]
    simp (disch := with_unfolding_all exact fun he => Buf.noConfusion he) only [hsk]
    have hl2 : l - C < K := by omega
    have key := lstm_fwd_wr8_r lm N C K t forget_bias h g x (l - C) hg hx hl2
    rw [show C + (l - C) = l by omega] at key
    rw [key]

/-- The value just before the nonlinearity in the `TWO_GEMMS` build, whatever the
arithmetic is: the two multiplies, added to the bias. -/
theorem lstm_pre_raw_two (lm : Libm α) (N C K t : Nat) (forget_bias : α)
    (h : Mem Buf α) (g n x : Nat) (hg : g < 4) (hn : n < N) (hx : x < K) :
    (lstm_pre true lm N C K t forget_bias h).read (icfo_elem N K t n (g * K + x))
      = 1 * sumTo K (fun l =>
          h.read ((base (gate_r g)).idx (l * K + x))
            * (lstm_fwd true lm N C K t forget_bias h).read (h_prev N K t (l + n * K)))
        + 1 * (1 * sumTo C (fun l =>
            h.read ((base (gate_w g)).idx (l * K + x))
              * h.read ((seq_at .xgoldt t (N * C)).idx (l + n * C)))
          + 1 * (if g = 2 then h.read ((base .bfgold).idx x) + forget_bias
                 else h.read ((base (gate_b g)).idx x))) := by
  have hsk : ∀ q : Ptr Buf, q.buf ≠ .icfogoldt →
      (fwd_bias N K t (lstm_fwd true lm N C K t forget_bias h)).read q
        = (lstm_fwd true lm N C K t forget_bias h).read q :=
    fun q hq => fwd_bias_skip N K t q _ (Or.inl hq)
  unfold lstm_pre
  rw [fwd_gemm_two_value N C K t _ n (g * K + x) hn (slot_lt hg hx),
    fwd_bias_value N K t g n x hg hn hx,
    lstm_fwd_bias true lm N C K t forget_bias h g x hg hx]
  congr 2
  · apply sumTo_congr
    intro l hl
    rw [hsk _ (h_prev_buf_ne _ _ _ _)]
    simp (disch := with_unfolding_all exact fun he => Buf.noConfusion he) only [hsk]
    rw [lstm_fwd_r4 lm N C K t forget_bias h g x l hg hx hl]
  · congr 2
    apply sumTo_congr
    intro l hl
    simp (disch := with_unfolding_all exact fun he => Buf.noConfusion he) only [hsk]
    rw [lstm_fwd_w4 lm N C K t forget_bias h g x l hg hx hl, lstm_fwd_x]

/-- Two timesteps, of two calls of the same build, that read the same weights, biases,
input and previous hidden state compute the same values before the nonlinearity. -/
theorem lstm_pre_congr (tg : Bool) (lm : Libm α) (N C K t t' : Nat) (forget_bias : α)
    (h h' : Mem Buf α)
    (hw : ∀ g i, h.read ((base (gate_w g)).idx i) = h'.read ((base (gate_w g)).idx i))
    (hr : ∀ g i, h.read ((base (gate_r g)).idx i) = h'.read ((base (gate_r g)).idx i))
    (hb : ∀ g i, h.read ((base (gate_b g)).idx i) = h'.read ((base (gate_b g)).idx i))
    (hx : ∀ i, i < N * C →
      h.read ((seq_at .xgoldt t (N * C)).idx i) = h'.read ((seq_at .xgoldt t' (N * C)).idx i))
    (hp : ∀ e, e < K * N →
      (lstm_fwd tg lm N C K t forget_bias h).read (h_prev N K t e)
        = (lstm_fwd tg lm N C K t' forget_bias h').read (h_prev N K t' e))
    (g n x : Nat) (hg : g < 4) (hn : n < N) (hxK : x < K) :
    (lstm_pre tg lm N C K t forget_bias h).read (icfo_elem N K t n (g * K + x))
      = (lstm_pre tg lm N C K t' forget_bias h').read (icfo_elem N K t' n (g * K + x)) := by
  have hbf : h.read ((base .bfgold).idx x) = h'.read ((base .bfgold).idx x) := hb 2 x
  cases tg
  · rw [lstm_pre_raw_single lm N C K t forget_bias h g n x hg hn hxK,
      lstm_pre_raw_single lm N C K t' forget_bias h' g n x hg hn hxK, hbf, hb g x]
    congr 2
    apply sumTo_congr
    intro l hl
    by_cases hlC : l < C
    · simp only [if_pos hlC]
      rw [hw g, hx (l + n * C) (by
        have := tile_index_lt (m := C) hn hlC
        rw [Nat.mul_comm N C]
        omega)]
    · simp only [if_neg hlC]
      rw [hr g, hp (l - C + n * K) (by
        have := tile_index_lt (m := K) hn (show l - C < K by omega)
        omega)]
  · rw [lstm_pre_raw_two lm N C K t forget_bias h g n x hg hn hxK,
      lstm_pre_raw_two lm N C K t' forget_bias h' g n x hg hn hxK, hbf, hb g x]
    congr 2
    · apply sumTo_congr
      intro l hl
      rw [hr g, hp (l + n * K) (by
        have := tile_index_lt (m := K) hn hl
        omega)]
    · congr 2
      apply sumTo_congr
      intro l hl
      rw [hw g, hx (l + n * C) (by
        have := tile_index_lt (m := C) hn hl
        rw [Nat.mul_comm N C]
        omega)]

/-- Timestep `t + d` of a call over `T` timesteps against timestep `t` of a call over `T'`
timesteps of the same build: when the two calls have the same weights and biases, the
second has the inputs of the first shifted by `d` timesteps (for the first `m` timesteps)
and starts from the states the first holds before timestep `d`, then the second computes
at its first `m` timesteps what the first computes `d` timesteps later. -/
theorem lstm_ref_shift (tg : Bool) (lm : Libm α) (N C K T T' d m : Nat) (forget_bias : α)
    (h h' : Mem Buf α) (hm : m ≤ T') (hmd : m + d ≤ T)
    (hw : ∀ g i, h.read ((base (gate_w g)).idx i) = h'.read ((base (gate_w g)).idx i))
    (hr : ∀ g i, h.read ((base (gate_r g)).idx i) = h'.read ((base (gate_r g)).idx i))
    (hb : ∀ g i, h.read ((base (gate_b g)).idx i) = h'.read ((base (gate_b g)).idx i))
    (hx : ∀ t i, t < m → i < N * C →
      h.read ((seq_at .xgoldt (t + d) (N * C)).idx i)
        = h'.read ((seq_at .xgoldt t (N * C)).idx i))
    (hcs : ∀ e, e < K * N →
      (if d = 0 then h.read ((base .cspgold).idx e)
        else (lstm_ref tg lm N C K T forget_bias h).read
          ((seq_at .csgoldt (d - 1) (K * N)).idx e))
      = h'.read ((base .cspgold).idx e))
    (hh : ∀ e, e < K * N →
      (if d = 0 then h.read ((base .hpgold).idx e)
        else (lstm_ref tg lm N C K T forget_bias h).read
          ((seq_at .hgoldt (d - 1) (K * N)).idx e))
      = h'.read ((base .hpgold).idx e))
    (t : Nat) (ht : t < m) :
    (∀ n c, n < N → c < 4 * K →
      (lstm_ref tg lm N C K T forget_bias h).read (icfo_elem N K (t + d) n c)
        = (lstm_ref tg lm N C K T' forget_bias h').read (icfo_elem N K t n c))
    ∧ (∀ e, e < K * N →
      (lstm_ref tg lm N C K T forget_bias h).read ((seq_at .csgoldt (t + d) (K * N)).idx e)
          = (lstm_ref tg lm N C K T' forget_bias h').read ((seq_at .csgoldt t (K * N)).idx e)
      ∧ (lstm_ref tg lm N C K T forget_bias h).read ((seq_at .hgoldt (t + d) (K * N)).idx e)
          = (lstm_ref tg lm N C K T' forget_bias h').read
              ((seq_at .hgoldt t (K * N)).idx e)) := by
  induction t using Nat.strong_induction_on with
  | _ t ih =>
    have htT : t + d < T := by omega
    have htT' : t < T' := by omega
    have hprev_h : ∀ e, e < K * N →
        (if t + d = 0 then h.read ((base .hpgold).idx e)
          else (lstm_ref tg lm N C K T forget_bias h).read
            ((seq_at .hgoldt (t + d - 1) (K * N)).idx e))
        = (if t = 0 then h'.read ((base .hpgold).idx e)
          else (lstm_ref tg lm N C K T' forget_bias h').read
            ((seq_at .hgoldt (t - 1) (K * N)).idx e)) := by
      intro e he
      by_cases h0 : t = 0
      · subst h0
        rw [if_pos rfl, Nat.zero_add]
        exact hh e he
      · rw [if_neg h0, if_neg (by omega), show t + d - 1 = t - 1 + d by omega]
        exact ((ih (t - 1) (by omega) (by omega)).2 e he).2
    have hprev_cs : ∀ e, e < K * N →
        (if t + d = 0 then h.read ((base .cspgold).idx e)
          else (lstm_ref tg lm N C K T forget_bias h).read
            ((seq_at .csgoldt (t + d - 1) (K * N)).idx e))
        = (if t = 0 then h'.read ((base .cspgold).idx e)
          else (lstm_ref tg lm N C K T' forget_bias h').read
            ((seq_at .csgoldt (t - 1) (K * N)).idx e)) := by
      intro e he
      by_cases h0 : t = 0
      · subst h0
        rw [if_pos rfl, Nat.zero_add]
        exact hcs e he
      · rw [if_neg h0, if_neg (by omega), show t + d - 1 = t - 1 + d by omega]
        exact ((ih (t - 1) (by omega) (by omega)).2 e he).1
    have hpost : ∀ n c, n < N → c < 4 * K →
        (lstm_ref tg lm N C K T forget_bias h).read (icfo_elem N K (t + d) n c)
          = (lstm_ref tg lm N C K T' forget_bias h').read (icfo_elem N K t n c) := by
      intro n c hn hc
      obtain ⟨hg, hxK, e⟩ := slot_split hc
      rw [← e, lstm_ref_icfo tg lm N C K T forget_bias h (t + d) _ n _ htT hg hn hxK,
        lstm_ref_icfo tg lm N C K T' forget_bias h' t _ n _ htT' hg hn hxK,
        lstm_pre_congr tg lm N C K (t + d) t forget_bias h h' hw hr hb (hx t · ht)
          (fun e he => by
            rw [lstm_ref_h_prev tg lm N C K T forget_bias h (t + d) e htT he,
              lstm_ref_h_prev tg lm N C K T' forget_bias h' t e htT' he]
            exact hprev_h e he) _ n _ hg hn hxK]
    have hcell : ∀ e, e < K * N →
        (lstm_ref tg lm N C K T forget_bias h).read ((seq_at .csgoldt (t + d) (K * N)).idx e)
          = (lstm_ref tg lm N C K T' forget_bias h').read
              ((seq_at .csgoldt t (K * N)).idx e) := by
      intro e he
      obtain ⟨hn, hxK⟩ := div_mod_lt he
      rw [lstm_ref_cell tg lm N C K T forget_bias h (t + d) e htT he,
        lstm_ref_cell tg lm N C K T' forget_bias h' t e htT' he,
        hpost _ _ hn (by omega), hpost _ _ hn (by omega), hpost _ _ hn (by omega),
        hprev_cs e he]
    refine ⟨hpost, fun e he => ⟨hcell e he, ?_⟩⟩
    obtain ⟨hn, hxK⟩ := div_mod_lt he
    rw [lstm_ref_hidden tg lm N C K T forget_bias h (t + d) e htT he,
      lstm_ref_hidden tg lm N C K T' forget_bias h' t e htT' he, hpost _ _ hn (by omega),
      hcell e he]

end Chaining

section Dryrun

/-- With a tensor unbound the dispatch returns `LIBXSMM_DNN_ERR_DATA_NOT_BOUND`. -/
theorem dryrun_not_bound
    (tpl : dryrun_variant → libxsmm_dnn_layer → libxsmm_dnn_err_t → libxsmm_dnn_err_t)
    (handle : libxsmm_dnn_layer)
    (hb : handle.reg_input = 0 ∨ handle.reg_output = 0 ∨ handle.reg_filter = 0) :
    libxsmm_dnn_perform_fwd_dryrun_direct_custom_custom tpl handle
      = .LIBXSMM_DNN_ERR_DATA_NOT_BOUND := by
  unfold libxsmm_dnn_perform_fwd_dryrun_direct_custom_custom
  dsimp only
  rw [if_pos hb]

/-- With the tensors bound and a kernel, a datatype combination that is none of the four
of the dispatch is answered with `LIBXSMM_DNN_ERR_UNSUPPORTED_DATATYPE`. -/
theorem dryrun_unsupported
    (tpl : dryrun_variant → libxsmm_dnn_layer → libxsmm_dnn_err_t → libxsmm_dnn_err_t)
    (handle : libxsmm_dnn_layer) (hi : handle.reg_input ≠ 0) (ho : handle.reg_output ≠ 0)
    (hf : handle.reg_filter ≠ 0) (hk : handle.code_fwd_sconv ≠ 0)
    (h1 : ¬ (handle.datatype = .LIBXSMM_DNN_DATATYPE_F32
      ∧ handle.datatype_itm = .LIBXSMM_DNN_DATATYPE_F32))
    (h2 : ¬ (handle.datatype = .LIBXSMM_DNN_DATATYPE_I16
      ∧ handle.datatype_itm = .LIBXSMM_DNN_DATATYPE_I32))
    (h3 : ¬ (handle.datatype = .LIBXSMM_DNN_DATATYPE_I8
      ∧ handle.datatype_itm = .LIBXSMM_DNN_DATATYPE_I16 ∧ activation_unsigned handle = true))
    (h4 : ¬ (handle.datatype = .LIBXSMM_DNN_DATATYPE_I8
      ∧ handle.datatype_itm = .LIBXSMM_DNN_DATATYPE_I32
      ∧ activation_unsigned handle = true)) :
    libxsmm_dnn_perform_fwd_dryrun_direct_custom_custom tpl handle
      = .LIBXSMM_DNN_ERR_UNSUPPORTED_DATATYPE := by
  unfold libxsmm_dnn_perform_fwd_dryrun_direct_custom_custom
  dsimp only
  rw [if_neg (by rintro (h | h | h) <;> contradiction), if_neg hk, if_neg h1, if_neg h2,
    if_neg h3, if_neg h4]

end Dryrun

/-! ## Index bounds: what lies beyond the end of a buffer -/

section Simulation

variable {β α : Type} [DecidableEq β]

/-- A write outside `S` of equal values keeps the relation. -/
theorem Sim.write_outside {S : Ptr β → Prop} {h0 x x' : Mem β α} (hh : Sim S h0 x x') (p : Ptr β)
    (hp : ¬ S p) {v v' : α} (hv : v = v') : Sim S h0 (x.write p v) (x'.write p v') :=
  ⟨hh.1.write_same p hv, fun q hq => by
    rw [Mem.read_write_ne _ _ (fun he => hp (by rw [he]; exact hq))]
    exact hh.2 q hq⟩

/-- A loop whose iterations keep the relation keeps it. -/
theorem forLoop_sim (n : Nat) (body : Nat → Mem β α → Mem β α) (S : Ptr β → Prop)
    (h0 : Mem β α)
    (hb : ∀ i, i < n → ∀ x x', Sim S h0 x x' → Sim S h0 (body i x) (body i x'))
    (x x' : Mem β α) (hh : Sim S h0 x x') :
    Sim S h0 (forLoop n body x) (forLoop n body x') :=
  forLoop_rel n body body (fun _ x x' => Sim S h0 x x') x x' hh hb

/-- A loop of single writes outside `S` whose values depend on locations outside `S`
only. -/
theorem writeLoop_sim (n : Nat) (d : Nat → Ptr β) (g : Nat → Mem β α → α)
    (S : Ptr β → Prop) (h0 : Mem β α) (hd : ∀ i, i < n → ¬ S (d i))
    (hg : ∀ i, i < n → ∀ x x', AgreeOff S x x' → g i x = g i x')
    (x x' : Mem β α) (hh : Sim S h0 x x') :
    Sim S h0 (forLoop n (fun i h => h.write (d i) (g i h)) x)
      (forLoop n (fun i h => h.write (d i) (g i h)) x') :=
  forLoop_sim n _ S h0 (fun i hi x x' hx => hx.write_outside (d i) (hd i hi) (hg i hi x x' hx.1))
    x x' hh

theorem matrix_add_sim [Add α] (S : Ptr β → Prop) (h0 : Mem β α) (size : Nat)
    (a b c : Ptr β) (x x' : Mem β α) (hh : Sim S h0 x x')
    (ha : ∀ i, i < size → ¬ S (a.idx i)) (hb : ∀ i, i < size → ¬ S (b.idx i))
    (hc : ∀ i, i < size → ¬ S (c.idx i)) :
    Sim S h0 (matrix_add size a b c x) (matrix_add size a b c x') :=
  writeLoop_sim size (fun i => c.idx i) _ S h0 hc
    (fun i hi x x' hx => by simp only [hx _ (ha i hi), hx _ (hb i hi)]) x x' hh

theorem matrix_eltwise_mult_sim [Mul α] (S : Ptr β → Prop) (h0 : Mem β α) (size : Nat)
    (a b c : Ptr β) (x x' : Mem β α) (hh : Sim S h0 x x')
    (ha : ∀ i, i < size → ¬ S (a.idx i)) (hb : ∀ i, i < size → ¬ S (b.idx i))
    (hc : ∀ i, i < size → ¬ S (c.idx i)) :
    Sim S h0 (matrix_eltwise_mult size a b c x) (matrix_eltwise_mult size a b c x') :=
  writeLoop_sim size (fun i => c.idx i) _ S h0 hc
    (fun i hi x x' hx => by simp only [hx _ (ha i hi), hx _ (hb i hi)]) x x' hh

theorem matrix_eltwise_mult_ld_a_sim [Mul α] (S : Ptr β → Prop) (h0 : Mem β α)
    (m n ld : Nat) (a b c : Ptr β) (x x' : Mem β α) (hh : Sim S h0 x x')
    (ha : ∀ i, i < m * n → ¬ S (a.idx (i / m * ld + i % m)))
    (hb : ∀ i, i < m * n → ¬ S (b.idx i)) (hc : ∀ i, i < m * n → ¬ S (c.idx i)) :
    Sim S h0 (matrix_eltwise_mult_ld_a m n ld a b c x)
      (matrix_eltwise_mult_ld_a m n ld a b c x') :=
  writeLoop_sim (m * n) (fun i => c.idx i) _ S h0 hc
    (fun i hi x x' hx => by simp only [hx _ (ha i hi), hx _ (hb i hi)]) x x' hh

theorem matrix_eltwise_mult_ld_ab_sim [Mul α] (S : Ptr β → Prop) (h0 : Mem β α)
    (m n ld : Nat) (a b c : Ptr β) (x x' : Mem β α) (hh : Sim S h0 x x')
    (ha : ∀ i, i < m * n → ¬ S (a.idx (i / m * ld + i % m)))
    (hb : ∀ i, i < m * n → ¬ S (b.idx (i / m * ld + i % m)))
    (hc : ∀ i, i < m * n → ¬ S (c.idx i)) :
    Sim S h0 (matrix_eltwise_mult_ld_ab m n ld a b c x)
      (matrix_eltwise_mult_ld_ab m n ld a b c x') :=
  writeLoop_sim (m * n) (fun i => c.idx i) _ S h0 hc
    (fun i hi x x' hx => by simp only [hx _ (ha i hi), hx _ (hb i hi)]) x x' hh

theorem matrix_eltwise_mult_ld_c_sim [Mul α] (S : Ptr β → Prop) (h0 : Mem β α)
    (m n ld : Nat) (a b c : Ptr β) (x x' : Mem β α) (hh : Sim S h0 x x')
    (ha : ∀ i, i < m * n → ¬ S (a.idx i)) (hb : ∀ i, i < m * n → ¬ S (b.idx i))
    (hc : ∀ i, i < m * n → ¬ S (c.idx (i / m * ld + i % m))) :
    Sim S h0 (matrix_eltwise_mult_ld_c m n ld a b c x)
      (matrix_eltwise_mult_ld_c m n ld a b c x') :=
  writeLoop_sim (m * n) (fun i => c.idx (i / m * ld + i % m)) _ S h0 hc
    (fun i hi x x' hx => by simp only [hx _ (ha i hi), hx _ (hb i hi)]) x x' hh

theorem matrix_sigmoid_ld_sim [One α] [Add α] [Neg α] [Div α] (S : Ptr β → Prop)
    (h0 : Mem β α) (lm : Libm α) (m n ld : Nat) (src dst : Ptr β) (x x' : Mem β α)
    (hh : Sim S h0 x x') (hs : ∀ i, i < m * n → ¬ S (src.idx (i / m * ld + i % m)))
    (hd : ∀ i, i < m * n → ¬ S (dst.idx (i / m * ld + i % m))) :
    Sim S h0 (matrix_sigmoid_ld lm m n ld src dst x) (matrix_sigmoid_ld lm m n ld src dst x') :=
  writeLoop_sim (m * n) (fun i => dst.idx (i / m * ld + i % m)) _ S h0 hd
    (fun i hi x x' hx => by simp only [hx _ (hs i hi)]) x x' hh

theorem matrix_tanh_sim (S : Ptr β → Prop) (h0 : Mem β α) (lm : Libm α) (size : Nat)
    (src dst : Ptr β) (x x' : Mem β α) (hh : Sim S h0 x x')
    (hs : ∀ i, i < size → ¬ S (src.idx i)) (hd : ∀ i, i < size → ¬ S (dst.idx i)) :
    Sim S h0 (matrix_tanh lm size src dst x) (matrix_tanh lm size src dst x') :=
  writeLoop_sim size (fun i => dst.idx i) _ S h0 hd
    (fun i hi x x' hx => by simp only [hx _ (hs i hi)]) x x' hh

theorem matrix_tanh_ld_sim (S : Ptr β → Prop) (h0 : Mem β α) (lm : Libm α) (m n ld : Nat)
    (src dst : Ptr β) (x x' : Mem β α) (hh : Sim S h0 x x')
    (hs : ∀ i, i < m * n → ¬ S (src.idx (i / m * ld + i % m)))
    (hd : ∀ i, i < m * n → ¬ S (dst.idx (i / m * ld + i % m))) :
    Sim S h0 (matrix_tanh_ld lm m n ld src dst x) (matrix_tanh_ld lm m n ld src dst x') :=
  writeLoop_sim (m * n) (fun i => dst.idx (i / m * ld + i % m)) _ S h0 hd
    (fun i hi x x' hx => by simp only [hx _ (hs i hi)]) x x' hh

theorem matrix_tanh_inverse_sim [One α] [Sub α] [Mul α] (S : Ptr β → Prop) (h0 : Mem β α)
    (lm : Libm α) (size : Nat) (src dst : Ptr β) (x x' : Mem β α) (hh : Sim S h0 x x')
    (hs : ∀ i, i < size → ¬ S (src.idx i)) (hd : ∀ i, i < size → ¬ S (dst.idx i)) :
    Sim S h0 (matrix_tanh_inverse lm size src dst x) (matrix_tanh_inverse lm size src dst x') :=
  writeLoop_sim size (fun i => dst.idx i) _ S h0 hd
    (fun i hi x x' hx => by simp only [hx _ (hs i hi)]) x x' hh

theorem matrix_copy_sim (S : Ptr β → Prop) (h0 : Mem β α) (size : Nat)
    (src dst : Ptr β) (x x' : Mem β α) (hh : Sim S h0 x x')
    (hs : ∀ i, i < size → ¬ S (src.idx i)) (hd : ∀ i, i < size → ¬ S (dst.idx i)) :
    Sim S h0 (matrix_copy size src dst x) (matrix_copy size src dst x') :=
  writeLoop_sim size (fun i => dst.idx i) _ S h0 hd
    (fun i hi x x' hx => by simp only [hx _ (hs i hi)]) x x' hh

theorem matrix_copy_ld_sim (S : Ptr β → Prop) (h0 : Mem β α) (m n ld : Nat)
    (src dst : Ptr β) (x x' : Mem β α) (hh : Sim S h0 x x')
    (hs : ∀ i, i < m * n → ¬ S (src.idx (i / m * ld + i % m)))
    (hd : ∀ i, i < m * n → ¬ S (dst.idx i)) :
    Sim S h0 (matrix_copy_ld m n ld src dst x) (matrix_copy_ld m n ld src dst x') :=
  writeLoop_sim (m * n) (fun i => dst.idx i) _ S h0 hd
    (fun i hi x x' hx => by simp only [hx _ (hs i hi)]) x x' hh

theorem matrix_copy_bias_sim (S : Ptr β → Prop) (h0 : Mem β α) (m n ld : Nat)
    (src dst : Ptr β) (x x' : Mem β α) (hh : Sim S h0 x x')
    (hs : ∀ i, i < m * n → ¬ S (src.idx (i % m)))
    (hd : ∀ i, i < m * n → ¬ S (dst.idx (i / m * ld + i % m))) :
    Sim S h0 (matrix_copy_bias m n ld src dst x) (matrix_copy_bias m n ld src dst x') :=
  writeLoop_sim (m * n) (fun i => dst.idx (i / m * ld + i % m)) _ S h0 hd
    (fun i hi x x' hx => by simp only [hx _ (hs i hi)]) x x' hh

theorem matrix_complement_ld_sim [One α] [Sub α] (S : Ptr β → Prop) (h0 : Mem β α)
    (m n ld : Nat) (src dst : Ptr β) (x x' : Mem β α) (hh : Sim S h0 x x')
    (hs : ∀ i, i < m * n → ¬ S (src.idx (i / m * ld + i % m)))
    (hd : ∀ i, i < m * n → ¬ S (dst.idx i)) :
    Sim S h0 (matrix_complement_ld m n ld src dst x) (matrix_complement_ld m n ld src dst x') :=
  writeLoop_sim (m * n) (fun i => dst.idx i) _ S h0 hd
    (fun i hi x x' hx => by simp only [hx _ (hs i hi)]) x x' hh

theorem matrix_complement_square_ld_sim [One α] [Sub α] [Mul α] (S : Ptr β → Prop)
    (h0 : Mem β α) (m n ld : Nat) (src dst : Ptr β) (x x' : Mem β α) (hh : Sim S h0 x x')
    (hs : ∀ i, i < m * n → ¬ S (src.idx (i / m * ld + i % m)))
    (hd : ∀ i, i < m * n → ¬ S (dst.idx i)) :
    Sim S h0 (matrix_complement_square_ld m n ld src dst x)
      (matrix_complement_square_ld m n ld src dst x') :=
  writeLoop_sim (m * n) (fun i => dst.idx i) _ S h0 hd
    (fun i hi x x' hx => by simp only [hx _ (hs i hi)]) x x' hh

theorem convert_ck_c4k_sim (S : Ptr β → Prop) (h0 : Mem β α) (C K : Nat)
    (src dst : Ptr β) (x x' : Mem β α) (hh : Sim S h0 x x')
    (hs : ∀ y i, y < C → i < K → ¬ S (src.idx (y * K + i)))
    (hd : ∀ y i, y < C → i < K → ¬ S (dst.idx (y * 4 * K + i))) :
    Sim S h0 (convert_ck_c4k C K src dst x) (convert_ck_c4k C K src dst x') := by
  unfold convert_ck_c4k
  refine forLoop_sim C _ S h0 (fun y hy x x' hx => ?_) x x' hh
  exact writeLoop_sim K _ _ S h0 (fun i hi => hd y i hy hi)
    (fun i hi x x' hx => by simp only [hx _ (hs y i hy hi)]) x x' hx

theorem convert_nk_nck_sim (S : Ptr β → Prop) (h0 : Mem β α) (N K CK : Nat)
    (src dst : Ptr β) (x x' : Mem β α) (hh : Sim S h0 x x')
    (hs : ∀ y i, y < N → i < K → ¬ S (src.idx (y * K + i)))
    (hd : ∀ y i, y < N → i < K → ¬ S (dst.idx (y * CK + i))) :
    Sim S h0 (convert_nk_nck N K CK src dst x) (convert_nk_nck N K CK src dst x') := by
  unfold convert_nk_nck
  refine forLoop_sim N _ S h0 (fun y hy x x' hx => ?_) x x' hh
  exact writeLoop_sim K _ _ S h0 (fun i hi => hd y i hy hi)
    (fun i hi x x' hx => by simp only [hx _ (hs y i hy hi)]) x x' hx

/-- The dense multiply reads `op(A)(i, l)`, `op(B)(l, j)` and `C(i, j)` and writes
`C(i, j)`, for `i < m`, `j < n`, `l < k`. -/
theorem gemm_sim [Zero α] [Add α] [Mul α] (S : Ptr β → Prop) (h0 : Mem β α) (ta tb : Bool)
    (m n k : Nat) (alpha : α) (a : Ptr β) (lda : Nat) (b : Ptr β) (ldb : Nat) (beta : α)
    (c : Ptr β) (ldc : Nat) (x x' : Mem β α) (hh : Sim S h0 x x')
    (ha : ∀ i l, i < m → l < k → ¬ S (a.idx (if ta then l + i * lda else i + l * lda)))
    (hb : ∀ l j, l < k → j < n → ¬ S (b.idx (if tb then j + l * ldb else l + j * ldb)))
    (hc : ∀ i j, i < m → j < n → ¬ S (c.idx (i + j * ldc))) :
    Sim S h0 (gemm ta tb m n k alpha a lda b ldb beta c ldc x)
      (gemm ta tb m n k alpha a lda b ldb beta c ldc x') := by
  unfold gemm
  dsimp only
  refine forLoop_rel n _ _ (fun _ y y' => Sim S h0 y y') x x' hh (fun j hj y y' hy => ?_)
  refine forLoop_rel m _ _ (fun _ z z' => Sim S h0 z z') y y' hy (fun i hi z z' hz => ?_)
  refine hz.write_outside _ (hc i j hi hj) ?_
  rw [hz.1 _ (hc i j hi hj)]
  congr 2
  apply sumTo_congr
  intro l hl
  have e1 := ha i l hi hl
  have e2 := hb l j hl hj
  cases ta <;> cases tb <;>
    simp only [if_true, if_false, Bool.false_eq_true] at e1 e2 ⊢ <;>
    rw [hh.1 _ e1, hh.1 _ e2]

/-- The dense multiply with `beta = 0` reads `op(A)(i, l)` and `op(B)(l, j)` and writes
`C(i, j)`, for `i < m`, `j < n`, `l < k`. -/
theorem gemm_beta0_sim [Zero α] [Add α] [Mul α] (S : Ptr β → Prop) (h0 : Mem β α)
    (ta tb : Bool) (m n k : Nat) (alpha : α) (a : Ptr β) (lda : Nat) (b : Ptr β) (ldb : Nat)
    (c : Ptr β) (ldc : Nat) (x x' : Mem β α) (hh : Sim S h0 x x')
    (ha : ∀ i l, i < m → l < k → ¬ S (a.idx (if ta then l + i * lda else i + l * lda)))
    (hb : ∀ l j, l < k → j < n → ¬ S (b.idx (if tb then j + l * ldb else l + j * ldb)))
    (hc : ∀ i j, i < m → j < n → ¬ S (c.idx (i + j * ldc))) :
    Sim S h0 (gemm_beta0 ta tb m n k alpha a lda b ldb c ldc x)
      (gemm_beta0 ta tb m n k alpha a lda b ldb c ldc x') := by
  unfold gemm_beta0
  dsimp only
  refine forLoop_rel n _ _ (fun _ y y' => Sim S h0 y y') x x' hh (fun j hj y y' hy => ?_)
  refine forLoop_rel m _ _ (fun _ z z' => Sim S h0 z z') y y' hy (fun i hi z z' hz => ?_)
  refine hz.write_outside _ (hc i j hi hj) ?_
  congr 1
  apply sumTo_congr
  intro l hl
  have e1 := ha i l hi hl
  have e2 := hb l j hl hj
  cases ta <;> cases tb <;>
    simp only [if_true, if_false, Bool.false_eq_true] at e1 e2 ⊢ <;>
    rw [hh.1 _ e1, hh.1 _ e2]

end Simulation

section BoundsShapes

theorem base_buf (b : Buf) : (base b).buf = b := rfl

theorem base_off (b : Buf) : (base b).off = 0 := rfl

theorem seq_at_buf0 (b : Buf) (j s : Nat) : (seq_at b j s).buf = b := rfl

theorem icfo_at_buf (N K j s : Nat) : (icfo_at N K j s).buf = .icfogoldt := rfl

theorem dicfo_at_buf (N K j s : Nat) : (dicfo_at N K j s).buf = .dicfogoldt := rfl

theorem dicfo_at_off (N K j s : Nat) : (dicfo_at N K j s).off = j * N * (4 * K) + s := by
  simp [dicfo_at, vla3, Ptr.idx, base]

/-- A block `p[0 .. s)` inside its buffer. -/
theorem oob_packed (tg : Bool) (N C K T : Nat) (p : Ptr Buf) (s : Nat)
    (hb : p.off + s ≤ buf_elems tg N C K T p.buf) (i : Nat) (hi : i < s) :
    ¬ Beyond tg N C K T (p.idx i) := by
  unfold Beyond
  rw [Ptr.idx_buf, Ptr.idx_off]
  omega

/-- Rows of `m` elements at stride `ld`, `n` of them, inside their buffer. -/
theorem oob_rows (tg : Bool) (N C K T : Nat) (p : Ptr Buf) (m n ld : Nat)
    (hb : ∀ y, y < n → p.off + y * ld + m ≤ buf_elems tg N C K T p.buf) (y i : Nat)
    (hy : y < n) (hi : i < m) : ¬ Beyond tg N C K T (p.idx (y * ld + i)) := by
  unfold Beyond
  rw [Ptr.idx_buf, Ptr.idx_off]
  have := hb y hy
  omega

/-- The elements a strided helper addresses: `p[(i/m)*ld + i%m]` for `i < m*n`. -/
theorem oob_strided (tg : Bool) (N C K T : Nat) (p : Ptr Buf) (m n ld : Nat)
    (hb : ∀ y, y < n → p.off + y * ld + m ≤ buf_elems tg N C K T p.buf) (i : Nat)
    (hi : i < m * n) : ¬ Beyond tg N C K T (p.idx (i / m * ld + i % m)) :=
  oob_rows tg N C K T p m n ld hb (i / m) (i % m) (div_lt_of_lt_mul hi) (mod_lt_of_lt_mul hi)

/-- The elements `matrix_copy_bias` reads: `p[i % m]` for `i < m*n`. -/
theorem oob_mod (tg : Bool) (N C K T : Nat) (p : Ptr Buf) (m n : Nat)
    (hb : p.off + m ≤ buf_elems tg N C K T p.buf) (i : Nat) (hi : i < m * n) :
    ¬ Beyond tg N C K T (p.idx (i % m)) :=
  oob_packed tg N C K T p m hb (i % m) (mod_lt_of_lt_mul hi)

/-- The rows `p[y*4*K + i]` that `convert_ck_c4k` writes. -/
theorem oob_rows4 (tg : Bool) (N C K T : Nat) (p : Ptr Buf) (m n W : Nat)
    (hb : ∀ y, y < n → p.off + y * (4 * W) + m ≤ buf_elems tg N C K T p.buf) (y i : Nat)
    (hy : y < n) (hi : i < m) : ¬ Beyond tg N C K T (p.idx (y * 4 * W + i)) := by
  rw [Nat.mul_assoc]
  exact oob_rows tg N C K T p m n (4 * W) hb y i hy hi

/-- A column-major block: `p[i + l*ld]` for `i < m`, `l < k`. -/
theorem oob_cols (tg : Bool) (N C K T : Nat) (p : Ptr Buf) (m k ld : Nat)
    (hb : ∀ y, y < k → p.off + y * ld + m ≤ buf_elems tg N C K T p.buf) (i l : Nat)
    (hi : i < m) (hl : l < k) : ¬ Beyond tg N C K T (p.idx (i + l * ld)) := by
  rw [Nat.add_comm]
  exact oob_rows tg N C K T p m k ld hb l i hl hi

/-- A column-major block read across: `p[l + i*ld]` for `i < m`, `l < k`. -/
theorem oob_cols_t (tg : Bool) (N C K T : Nat) (p : Ptr Buf) (m k ld : Nat)
    (hb : ∀ y, y < m → p.off + y * ld + k ≤ buf_elems tg N C K T p.buf) (i l : Nat)
    (hi : i < m) (hl : l < k) : ¬ Beyond tg N C K T (p.idx (l + i * ld)) := by
  rw [Nat.add_comm]
  exact oob_rows tg N C K T p k m ld hb i l hi hl

end BoundsShapes

section GemmForms

variable {β α : Type} [DecidableEq β]

theorem gemm_nn_sim [Zero α] [Add α] [Mul α] (S : Ptr β → Prop) (h0 : Mem β α)
    (m n k : Nat) (alpha : α) (a : Ptr β) (lda : Nat) (b : Ptr β) (ldb : Nat) (beta : α)
    (c : Ptr β) (ldc : Nat) (x x' : Mem β α) (hh : Sim S h0 x x')
    (ha : ∀ i l, i < m → l < k → ¬ S (a.idx (i + l * lda)))
    (hb : ∀ l j, l < k → j < n → ¬ S (b.idx (l + j * ldb)))
    (hc : ∀ i j, i < m → j < n → ¬ S (c.idx (i + j * ldc))) :
    Sim S h0 (gemm false false m n k alpha a lda b ldb beta c ldc x)
      (gemm false false m n k alpha a lda b ldb beta c ldc x') :=
  gemm_sim S h0 false false m n k alpha a lda b ldb beta c ldc x x' hh
    (fun i l hi hl => by simpa using ha i l hi hl)
    (fun l j hl hj => by simpa using hb l j hl hj) hc

theorem gemm_tn_sim [Zero α] [Add α] [Mul α] (S : Ptr β → Prop) (h0 : Mem β α)
    (m n k : Nat) (alpha : α) (a : Ptr β) (lda : Nat) (b : Ptr β) (ldb : Nat) (beta : α)
    (c : Ptr β) (ldc : Nat) (x x' : Mem β α) (hh : Sim S h0 x x')
    (ha : ∀ i l, i < m → l < k → ¬ S (a.idx (l + i * lda)))
    (hb : ∀ l j, l < k → j < n → ¬ S (b.idx (l + j * ldb)))
    (hc : ∀ i j, i < m → j < n → ¬ S (c.idx (i + j * ldc))) :
    Sim S h0 (gemm true false m n k alpha a lda b ldb beta c ldc x)
      (gemm true false m n k alpha a lda b ldb beta c ldc x') :=
  gemm_sim S h0 true false m n k alpha a lda b ldb beta c ldc x x' hh
    (fun i l hi hl => by simpa using ha i l hi hl)
    (fun l j hl hj => by simpa using hb l j hl hj) hc

theorem gemm_nt_sim [Zero α] [Add α] [Mul α] (S : Ptr β → Prop) (h0 : Mem β α)
    (m n k : Nat) (alpha : α) (a : Ptr β) (lda : Nat) (b : Ptr β) (ldb : Nat) (beta : α)
    (c : Ptr β) (ldc : Nat) (x x' : Mem β α) (hh : Sim S h0 x x')
    (ha : ∀ i l, i < m → l < k → ¬ S (a.idx (i + l * lda)))
    (hb : ∀ l j, l < k → j < n → ¬ S (b.idx (j + l * ldb)))
    (hc : ∀ i j, i < m → j < n → ¬ S (c.idx (i + j * ldc))) :
    Sim S h0 (gemm false true m n k alpha a lda b ldb beta c ldc x)
      (gemm false true m n k alpha a lda b ldb beta c ldc x') :=
  gemm_sim S h0 false true m n k alpha a lda b ldb beta c ldc x x' hh
    (fun i l hi hl => by simpa using ha i l hi hl)
    (fun l j hl hj => by simpa using hb l j hl hj) hc

theorem gemm_beta0_tn_sim [Zero α] [Add α] [Mul α] (S : Ptr β → Prop) (h0 : Mem β α)
    (m n k : Nat) (alpha : α) (a : Ptr β) (lda : Nat) (b : Ptr β) (ldb : Nat)
    (c : Ptr β) (ldc : Nat) (x x' : Mem β α) (hh : Sim S h0 x x')
    (ha : ∀ i l, i < m → l < k → ¬ S (a.idx (l + i * lda)))
    (hb : ∀ l j, l < k → j < n → ¬ S (b.idx (l + j * ldb)))
    (hc : ∀ i j, i < m → j < n → ¬ S (c.idx (i + j * ldc))) :
    Sim S h0 (gemm_beta0 true false m n k alpha a lda b ldb c ldc x)
      (gemm_beta0 true false m n k alpha a lda b ldb c ldc x') :=
  gemm_beta0_sim S h0 true false m n k alpha a lda b ldb c ldc x x' hh
    (fun i l hi hl => by simpa using ha i l hi hl)
    (fun l j hl hj => by simpa using hb l j hl hj) hc

end GemmForms

section BoundsStages

variable {α : Type} [Zero α] [One α] [Add α] [Sub α] [Mul α] [Div α] [Neg α]

set_option maxHeartbeats 1000000 in
/-- The bias stage of a timestep `j < t` stays inside the buffers. -/
theorem fwd_bias_sim (tg : Bool) (N C K T j : Nat) (hj : j < T)
    (h0 x x' : Mem Buf α) (hh : Sim (Beyond tg N C K T) h0 x x') :
    Sim (Beyond tg N C K T) h0 (fwd_bias N K j x) (fwd_bias N K j x') := by
  have hj1 : j - 1 + 1 ≤ T := by omega
  have hT1 : T - 1 + 1 ≤ T := by omega
  have a1 := Nat.mul_le_mul_right (N * K) (show j + 1 ≤ T from hj)
  have a2 := Nat.mul_le_mul_right (N * C) (show j + 1 ≤ T from hj)
  have a3 := Nat.mul_le_mul_right (N * K) hj1
  have a4 := Nat.mul_le_mul_right (N * K) hT1
  have a5 := Nat.mul_le_mul_right (N * K) (show 1 ≤ T by omega)
  have a6 := Nat.mul_le_mul_right (N * C) (show 1 ≤ T by omega)
  unfold fwd_bias
  dsimp only
  try split_ifs
  all_goals
    repeat' (first
      | exact hh
      | with_reducible apply gemm_nn_sim
      | with_reducible apply gemm_tn_sim
      | with_reducible apply gemm_nt_sim
      | with_reducible apply gemm_beta0_tn_sim
      | with_reducible apply matrix_copy_bias_sim
      | with_reducible apply matrix_sigmoid_ld_sim
      | with_reducible apply matrix_tanh_ld_sim
      | with_reducible apply matrix_eltwise_mult_ld_ab_sim
      | with_reducible apply matrix_copy_ld_sim
      | with_reducible apply matrix_copy_sim
      | with_reducible apply matrix_add_sim
      | with_reducible apply convert_nk_nck_sim
      | with_reducible apply convert_ck_c4k_sim
      | with_reducible apply matrix_eltwise_mult_ld_a_sim
      | with_reducible apply matrix_eltwise_mult_ld_c_sim
      | with_reducible apply matrix_eltwise_mult_sim
      | with_reducible apply matrix_complement_ld_sim
      | with_reducible apply matrix_complement_square_ld_sim
      | with_reducible apply matrix_tanh_inverse_sim
      | with_reducible apply matrix_tanh_sim)
  all_goals
    first
    | with_reducible apply oob_packed
    | with_reducible apply oob_strided
    | with_reducible apply oob_mod
    | with_reducible apply oob_rows4
    | with_reducible apply oob_rows
    | with_reducible apply oob_cols_t
    | with_reducible apply oob_cols
  all_goals try intro y hy
  all_goals
    simp only [Ptr.idx_off, Ptr.idx_buf, seq_at_off0, seq_at_buf0, icfo_at_off, icfo_at_buf,
      dicfo_at_off, dicfo_at_buf, base_off, base_buf, buf_elems, if_true, if_false,
      Bool.false_eq_true]
  all_goals
    first
    | omega
    | linarith [a1, a2, a3, a4, a5, a6]
    | linarith [a1, a2, a3, a4, a5, a6, Nat.mul_le_mul_right K (show y + 1 ≤ _ from hy),
        Nat.mul_le_mul_right C (show y + 1 ≤ _ from hy)]

set_option maxHeartbeats 1000000 in
/-- The multiplies of the forward step of a timestep `j < t` stay inside the buffers. -/
theorem fwd_gemm_sim (tg : Bool) (N C K T j : Nat) (hj : j < T)
    (h0 x x' : Mem Buf α) (hh : Sim (Beyond tg N C K T) h0 x x') :
    Sim (Beyond tg N C K T) h0 (fwd_gemm tg N C K j x) (fwd_gemm tg N C K j x') := by
  have hj1 : j - 1 + 1 ≤ T := by omega
  have hT1 : T - 1 + 1 ≤ T := by omega
  have a1 := Nat.mul_le_mul_right (N * K) (show j + 1 ≤ T from hj)
  have a2 := Nat.mul_le_mul_right (N * C) (show j + 1 ≤ T from hj)
  have a3 := Nat.mul_le_mul_right (N * K) hj1
  have a4 := Nat.mul_le_mul_right (N * K) hT1
  have a5 := Nat.mul_le_mul_right (N * K) (show 1 ≤ T by omega)
  have a6 := Nat.mul_le_mul_right (N * C) (show 1 ≤ T by omega)
  unfold fwd_gemm concat_xh
  cases tg
  all_goals simp only [if_true, if_false, Bool.false_eq_true, gt_iff_lt]
  all_goals try split_ifs
  all_goals
    repeat' (first
      | exact hh
      | with_reducible apply gemm_nn_sim
      | with_reducible apply gemm_tn_sim
      | with_reducible apply gemm_nt_sim
      | with_reducible apply gemm_beta0_tn_sim
      | with_reducible apply matrix_copy_bias_sim
      | with_reducible apply matrix_sigmoid_ld_sim
      | with_reducible apply matrix_tanh_ld_sim
      | with_reducible apply matrix_eltwise_mult_ld_ab_sim
      | with_reducible apply matrix_copy_ld_sim
      | with_reducible apply matrix_copy_sim
      | with_reducible apply matrix_add_sim
      | with_reducible apply convert_nk_nck_sim
      | with_reducible apply convert_ck_c4k_sim
      | with_reducible apply matrix_eltwise_mult_ld_a_sim
      | with_reducible apply matrix_eltwise_mult_ld_c_sim
      | with_reducible apply matrix_eltwise_mult_sim
      | with_reducible apply matrix_complement_ld_sim
      | with_reducible apply matrix_complement_square_ld_sim
      | with_reducible apply matrix_tanh_inverse_sim
      | with_reducible apply matrix_tanh_sim)
  all_goals
    first
    | with_reducible apply oob_packed
    | with_reducible apply oob_strided
    | with_reducible apply oob_mod
    | with_reducible apply oob_rows4
    | with_reducible apply oob_rows
    | with_reducible apply oob_cols_t
    | with_reducible apply oob_cols
  all_goals try intro y hy
  all_goals
    simp only [Ptr.idx_off, Ptr.idx_buf, seq_at_off0, seq_at_buf0, icfo_at_off, icfo_at_buf,
      dicfo_at_off, dicfo_at_buf, base_off, base_buf, buf_elems, if_true, if_false,
      Bool.false_eq_true]
  all_goals
    first
    | omega
    | linarith [a1, a2, a3, a4, a5, a6]
    | linarith [a1, a2, a3, a4, a5, a6, Nat.mul_le_mul_right K (show y + 1 ≤ _ from hy),
        Nat.mul_le_mul_right C (show y + 1 ≤ _ from hy)]

set_option maxHeartbeats 1000000 in
/-- The nonlinearities of a timestep `j < t` stay inside the buffers. -/
theorem fwd_nonlin_sim (tg : Bool) (lm : Libm α) (N C K T j : Nat) (hj : j < T)
    (h0 x x' : Mem Buf α) (hh : Sim (Beyond tg N C K T) h0 x x') :
    Sim (Beyond tg N C K T) h0 (fwd_nonlin lm N K j x) (fwd_nonlin lm N K j x') := by
  have hj1 : j - 1 + 1 ≤ T := by omega
  have hT1 : T - 1 + 1 ≤ T := by omega
  have a1 := Nat.mul_le_mul_right (N * K) (show j + 1 ≤ T from hj)
  have a2 := Nat.mul_le_mul_right (N * C) (show j + 1 ≤ T from hj)
  have a3 := Nat.mul_le_mul_right (N * K) hj1
  have a4 := Nat.mul_le_mul_right (N * K) hT1
  have a5 := Nat.mul_le_mul_right (N * K) (show 1 ≤ T by omega)
  have a6 := Nat.mul_le_mul_right (N * C) (show 1 ≤ T by omega)
  unfold fwd_nonlin
  dsimp only
  try split_ifs
  all_goals
    repeat' (first
      | exact hh
      | with_reducible apply gemm_nn_sim
      | with_reducible apply gemm_tn_sim
      | with_reducible apply gemm_nt_sim
      | with_reducible apply gemm_beta0_tn_sim
      | with_reducible apply matrix_copy_bias_sim
      | with_reducible apply matrix_sigmoid_ld_sim
      | with_reducible apply matrix_tanh_ld_sim
      | with_reducible apply matrix_eltwise_mult_ld_ab_sim
      | with_reducible apply matrix_copy_ld_sim
      | with_reducible apply matrix_copy_sim
      | with_reducible apply matrix_add_sim
      | with_reducible apply convert_nk_nck_sim
      | with_reducible apply convert_ck_c4k_sim
      | with_reducible apply matrix_eltwise_mult_ld_a_sim
      | with_reducible apply matrix_eltwise_mult_ld_c_sim
      | with_reducible apply matrix_eltwise_mult_sim
      | with_reducible apply matrix_complement_ld_sim
      | with_reducible apply matrix_complement_square_ld_sim
      | with_reducible apply matrix_tanh_inverse_sim
      | with_reducible apply matrix_tanh_sim)
  all_goals
    first
    | with_reducible apply oob_packed
    | with_reducible apply oob_strided
    | with_reducible apply oob_mod
    | with_reducible apply oob_rows4
    | with_reducible apply oob_rows
    | with_reducible apply oob_cols_t
    | with_reducible apply oob_cols
  all_goals try intro y hy
  all_goals
    simp only [Ptr.idx_off, Ptr.idx_buf, seq_at_off0, seq_at_buf0, icfo_at_off, icfo_at_buf,
      dicfo_at_off, dicfo_at_buf, base_off, base_buf, buf_elems, if_true, if_false,
      Bool.false_eq_true]
  all_goals
    first
    | omega
    | linarith [a1, a2, a3, a4, a5, a6]
    | linarith [a1, a2, a3, a4, a5, a6, Nat.mul_le_mul_right K (show y + 1 ≤ _ from hy),
        Nat.mul_le_mul_right C (show y + 1 ≤ _ from hy)]

set_option maxHeartbeats 1000000 in
/-- The cell-state stage of a timestep `j < t` stays inside the buffers. -/
theorem fwd_cell_sim (tg : Bool) (N C K T j : Nat) (hj : j < T)
    (h0 x x' : Mem Buf α) (hh : Sim (Beyond tg N C K T) h0 x x') :
    Sim (Beyond tg N C K T) h0 (fwd_cell N K j x) (fwd_cell N K j x') := by
  have hj1 : j - 1 + 1 ≤ T := by omega
  have hT1 : T - 1 + 1 ≤ T := by omega
  have a1 := Nat.mul_le_mul_right (N * K) (show j + 1 ≤ T from hj)
  have a2 := Nat.mul_le_mul_right (N * C) (show j + 1 ≤ T from hj)
  have a3 := Nat.mul_le_mul_right (N * K) hj1
  have a4 := Nat.mul_le_mul_right (N * K) hT1
  have a5 := Nat.mul_le_mul_right (N * K) (show 1 ≤ T by omega)
  have a6 := Nat.mul_le_mul_right (N * C) (show 1 ≤ T by omega)
  unfold fwd_cell
  dsimp only
  try split_ifs
  all_goals
    repeat' (first
      | exact hh
      | with_reducible apply gemm_nn_sim
      | with_reducible apply gemm_tn_sim
      | with_reducible apply gemm_nt_sim
      | with_reducible apply gemm_beta0_tn_sim
      | with_reducible apply matrix_copy_bias_sim
      | with_reducible apply matrix_sigmoid_ld_sim
      | with_reducible apply matrix_tanh_ld_sim
      | with_reducible apply matrix_eltwise_mult_ld_ab_sim
      | with_reducible apply matrix_copy_ld_sim
      | with_reducible apply matrix_copy_sim
      | with_reducible apply matrix_add_sim
      | with_reducible apply convert_nk_nck_sim
      | with_reducible apply convert_ck_c4k_sim
      | with_reducible apply matrix_eltwise_mult_ld_a_sim
      | with_reducible apply matrix_eltwise_mult_ld_c_sim
      | with_reducible apply matrix_eltwise_mult_sim
      | with_reducible apply matrix_complement_ld_sim
      | with_reducible apply matrix_complement_square_ld_sim
      | with_reducible apply matrix_tanh_inverse_sim
      | with_reducible apply matrix_tanh_sim)
  all_goals
    first
    | with_reducible apply oob_packed
    | with_reducible apply oob_strided
    | with_reducible apply oob_mod
    | with_reducible apply oob_rows4
    | with_reducible apply oob_rows
    | with_reducible apply oob_cols_t
    | with_reducible apply oob_cols
  all_goals try intro y hy
  all_goals
    simp only [Ptr.idx_off, Ptr.idx_buf, seq_at_off0, seq_at_buf0, icfo_at_off, icfo_at_buf,
      dicfo_at_off, dicfo_at_buf, base_off, base_buf, buf_elems, if_true, if_false,
      Bool.false_eq_true]
  all_goals
    first
    | omega
    | linarith [a1, a2, a3, a4, a5, a6]
    | linarith [a1, a2, a3, a4, a5, a6, Nat.mul_le_mul_right K (show y + 1 ≤ _ from hy),
        Nat.mul_le_mul_right C (show y + 1 ≤ _ from hy)]

set_option maxHeartbeats 1000000 in
/-- The hidden-state stage of a timestep `j < t` stays inside the buffers. -/
theorem fwd_hidden_sim (tg : Bool) (lm : Libm α) (N C K T j : Nat) (hj : j < T)
    (h0 x x' : Mem Buf α) (hh : Sim (Beyond tg N C K T) h0 x x') :
    Sim (Beyond tg N C K T) h0 (fwd_hidden lm N K j x) (fwd_hidden lm N K j x') := by
  have hj1 : j - 1 + 1 ≤ T := by omega
  have hT1 : T - 1 + 1 ≤ T := by omega
  have a1 := Nat.mul_le_mul_right (N * K) (show j + 1 ≤ T from hj)
  have a2 := Nat.mul_le_mul_right (N * C) (show j + 1 ≤ T from hj)
  have a3 := Nat.mul_le_mul_right (N * K) hj1
  have a4 := Nat.mul_le_mul_right (N * K) hT1
  have a5 := Nat.mul_le_mul_right (N * K) (show 1 ≤ T by omega)
  have a6 := Nat.mul_le_mul_right (N * C) (show 1 ≤ T by omega)
  unfold fwd_hidden
  dsimp only
  try split_ifs
  all_goals
    repeat' (first
      | exact hh
      | with_reducible apply gemm_nn_sim
      | with_reducible apply gemm_tn_sim
      | with_reducible apply gemm_nt_sim
      | with_reducible apply gemm_beta0_tn_sim
      | with_reducible apply matrix_copy_bias_sim
      | with_reducible apply matrix_sigmoid_ld_sim
      | with_reducible apply matrix_tanh_ld_sim
      | with_reducible apply matrix_eltwise_mult_ld_ab_sim
      | with_reducible apply matrix_copy_ld_sim
      | with_reducible apply matrix_copy_sim
      | with_reducible apply matrix_add_sim
      | with_reducible apply convert_nk_nck_sim
      | with_reducible apply convert_ck_c4k_sim
      | with_reducible apply matrix_eltwise_mult_ld_a_sim
      | with_reducible apply matrix_eltwise_mult_ld_c_sim
      | with_reducible apply matrix_eltwise_mult_sim
      | with_reducible apply matrix_complement_ld_sim
      | with_reducible apply matrix_complement_square_ld_sim
      | with_reducible apply matrix_tanh_inverse_sim
      | with_reducible apply matrix_tanh_sim)
  all_goals
    first
    | with_reducible apply oob_packed
    | with_reducible apply oob_strided
    | with_reducible apply oob_mod
    | with_reducible apply oob_rows4
    | with_reducible apply oob_rows
    | with_reducible apply oob_cols_t
    | with_reducible apply oob_cols
  all_goals try intro y hy
  all_goals
    simp only [Ptr.idx_off, Ptr.idx_buf, seq_at_off0, seq_at_buf0, icfo_at_off, icfo_at_buf,
      dicfo_at_off, dicfo_at_buf, base_off, base_buf, buf_elems, if_true, if_false,
      Bool.false_eq_true]
  all_goals
    first
    | omega
    | linarith [a1, a2, a3, a4, a5, a6]
    | linarith [a1, a2, a3, a4, a5, a6, Nat.mul_le_mul_right K (show y + 1 ≤ _ from hy),
        Nat.mul_le_mul_right C (show y + 1 ≤ _ from hy)]

/-- The forward step of a timestep `j < t` neither reads nor writes beyond the end of a
buffer. -/
theorem fwd_step_sim (tg : Bool) (lm : Libm α) (N C K T j : Nat) (hj : j < T)
    (h0 x x' : Mem Buf α) (hh : Sim (Beyond tg N C K T) h0 x x') :
    Sim (Beyond tg N C K T) h0 (fwd_step tg lm N C K j x) (fwd_step tg lm N C K j x') :=
  fwd_hidden_sim tg lm N C K T j hj h0 _ _
    (fwd_cell_sim tg N C K T j hj h0 _ _
      (fwd_nonlin_sim tg lm N C K T j hj h0 _ _
        (fwd_gemm_sim tg N C K T j hj h0 _ _
          (fwd_bias_sim tg N C K T j hj h0 _ _ hh))))

end BoundsStages

section BoundsBackward

variable {α : Type} [Zero α] [One α] [Add α] [Sub α] [Mul α] [Div α] [Neg α]

/-- The accumulation `*d += *e`, for `d` and `e` outside `S`. -/
theorem sim_acc {S : Ptr Buf → Prop} {h0 x x' : Mem Buf α} (d e : Ptr Buf)
    (hh : Sim S h0 x x') (hd : ¬ S d) (he : ¬ S e) :
    Sim S h0 (x.write d (x.read d + x.read e)) (x'.write d (x'.read d + x'.read e)) :=
  hh.write_outside d hd (by rw [hh.1 _ hd, hh.1 _ he])

/-- "Compute db" of a timestep `j < t` neither reads nor writes beyond the end of a
buffer. -/
theorem bwd_db_sim (tg : Bool) (N C K T j : Nat) (hj : j < T)
    (h0 x x' : Mem Buf α) (hh : Sim (Beyond tg N C K T) h0 x x') :
    Sim (Beyond tg N C K T) h0 (bwd_db N K j x) (bwd_db N K j x') := by
  have a1 := Nat.mul_le_mul_right (N * K) (show j + 1 ≤ T from hj)
  unfold bwd_db
  refine forLoop_sim K _ _ h0 (fun l hl y y' hy => ?_) x x' hh
  refine forLoop_sim N _ _ h0 (fun p hp z z' hz => ?_) y y' hy
  have b1 := Nat.mul_le_mul_right K (show p + 1 ≤ N from hp)
  try dsimp only
  repeat' (first | exact hz | with_reducible apply sim_acc)
  all_goals
    unfold Beyond
    simp only [Ptr.idx_off, Ptr.idx_buf, base_off, base_buf, buf_elems, vla3]
  all_goals
    first
    | omega
    | linarith [a1, b1]

set_option maxHeartbeats 1000000 in
/-- "Compute delta" of a timestep `j < t` stays inside the buffers. -/
theorem bwd_delta_sim (tg : Bool) (N C K T j : Nat) (hj : j < T)
    (h0 x x' : Mem Buf α) (hh : Sim (Beyond tg N C K T) h0 x x') :
    Sim (Beyond tg N C K T) h0 (bwd_delta N K T j x) (bwd_delta N K T j x') := by
  have hj1 : j - 1 + 1 ≤ T := by omega
  have hT1 : T - 1 + 1 ≤ T := by omega
  have a1 := Nat.mul_le_mul_right (N * K) (show j + 1 ≤ T from hj)
  have a2 := Nat.mul_le_mul_right (N * C) (show j + 1 ≤ T from hj)
  have a3 := Nat.mul_le_mul_right (N * K) hj1
  have a4 := Nat.mul_le_mul_right (N * K) hT1
  have a5 := Nat.mul_le_mul_right (N * K) (show 1 ≤ T by omega)
  have a6 := Nat.mul_le_mul_right (N * C) (show 1 ≤ T by omega)
  unfold bwd_delta
  try dsimp only
  try split_ifs
  all_goals
    repeat' (first
      | exact hh
      | with_reducible apply gemm_nn_sim
      | with_reducible apply gemm_tn_sim
      | with_reducible apply gemm_nt_sim
      | with_reducible apply gemm_beta0_tn_sim
      | with_reducible apply matrix_copy_bias_sim
      | with_reducible apply matrix_sigmoid_ld_sim
      | with_reducible apply matrix_tanh_ld_sim
      | with_reducible apply matrix_eltwise_mult_ld_ab_sim
      | with_reducible apply matrix_copy_ld_sim
      | with_reducible apply matrix_copy_sim
      | with_reducible apply matrix_add_sim
      | with_reducible apply convert_nk_nck_sim
      | with_reducible apply convert_ck_c4k_sim
      | with_reducible apply matrix_eltwise_mult_ld_a_sim
      | with_reducible apply matrix_eltwise_mult_ld_c_sim
      | with_reducible apply matrix_eltwise_mult_sim
      | with_reducible apply matrix_complement_ld_sim
      | with_reducible apply matrix_complement_square_ld_sim
      | with_reducible apply matrix_tanh_inverse_sim
      | with_reducible apply matrix_tanh_sim)
  all_goals
    first
    | with_reducible apply oob_packed
    | with_reducible apply oob_strided
    | with_reducible apply oob_mod
    | with_reducible apply oob_rows4
    | with_reducible apply oob_rows
    | with_reducible apply oob_cols_t
    | with_reducible apply oob_cols
  all_goals try intro y hy
  all_goals
    simp only [Ptr.idx_off, Ptr.idx_buf, seq_at_off0, seq_at_buf0, icfo_at_off, icfo_at_buf,
      dicfo_at_off, dicfo_at_buf, base_off, base_buf, buf_elems, if_true, if_false,
      Bool.false_eq_true]
  all_goals
    first
    | omega
    | linarith [a1, a2, a3, a4, a5, a6]
    | linarith [a1, a2, a3, a4, a5, a6, Nat.mul_le_mul_right K (show y + 1 ≤ _ from hy),
        Nat.mul_le_mul_right C (show y + 1 ≤ _ from hy)]

set_option maxHeartbeats 1000000 in
/-- "Compute dcsp" of a timestep `j < t` stays inside the buffers. -/
theorem bwd_dcsp_sim (tg : Bool) (lm : Libm α) (N C K T j : Nat) (hj : j < T)
    (h0 x x' : Mem Buf α) (hh : Sim (Beyond tg N C K T) h0 x x') :
    Sim (Beyond tg N C K T) h0 (bwd_dcsp lm N K T j x) (bwd_dcsp lm N K T j x') := by
  have hj1 : j - 1 + 1 ≤ T := by omega
  have hT1 : T - 1 + 1 ≤ T := by omega
  have a1 := Nat.mul_le_mul_right (N * K) (show j + 1 ≤ T from hj)
  have a2 := Nat.mul_le_mul_right (N * C) (show j + 1 ≤ T from hj)
  have a3 := Nat.mul_le_mul_right (N * K) hj1
  have a4 := Nat.mul_le_mul_right (N * K) hT1
  have a5 := Nat.mul_le_mul_right (N * K) (show 1 ≤ T by omega)
  have a6 := Nat.mul_le_mul_right (N * C) (show 1 ≤ T by omega)
  unfold bwd_dcsp
  try dsimp only
  try split_ifs
  all_goals
    repeat' (first
      | exact hh
      | with_reducible apply gemm_nn_sim
      | with_reducible apply gemm_tn_sim
      | with_reducible apply gemm_nt_sim
      | with_reducible apply gemm_beta0_tn_sim
      | with_reducible apply matrix_copy_bias_sim
      | with_reducible apply matrix_sigmoid_ld_sim
      | with_reducible apply matrix_tanh_ld_sim
      | with_reducible apply matrix_eltwise_mult_ld_ab_sim
      | with_reducible apply matrix_copy_ld_sim
      | with_reducible apply matrix_copy_sim
      | with_reducible apply matrix_add_sim
      | with_reducible apply convert_nk_nck_sim
      | with_reducible apply convert_ck_c4k_sim
      | with_reducible apply matrix_eltwise_mult_ld_a_sim
      | with_reducible apply matrix_eltwise_mult_ld_c_sim
      | with_reducible apply matrix_eltwise_mult_sim
      | with_reducible apply matrix_complement_ld_sim
      | with_reducible apply matrix_complement_square_ld_sim
      | with_reducible apply matrix_tanh_inverse_sim
      | with_reducible apply matrix_tanh_sim)
  all_goals
    first
    | with_reducible apply oob_packed
    | with_reducible apply oob_strided
    | with_reducible apply oob_mod
    | with_reducible apply oob_rows4
    | with_reducible apply oob_rows
    | with_reducible apply oob_cols_t
    | with_reducible apply oob_cols
  all_goals try intro y hy
  all_goals
    simp only [Ptr.idx_off, Ptr.idx_buf, seq_at_off0, seq_at_buf0, icfo_at_off, icfo_at_buf,
      dicfo_at_off, dicfo_at_buf, base_off, base_buf, buf_elems, if_true, if_false,
      Bool.false_eq_true]
  all_goals
    first
    | omega
    | linarith [a1, a2, a3, a4, a5, a6]
    | linarith [a1, a2, a3, a4, a5, a6, Nat.mul_le_mul_right K (show y + 1 ≤ _ from hy),
        Nat.mul_le_mul_right C (show y + 1 ≤ _ from hy)]

set_option maxHeartbeats 1000000 in
/-- "Compute dc" of a timestep `j < t` stays inside the buffers. -/
theorem bwd_gate_dc_sim (tg : Bool) (N C K T j : Nat) (hj : j < T)
    (h0 x x' : Mem Buf α) (hh : Sim (Beyond tg N C K T) h0 x x') :
    Sim (Beyond tg N C K T) h0 (bwd_gate_dc N K j x) (bwd_gate_dc N K j x') := by
  have hj1 : j - 1 + 1 ≤ T := by omega
  have hT1 : T - 1 + 1 ≤ T := by omega
  have a1 := Nat.mul_le_mul_right (N * K) (show j + 1 ≤ T from hj)
  have a2 := Nat.mul_le_mul_right (N * C) (show j + 1 ≤ T from hj)
  have a3 := Nat.mul_le_mul_right (N * K) hj1
  have a4 := Nat.mul_le_mul_right (N * K) hT1
  have a5 := Nat.mul_le_mul_right (N * K) (show 1 ≤ T by omega)
  have a6 := Nat.mul_le_mul_right (N * C) (show 1 ≤ T by omega)
  unfold bwd_gate_dc
  try dsimp only
  try split_ifs
  all_goals
    repeat' (first
      | exact hh
      | with_reducible apply gemm_nn_sim
      | with_reducible apply gemm_tn_sim
      | with_reducible apply gemm_nt_sim
      | with_reducible apply gemm_beta0_tn_sim
      | with_reducible apply matrix_copy_bias_sim
      | with_reducible apply matrix_sigmoid_ld_sim
      | with_reducible apply matrix_tanh_ld_sim
      | with_reducible apply matrix_eltwise_mult_ld_ab_sim
      | with_reducible apply matrix_copy_ld_sim
      | with_reducible apply matrix_copy_sim
      | with_reducible apply matrix_add_sim
      | with_reducible apply convert_nk_nck_sim
      | with_reducible apply convert_ck_c4k_sim
      | with_reducible apply matrix_eltwise_mult_ld_a_sim
      | with_reducible apply matrix_eltwise_mult_ld_c_sim
      | with_reducible apply matrix_eltwise_mult_sim
      | with_reducible apply matrix_complement_ld_sim
      | with_reducible apply matrix_complement_square_ld_sim
      | with_reducible apply matrix_tanh_inverse_sim
      | with_reducible apply matrix_tanh_sim)
  all_goals
    first
    | with_reducible apply oob_packed
    | with_reducible apply oob_strided
    | with_reducible apply oob_mod
    | with_reducible apply oob_rows4
    | with_reducible apply oob_rows
    | with_reducible apply oob_cols_t
    | with_reducible apply oob_cols
  all_goals try intro y hy
  all_goals
    simp only [Ptr.idx_off, Ptr.idx_buf, seq_at_off0, seq_at_buf0, icfo_at_off, icfo_at_buf,
      dicfo_at_off, dicfo_at_buf, base_off, base_buf, buf_elems, if_true, if_false,
      Bool.false_eq_true]
  all_goals
    first
    | omega
    | linarith [a1, a2, a3, a4, a5, a6]
    | linarith [a1, a2, a3, a4, a5, a6, Nat.mul_le_mul_right K (show y + 1 ≤ _ from hy),
        Nat.mul_le_mul_right C (show y + 1 ≤ _ from hy)]

set_option maxHeartbeats 1000000 in
/-- "Compute di" of a timestep `j < t` stays inside the buffers. -/
theorem bwd_gate_di_sim (tg : Bool) (N C K T j : Nat) (hj : j < T)
    (h0 x x' : Mem Buf α) (hh : Sim (Beyond tg N C K T) h0 x x') :
    Sim (Beyond tg N C K T) h0 (bwd_gate_di N K j x) (bwd_gate_di N K j x') := by
  have hj1 : j - 1 + 1 ≤ T := by omega
  have hT1 : T - 1 + 1 ≤ T := by omega
  have a1 := Nat.mul_le_mul_right (N * K) (show j + 1 ≤ T from hj)
  have a2 := Nat.mul_le_mul_right (N * C) (show j + 1 ≤ T from hj)
  have a3 := Nat.mul_le_mul_right (N * K) hj1
  have a4 := Nat.mul_le_mul_right (N * K) hT1
  have a5 := Nat.mul_le_mul_right (N * K) (show 1 ≤ T by omega)
  have a6 := Nat.mul_le_mul_right (N * C) (show 1 ≤ T by omega)
  unfold bwd_gate_di
  try dsimp only
  try split_ifs
  all_goals
    repeat' (first
      | exact hh
      | with_reducible apply gemm_nn_sim
      | with_reducible apply gemm_tn_sim
      | with_reducible apply gemm_nt_sim
      | with_reducible apply gemm_beta0_tn_sim
      | with_reducible apply matrix_copy_bias_sim
      | with_reducible apply matrix_sigmoid_ld_sim
      | with_reducible apply matrix_tanh_ld_sim
      | with_reducible apply matrix_eltwise_mult_ld_ab_sim
      | with_reducible apply matrix_copy_ld_sim
      | with_reducible apply matrix_copy_sim
      | with_reducible apply matrix_add_sim
      | with_reducible apply convert_nk_nck_sim
      | with_reducible apply convert_ck_c4k_sim
      | with_reducible apply matrix_eltwise_mult_ld_a_sim
      | with_reducible apply matrix_eltwise_mult_ld_c_sim
      | with_reducible apply matrix_eltwise_mult_sim
      | with_reducible apply matrix_complement_ld_sim
      | with_reducible apply matrix_complement_square_ld_sim
      | with_reducible apply matrix_tanh_inverse_sim
      | with_reducible apply matrix_tanh_sim)
  all_goals
    first
    | with_reducible apply oob_packed
    | with_reducible apply oob_strided
    | with_reducible apply oob_mod
    | with_reducible apply oob_rows4
    | with_reducible apply oob_rows
    | with_reducible apply oob_cols_t
    | with_reducible apply oob_cols
  all_goals try intro y hy
  all_goals
    simp only [Ptr.idx_off, Ptr.idx_buf, seq_at_off0, seq_at_buf0, icfo_at_off, icfo_at_buf,
      dicfo_at_off, dicfo_at_buf, base_off, base_buf, buf_elems, if_true, if_false,
      Bool.false_eq_true]
  all_goals
    first
    | omega
    | linarith [a1, a2, a3, a4, a5, a6]
    | linarith [a1, a2, a3, a4, a5, a6, Nat.mul_le_mul_right K (show y + 1 ≤ _ from hy),
        Nat.mul_le_mul_right C (show y + 1 ≤ _ from hy)]

set_option maxHeartbeats 1000000 in
/-- "Compute df" of a timestep `j < t` stays inside the buffers. -/
theorem bwd_gate_df_sim (tg : Bool) (N C K T j : Nat) (hj : j < T)
    (h0 x x' : Mem Buf α) (hh : Sim (Beyond tg N C K T) h0 x x') :
    Sim (Beyond tg N C K T) h0 (bwd_gate_df N K j x) (bwd_gate_df N K j x') := by
  have hj1 : j - 1 + 1 ≤ T := by omega
  have hT1 : T - 1 + 1 ≤ T := by omega
  have a1 := Nat.mul_le_mul_right (N * K) (show j + 1 ≤ T from hj)
  have a2 := Nat.mul_le_mul_right (N * C) (show j + 1 ≤ T from hj)
  have a3 := Nat.mul_le_mul_right (N * K) hj1
  have a4 := Nat.mul_le_mul_right (N * K) hT1
  have a5 := Nat.mul_le_mul_right (N * K) (show 1 ≤ T by omega)
  have a6 := Nat.mul_le_mul_right (N * C) (show 1 ≤ T by omega)
  unfold bwd_gate_df
  try dsimp only
  try split_ifs
  all_goals
    repeat' (first
      | exact hh
      | with_reducible apply gemm_nn_sim
      | with_reducible apply gemm_tn_sim
      | with_reducible apply gemm_nt_sim
      | with_reducible apply gemm_beta0_tn_sim
      | with_reducible apply matrix_copy_bias_sim
      | with_reducible apply matrix_sigmoid_ld_sim
      | with_reducible apply matrix_tanh_ld_sim
      | with_reducible apply matrix_eltwise_mult_ld_ab_sim
      | with_reducible apply matrix_copy_ld_sim
      | with_reducible apply matrix_copy_sim
      | with_reducible apply matrix_add_sim
      | with_reducible apply convert_nk_nck_sim
      | with_reducible apply convert_ck_c4k_sim
      | with_reducible apply matrix_eltwise_mult_ld_a_sim
      | with_reducible apply matrix_eltwise_mult_ld_c_sim
      | with_reducible apply matrix_eltwise_mult_sim
      | with_reducible apply matrix_complement_ld_sim
      | with_reducible apply matrix_complement_square_ld_sim
      | with_reducible apply matrix_tanh_inverse_sim
      | with_reducible apply matrix_tanh_sim)
  all_goals
    first
    | with_reducible apply oob_packed
    | with_reducible apply oob_strided
    | with_reducible apply oob_mod
    | with_reducible apply oob_rows4
    | with_reducible apply oob_rows
    | with_reducible apply oob_cols_t
    | with_reducible apply oob_cols
  all_goals try intro y hy
  all_goals
    simp only [Ptr.idx_off, Ptr.idx_buf, seq_at_off0, seq_at_buf0, icfo_at_off, icfo_at_buf,
      dicfo_at_off, dicfo_at_buf, base_off, base_buf, buf_elems, if_true, if_false,
      Bool.false_eq_true]
  all_goals
    first
    | omega
    | linarith [a1, a2, a3, a4, a5, a6]
    | linarith [a1, a2, a3, a4, a5, a6, Nat.mul_le_mul_right K (show y + 1 ≤ _ from hy),
        Nat.mul_le_mul_right C (show y + 1 ≤ _ from hy)]

set_option maxHeartbeats 1000000 in
/-- "Compute do" of a timestep `j < t` stays inside the buffers. -/
theorem bwd_gate_do_sim (tg : Bool) (lm : Libm α) (N C K T j : Nat) (hj : j < T)
    (h0 x x' : Mem Buf α) (hh : Sim (Beyond tg N C K T) h0 x x') :
    Sim (Beyond tg N C K T) h0 (bwd_gate_do lm N K j x) (bwd_gate_do lm N K j x') := by
  have hj1 : j - 1 + 1 ≤ T := by omega
  have hT1 : T - 1 + 1 ≤ T := by omega
  have a1 := Nat.mul_le_mul_right (N * K) (show j + 1 ≤ T from hj)
  have a2 := Nat.mul_le_mul_right (N * C) (show j + 1 ≤ T from hj)
  have a3 := Nat.mul_le_mul_right (N * K) hj1
  have a4 := Nat.mul_le_mul_right (N * K) hT1
  have a5 := Nat.mul_le_mul_right (N * K) (show 1 ≤ T by omega)
  have a6 := Nat.mul_le_mul_right (N * C) (show 1 ≤ T by omega)
  unfold bwd_gate_do
  try dsimp only
  try split_ifs
  all_goals
    repeat' (first
      | exact hh
      | with_reducible apply gemm_nn_sim
      | with_reducible apply gemm_tn_sim
      | with_reducible apply gemm_nt_sim
      | with_reducible apply gemm_beta0_tn_sim
      | with_reducible apply matrix_copy_bias_sim
      | with_reducible apply matrix_sigmoid_ld_sim
      | with_reducible apply matrix_tanh_ld_sim
      | with_reducible apply matrix_eltwise_mult_ld_ab_sim
      | with_reducible apply matrix_copy_ld_sim
      | with_reducible apply matrix_copy_sim
      | with_reducible apply matrix_add_sim
      | with_reducible apply convert_nk_nck_sim
      | with_reducible apply convert_ck_c4k_sim
      | with_reducible apply matrix_eltwise_mult_ld_a_sim
      | with_reducible apply matrix_eltwise_mult_ld_c_sim
      | with_reducible apply matrix_eltwise_mult_sim
      | with_reducible apply matrix_complement_ld_sim
      | with_reducible apply matrix_complement_square_ld_sim
      | with_reducible apply matrix_tanh_inverse_sim
      | with_reducible apply matrix_tanh_sim)
  all_goals
    first
    | with_reducible apply oob_packed
    | with_reducible apply oob_strided
    | with_reducible apply oob_mod
    | with_reducible apply oob_rows4
    | with_reducible apply oob_rows
    | with_reducible apply oob_cols_t
    | with_reducible apply oob_cols
  all_goals try intro y hy
  all_goals
    simp only [Ptr.idx_off, Ptr.idx_buf, seq_at_off0, seq_at_buf0, icfo_at_off, icfo_at_buf,
      dicfo_at_off, dicfo_at_buf, base_off, base_buf, buf_elems, if_true, if_false,
      Bool.false_eq_true]
  all_goals
    first
    | omega
    | linarith [a1, a2, a3, a4, a5, a6]
    | linarith [a1, a2, a3, a4, a5, a6, Nat.mul_le_mul_right K (show y + 1 ≤ _ from hy),
        Nat.mul_le_mul_right C (show y + 1 ≤ _ from hy)]

set_option maxHeartbeats 1000000 in
/-- "Update dcsp" of a timestep `j < t` stays inside the buffers. -/
theorem bwd_dcsp_update_sim (tg : Bool) (N C K T j : Nat) (hj : j < T)
    (h0 x x' : Mem Buf α) (hh : Sim (Beyond tg N C K T) h0 x x') :
    Sim (Beyond tg N C K T) h0 (bwd_dcsp_update N K j x) (bwd_dcsp_update N K j x') := by
  have hj1 : j - 1 + 1 ≤ T := by omega
  have hT1 : T - 1 + 1 ≤ T := by omega
  have a1 := Nat.mul_le_mul_right (N * K) (show j + 1 ≤ T from hj)
  have a2 := Nat.mul_le_mul_right (N * C) (show j + 1 ≤ T from hj)
  have a3 := Nat.mul_le_mul_right (N * K) hj1
  have a4 := Nat.mul_le_mul_right (N * K) hT1
  have a5 := Nat.mul_le_mul_right (N * K) (show 1 ≤ T by omega)
  have a6 := Nat.mul_le_mul_right (N * C) (show 1 ≤ T by omega)
  unfold bwd_dcsp_update
  try dsimp only
  try split_ifs
  all_goals
    repeat' (first
      | exact hh
      | with_reducible apply gemm_nn_sim
      | with_reducible apply gemm_tn_sim
      | with_reducible apply gemm_nt_sim
      | with_reducible apply gemm_beta0_tn_sim
      | with_reducible apply matrix_copy_bias_sim
      | with_reducible apply matrix_sigmoid_ld_sim
      | with_reducible apply matrix_tanh_ld_sim
      | with_reducible apply matrix_eltwise_mult_ld_ab_sim
      | with_reducible apply matrix_copy_ld_sim
      | with_reducible apply matrix_copy_sim
      | with_reducible apply matrix_add_sim
      | with_reducible apply convert_nk_nck_sim
      | with_reducible apply convert_ck_c4k_sim
      | with_reducible apply matrix_eltwise_mult_ld_a_sim
      | with_reducible apply matrix_eltwise_mult_ld_c_sim
      | with_reducible apply matrix_eltwise_mult_sim
      | with_reducible apply matrix_complement_ld_sim
      | with_reducible apply matrix_complement_square_ld_sim
      | with_reducible apply matrix_tanh_inverse_sim
      | with_reducible apply matrix_tanh_sim)
  all_goals
    first
    | with_reducible apply oob_packed
    | with_reducible apply oob_strided
    | with_reducible apply oob_mod
    | with_reducible apply oob_rows4
    | with_reducible apply oob_rows
    | with_reducible apply oob_cols_t
    | with_reducible apply oob_cols
  all_goals try intro y hy
  all_goals
    simp only [Ptr.idx_off, Ptr.idx_buf, seq_at_off0, seq_at_buf0, icfo_at_off, icfo_at_buf,
      dicfo_at_off, dicfo_at_buf, base_off, base_buf, buf_elems, if_true, if_false,
      Bool.false_eq_true]
  all_goals
    first
    | omega
    | linarith [a1, a2, a3, a4, a5, a6]
    | linarith [a1, a2, a3, a4, a5, a6, Nat.mul_le_mul_right K (show y + 1 ≤ _ from hy),
        Nat.mul_le_mul_right C (show y + 1 ≤ _ from hy)]

set_option maxHeartbeats 1000000 in
/-- The multiplies of the backward step of a timestep `j < t` stay inside the buffers. -/
theorem bwd_gemm_sim (tg : Bool) (N C K T j : Nat) (hj : j < T)
    (h0 x x' : Mem Buf α) (hh : Sim (Beyond tg N C K T) h0 x x') :
    Sim (Beyond tg N C K T) h0 (bwd_gemm tg N C K j x) (bwd_gemm tg N C K j x') := by
  have hj1 : j - 1 + 1 ≤ T := by omega
  have hT1 : T - 1 + 1 ≤ T := by omega
  have a1 := Nat.mul_le_mul_right (N * K) (show j + 1 ≤ T from hj)
  have a2 := Nat.mul_le_mul_right (N * C) (show j + 1 ≤ T from hj)
  have a3 := Nat.mul_le_mul_right (N * K) hj1
  have a4 := Nat.mul_le_mul_right (N * K) hT1
  have a5 := Nat.mul_le_mul_right (N * K) (show 1 ≤ T by omega)
  have a6 := Nat.mul_le_mul_right (N * C) (show 1 ≤ T by omega)
  unfold bwd_gemm concat_xh
  cases tg
  all_goals simp only [if_true, if_false, Bool.false_eq_true, gt_iff_lt]
  all_goals try split_ifs
  all_goals
    repeat' (first
      | exact hh
      | with_reducible apply gemm_nn_sim
      | with_reducible apply gemm_tn_sim
      | with_reducible apply gemm_nt_sim
      | with_reducible apply gemm_beta0_tn_sim
      | with_reducible apply matrix_copy_bias_sim
      | with_reducible apply matrix_sigmoid_ld_sim
      | with_reducible apply matrix_tanh_ld_sim
      | with_reducible apply matrix_eltwise_mult_ld_ab_sim
      | with_reducible apply matrix_copy_ld_sim
      | with_reducible apply matrix_copy_sim
      | with_reducible apply matrix_add_sim
      | with_reducible apply convert_nk_nck_sim
      | with_reducible apply convert_ck_c4k_sim
      | with_reducible apply matrix_eltwise_mult_ld_a_sim
      | with_reducible apply matrix_eltwise_mult_ld_c_sim
      | with_reducible apply matrix_eltwise_mult_sim
      | with_reducible apply matrix_complement_ld_sim
      | with_reducible apply matrix_complement_square_ld_sim
      | with_reducible apply matrix_tanh_inverse_sim
      | with_reducible apply matrix_tanh_sim)
  all_goals
    first
    | with_reducible apply oob_packed
    | with_reducible apply oob_strided
    | with_reducible apply oob_mod
    | with_reducible apply oob_rows4
    | with_reducible apply oob_rows
    | with_reducible apply oob_cols_t
    | with_reducible apply oob_cols
  all_goals try intro y hy
  all_goals
    simp only [Ptr.idx_off, Ptr.idx_buf, seq_at_off0, seq_at_buf0, icfo_at_off, icfo_at_buf,
      dicfo_at_off, dicfo_at_buf, base_off, base_buf, buf_elems, if_true, if_false,
      Bool.false_eq_true]
  all_goals
    first
    | omega
    | linarith [a1, a2, a3, a4, a5, a6]
    | linarith [a1, a2, a3, a4, a5, a6, Nat.mul_le_mul_right K (show y + 1 ≤ _ from hy),
        Nat.mul_le_mul_right C (show y + 1 ≤ _ from hy)]

end BoundsBackward

section BoundsRun

variable {α : Type} [Zero α] [One α] [Add α] [Sub α] [Mul α] [Div α] [Neg α]

/-- The backward step of a timestep `j < t` neither reads nor writes beyond the end of a
buffer. -/
theorem bwd_step_sim (tg : Bool) (lm : Libm α) (N C K T j : Nat) (hj : j < T)
    (h0 x x' : Mem Buf α) (hh : Sim (Beyond tg N C K T) h0 x x') :
    Sim (Beyond tg N C K T) h0 (bwd_step tg lm N C K T j x)
      (bwd_step tg lm N C K T j x') := by
  unfold bwd_step
  dsimp only
  rw [bwd_gates_eq, bwd_gates_eq]
  exact bwd_db_sim tg N C K T j hj h0 _ _
    (bwd_gemm_sim tg N C K T j hj h0 _ _
      (bwd_dcsp_update_sim tg N C K T j hj h0 _ _
        (bwd_gate_do_sim tg lm N C K T j hj h0 _ _
          (bwd_gate_df_sim tg N C K T j hj h0 _ _
            (bwd_gate_di_sim tg N C K T j hj h0 _ _
              (bwd_gate_dc_sim tg N C K T j hj h0 _ _
                (bwd_dcsp_sim tg lm N C K T j hj h0 _ _
                  (bwd_delta_sim tg N C K T j hj h0 _ _ hh))))))))

/-- The loop that adds the forget bias stays inside `bfgold` and `bfgold_fb`. -/
theorem lstm_forget_bias_sim (tg : Bool) (N C K T : Nat) (forget_bias : α)
    (h0 x x' : Mem Buf α) (hh : Sim (Beyond tg N C K T) h0 x x') :
    Sim (Beyond tg N C K T) h0 (lstm_forget_bias K forget_bias x)
      (lstm_forget_bias K forget_bias x') := by
  unfold lstm_forget_bias
  refine writeLoop_sim K _ _ _ h0
    (oob_packed tg N C K T (base .bfgold_fb) K (Nat.le_of_eq (Nat.zero_add K)))
    (fun i hi y y' hy => ?_) x x' hh
  rw [hy _ (oob_packed tg N C K T (base .bfgold) K (Nat.le_of_eq (Nat.zero_add K)) i hi)]

set_option maxHeartbeats 1000000 in
/-- The placement of the gate matrices stays inside the gate matrices and the fused
weight buffers. -/
theorem lstm_fuse_weights_sim (tg : Bool) (N C K T : Nat)
    (h0 x x' : Mem Buf α) (hh : Sim (Beyond tg N C K T) h0 x x') :
    Sim (Beyond tg N C K T) h0 (lstm_fuse_weights tg C K x)
      (lstm_fuse_weights tg C K x') := by
  unfold lstm_fuse_weights
  cases tg
  all_goals simp only [if_true, if_false, Bool.false_eq_true]
  all_goals
    repeat' (first
      | exact hh
      | with_reducible apply convert_ck_c4k_sim)
  all_goals
    first
    | with_reducible apply oob_rows4
    | with_reducible apply oob_rows
  all_goals intro y hy
  all_goals
    simp only [Ptr.idx_off, Ptr.idx_buf, base_off, base_buf, buf_elems, if_true, if_false,
      Bool.false_eq_true]
  all_goals
    linarith [Nat.mul_le_mul_right K (show y + 1 ≤ _ from hy), Nat.zero_le (K * K),
      Nat.zero_le (C * K)]

/-- The setup and the first `j <= t` forward steps neither read nor write beyond the end
of a buffer. -/
theorem lstm_fwd_sim (tg : Bool) (lm : Libm α) (N C K T j : Nat) (hj : j ≤ T)
    (forget_bias : α) (h0 x x' : Mem Buf α) (hh : Sim (Beyond tg N C K T) h0 x x') :
    Sim (Beyond tg N C K T) h0 (lstm_fwd tg lm N C K j forget_bias x)
      (lstm_fwd tg lm N C K j forget_bias x') := by
  unfold lstm_fwd
  dsimp only
  exact forLoop_sim j _ _ h0
    (fun i hi y y' hy => fwd_step_sim tg lm N C K T i (Nat.lt_of_lt_of_le hi hj) h0 y y' hy)
    _ _ (lstm_fuse_weights_sim tg N C K T h0 _ _
      (lstm_forget_bias_sim tg N C K T forget_bias h0 _ _ hh))

/-- `lstm_ref` neither reads nor writes at or beyond the element count `buf_elems` of a
buffer. -/
theorem lstm_ref_sim (tg : Bool) (lm : Libm α) (N C K T : Nat)
    (forget_bias : α) (h0 x x' : Mem Buf α) (hh : Sim (Beyond tg N C K T) h0 x x') :
    Sim (Beyond tg N C K T) h0 (lstm_ref tg lm N C K T forget_bias x)
      (lstm_ref tg lm N C K T forget_bias x') := by
  unfold lstm_ref
  dsimp only
  exact forLoopDown_rel T (bwd_step tg lm N C K T)
    (fun y y' => Sim (Beyond tg N C K T) h0 y y')
    (fun j hj y y' hy => bwd_step_sim tg lm N C K T j hj h0 y y' hy) _ _
    (lstm_fwd_sim tg lm N C K T T (Nat.le_refl T) forget_bias h0 x x' hh)

/-- The strided helpers called with `m = 0` do nothing: the loop whose body divides by `m`
has no iteration. -/
theorem strided_zero_rows {β : Type} [DecidableEq β] (lm : Libm α) (n ld : Nat)
    (a b c : Ptr β) (h : Mem β α) :
    matrix_eltwise_mult_ld_a 0 n ld a b c h = h
    ∧ matrix_eltwise_mult_ld_ab 0 n ld a b c h = h
    ∧ matrix_eltwise_mult_ld_c 0 n ld a b c h = h
    ∧ matrix_sigmoid_ld lm 0 n ld a c h = h
    ∧ matrix_tanh_ld lm 0 n ld a c h = h
    ∧ matrix_copy_ld 0 n ld a c h = h
    ∧ matrix_copy_bias 0 n ld a c h = h
    ∧ matrix_complement_ld 0 n ld a c h = h
    ∧ matrix_complement_square_ld 0 n ld a c h = h := by
  unfold matrix_eltwise_mult_ld_a matrix_eltwise_mult_ld_ab matrix_eltwise_mult_ld_c
    matrix_sigmoid_ld matrix_tanh_ld matrix_copy_ld matrix_copy_bias matrix_complement_ld
    matrix_complement_square_ld
  simp only [Nat.zero_mul]
  exact ⟨rfl, rfl, rfl, rfl, rfl, rfl, rfl, rfl, rfl⟩

end BoundsRun

/-! ## Determinism of a build, whatever the arithmetic is -/

section RawBackward

variable {α : Type} [Zero α] [One α] [Add α] [Sub α] [Mul α] [Div α] [Neg α]

theorem sumFrom_congr {β : Type} [Add β] (a b : β) (n : Nat) (f g : Nat → β) (hab : a = b)
    (hfg : ∀ l, l < n → f l = g l) : sumFrom a n f = sumFrom b n g := by
  induction n with
  | zero => exact hab
  | succ n ih =>
    show sumFrom a n f + f n = sumFrom b n g + g n
    rw [ih (fun l hl => hfg l (Nat.lt_succ_of_lt hl)), hfg n (Nat.lt_succ_self n)]

/-- The recurrent delta that the backward step of timestep `t` produced, on the memory
`lstm_ref` returns, whatever the arithmetic is: the multiply is called with `beta = 0`
and what the destination held plays no part. -/
theorem lstm_ref_dout_raw (two_gemms : Bool) (lm : Libm α) (N C K T : Nat) (forget_bias : α)
    (h : Mem Buf α) (t n k : Nat) (ht : t < T) (hn : n < N) (hk : k < K) :
    (lstm_ref two_gemms lm N C K T forget_bias h).read (dout_prev N K t (n * K + k))
      = 1 * sumTo (4 * K) (fun q =>
          (lstm_ref two_gemms lm N C K T forget_bias h).read (r4_elem two_gemms C K k q)
            * (lstm_ref two_gemms lm N C K T forget_bias h).read (dicfo_elem N K t n q)) := by
  rw [lstm_ref_owned two_gemms lm N C K T forget_bias h _ t (Nat.le_of_lt ht)
      (fun l hl => kept_dout_prev hl),
    lstm_bwd_stages two_gemms lm N C K T forget_bias h t ht,
    bwd_db_skip N K t _ _ (dout_prev_writes N K t _).1]
  cases two_gemms
  · rw [bwd_gemm_single_rec N C K t _ n k hn hk, Nat.mul_comm K 4]
    congr 1
    refine sumTo_congr _ _ _ (fun q _ => ?_)
    rw [lstm_dgates_dicfo false lm N C K T forget_bias h t n q ht,
      lstm_dgates_fwd false lm N C K T forget_bias h t ht
        ((base .wr8gold).idx (q + (C + k) * (4 * K))) rfl]
    unfold r4_elem
    rw [if_neg (by decide), Nat.add_comm q]
  · rw [Nat.add_comm (n * K) k, bwd_gemm_two_rec N C K t _ n k hn hk, Nat.mul_comm K 4]
    congr 1
    refine sumTo_congr _ _ _ (fun q _ => ?_)
    rw [lstm_dgates_dicfo true lm N C K T forget_bias h t n q ht,
      lstm_dgates_fwd true lm N C K T forget_bias h t ht
        ((base .r4gold).idx (q + k * (4 * K))) rfl]
    unfold r4_elem
    rw [if_pos rfl, Nat.add_comm q]

/-- The input gradient of timestep `t` that `lstm_ref` returns, whatever the arithmetic
is: the default build overwrites the buffer, the `TWO_GEMMS` build adds to what the caller
passed in it. -/
theorem lstm_ref_dx_raw (two_gemms : Bool) (lm : Libm α) (N C K T : Nat) (forget_bias : α)
    (h : Mem Buf α) (t n c : Nat) (ht : t < T) (hn : n < N) (hc : c < C) :
    (lstm_ref two_gemms lm N C K T forget_bias h).read
        ((seq_at .dxgoldt t (N * C)).idx (n * C + c))
      = if two_gemms then
          1 * sumTo (4 * K) (fun q =>
            (lstm_ref two_gemms lm N C K T forget_bias h).read (w4_elem two_gemms K c q)
              * (lstm_ref two_gemms lm N C K T forget_bias h).read (dicfo_elem N K t n q))
          + 1 * h.read ((seq_at .dxgoldt t (N * C)).idx (n * C + c))
        else
          1 * sumTo (4 * K) (fun q =>
            (lstm_ref two_gemms lm N C K T forget_bias h).read (w4_elem two_gemms K c q)
              * (lstm_ref two_gemms lm N C K T forget_bias h).read
                (dicfo_elem N K t n q)) := by
  cases two_gemms
  · rw [if_neg (by decide),
      lstm_ref_owned false lm N C K T forget_bias h _ t (Nat.le_of_lt ht)
        (fun l hl => kept_dx hl),
      lstm_bwd_stages false lm N C K T forget_bias h t ht,
      bwd_db_skip N K t ((seq_at .dxgoldt t (N * C)).idx (n * C + c)) _ nofun,
      bwd_gemm_single_dx N C K t _ n c hn hc, Nat.mul_comm K 4]
    congr 1
    refine sumTo_congr _ _ _ (fun q _ => ?_)
    rw [lstm_dgates_dicfo false lm N C K T forget_bias h t n q ht,
      lstm_dgates_fwd false lm N C K T forget_bias h t ht
        ((base .wr8gold).idx (q + c * (4 * K))) rfl]
    unfold w4_elem
    rw [if_neg (by decide), Nat.add_comm q]
  · rw [if_pos rfl,
      lstm_ref_owned true lm N C K T forget_bias h _ t (Nat.le_of_lt ht)
        (fun l hl => kept_dx hl),
      lstm_bwd_stages true lm N C K T forget_bias h t ht,
      bwd_db_skip N K t ((seq_at .dxgoldt t (N * C)).idx (n * C + c)) _ nofun,
      Nat.add_comm (n * C) c,
      bwd_gemm_two_dx N C K t _ n c hn hc, Nat.mul_comm K 4,
      lstm_dgates_skip true lm N C K T forget_bias h t
        ((seq_at .dxgoldt t (N * C)).idx (c + n * C)) nofun nofun nofun nofun nofun nofun,
      lstm_bwd_dx_prior true lm N C K T forget_bias h t (c + n * C)
        (by rw [Nat.mul_comm N C, Nat.add_comm]; exact tile_index_lt hn hc)
        (t + 1) (Nat.lt_succ_self t) ht]
    congr 2
    refine sumTo_congr _ _ _ (fun q _ => ?_)
    rw [lstm_dgates_dicfo true lm N C K T forget_bias h t n q ht,
      lstm_dgates_fwd true lm N C K T forget_bias h t ht
        ((base .w4gold).idx (q + c * (4 * K))) rfl]
    unfold w4_elem
    rw [if_pos rfl, Nat.add_comm q]

/-- What the backward step of timestep `j` adds to the weight gradient, whatever the
arithmetic is. -/
theorem lstm_bwd_dw_raw (two_gemms : Bool) (lm : Libm α) (N C K T : Nat) (forget_bias : α)
    (h : Mem Buf α) (c q : Nat) (hc : c < C) (hq : q < 4 * K) (j : Nat) (hj : j < T) :
    (lstm_bwd two_gemms lm N C K T forget_bias j h).read ((base .dwgold).idx (c * (4 * K) + q))
      = 1 * sumTo N (fun n =>
          (lstm_ref two_gemms lm N C K T forget_bias h).read (dicfo_elem N K j n q)
            * h.read ((seq_at .xgoldt j (N * C)).idx (n * C + c)))
        + 1 * (lstm_bwd two_gemms lm N C K T forget_bias (j + 1) h).read
            ((base .dwgold).idx (c * (4 * K) + q)) := by
  have hx : ∀ n, (lstm_dgates two_gemms lm N C K T forget_bias j h).read
      ((seq_at .xgoldt j (N * C)).idx (c + n * C))
        = h.read ((seq_at .xgoldt j (N * C)).idx (n * C + c)) := by
    intro n
    rw [lstm_dgates_fwd two_gemms lm N C K T forget_bias h j hj
        ((seq_at .xgoldt j (N * C)).idx (c + n * C)) rfl, Nat.add_comm c]
    exact lstm_ref_input two_gemms lm N C K T forget_bias h _ rfl nofun nofun nofun nofun
      ⟨nofun, nofun, nofun⟩
  rw [lstm_bwd_stages two_gemms lm N C K T forget_bias h j hj,
    bwd_db_skip N K j ((base .dwgold).idx (c * (4 * K) + q)) _ nofun,
    Nat.add_comm (c * (4 * K)) q, Nat.mul_comm 4 K]
  cases two_gemms
  · rw [bwd_gemm_single_dw N C K j _ c q (by omega) hq,
      lstm_dgates_skip false lm N C K T forget_bias h j
        ((base .dwgold).idx (q + c * (K * 4))) nofun nofun nofun nofun nofun nofun]
    congr 2
    refine sumTo_congr _ _ _ (fun n _ => ?_)
    rw [if_pos hc, lstm_dgates_dicfo false lm N C K T forget_bias h j n q hj, hx]
  · rw [bwd_gemm_two_dw N C K j _ c q hc hq,
      lstm_dgates_skip true lm N C K T forget_bias h j
        ((base .dwgold).idx (q + c * (K * 4))) nofun nofun nofun nofun nofun nofun]
    congr 2
    refine sumTo_congr _ _ _ (fun n _ => ?_)
    rw [lstm_dgates_dicfo true lm N C K T forget_bias h j n q hj, hx]

/-- What the backward step of timestep `j` adds to the recurrent-weight gradient, whatever
the arithmetic is. -/
theorem lstm_bwd_dr_raw (two_gemms : Bool) (lm : Libm α) (N C K T : Nat) (forget_bias : α)
    (h : Mem Buf α) (i q : Nat) (hi : i < K) (hq : q < 4 * K) (j : Nat) (hj : j < T) :
    (lstm_bwd two_gemms lm N C K T forget_bias j h).read (dr_elem two_gemms C K i q)
      = 1 * sumTo N (fun n =>
          (lstm_ref two_gemms lm N C K T forget_bias h).read (dicfo_elem N K j n q)
            * (if j = 0 then h.read ((base .hpgold).idx (n * K + i))
               else (lstm_ref two_gemms lm N C K T forget_bias h).read
                 ((seq_at .hgoldt (j - 1) (K * N)).idx (n * K + i))))
        + 1 * (lstm_bwd two_gemms lm N C K T forget_bias (j + 1) h).read
            (dr_elem two_gemms C K i q) := by
  have hb := dr_elem_buf two_gemms C K i q
  have hx : ∀ n, (lstm_dgates two_gemms lm N C K T forget_bias j h).read
      (h_prev N K j (i + n * K))
        = if j = 0 then h.read ((base .hpgold).idx (n * K + i))
          else (lstm_ref two_gemms lm N C K T forget_bias h).read
            ((seq_at .hgoldt (j - 1) (K * N)).idx (n * K + i)) := by
    intro n
    rw [lstm_dgates_fwd two_gemms lm N C K T forget_bias h j hj _ (h_prev_writes N K j _),
      Nat.add_comm i]
    unfold h_prev
    split
    · exact lstm_ref_input two_gemms lm N C K T forget_bias h _ rfl nofun nofun nofun nofun
        ⟨nofun, nofun, nofun⟩
    · rfl
  rw [lstm_bwd_stages two_gemms lm N C K T forget_bias h j hj,
    bwd_db_skip N K j _ _ hb.1,
    ← lstm_dgates_skip two_gemms lm N C K T forget_bias h j _ hb.2.1 hb.2.2.1 hb.2.2.2.1
      hb.2.2.2.2.1 hb.2.2.2.2.2.1 hb.2.2.2.2.2.2]
  unfold dr_elem
  cases two_gemms
  · simp only [if_false, Bool.false_eq_true]
    rw [Nat.add_comm ((C + i) * (4 * K)) q, Nat.mul_comm 4 K,
      bwd_gemm_single_dw N C K j _ (C + i) q (by omega) hq]
    congr 2
    refine sumTo_congr _ _ _ (fun n _ => ?_)
    rw [if_neg (by omega), Nat.add_sub_cancel_left,
      lstm_dgates_dicfo false lm N C K T forget_bias h j n q hj, hx]
  · simp only [if_true]
    rw [Nat.add_comm (i * (4 * K)) q, Nat.mul_comm 4 K,
      bwd_gemm_two_dr N C K j _ i q hi hq]
    congr 2
    refine sumTo_congr _ _ _ (fun n _ => ?_)
    rw [lstm_dgates_dicfo true lm N C K T forget_bias h j n q hj, hx]

/-- What the backward step of timestep `j` adds to the bias gradient, whatever the
arithmetic is. -/
theorem lstm_bwd_db_raw (two_gemms : Bool) (lm : Libm α) (N C K T : Nat) (forget_bias : α)
    (h : Mem Buf α) (g k : Nat) (hg : g < 4) (hk : k < K) (j : Nat) (hj : j < T) :
    (lstm_bwd two_gemms lm N C K T forget_bias j h).read ((base .dbgold).idx (g * K + k))
      = sumFrom ((lstm_bwd two_gemms lm N C K T forget_bias (j + 1) h).read
            ((base .dbgold).idx (g * K + k))) N
          (fun n => (lstm_ref two_gemms lm N C K T forget_bias h).read
            (dicfo_elem N K j n (g * K + k))) := by
  rw [lstm_bwd_stages two_gemms lm N C K T forget_bias h j hj,
    bwd_db_value N K j _ g k hg hk,
    bwd_gemm_skip two_gemms N C K j ((base .dbgold).idx (g * K + k)) _ nofun nofun nofun
      nofun nofun (Or.inl nofun) (Or.inl nofun),
    lstm_dgates_skip two_gemms lm N C K T forget_bias h j
      ((base .dbgold).idx (g * K + k)) nofun nofun nofun nofun nofun nofun]
  refine sumFrom_congr _ _ _ _ _ rfl (fun n _ => ?_)
  rw [bwd_gemm_dicfo two_gemms lm N C K T forget_bias h j n _ hj]

end RawBackward

section SameBuild

variable {α : Type} [Zero α] [One α] [Add α] [Sub α] [Mul α] [Div α] [Neg α]

theorem elem_split_raw {N K e : Nat} (he : e < K * N) :
    e / K < N ∧ e % K < K ∧ e / K * K + e % K = e := by
  obtain ⟨h1, h2⟩ := div_mod_lt he
  refine ⟨h1, h2, ?_⟩
  rw [Nat.mul_comm]
  exact Nat.div_add_mod e K

/-- The forward results of `lstm_ref` are determined by the buffers it only reads,
whatever the arithmetic is: two calls of the same build on memories that agree there
leave the same `ICFO_t`, `CS_t` and `H_t`. -/
theorem lstm_fwd_same (tg : Bool) (lm : Libm α) (N C K T : Nat) (forget_bias : α)
    (h h' : Mem Buf α) (hin : ∀ q, lstm_input q.buf = true → h.read q = h'.read q)
    (t : Nat) (ht : t < T) :
    (∀ n c, n < N → c < 4 * K →
      (lstm_ref tg lm N C K T forget_bias h).read (icfo_elem N K t n c)
        = (lstm_ref tg lm N C K T forget_bias h').read (icfo_elem N K t n c))
    ∧ (∀ e, e < K * N →
      (lstm_ref tg lm N C K T forget_bias h).read ((seq_at .csgoldt t (K * N)).idx e)
          = (lstm_ref tg lm N C K T forget_bias h').read ((seq_at .csgoldt t (K * N)).idx e)
      ∧ (lstm_ref tg lm N C K T forget_bias h).read ((seq_at .hgoldt t (K * N)).idx e)
          = (lstm_ref tg lm N C K T forget_bias h').read
              ((seq_at .hgoldt t (K * N)).idx e)) :=
  lstm_ref_shift tg lm N C K T T 0 T forget_bias h h' (Nat.le_refl T) (Nat.le_refl T)
    (fun g _ => hin _ (input_gate_w g)) (fun g _ => hin _ (input_gate_r g))
    (fun g _ => hin _ (input_gate_b g)) (fun _ _ _ _ => hin _ rfl)
    (fun _ _ => (if_pos rfl).trans (hin _ rfl)) (fun _ _ => (if_pos rfl).trans (hin _ rfl))
    t ht

/-- One timestep of `lstm_bwd_same`, from the timestep above it. -/
theorem lstm_bwd_same_step (tg : Bool) (lm : Libm α) (N C K T : Nat)
    (forget_bias : α) (h h' : Mem Buf α)
    (hin : ∀ q, lstm_input q.buf = true → h.read q = h'.read q) (t : Nat) (ht : t < T)
    (hnext : t + 1 < T → ∀ e, e < K * N →
      (lstm_dcs tg lm N C K T forget_bias (t + 1) h).read ((base .dcspgold).idx e)
          = (lstm_dcs tg lm N C K T forget_bias (t + 1) h').read ((base .dcspgold).idx e)
      ∧ (lstm_ref tg lm N C K T forget_bias h).read (dout_prev N K (t + 1) e)
          = (lstm_ref tg lm N C K T forget_bias h').read (dout_prev N K (t + 1) e)) :
    (∀ e, e < K * N →
      (lstm_ref tg lm N C K T forget_bias h).read ((seq_at .deltagoldt t (K * N)).idx e)
          = (lstm_ref tg lm N C K T forget_bias h').read
              ((seq_at .deltagoldt t (K * N)).idx e)
      ∧ (lstm_dcs tg lm N C K T forget_bias t h).read ((base .dcspgold).idx e)
          = (lstm_dcs tg lm N C K T forget_bias t h').read ((base .dcspgold).idx e)
      ∧ (lstm_ref tg lm N C K T forget_bias h).read (dout_prev N K t e)
          = (lstm_ref tg lm N C K T forget_bias h').read (dout_prev N K t e))
    ∧ (∀ n c, n < N → c < 4 * K →
      (lstm_ref tg lm N C K T forget_bias h).read (dicfo_elem N K t n c)
          = (lstm_ref tg lm N C K T forget_bias h').read (dicfo_elem N K t n c)) := by
  have fwd := lstm_fwd_same tg lm N C K T forget_bias h h' hin
  have hsucc : ∀ e, dout_prev N K (t + 1) e = (seq_at .doutgoldt t (K * N)).idx e := by
    intro e
    unfold dout_prev
    rw [if_neg (Nat.succ_ne_zero t), Nat.add_sub_cancel]
  have hdelta : ∀ e, e < K * N →
      (lstm_ref tg lm N C K T forget_bias h).read ((seq_at .deltagoldt t (K * N)).idx e)
        = (lstm_ref tg lm N C K T forget_bias h').read
            ((seq_at .deltagoldt t (K * N)).idx e) := by
    intro e he
    rw [lstm_ref_delta tg lm N C K T forget_bias h t e ht he,
      lstm_ref_delta tg lm N C K T forget_bias h' t e ht he,
      hin ((seq_at .dhgoldt t (K * N)).idx e) rfl]
    by_cases hl : t = T - 1
    · rw [if_pos hl, if_pos hl]
    · rw [if_neg hl, if_neg hl, ← hsucc, (hnext (by omega) e he).2]
  have hdcs : ∀ e, e < K * N →
      (lstm_dcs tg lm N C K T forget_bias t h).read ((base .dcspgold).idx e)
        = (lstm_dcs tg lm N C K T forget_bias t h').read ((base .dcspgold).idx e) := by
    intro e he
    obtain ⟨hn, hx, _⟩ := elem_split_raw he
    rw [lstm_dcs_value tg lm N C K T forget_bias h t e ht he,
      lstm_dcs_value tg lm N C K T forget_bias h' t e ht he,
      (fwd t ht).1 _ _ hn (by omega), hdelta e he, ((fwd t ht).2 e he).1,
      hin ((base .dcsgold).idx e) rfl]
    by_cases hl : t = T - 1
    · rw [if_pos hl, if_pos hl]
    · rw [if_neg hl, if_neg hl, (fwd (t + 1) (by omega)).1 _ _ hn (by omega),
        (hnext (by omega) e he).1]
  have hcsp : ∀ e, e < K * N →
      (if t = 0 then h.read ((base .cspgold).idx e)
        else (lstm_ref tg lm N C K T forget_bias h).read
          ((seq_at .csgoldt (t - 1) (K * N)).idx e))
      = (if t = 0 then h'.read ((base .cspgold).idx e)
        else (lstm_ref tg lm N C K T forget_bias h').read
          ((seq_at .csgoldt (t - 1) (K * N)).idx e)) := by
    intro e he
    by_cases h0 : t = 0
    · rw [if_pos h0, if_pos h0, hin ((base .cspgold).idx e) rfl]
    · rw [if_neg h0, if_neg h0, ((fwd (t - 1) (by omega)).2 e he).1]
  have hdicfo : ∀ n c, n < N → c < 4 * K →
      (lstm_ref tg lm N C K T forget_bias h).read (dicfo_elem N K t n c)
        = (lstm_ref tg lm N C K T forget_bias h').read (dicfo_elem N K t n c) := by
    intro n c hn hc
    obtain ⟨hg, hk, e⟩ := slot_split hc
    have hek : n * K + c % K < K * N := tile_index_lt hn hk
    have i0 := (fwd t ht).1 n (c % K) hn (by omega)
    have i1 := (fwd t ht).1 n (K + c % K) hn (by omega)
    have i2 := (fwd t ht).1 n (2 * K + c % K) hn (by omega)
    have i3 := (fwd t ht).1 n (3 * K + c % K) hn (by omega)
    rw [← e]
    generalize c / K = g at hg
    interval_cases g
    · rw [Nat.zero_mul, Nat.zero_add,
        lstm_ref_di tg lm N C K T forget_bias h t n _ ht hn hk,
        lstm_ref_di tg lm N C K T forget_bias h' t n _ ht hn hk, i0, i1, hdcs _ hek]
    · rw [Nat.one_mul,
        lstm_ref_dc tg lm N C K T forget_bias h t n _ ht hn hk,
        lstm_ref_dc tg lm N C K T forget_bias h' t n _ ht hn hk, i0, i1, hdcs _ hek]
    · rw [lstm_ref_df tg lm N C K T forget_bias h t n _ ht hn hk,
        lstm_ref_df tg lm N C K T forget_bias h' t n _ ht hn hk, i2, hdcs _ hek,
        hcsp _ hek]
    · rw [lstm_ref_do tg lm N C K T forget_bias h t n _ ht hn hk,
        lstm_ref_do tg lm N C K T forget_bias h' t n _ ht hn hk, i3, hdelta _ hek,
        ((fwd t ht).2 _ hek).1]
  refine ⟨fun e he => ⟨hdelta e he, hdcs e he, ?_⟩, hdicfo⟩
  obtain ⟨hn, hk, e1⟩ := elem_split_raw he
  rw [← e1, lstm_ref_dout_raw tg lm N C K T forget_bias h t _ _ ht hn hk,
    lstm_ref_dout_raw tg lm N C K T forget_bias h' t _ _ ht hn hk]
  congr 1
  refine sumTo_congr _ _ _ (fun q hq => ?_)
  rw [lstm_ref_r4 tg lm N C K T forget_bias h _ q hk hq,
    lstm_ref_r4 tg lm N C K T forget_bias h' _ q hk hq,
    hin ((base (gate_r (q / K))).idx (e % K * K + q % K)) (input_gate_r _),
    hdicfo _ q hn hq]

/-- The values of the backward pass of `lstm_ref` are determined by the buffers it only
reads, whatever the arithmetic is: two calls of the same build on memories that agree
there compute the same `delta_t`, the same cell-state gradient `dCS_t`, the same gate
gradients `dICFO_t` and the same recurrent delta (`dout_{t-1}`, or `dhpgold` at `t = 0`). -/
theorem lstm_bwd_same (tg : Bool) (lm : Libm α) (N C K T : Nat) (forget_bias : α)
    (h h' : Mem Buf α) (hin : ∀ q, lstm_input q.buf = true → h.read q = h'.read q)
    (t : Nat) (ht : t < T) :
    (∀ e, e < K * N →
      (lstm_ref tg lm N C K T forget_bias h).read ((seq_at .deltagoldt t (K * N)).idx e)
          = (lstm_ref tg lm N C K T forget_bias h').read
              ((seq_at .deltagoldt t (K * N)).idx e)
      ∧ (lstm_dcs tg lm N C K T forget_bias t h).read ((base .dcspgold).idx e)
          = (lstm_dcs tg lm N C K T forget_bias t h').read ((base .dcspgold).idx e)
      ∧ (lstm_ref tg lm N C K T forget_bias h).read (dout_prev N K t e)
          = (lstm_ref tg lm N C K T forget_bias h').read (dout_prev N K t e))
    ∧ (∀ n c, n < N → c < 4 * K →
      (lstm_ref tg lm N C K T forget_bias h).read (dicfo_elem N K t n c)
          = (lstm_ref tg lm N C K T forget_bias h').read (dicfo_elem N K t n c)) := by
  have key : ∀ d t, t + d + 1 = T →
      (∀ e, e < K * N →
        (lstm_ref tg lm N C K T forget_bias h).read ((seq_at .deltagoldt t (K * N)).idx e)
            = (lstm_ref tg lm N C K T forget_bias h').read
                ((seq_at .deltagoldt t (K * N)).idx e)
        ∧ (lstm_dcs tg lm N C K T forget_bias t h).read ((base .dcspgold).idx e)
            = (lstm_dcs tg lm N C K T forget_bias t h').read ((base .dcspgold).idx e)
        ∧ (lstm_ref tg lm N C K T forget_bias h).read (dout_prev N K t e)
            = (lstm_ref tg lm N C K T forget_bias h').read (dout_prev N K t e))
      ∧ (∀ n c, n < N → c < 4 * K →
        (lstm_ref tg lm N C K T forget_bias h).read (dicfo_elem N K t n c)
            = (lstm_ref tg lm N C K T forget_bias h').read (dicfo_elem N K t n c)) := by
    intro d
    induction d with
    | zero =>
      intro t hT
      exact lstm_bwd_same_step tg lm N C K T forget_bias h h' hin t (by omega)
        (fun hlt => absurd hlt (by omega))
    | succ d ih =>
      intro t hT
      exact lstm_bwd_same_step tg lm N C K T forget_bias h h' hin t (by omega)
        (fun _ e he => ⟨((ih (t + 1) (by omega)).1 e he).2.1,
          ((ih (t + 1) (by omega)).1 e he).2.2⟩)
  exact key (T - 1 - t) t (by omega)

/-- With no timestep, `lstm_ref` leaves the buffers outside the setup as they are,
whatever the arithmetic is. -/
theorem lstm_ref_no_step_raw (two_gemms : Bool) (lm : Libm α) (N C K : Nat)
    (forget_bias : α) (h : Mem Buf α) (q : Ptr Buf) (h5 : q.buf ≠ .bfgold_fb)
    (h6 : q.buf ≠ .w4gold ∧ q.buf ≠ .r4gold ∧ q.buf ≠ .wr8gold) :
    (lstm_ref two_gemms lm N C K 0 forget_bias h).read q = h.read q := by
  show (lstm_fuse_weights two_gemms C K (lstm_forget_bias K forget_bias h)).read q = _
  rw [lstm_fuse_weights_skip two_gemms C K q _ h6, lstm_forget_bias_skip K forget_bias q h h5]

/-- The gradients `lstm_ref` returns for the previous cell and hidden state are determined
by the buffers it only reads, whatever the arithmetic is. -/
theorem lstm_ref_prev_same (tg : Bool) (lm : Libm α) (N C K T : Nat)
    (forget_bias : α) (h h' : Mem Buf α)
    (hin : ∀ q, lstm_input q.buf = true → h.read q = h'.read q) (hT : 0 < T)
    (e : Nat) (he : e < K * N) :
    (lstm_ref tg lm N C K T forget_bias h).read ((base .dcspgold).idx e)
        = (lstm_ref tg lm N C K T forget_bias h').read ((base .dcspgold).idx e)
    ∧ (lstm_ref tg lm N C K T forget_bias h).read ((base .dhpgold).idx e)
        = (lstm_ref tg lm N C K T forget_bias h').read ((base .dhpgold).idx e) := by
  obtain ⟨hn, hk, _⟩ := elem_split_raw he
  have b0 := (lstm_bwd_same tg lm N C K T forget_bias h h' hin 0 hT).1 e he
  constructor
  · rw [lstm_ref_dcsp tg lm N C K T forget_bias h e hT he,
      lstm_ref_dcsp tg lm N C K T forget_bias h' e hT he,
      (lstm_fwd_same tg lm N C K T forget_bias h h' hin 0 hT).1 _ _ hn (by omega), b0.2.1]
  · have e0 : dout_prev N K 0 e = (base .dhpgold).idx e := by
      unfold dout_prev
      rw [if_pos rfl]
    rw [← e0]
    exact b0.2.2

/-- The input gradient is determined by the buffers `lstm_ref` only reads and, in the
`TWO_GEMMS` build, by what `dxgoldt` held before the call, whatever the arithmetic is. -/
theorem lstm_ref_dx_same (tg : Bool) (lm : Libm α) (N C K T : Nat)
    (forget_bias : α) (h h' : Mem Buf α)
    (hin : ∀ q, lstm_input q.buf = true → h.read q = h'.read q)
    (hdx : ∀ q, q.buf = .dxgoldt → h.read q = h'.read q)
    (t n c : Nat) (ht : t < T) (hn : n < N) (hc : c < C) :
    (lstm_ref tg lm N C K T forget_bias h).read
        ((seq_at .dxgoldt t (N * C)).idx (n * C + c))
      = (lstm_ref tg lm N C K T forget_bias h').read
        ((seq_at .dxgoldt t (N * C)).idx (n * C + c)) := by
  have hsum : sumTo (4 * K) (fun q =>
        (lstm_ref tg lm N C K T forget_bias h).read (w4_elem tg K c q)
          * (lstm_ref tg lm N C K T forget_bias h).read (dicfo_elem N K t n q))
      = sumTo (4 * K) (fun q =>
        (lstm_ref tg lm N C K T forget_bias h').read (w4_elem tg K c q)
          * (lstm_ref tg lm N C K T forget_bias h').read (dicfo_elem N K t n q)) := by
    refine sumTo_congr _ _ _ (fun q hq => ?_)
    rw [lstm_ref_w4 tg lm N C K T forget_bias h c q hc hq,
      lstm_ref_w4 tg lm N C K T forget_bias h' c q hc hq,
      hin ((base (gate_w (q / K))).idx (c * K + q % K)) (input_gate_w _),
      (lstm_bwd_same tg lm N C K T forget_bias h h' hin t ht).2 n q hn hq]
  rw [lstm_ref_dx_raw tg lm N C K T forget_bias h t n c ht hn hc,
    lstm_ref_dx_raw tg lm N C K T forget_bias h' t n c ht hn hc, hsum,
    hdx ((seq_at .dxgoldt t (N * C)).idx (n * C + c)) rfl]

/-- An accumulator of the backward loop agrees in two runs after every step when it agrees
before the loop and every step adds the same. -/
theorem bwd_acc_same {σ : Type} (A A' : Nat → σ) (T : Nat) (hT : A T = A' T)
    (hstep : ∀ j, j < T → A (j + 1) = A' (j + 1) → A j = A' j) (j : Nat) (hj : j ≤ T) :
    A j = A' j := by
  have key : ∀ d j, j + d = T → A j = A' j := by
    intro d
    induction d with
    | zero =>
      intro j hj
      have : j = T := by omega
      subst this
      exact hT
    | succ d ih =>
      intro j hj
      exact hstep j (by omega) (ih (j + 1) (by omega))
  exact key (T - j) j (by omega)

/-- The weight, recurrent-weight and bias gradients are determined by the buffers
`lstm_ref` only reads and by what the gradient buffers held before the call, whatever the
arithmetic is; the recurrent-weight gradient is `drgold` under `TWO_GEMMS` and rows
`C ..` of `dwgold` otherwise. -/
theorem lstm_ref_acc_same (tg : Bool) (lm : Libm α) (N C K T : Nat)
    (forget_bias : α) (h h' : Mem Buf α)
    (hin : ∀ q, lstm_input q.buf = true → h.read q = h'.read q) :
    (∀ c q, c < C → q < 4 * K →
      h.read ((base .dwgold).idx (c * (4 * K) + q))
        = h'.read ((base .dwgold).idx (c * (4 * K) + q)) →
      (lstm_ref tg lm N C K T forget_bias h).read ((base .dwgold).idx (c * (4 * K) + q))
        = (lstm_ref tg lm N C K T forget_bias h').read
            ((base .dwgold).idx (c * (4 * K) + q)))
    ∧ (∀ i q, i < K → q < 4 * K →
      h.read (dr_elem tg C K i q) = h'.read (dr_elem tg C K i q) →
      (lstm_ref tg lm N C K T forget_bias h).read (dr_elem tg C K i q)
        = (lstm_ref tg lm N C K T forget_bias h').read (dr_elem tg C K i q))
    ∧ (∀ i, i < 4 * K →
      h.read ((base .dbgold).idx i) = h'.read ((base .dbgold).idx i) →
      (lstm_ref tg lm N C K T forget_bias h).read ((base .dbgold).idx i)
        = (lstm_ref tg lm N C K T forget_bias h').read ((base .dbgold).idx i)) := by
  have fwd := lstm_fwd_same tg lm N C K T forget_bias h h' hin
  have bwd := lstm_bwd_same tg lm N C K T forget_bias h h' hin
  have top : ∀ (m : Mem Buf α) (q : Ptr Buf), q.buf ≠ .icfogoldt → q.buf ≠ .csgoldt →
      q.buf ≠ .hgoldt → fwd_scratch q.buf = false → q.buf ≠ .bfgold_fb →
      (q.buf ≠ .w4gold ∧ q.buf ≠ .r4gold ∧ q.buf ≠ .wr8gold) →
      (lstm_bwd tg lm N C K T forget_bias T m).read q = m.read q := by
    intro m q h1 h2 h3 h4 h5 h6
    rw [lstm_bwd_top]
    exact lstm_fwd_input tg lm N C K T forget_bias q m h1 h2 h3 h4 h5 h6
  refine ⟨fun c q hc hq h0 => ?_, fun i q hi hq h0 => ?_, fun i hi h0 => ?_⟩
  · rw [lstm_ref_eq_bwd tg lm N C K T forget_bias h,
      lstm_ref_eq_bwd tg lm N C K T forget_bias h']
    refine bwd_acc_same
      (fun j => (lstm_bwd tg lm N C K T forget_bias j h).read
        ((base .dwgold).idx (c * (4 * K) + q)))
      (fun j => (lstm_bwd tg lm N C K T forget_bias j h').read
        ((base .dwgold).idx (c * (4 * K) + q))) T ?_ (fun j hj hnext => ?_) 0 (Nat.zero_le T)
    · show (lstm_bwd tg lm N C K T forget_bias T h).read _
        = (lstm_bwd tg lm N C K T forget_bias T h').read _
      rw [top h ((base .dwgold).idx (c * (4 * K) + q)) nofun nofun nofun rfl nofun
          ⟨nofun, nofun, nofun⟩,
        top h' ((base .dwgold).idx (c * (4 * K) + q)) nofun nofun nofun rfl nofun
          ⟨nofun, nofun, nofun⟩, h0]
    · show (lstm_bwd tg lm N C K T forget_bias j h).read _
        = (lstm_bwd tg lm N C K T forget_bias j h').read _
      have hnext' : (lstm_bwd tg lm N C K T forget_bias (j + 1) h).read
          ((base .dwgold).idx (c * (4 * K) + q))
          = (lstm_bwd tg lm N C K T forget_bias (j + 1) h').read
            ((base .dwgold).idx (c * (4 * K) + q)) := hnext
      rw [lstm_bwd_dw_raw tg lm N C K T forget_bias h c q hc hq j hj,
        lstm_bwd_dw_raw tg lm N C K T forget_bias h' c q hc hq j hj, hnext']
      congr 2
      refine sumTo_congr _ _ _ (fun n hn => ?_)
      rw [(bwd j hj).2 n q hn hq, hin ((seq_at .xgoldt j (N * C)).idx (n * C + c)) rfl]
  · have hb := dr_elem_buf tg C K i q
    have hbuf : (dr_elem tg C K i q).buf = .dwgold ∨ (dr_elem tg C K i q).buf = .drgold := by
      unfold dr_elem
      cases tg
      · exact Or.inl rfl
      · exact Or.inr rfl
    rw [lstm_ref_eq_bwd tg lm N C K T forget_bias h,
      lstm_ref_eq_bwd tg lm N C K T forget_bias h']
    refine bwd_acc_same
      (fun j => (lstm_bwd tg lm N C K T forget_bias j h).read (dr_elem tg C K i q))
      (fun j => (lstm_bwd tg lm N C K T forget_bias j h').read (dr_elem tg C K i q))
      T ?_ (fun j hj hnext => ?_) 0 (Nat.zero_le T)
    · show (lstm_bwd tg lm N C K T forget_bias T h).read _
        = (lstm_bwd tg lm N C K T forget_bias T h').read _
      have side : (dr_elem tg C K i q).buf ≠ .icfogoldt ∧ (dr_elem tg C K i q).buf ≠ .csgoldt
          ∧ (dr_elem tg C K i q).buf ≠ .hgoldt ∧ fwd_scratch (dr_elem tg C K i q).buf = false
          ∧ (dr_elem tg C K i q).buf ≠ .bfgold_fb
          ∧ ((dr_elem tg C K i q).buf ≠ .w4gold ∧ (dr_elem tg C K i q).buf ≠ .r4gold
            ∧ (dr_elem tg C K i q).buf ≠ .wr8gold) := by
        rcases hbuf with e | e <;> rw [e] <;>
          exact ⟨nofun, nofun, nofun, rfl, nofun, nofun, nofun, nofun⟩
      rw [top h _ side.1 side.2.1 side.2.2.1 side.2.2.2.1 side.2.2.2.2.1 side.2.2.2.2.2,
        top h' _ side.1 side.2.1 side.2.2.1 side.2.2.2.1 side.2.2.2.2.1 side.2.2.2.2.2, h0]
    · show (lstm_bwd tg lm N C K T forget_bias j h).read _
        = (lstm_bwd tg lm N C K T forget_bias j h').read _
      have hnext' : (lstm_bwd tg lm N C K T forget_bias (j + 1) h).read (dr_elem tg C K i q)
          = (lstm_bwd tg lm N C K T forget_bias (j + 1) h').read (dr_elem tg C K i q) := hnext
      rw [lstm_bwd_dr_raw tg lm N C K T forget_bias h i q hi hq j hj,
        lstm_bwd_dr_raw tg lm N C K T forget_bias h' i q hi hq j hj, hnext']
      congr 2
      refine sumTo_congr _ _ _ (fun n hn => ?_)
      rw [(bwd j hj).2 n q hn hq, hin ((base .hpgold).idx (n * K + i)) rfl]
      by_cases hj0 : j = 0
      · rw [if_pos hj0, if_pos hj0]
      · rw [if_neg hj0, if_neg hj0,
          ((fwd (j - 1) (by omega)).2 (n * K + i) (tile_index_lt hn hi)).2]
  · obtain ⟨hg, hk, e⟩ := slot_split hi
    rw [← e] at h0 ⊢
    rw [lstm_ref_eq_bwd tg lm N C K T forget_bias h,
      lstm_ref_eq_bwd tg lm N C K T forget_bias h']
    refine bwd_acc_same
      (fun j => (lstm_bwd tg lm N C K T forget_bias j h).read
        ((base .dbgold).idx (i / K * K + i % K)))
      (fun j => (lstm_bwd tg lm N C K T forget_bias j h').read
        ((base .dbgold).idx (i / K * K + i % K))) T ?_ (fun j hj hnext => ?_) 0
      (Nat.zero_le T)
    · show (lstm_bwd tg lm N C K T forget_bias T h).read _
        = (lstm_bwd tg lm N C K T forget_bias T h').read _
      rw [top h ((base .dbgold).idx (i / K * K + i % K)) nofun nofun nofun rfl nofun
          ⟨nofun, nofun, nofun⟩,
        top h' ((base .dbgold).idx (i / K * K + i % K)) nofun nofun nofun rfl nofun
          ⟨nofun, nofun, nofun⟩, h0]
    · show (lstm_bwd tg lm N C K T forget_bias j h).read _
        = (lstm_bwd tg lm N C K T forget_bias j h').read _
      rw [lstm_bwd_db_raw tg lm N C K T forget_bias h _ _ hg hk j hj,
        lstm_bwd_db_raw tg lm N C K T forget_bias h' _ _ hg hk j hj]
      refine sumFrom_congr _ _ _ _ _ hnext (fun n hn => ?_)
      rw [(bwd j hj).2 n _ hn (by rw [e]; exact hi)]

end SameBuild

/-! ## The sign of a gradient over the reals -/

section GradientSign

/-- The gradient of the candidate gate, for a single timestep over the reals, when the
caller passes `dH_0 >= 0` and `dCS > 0`: it is positive. -/
theorem lstm_ref_dc_pos (tg : Bool) (N C K : Nat) (forget_bias : ℝ) (h : Mem Buf ℝ)
    (hdh : ∀ e, e < K * N → 0 ≤ h.read ((seq_at .dhgoldt 0 (K * N)).idx e))
    (hdcs : ∀ e, e < K * N → 0 < h.read ((base .dcsgold).idx e))
    (n k : Nat) (hn : n < N) (hk : k < K) :
    0 < (lstm_ref tg (Libm.mk Real.exp Real.tanh) N C K 1 forget_bias h).read
      (dicfo_elem N K 0 n (K + k)) := by
  have he : n * K + k < K * N := tile_index_lt hn hk
  have hi := lstm_ref_icfo tg (Libm.mk Real.exp Real.tanh) N C K 1 forget_bias h 0 0 n k
    Nat.one_pos (by decide) hn hk
  rw [Nat.zero_mul, Nat.zero_add, if_neg (by decide)] at hi
  have hc := lstm_ref_icfo tg (Libm.mk Real.exp Real.tanh) N C K 1 forget_bias h 0 1 n k
    Nat.one_pos (by decide) hn hk
  rw [Nat.one_mul, if_pos rfl] at hc
  have ho := lstm_ref_icfo tg (Libm.mk Real.exp Real.tanh) N C K 1 forget_bias h 0 3 n k
    Nat.one_pos (by decide) hn hk
  rw [if_neg (by decide)] at ho
  have hd := lstm_ref_delta tg (Libm.mk Real.exp Real.tanh) N C K 1 forget_bias h 0
    (n * K + k) Nat.one_pos he
  rw [if_pos rfl] at hd
  have hs := lstm_dcs_value tg (Libm.mk Real.exp Real.tanh) N C K 1 forget_bias h 0
    (n * K + k) Nat.one_pos he
  rw [if_pos rfl, tile_div hk, tile_mod hk, ho, hd] at hs
  rw [lstm_ref_dc tg (Libm.mk Real.exp Real.tanh) N C K 1 forget_bias h 0 n k Nat.one_pos hn
    hk, hi, hc, hs]
  have p1 := (sigmoid_value_real ((lstm_pre tg (Libm.mk Real.exp Real.tanh) N C K 0
    forget_bias h).read (icfo_elem N K 0 n k))).2.1
  have p2 := (sigmoid_value_real ((lstm_pre tg (Libm.mk Real.exp Real.tanh) N C K 0
    forget_bias h).read (icfo_elem N K 0 n (3 * K + k)))).2.1
  have p3 := tanh_real_range ((lstm_pre tg (Libm.mk Real.exp Real.tanh) N C K 0
    forget_bias h).read (icfo_elem N K 0 n (K + k)))
  have p4 := tanh_real_range ((lstm_ref tg (Libm.mk Real.exp Real.tanh) N C K 1
    forget_bias h).read ((seq_at .csgoldt 0 (K * N)).idx (n * K + k)))
  have p5 := hdh (n * K + k) he
  have p6 := hdcs (n * K + k) he
  have q3 : 0 < 1 - Real.tanh ((lstm_pre tg (Libm.mk Real.exp Real.tanh) N C K 0
      forget_bias h).read (icfo_elem N K 0 n (K + k)))
      * Real.tanh ((lstm_pre tg (Libm.mk Real.exp Real.tanh) N C K 0
      forget_bias h).read (icfo_elem N K 0 n (K + k))) := by nlinarith [p3.1, p3.2]
  have q4 : 0 < 1 - Real.tanh ((lstm_ref tg (Libm.mk Real.exp Real.tanh) N C K 1
      forget_bias h).read ((seq_at .csgoldt 0 (K * N)).idx (n * K + k)))
      * Real.tanh ((lstm_ref tg (Libm.mk Real.exp Real.tanh) N C K 1
      forget_bias h).read ((seq_at .csgoldt 0 (K * N)).idx (n * K + k))) := by
    nlinarith [p4.1, p4.2]
  exact mul_pos (mul_pos p1 (add_pos_of_nonneg_of_pos
    (mul_nonneg (mul_nonneg (le_of_lt p2) p5) (le_of_lt q4)) p6)) q3

/-- The gradient that `lstm_ref` leaves, from a zero-initialised element, for a weight of
the candidate gate, for a single timestep over the reals, when the caller passes positive
inputs, `dH_0 >= 0` and `dCS > 0`: it is positive. -/
theorem lstm_ref_dw_pos (tg : Bool) (N C K : Nat) (hN : 0 < N) (forget_bias : ℝ)
    (h : Mem Buf ℝ)
    (hdh : ∀ e, e < K * N → 0 ≤ h.read ((seq_at .dhgoldt 0 (K * N)).idx e))
    (hdcs : ∀ e, e < K * N → 0 < h.read ((base .dcsgold).idx e))
    (hx : ∀ i, 0 < h.read ((seq_at .xgoldt 0 (N * C)).idx i))
    (c k : Nat) (hc : c < C) (hk : k < K)
    (hz : h.read ((base .dwgold).idx (c * (4 * K) + (1 * K + k))) = 0) :
    0 < (lstm_ref tg (Libm.mk Real.exp Real.tanh) N C K 1 forget_bias h).read
      ((base .dwgold).idx (c * (4 * K) + (1 * K + k))) := by
  rw [lstm_ref_dw tg (Libm.mk Real.exp Real.tanh) N C K 1 forget_bias h c (1 * K + k) hc
    (by omega), hz, zero_add, Finset.sum_range_one, Nat.one_mul]
  exact Finset.sum_pos
    (fun n hn => mul_pos
      (lstm_ref_dc_pos tg N C K forget_bias h hdh hdcs n k (Finset.mem_range.mp hn) hk)
      (hx _))
    ⟨0, Finset.mem_range.mpr hN⟩

end GradientSign

/-! ## Buffer sizes in `int` arithmetic -/

section IntSizes

theorem int_wrap_modEq (x : Int) : int_wrap x ≡ x [ZMOD 4294967296] := by
  unfold int_wrap
  have h := (Int.mod_modEq (x + 2147483648) 4294967296).sub_right 2147483648
  rw [Int.add_sub_cancel] at h
  exact h

theorem int_wrap_congr {x y : Int} (h : x ≡ y [ZMOD 4294967296]) : int_wrap x = int_wrap y := by
  unfold int_wrap
  have h2 := h.add_right 2147483648
  unfold Int.ModEq at h2
  rw [h2]

/-- An `int` product of an `int` product is the product reduced once. -/
theorem int_wrap_mul_left (a b : Int) : int_wrap (int_wrap a * b) = int_wrap (a * b) :=
  int_wrap_congr ((int_wrap_modEq a).mul_right b)

/-- A natural number below `2^31` is an `int`. -/
theorem int_wrap_of_fits (n : Nat) (h : n < 2 ^ 31) : int_wrap (n : Int) = n := by
  unfold int_wrap
  omega

theorem malloc_of_nat (n : Nat) : libxsmm_aligned_malloc (n : Int) = n := by
  unfold libxsmm_aligned_malloc
  rw [if_pos (Int.ofNat_nonneg n)]
  exact Int.toNat_ofNat n

theorem malloc_wrap (n : Nat) (hn : n < 2 ^ 31) (e : Int) (he : e = (n : Int)) :
    libxsmm_aligned_malloc (int_wrap e) = n := by
  rw [he, int_wrap_of_fits n hn, malloc_of_nat]

/-- When no element count overflows `int`, every buffer has the elements that its size
expression denotes. -/
theorem buf_size_eq_elems (tg : Bool) (N C K T : Nat)
    (hfit : ∀ b, buf_elems tg N C K T b < 2 ^ 31) (b : Buf) :
    buf_size tg N C K T b = buf_elems tg N C K T b := by
  have hb := hfit b
  cases b <;> cases tg <;>
    simp only [buf_size, buf_elems, if_true, if_false, Bool.false_eq_true, int_mul, int_add,
      int_wrap_mul_left] at hb ⊢ <;>
    first
    | with_reducible exact malloc_wrap _ hb _ (by push_cast; ring)
    | with_reducible exact malloc_of_nat _

theorem sumTo_zero_terms {β : Type} [AddMonoid β] (n : Nat) (f : Nat → β)
    (hf : ∀ l, l < n → f l = 0) : sumTo n f = 0 := by
  induction n with
  | zero => rfl
  | succ n ih =>
    show sumTo n f + f n = 0
    rw [ih (fun l hl => hf l (Nat.lt_succ_of_lt hl)), hf n (Nat.lt_succ_self n), add_zero]

/-- On the memory `demo_mem_w` (zero weights, biases, inputs and states) the default build
stores `1/2` in element `0` of `icfogoldt`: the input gate of timestep `0`. -/
theorem lstm_ref_icfo_first (N C K T : Nat) (hT : 0 < T) (hN : 0 < N) (hK : 0 < K) :
    (lstm_ref false demo_libm_q N C K T 0 demo_mem_w).read (icfo_elem N K 0 0 (0 * K + 0))
      = 1 / 2 := by
  rw [lstm_ref_icfo false demo_libm_q N C K T 0 demo_mem_w 0 0 0 0 hT (by decide) hN hK,
    if_neg (by decide),
    lstm_pre_raw_single demo_libm_q N C K 0 0 demo_mem_w 0 0 0 (by decide) hN hK,
    sumTo_zero_terms (C + K) _ (fun l _ => by
      have e : (if l < C then demo_mem_w.read ((base (gate_w 0)).idx (l * K + 0))
          else demo_mem_w.read ((base (gate_r 0)).idx ((l - C) * K + 0))) = 0 := by
        split <;> rfl
      rw [e, zero_mul])]
  have e2 : (if (0 : Nat) = 2 then demo_mem_w.read ((base Buf.bfgold).idx 0) + 0
      else demo_mem_w.read ((base (gate_b 0)).idx 0)) = 0 := by
    rw [if_neg (by decide)]
    rfl
  rw [e2]
  norm_num [sigmoid_value, demo_libm_q]

end IntSizes

/-! ## The claims -/

section ForwardClaims

variable {α : Type} [Zero α] [One α] [Add α] [Sub α] [Mul α] [Div α] [Neg α]

/-- C1. For every timestep `t < T` and element `e < N*K`, the cell state `lstm_ref` returns
satisfies `CS_t[e] = f_t[e] * CS_{t-1}[e] + i_t[e] * c_t[e]`, where `i_t`, `c_t`, `f_t` are
slots 0, 1, 2 of `ICFO_t` (row `e / K`, column `e % K`) and `CS_{-1}` is the caller's
`cspgold` when `t = 0`.  It holds in both builds and for any arithmetic. -/
theorem c1_cell_state_recurrence (two_gemms : Bool) (lm : Libm α) (N C K T : Nat)
    (forget_bias : α) (h : Mem Buf α) (t e : Nat) (ht : t < T) (he : e < N * K) :
    (lstm_ref two_gemms lm N C K T forget_bias h).read ((seq_at .csgoldt t (K * N)).idx e)
      = (lstm_ref two_gemms lm N C K T forget_bias h).read
            (icfo_elem N K t (e / K) (2 * K + e % K))
          * (if t = 0 then h.read ((base .cspgold).idx e)
             else (lstm_ref two_gemms lm N C K T forget_bias h).read
               ((seq_at .csgoldt (t - 1) (K * N)).idx e))
        + (lstm_ref two_gemms lm N C K T forget_bias h).read (icfo_elem N K t (e / K) (e % K))
          * (lstm_ref two_gemms lm N C K T forget_bias h).read
            (icfo_elem N K t (e / K) (K + e % K)) :=
  lstm_ref_cell two_gemms lm N C K T forget_bias h t e ht (by rw [Nat.mul_comm]; exact he)

theorem c1_cell_state_recurrence_witness :
    (lstm_ref false demo_libm 1 1 2 2 1 demo_mem).read
        ((seq_at .csgoldt 1 (2 * 1)).idx 1)
      = (lstm_ref false demo_libm 1 1 2 2 1 demo_mem).read
            (icfo_elem 1 2 1 (1 / 2) (2 * 2 + 1 % 2))
          * (if 1 = 0 then demo_mem.read ((base .cspgold).idx 1)
             else (lstm_ref false demo_libm 1 1 2 2 1 demo_mem).read
               ((seq_at .csgoldt (1 - 1) (2 * 1)).idx 1))
        + (lstm_ref false demo_libm 1 1 2 2 1 demo_mem).read
            (icfo_elem 1 2 1 (1 / 2) (1 % 2))
          * (lstm_ref false demo_libm 1 1 2 2 1 demo_mem).read
            (icfo_elem 1 2 1 (1 / 2) (2 + 1 % 2)) :=
  c1_cell_state_recurrence false demo_libm 1 1 2 2 1 demo_mem 1 1 (by decide) (by decide)

/-- C2. For every timestep `t < T` and element `e < N*K`, the hidden state `lstm_ref`
returns satisfies `H_t[e] = o_t[e] * tanh(CS_t[e])`, `o_t` being slot 3 of `ICFO_t`. -/
theorem c2_hidden_state (two_gemms : Bool) (lm : Libm α) (N C K T : Nat)
    (forget_bias : α) (h : Mem Buf α) (t e : Nat) (ht : t < T) (he : e < N * K) :
    (lstm_ref two_gemms lm N C K T forget_bias h).read ((seq_at .hgoldt t (K * N)).idx e)
      = (lstm_ref two_gemms lm N C K T forget_bias h).read
            (icfo_elem N K t (e / K) (3 * K + e % K))
          * lm.tanh ((lstm_ref two_gemms lm N C K T forget_bias h).read
              ((seq_at .csgoldt t (K * N)).idx e)) :=
  lstm_ref_hidden two_gemms lm N C K T forget_bias h t e ht (by rw [Nat.mul_comm]; exact he)

theorem c2_hidden_state_witness :
    (lstm_ref false demo_libm 1 1 2 2 1 demo_mem).read
        ((seq_at .hgoldt 1 (2 * 1)).idx 1)
      = (lstm_ref false demo_libm 1 1 2 2 1 demo_mem).read
            (icfo_elem 1 2 1 (1 / 2) (3 * 2 + 1 % 2))
          * demo_libm.tanh
              ((lstm_ref false demo_libm 1 1 2 2 1 demo_mem).read
                ((seq_at .csgoldt 1 (2 * 1)).idx 1)) :=
  c2_hidden_state false demo_libm 1 1 2 2 1 demo_mem 1 1 (by decide) (by decide)

/-- C4. At every timestep `t < T`, batch row `n < N` and `k < K`, the bias `lstm_ref` copies
into the forget-gate slot (slot 2) of `ICFO_t` is `bfgold[k] + forget_bias`, the slots of
the `i`, `c` and `o` gates get the raw biases `bigold[k]`, `bcgold[k]`, `bogold[k]`, and the
caller's `bfgold` buffer is unchanged when `lstm_ref` returns. -/
theorem c4_forget_bias (two_gemms : Bool) (lm : Libm α) (N C K T : Nat)
    (forget_bias : α) (h : Mem Buf α) (t n k : Nat) (ht : t < T) (hn : n < N) (hk : k < K) :
    (lstm_biased two_gemms lm N C K t forget_bias h).read (icfo_elem N K t n (2 * K + k))
        = h.read ((base .bfgold).idx k) + forget_bias
    ∧ (lstm_biased two_gemms lm N C K t forget_bias h).read (icfo_elem N K t n k)
        = h.read ((base .bigold).idx k)
    ∧ (lstm_biased two_gemms lm N C K t forget_bias h).read (icfo_elem N K t n (K + k))
        = h.read ((base .bcgold).idx k)
    ∧ (lstm_biased two_gemms lm N C K t forget_bias h).read (icfo_elem N K t n (3 * K + k))
        = h.read ((base .bogold).idx k)
    ∧ ∀ i, (lstm_ref two_gemms lm N C K T forget_bias h).read ((base .bfgold).idx i)
        = h.read ((base .bfgold).idx i) := by
  have h0 := lstm_biased_value two_gemms lm N C K t forget_bias h 0 n k (by omega) hn hk
  have h1 := lstm_biased_value two_gemms lm N C K t forget_bias h 1 n k (by omega) hn hk
  have h2 := lstm_biased_value two_gemms lm N C K t forget_bias h 2 n k (by omega) hn hk
  have h3 := lstm_biased_value two_gemms lm N C K t forget_bias h 3 n k (by omega) hn hk
  rw [Nat.zero_mul, Nat.zero_add] at h0
  rw [Nat.one_mul] at h1
  refine ⟨h2, h0, h1, h3, fun i => ?_⟩
  rw [lstm_ref_settled two_gemms lm N C K 0 T forget_bias ((base .bfgold).idx i)
    (Nat.zero_le T) (settled_other nofun nofun nofun rfl) rfl h]
  exact lstm_fwd_input two_gemms lm N C K 0 forget_bias _ h nofun nofun nofun rfl nofun
    ⟨nofun, nofun, nofun⟩

theorem c4_forget_bias_witness :
    (lstm_biased false demo_libm 1 1 2 1 2 demo_mem).read
        (icfo_elem 1 2 1 0 (2 * 2 + 1))
        = demo_mem.read ((base .bfgold).idx 1) + 2
    ∧ (lstm_biased false demo_libm 1 1 2 1 2 demo_mem).read
        (icfo_elem 1 2 1 0 1)
        = demo_mem.read ((base .bigold).idx 1)
    ∧ (lstm_biased false demo_libm 1 1 2 1 2 demo_mem).read
        (icfo_elem 1 2 1 0 (2 + 1))
        = demo_mem.read ((base .bcgold).idx 1)
    ∧ (lstm_biased false demo_libm 1 1 2 1 2 demo_mem).read
        (icfo_elem 1 2 1 0 (3 * 2 + 1))
        = demo_mem.read ((base .bogold).idx 1)
    ∧ ∀ i, (lstm_ref false demo_libm 1 1 2 2 2 demo_mem).read
        ((base .bfgold).idx i)
        = demo_mem.read ((base .bfgold).idx i) :=
  c4_forget_bias false demo_libm 1 1 2 2 2 demo_mem 1 0 1 (by decide) (by decide)
    (by decide)

/-- C5. At every timestep `t < T` the nonlinearities are applied in the fixed gate order
(i, c, f, o): slots 0 (i), 2 (f) and 3 (o) of `ICFO_t` hold the sigmoid
`1 / (1 + exp(-z))` of the value `z` they held just before the nonlinearity, slot 1 (c)
holds `tanh z`; each element is transformed once, and this is what `lstm_ref` still holds
when it returns. -/
theorem c5_gate_nonlinearities (two_gemms : Bool) (lm : Libm α) (N C K T : Nat)
    (forget_bias : α) (h : Mem Buf α) (t n k : Nat) (ht : t < T) (hn : n < N) (hk : k < K) :
    (lstm_ref two_gemms lm N C K T forget_bias h).read (icfo_elem N K t n k)
        = 1 / (1 + lm.exp
            (-(lstm_pre two_gemms lm N C K t forget_bias h).read (icfo_elem N K t n k)))
    ∧ (lstm_ref two_gemms lm N C K T forget_bias h).read (icfo_elem N K t n (K + k))
        = lm.tanh ((lstm_pre two_gemms lm N C K t forget_bias h).read
            (icfo_elem N K t n (K + k)))
    ∧ (lstm_ref two_gemms lm N C K T forget_bias h).read (icfo_elem N K t n (2 * K + k))
        = 1 / (1 + lm.exp
            (-(lstm_pre two_gemms lm N C K t forget_bias h).read
              (icfo_elem N K t n (2 * K + k))))
    ∧ (lstm_ref two_gemms lm N C K T forget_bias h).read (icfo_elem N K t n (3 * K + k))
        = 1 / (1 + lm.exp
            (-(lstm_pre two_gemms lm N C K t forget_bias h).read
              (icfo_elem N K t n (3 * K + k)))) := by
  have h0 := lstm_ref_icfo two_gemms lm N C K T forget_bias h t 0 n k ht (by omega) hn hk
  have h1 := lstm_ref_icfo two_gemms lm N C K T forget_bias h t 1 n k ht (by omega) hn hk
  have h2 := lstm_ref_icfo two_gemms lm N C K T forget_bias h t 2 n k ht (by omega) hn hk
  have h3 := lstm_ref_icfo two_gemms lm N C K T forget_bias h t 3 n k ht (by omega) hn hk
  rw [Nat.zero_mul, Nat.zero_add] at h0
  rw [Nat.one_mul] at h1
  exact ⟨h0, h1, h2, h3⟩

theorem c5_gate_nonlinearities_witness :
    (lstm_ref false demo_libm 1 1 2 2 1 demo_mem).read (icfo_elem 1 2 1 0 1)
        = 1 / (1 + demo_libm.exp
            (-(lstm_pre false demo_libm 1 1 2 1 1 demo_mem).read
              (icfo_elem 1 2 1 0 1)))
    ∧ (lstm_ref false demo_libm 1 1 2 2 1 demo_mem).read
        (icfo_elem 1 2 1 0 (2 + 1))
        = demo_libm.tanh
            ((lstm_pre false demo_libm 1 1 2 1 1 demo_mem).read
              (icfo_elem 1 2 1 0 (2 + 1)))
    ∧ (lstm_ref false demo_libm 1 1 2 2 1 demo_mem).read
        (icfo_elem 1 2 1 0 (2 * 2 + 1))
        = 1 / (1 + demo_libm.exp
            (-(lstm_pre false demo_libm 1 1 2 1 1 demo_mem).read
              (icfo_elem 1 2 1 0 (2 * 2 + 1))))
    ∧ (lstm_ref false demo_libm 1 1 2 2 1 demo_mem).read
        (icfo_elem 1 2 1 0 (3 * 2 + 1))
        = 1 / (1 + demo_libm.exp
            (-(lstm_pre false demo_libm 1 1 2 1 1 demo_mem).read
              (icfo_elem 1 2 1 0 (3 * 2 + 1)))) :=
  c5_gate_nonlinearities false demo_libm 1 1 2 2 1 demo_mem 1 0 1 (by decide) (by decide)
    (by decide)

end ForwardClaims

section Claims

variable {β α : Type} [DecidableEq β]

/-- C6. Layout round trip: for four `C x K` matrices `M 0 .. M 3` (stored outside the fused
buffer), placing each with `convert_ck_c4k(C, K, M_g, &fused[g*K])` and then running
`convert_c4k_4ck(C, K, fused, out)` gives `out[g*C*K + y*K + x] = M_g[y*K + x]` for every
`g < 4`, `y < C`, `x < K`: the very value of the source element. -/
theorem c6_layout_round_trip (C K : Nat) (M : Nat → Ptr β) (fused out : Ptr β) (h : Mem β α)
    (hM : ∀ g, g < 4 → (M g).buf ≠ fused.buf) (hout : fused.buf ≠ out.buf)
    (g y x : Nat) (hg : g < 4) (hy : y < C) (hx : x < K) :
    (convert_c4k_4ck C K fused out (fuse_gates C K M fused h)).read
        (out.idx (g * C * K + y * K + x))
      = h.read ((M g).idx (y * K + x)) := by
  rw [convert_c4k_4ck_value C K fused out _ hout g y x hg hy hx]
  have e : y * 4 * K + g * K + x = y * (4 * K) + (g * K + x) := by
    rw [Nat.mul_assoc, Nat.add_assoc]
  rw [e]
  exact fuse_gates_value C K M fused h hM g y x hg hy hx

theorem c6_layout_round_trip_witness :
    (convert_c4k_4ck 2 2 (⟨4, 0⟩ : Ptr Nat) ⟨5, 0⟩
        (fuse_gates 2 2 (fun g => ⟨g, 0⟩) ⟨4, 0⟩ ⟨fun b i => 10 * b + i⟩)).read
        (Ptr.idx ⟨5, 0⟩ (1 * 2 * 2 + 1 * 2 + 1)) = 13 :=
  c6_layout_round_trip 2 2 (fun g => ⟨g, 0⟩) ⟨4, 0⟩ ⟨5, 0⟩ ⟨fun b i => 10 * b + i⟩
    (by decide) (by decide) 1 1 1 (by decide) (by decide) (by decide)

/-- C7. The conversion is lossless in the other direction: extracting the four gates of a
fused buffer `F` with `convert_c4k_4ck(C, K, F, S)` and placing each block back with
`convert_ck_c4k(C, K, &S[g*C*K], &F2[g*K])`, `g = 0 .. 3`, gives `F2[i] = F[i]` at every
index `i < 4*C*K`. -/
theorem c7_fused_lossless (C K : Nat) (F S F2 : Ptr β) (h : Mem β α)
    (hS : F.buf ≠ S.buf) (hS2 : S.buf ≠ F2.buf) (i : Nat) (hi : i < 4 * C * K) :
    (fuse_gates C K (fun g => S.idx (g * C * K)) F2 (convert_c4k_4ck C K F S h)).read (F2.idx i)
      = h.read (F.idx i) := by
  obtain ⟨g, y, x, hg, hy, hx, rfl⟩ := fused_cover C K i hi
  rw [fuse_gates_value C K (fun g => S.idx (g * C * K)) F2 _ (fun _ _ => hS2) g y x hg hy hx,
    Ptr.idx_idx, ← Nat.add_assoc, convert_c4k_4ck_value C K F S h hS g y x hg hy hx]
  congr 2
  rw [Nat.mul_assoc, Nat.add_assoc]

theorem c7_fused_lossless_witness :
    (fuse_gates 2 2 (fun g => Ptr.idx ⟨1, 0⟩ (g * 2 * 2)) (⟨2, 0⟩ : Ptr Nat)
        (convert_c4k_4ck 2 2 ⟨0, 0⟩ ⟨1, 0⟩ ⟨fun b i => 100 * b + i⟩)).read (Ptr.idx ⟨2, 0⟩ 13)
      = 13 :=
  c7_fused_lossless 2 2 ⟨0, 0⟩ ⟨1, 0⟩ ⟨2, 0⟩ ⟨fun b i => 100 * b + i⟩ (by decide) (by decide)
    13 (by decide)

/-- C8. For a gate slot `g < 4` and a source outside the fused buffer `D`,
`convert_ck_c4k(rows, cols, M, &D[g*cols])` sets `D[y*4*cols + g*cols + x] = M[y*cols + x]`
for all `y < rows`, `x < cols` (stride `4*cols` whatever `g` is), leaves every other
location unchanged, and every index of `D` below `4*rows*cols` belongs to exactly one
slot element `(g, y, x)`. -/
theorem c8_slot_placement (rows cols g : Nat) (M D : Ptr β) (h : Mem β α) (hg : g < 4)
    (hM : M.buf ≠ D.buf) :
    (∀ y x, y < rows → x < cols →
      (convert_ck_c4k rows cols M (D.idx (g * cols)) h).read (D.idx (y * 4 * cols + g * cols + x))
        = h.read (M.idx (y * cols + x)))
    ∧ (∀ q : Ptr β, (∀ y x, y < rows → x < cols → q ≠ D.idx (y * 4 * cols + g * cols + x)) →
      (convert_ck_c4k rows cols M (D.idx (g * cols)) h).read q = h.read q)
    ∧ (∀ i, i < 4 * rows * cols →
      ∃! s : Nat × Nat × Nat, s.1 < 4 ∧ s.2.1 < rows ∧ s.2.2 < cols
        ∧ i = s.2.1 * 4 * cols + s.1 * cols + s.2.2) := by
  have e : ∀ g y x : Nat, y * 4 * cols + g * cols + x = y * (4 * cols) + (g * cols + x) := by
    intro g y x
    rw [Nat.mul_assoc, Nat.add_assoc]
  refine ⟨?_, ?_, ?_⟩
  · intro y x hy hx
    rw [e, convert_ck_c4k_slot rows cols M D h g g y x hg hg hy hx hM, if_pos rfl]
  · intro q hq
    apply convert_ck_c4k_frame
    intro y x hy hx he
    rw [slot_ptr, ← e] at he
    exact hq y x hy hx he.symm
  · intro i hi
    obtain ⟨g', y, x, hg', hy, hx, rfl⟩ := fused_cover rows cols i hi
    refine ⟨(g', y, x), ⟨hg', hy, hx, (e g' y x).symm⟩, ?_⟩
    rintro ⟨g2, y2, x2⟩ ⟨h1, h2, h3, h4⟩
    simp only at h1 h2 h3 h4
    rw [e] at h4
    obtain ⟨a1, a2, a3⟩ := fused_inj hg' hx h1 h3 h4
    rw [a1, a2, a3]

theorem c8_slot_placement_witness :
    (∀ y x, y < 2 → x < 3 →
      (convert_ck_c4k 2 3 (⟨0, 0⟩ : Ptr Nat) (Ptr.idx ⟨1, 0⟩ (2 * 3))
          ⟨fun b i => 100 * b + i⟩).read (Ptr.idx ⟨1, 0⟩ (y * 4 * 3 + 2 * 3 + x))
        = Mem.read (⟨fun b i => 100 * b + i⟩ : Mem Nat Nat) (Ptr.idx ⟨0, 0⟩ (y * 3 + x)))
    ∧ (∀ q : Ptr Nat, (∀ y x, y < 2 → x < 3 → q ≠ Ptr.idx ⟨1, 0⟩ (y * 4 * 3 + 2 * 3 + x)) →
      (convert_ck_c4k 2 3 (⟨0, 0⟩ : Ptr Nat) (Ptr.idx ⟨1, 0⟩ (2 * 3))
          ⟨fun b i => 100 * b + i⟩).read q = Mem.read (⟨fun b i => 100 * b + i⟩ : Mem Nat Nat) q)
    ∧ (∀ i, i < 4 * 2 * 3 →
      ∃! s : Nat × Nat × Nat, s.1 < 4 ∧ s.2.1 < 2 ∧ s.2.2 < 3
        ∧ i = s.2.1 * 4 * 3 + s.1 * 3 + s.2.2) :=
  c8_slot_placement 2 3 2 ⟨0, 0⟩ ⟨1, 0⟩ ⟨fun b i => 100 * b + i⟩ (by decide) (by decide)

/-- C9. After `convert_nk_nck(N, C, C+K, x, xh)` followed by
`convert_nk_nck(N, K, C+K, hp, &xh[C])` (sources outside `xh`), row `n < N` of `xh` holds
`xh[n*(C+K) + q] = x[n*C + q]` for `q < C` and `xh[n*(C+K) + q] = hp[n*K + (q - C)]` for
`C ≤ q < C+K`; every index below `(C+K)*N` is such an element, so none keeps its prior
content. -/
theorem c9_concat_rows (N C K : Nat) (x hp xh : Ptr β) (h : Mem β α) (hx : x.buf ≠ xh.buf)
    (hh : hp.buf ≠ xh.buf) :
    (∀ n q, n < N → q < C + K →
      (concat_rows N C K x hp xh h).read (xh.idx (n * (C + K) + q))
        = if q < C then h.read (x.idx (n * C + q)) else h.read (hp.idx (n * K + (q - C))))
    ∧ (∀ i, i < (C + K) * N → ∃ n q, n < N ∧ q < C + K ∧ i = n * (C + K) + q) := by
  constructor
  · intro n q hn hq
    split
    · next hlt => exact concat_rows_left N C K x hp xh h hx n q hn hlt
    · next hge =>
      have e : q = C + (q - C) := by omega
      rw [e, concat_rows_right N C K x hp xh h hx hh n (q - C) hn (by omega)]
      congr 3
      omega
  · intro i hi
    refine ⟨i / (C + K), i % (C + K), Nat.div_lt_of_lt_mul hi, mod_lt_of_lt_mul hi, ?_⟩
    rw [Nat.mul_comm]
    exact (Nat.div_add_mod i (C + K)).symm

theorem c9_concat_rows_witness :
    (∀ n q, n < 2 → q < 2 + 1 →
      (concat_rows 2 2 1 (⟨0, 0⟩ : Ptr Nat) ⟨1, 0⟩ ⟨2, 0⟩ ⟨fun b i => 100 * b + i⟩).read
          (Ptr.idx ⟨2, 0⟩ (n * (2 + 1) + q))
        = if q < 2 then Mem.read (⟨fun b i => 100 * b + i⟩ : Mem Nat Nat) (Ptr.idx ⟨0, 0⟩ (n * 2 + q))
          else Mem.read (⟨fun b i => 100 * b + i⟩ : Mem Nat Nat) (Ptr.idx ⟨1, 0⟩ (n * 1 + (q - 2))))
    ∧ (∀ i, i < (2 + 1) * 2 → ∃ n q, n < 2 ∧ q < 2 + 1 ∧ i = n * (2 + 1) + q) :=
  c9_concat_rows 2 2 1 ⟨0, 0⟩ ⟨1, 0⟩ ⟨2, 0⟩ ⟨fun b i => 100 * b + i⟩ (by decide) (by decide)

end Claims

section ExactClaims

variable {α : Type} [Field α]

/-- C3. In exact arithmetic (any field), for every timestep `t < T`, batch row `n < N`,
`k < K` and gate slot `g` in {0 = i, 1 = c, 3 = o}, the value the single-multiply build of
`lstm_ref` holds in `ICFO_t[n*4K + g*K + k]` just before the nonlinearity is
`b_g[k] + sum_{c<C} W_g[c*K + k] * X_t[n*C + c] + sum_{j<K} R_g[j*K + k] * H_{t-1}[n*K + j]`,
with `H_{-1} = hpgold` at `t = 0`. -/
theorem c3_pre_activation (lm : Libm α) (N C K T : Nat) (forget_bias : α) (h : Mem Buf α)
    (t g n k : Nat) (ht : t < T) (hg : g < 4) (hg2 : g ≠ 2) (hn : n < N) (hk : k < K) :
    (lstm_pre false lm N C K t forget_bias h).read (icfo_elem N K t n (g * K + k))
      = h.read ((base (gate_b g)).idx k)
        + ∑ c in Finset.range C,
            h.read ((base (gate_w g)).idx (c * K + k))
              * h.read ((seq_at .xgoldt t (N * C)).idx (n * C + c))
        + ∑ j in Finset.range K,
            h.read ((base (gate_r g)).idx (j * K + k))
              * (if t = 0 then h.read ((base .hpgold).idx (n * K + j))
                 else (lstm_ref false lm N C K T forget_bias h).read
                   ((seq_at .hgoldt (t - 1) (K * N)).idx (n * K + j))) := by
  rw [lstm_pre_final false lm N C K T forget_bias h t g n k ht hg hn hk, if_neg hg2]

theorem c3_pre_activation_witness :
    (lstm_pre false demo_libm_q 2 2 2 1 3 demo_mem_q).read (icfo_elem 2 2 1 1 (3 * 2 + 1))
      = demo_mem_q.read ((base (gate_b 3)).idx 1)
        + ∑ c in Finset.range 2,
            demo_mem_q.read ((base (gate_w 3)).idx (c * 2 + 1))
              * demo_mem_q.read ((seq_at .xgoldt 1 (2 * 2)).idx (1 * 2 + c))
        + ∑ j in Finset.range 2,
            demo_mem_q.read ((base (gate_r 3)).idx (j * 2 + 1))
              * (if 1 = 0 then demo_mem_q.read ((base .hpgold).idx (1 * 2 + j))
                 else (lstm_ref false demo_libm_q 2 2 2 2 3 demo_mem_q).read
                   ((seq_at .hgoldt (1 - 1) (2 * 2)).idx (1 * 2 + j))) :=
  c3_pre_activation demo_libm_q 2 2 2 2 3 demo_mem_q 1 3 1 1 (by decide) (by decide)
    (by decide) (by decide) (by decide)

/-- C10. Forward strategy equivalence: in exact arithmetic (any field), for all inputs and
every timestep `t < T`, `lstm_ref` built with `TWO_GEMMS` and `lstm_ref` built without it
hold the same `ICFO_t` (before and after the nonlinearity) and return the same `CS_t` and
`H_t`. -/
theorem c10_forward_strategy_equivalence (lm : Libm α) (N C K T : Nat) (forget_bias : α)
    (h : Mem Buf α) (t : Nat) (ht : t < T) :
    (∀ n c, n < N → c < 4 * K →
      (lstm_pre true lm N C K t forget_bias h).read (icfo_elem N K t n c)
          = (lstm_pre false lm N C K t forget_bias h).read (icfo_elem N K t n c)
      ∧ (lstm_ref true lm N C K T forget_bias h).read (icfo_elem N K t n c)
          = (lstm_ref false lm N C K T forget_bias h).read (icfo_elem N K t n c))
    ∧ (∀ e, e < N * K →
      (lstm_ref true lm N C K T forget_bias h).read ((seq_at .csgoldt t (K * N)).idx e)
          = (lstm_ref false lm N C K T forget_bias h).read ((seq_at .csgoldt t (K * N)).idx e)
      ∧ (lstm_ref true lm N C K T forget_bias h).read ((seq_at .hgoldt t (K * N)).idx e)
          = (lstm_ref false lm N C K T forget_bias h).read ((seq_at .hgoldt t (K * N)).idx e)) := by
  obtain ⟨h1, h2⟩ := lstm_builds_agree lm N C K T forget_bias h t ht
  exact ⟨h1, fun e he => h2 e (by rw [Nat.mul_comm]; exact he)⟩

theorem c10_forward_strategy_equivalence_witness :
    (∀ n c, n < 2 → c < 4 * 2 →
      (lstm_pre true demo_libm_q 2 2 2 1 3 demo_mem_q).read (icfo_elem 2 2 1 n c)
          = (lstm_pre false demo_libm_q 2 2 2 1 3 demo_mem_q).read (icfo_elem 2 2 1 n c)
      ∧ (lstm_ref true demo_libm_q 2 2 2 2 3 demo_mem_q).read (icfo_elem 2 2 1 n c)
          = (lstm_ref false demo_libm_q 2 2 2 2 3 demo_mem_q).read (icfo_elem 2 2 1 n c))
    ∧ (∀ e, e < 2 * 2 →
      (lstm_ref true demo_libm_q 2 2 2 2 3 demo_mem_q).read ((seq_at .csgoldt 1 (2 * 2)).idx e)
          = (lstm_ref false demo_libm_q 2 2 2 2 3 demo_mem_q).read
              ((seq_at .csgoldt 1 (2 * 2)).idx e)
      ∧ (lstm_ref true demo_libm_q 2 2 2 2 3 demo_mem_q).read ((seq_at .hgoldt 1 (2 * 2)).idx e)
          = (lstm_ref false demo_libm_q 2 2 2 2 3 demo_mem_q).read
              ((seq_at .hgoldt 1 (2 * 2)).idx e)) :=
  c10_forward_strategy_equivalence demo_libm_q 2 2 2 2 3 demo_mem_q 1 (by decide)

end ExactClaims

section BackwardClaims

variable {α : Type} [Zero α] [One α] [Add α] [Sub α] [Mul α] [Div α] [Neg α]

/-- C12. For every timestep `t < T` and element `e < N*K`, the cell-state gradient that
the gate gradients of timestep `t` are computed from (the content of `dcspgold` after
"compute dcsp") is `dCS_t[e] = delta_t[e] * o_t[e] * (1 - tanh(CS_t[e])^2) + carry_t[e]`,
with `carry_{T-1} = dcsgold` and `carry_t = f_{t+1} * dCS_{t+1}` below the last timestep
(multiplication being commutative, as it is for floats and reals); and it does not depend
on what `dcspgold` held at the call: two calls that differ in that buffer only have the
same `dCS_t`. -/
theorem c12_cell_state_gradient (two_gemms : Bool) (lm : Libm α) (N C K T : Nat)
    (forget_bias : α) (h : Mem Buf α) (hmul : ∀ a b : α, a * b = b * a) (t : Nat)
    (ht : t < T) :
    (∀ e, e < N * K →
      (lstm_dcs two_gemms lm N C K T forget_bias t h).read ((base .dcspgold).idx e)
        = (lstm_ref two_gemms lm N C K T forget_bias h).read
                ((seq_at .deltagoldt t (K * N)).idx e)
              * (lstm_ref two_gemms lm N C K T forget_bias h).read
                (icfo_elem N K t (e / K) (3 * K + e % K))
            * (1 - lm.tanh ((lstm_ref two_gemms lm N C K T forget_bias h).read
                  ((seq_at .csgoldt t (K * N)).idx e))
                * lm.tanh ((lstm_ref two_gemms lm N C K T forget_bias h).read
                  ((seq_at .csgoldt t (K * N)).idx e)))
          + (if t = T - 1 then h.read ((base .dcsgold).idx e)
             else (lstm_ref two_gemms lm N C K T forget_bias h).read
                 (icfo_elem N K (t + 1) (e / K) (2 * K + e % K))
               * (lstm_dcs two_gemms lm N C K T forget_bias (t + 1) h).read
                 ((base .dcspgold).idx e)))
    ∧ (∀ h' : Mem Buf α, (∀ q : Ptr Buf, q.buf ≠ .dcspgold → h.read q = h'.read q) →
        ∀ e, e < N * K →
          (lstm_dcs two_gemms lm N C K T forget_bias t h).read ((base .dcspgold).idx e)
            = (lstm_dcs two_gemms lm N C K T forget_bias t h').read
                ((base .dcspgold).idx e)) := by
  refine ⟨fun e he => ?_, fun h' hh e he => ?_⟩
  · rw [lstm_dcs_value two_gemms lm N C K T forget_bias h t e ht
        (by rw [Nat.mul_comm]; exact he),
      hmul ((lstm_ref two_gemms lm N C K T forget_bias h).read
        (icfo_elem N K t (e / K) (3 * K + e % K)))]
  · exact lstm_dcs_unread two_gemms lm N C K T forget_bias h h' hh t e ht
      (by rw [Nat.mul_comm]; exact he)

theorem c12_cell_state_gradient_witness :
    (∀ e, e < 1 * 2 →
      (lstm_dcs false demo_libm 1 1 2 2 1 0 demo_mem).read ((base .dcspgold).idx e)
        = (lstm_ref false demo_libm 1 1 2 2 1 demo_mem).read
                ((seq_at .deltagoldt 0 (2 * 1)).idx e)
              * (lstm_ref false demo_libm 1 1 2 2 1 demo_mem).read
                (icfo_elem 1 2 0 (e / 2) (3 * 2 + e % 2))
            * (1 - demo_libm.tanh ((lstm_ref false demo_libm 1 1 2 2 1 demo_mem).read
                  ((seq_at .csgoldt 0 (2 * 1)).idx e))
                * demo_libm.tanh ((lstm_ref false demo_libm 1 1 2 2 1 demo_mem).read
                  ((seq_at .csgoldt 0 (2 * 1)).idx e)))
          + (if 0 = 2 - 1 then demo_mem.read ((base .dcsgold).idx e)
             else (lstm_ref false demo_libm 1 1 2 2 1 demo_mem).read
                 (icfo_elem 1 2 (0 + 1) (e / 2) (2 * 2 + e % 2))
               * (lstm_dcs false demo_libm 1 1 2 2 1 (0 + 1) demo_mem).read
                 ((base .dcspgold).idx e)))
    ∧ (∀ h' : Mem Buf Int, (∀ q : Ptr Buf, q.buf ≠ .dcspgold → demo_mem.read q = h'.read q) →
        ∀ e, e < 1 * 2 →
          (lstm_dcs false demo_libm 1 1 2 2 1 0 demo_mem).read ((base .dcspgold).idx e)
            = (lstm_dcs false demo_libm 1 1 2 2 1 0 h').read ((base .dcspgold).idx e)) :=
  c12_cell_state_gradient false demo_libm 1 1 2 2 1 demo_mem Int.mul_comm 0 (by decide)

/-- C15. For every `T ≥ 1` and element `e < N*K`, what `lstm_ref` returns in `dcspgold`
is `f_0[e] * dCS_0[e]`: the cell-state gradient of timestep 0 propagated through the
forget gate of timestep 0. -/
theorem c15_boundary_cell_gradient (two_gemms : Bool) (lm : Libm α) (N C K T : Nat)
    (forget_bias : α) (h : Mem Buf α) (hT : 1 ≤ T) (e : Nat) (he : e < N * K) :
    (lstm_ref two_gemms lm N C K T forget_bias h).read ((base .dcspgold).idx e)
      = (lstm_ref two_gemms lm N C K T forget_bias h).read
            (icfo_elem N K 0 (e / K) (2 * K + e % K))
          * (lstm_dcs two_gemms lm N C K T forget_bias 0 h).read ((base .dcspgold).idx e) :=
  lstm_ref_dcsp two_gemms lm N C K T forget_bias h e hT (by rw [Nat.mul_comm]; exact he)

theorem c15_boundary_cell_gradient_witness :
    (lstm_ref true demo_libm 2 1 2 2 1 demo_mem).read ((base .dcspgold).idx 3)
      = (lstm_ref true demo_libm 2 1 2 2 1 demo_mem).read
            (icfo_elem 2 2 0 (3 / 2) (2 * 2 + 3 % 2))
          * (lstm_dcs true demo_libm 2 1 2 2 1 0 demo_mem).read ((base .dcspgold).idx 3) :=
  c15_boundary_cell_gradient true demo_libm 2 1 2 2 1 demo_mem (by decide) 3 (by decide)

end BackwardClaims

section BackwardExactClaims

variable {α : Type} [Field α]

/-- C11. In exact arithmetic, for every `t < T` the `delta` of timestep `t` is
`delta_{T-1} = dH_{T-1}` at the last timestep and `delta_t = dout_t + dH_t` otherwise
(`dH` being the caller's `dhgoldt`), where `dout_t[n*K + k]` is
`sum_{q<4K} R4[k*4K + q] * dICFO_{t+1}[n*4K + q]`, the recurrent contribution produced
while processing timestep `t+1`; and a call with `T = 1` reads no `dout` value: nothing it
computes depends on `doutgoldt`, two such calls on memories that differ in that buffer
only return memories that differ in that buffer only. -/
theorem c11_delta (two_gemms : Bool) (lm : Libm α) (N C K T : Nat) (forget_bias : α)
    (h : Mem Buf α) (t : Nat) (ht : t < T) :
    (∀ e, e < N * K →
      (lstm_ref two_gemms lm N C K T forget_bias h).read ((seq_at .deltagoldt t (K * N)).idx e)
        = if t = T - 1 then h.read ((seq_at .dhgoldt t (K * N)).idx e)
          else (lstm_ref two_gemms lm N C K T forget_bias h).read
              ((seq_at .doutgoldt t (K * N)).idx e)
            + h.read ((seq_at .dhgoldt t (K * N)).idx e))
    ∧ (t + 1 < T → ∀ n k, n < N → k < K →
        (lstm_ref two_gemms lm N C K T forget_bias h).read
            ((seq_at .doutgoldt t (K * N)).idx (n * K + k))
          = ∑ q in Finset.range (4 * K),
              (lstm_ref two_gemms lm N C K T forget_bias h).read (r4_elem two_gemms C K k q)
                * (lstm_ref two_gemms lm N C K T forget_bias h).read
                  (dicfo_elem N K (t + 1) n q))
    ∧ (∀ h' : Mem Buf α,
        (∀ q : Ptr Buf, q.buf ≠ .doutgoldt → h.read q = h'.read q) →
        ∀ q : Ptr Buf, q.buf ≠ .doutgoldt →
          (lstm_ref two_gemms lm N C K 1 forget_bias h).read q
            = (lstm_ref two_gemms lm N C K 1 forget_bias h').read q) := by
  refine ⟨fun e he => ?_, fun ht1 n k hn hk => ?_, fun h' hh q hq => ?_⟩
  · exact lstm_ref_delta two_gemms lm N C K T forget_bias h t e ht
      (by rw [Nat.mul_comm]; exact he)
  · have key := lstm_ref_dout two_gemms lm N C K T forget_bias h (t + 1) n k ht1 hn hk
    unfold dout_prev at key
    rw [if_neg (Nat.succ_ne_zero t), Nat.add_sub_cancel] at key
    exact key
  · exact lstm_ref_dout_unread two_gemms lm N C K forget_bias h h' hh q hq

theorem c11_delta_witness :
    (∀ e, e < 1 * 1 →
      (lstm_ref true demo_libm_q 1 1 1 2 3 demo_mem_q).read
          ((seq_at .deltagoldt 0 (1 * 1)).idx e)
        = if 0 = 2 - 1 then demo_mem_q.read ((seq_at .dhgoldt 0 (1 * 1)).idx e)
          else (lstm_ref true demo_libm_q 1 1 1 2 3 demo_mem_q).read
              ((seq_at .doutgoldt 0 (1 * 1)).idx e)
            + demo_mem_q.read ((seq_at .dhgoldt 0 (1 * 1)).idx e))
    ∧ (∀ n k, n < 1 → k < 1 →
        (lstm_ref true demo_libm_q 1 1 1 2 3 demo_mem_q).read
            ((seq_at .doutgoldt 0 (1 * 1)).idx (n * 1 + k))
          = ∑ q in Finset.range (4 * 1),
              (lstm_ref true demo_libm_q 1 1 1 2 3 demo_mem_q).read (r4_elem true 1 1 k q)
                * (lstm_ref true demo_libm_q 1 1 1 2 3 demo_mem_q).read
                  (dicfo_elem 1 1 (0 + 1) n q))
    ∧ (∀ h' : Mem Buf Rat,
        (∀ q : Ptr Buf, q.buf ≠ .doutgoldt → demo_mem_q.read q = h'.read q) →
        ∀ q : Ptr Buf, q.buf ≠ .doutgoldt →
          (lstm_ref true demo_libm_q 1 1 1 1 3 demo_mem_q).read q
            = (lstm_ref true demo_libm_q 1 1 1 1 3 h').read q) :=
  ⟨(c11_delta true demo_libm_q 1 1 1 2 3 demo_mem_q 0 (by decide)).1,
    (c11_delta true demo_libm_q 1 1 1 2 3 demo_mem_q 0 (by decide)).2.1 (by decide),
    (c11_delta true demo_libm_q 1 1 1 2 3 demo_mem_q 0 (by decide)).2.2⟩

/-- C13. In exact arithmetic, for every `t < T`, `n < N`, `k < K`, `lstm_ref` leaves in
`dICFO_t` the gate gradients in slot order (i, c, f, o): slot 0 holds
`di = dCS_t * c_t * i_t * (1 - i_t)`, slot 1 holds `dc = dCS_t * i_t * (1 - c_t * c_t)` and
slot 3 holds `do = delta_t * tanh(CS_t) * o_t * (1 - o_t)`, each read at element `(n, k)`. -/
theorem c13_gate_gradients (two_gemms : Bool) (lm : Libm α) (N C K T : Nat) (forget_bias : α)
    (h : Mem Buf α) (t n k : Nat) (ht : t < T) (hn : n < N) (hk : k < K) :
    (lstm_ref two_gemms lm N C K T forget_bias h).read (dicfo_elem N K t n k)
        = (lstm_dcs two_gemms lm N C K T forget_bias t h).read
              ((base .dcspgold).idx (n * K + k))
            * (lstm_ref two_gemms lm N C K T forget_bias h).read (icfo_elem N K t n (K + k))
            * (lstm_ref two_gemms lm N C K T forget_bias h).read (icfo_elem N K t n k)
            * (1 - (lstm_ref two_gemms lm N C K T forget_bias h).read (icfo_elem N K t n k))
    ∧ (lstm_ref two_gemms lm N C K T forget_bias h).read (dicfo_elem N K t n (K + k))
        = (lstm_dcs two_gemms lm N C K T forget_bias t h).read
              ((base .dcspgold).idx (n * K + k))
            * (lstm_ref two_gemms lm N C K T forget_bias h).read (icfo_elem N K t n k)
            * (1 - (lstm_ref two_gemms lm N C K T forget_bias h).read
                  (icfo_elem N K t n (K + k))
                * (lstm_ref two_gemms lm N C K T forget_bias h).read
                  (icfo_elem N K t n (K + k)))
    ∧ (lstm_ref two_gemms lm N C K T forget_bias h).read (dicfo_elem N K t n (3 * K + k))
        = (lstm_ref two_gemms lm N C K T forget_bias h).read
              ((seq_at .deltagoldt t (K * N)).idx (n * K + k))
            * lm.tanh ((lstm_ref two_gemms lm N C K T forget_bias h).read
              ((seq_at .csgoldt t (K * N)).idx (n * K + k)))
            * (lstm_ref two_gemms lm N C K T forget_bias h).read
              (icfo_elem N K t n (3 * K + k))
            * (1 - (lstm_ref two_gemms lm N C K T forget_bias h).read
                (icfo_elem N K t n (3 * K + k))) := by
  refine ⟨?_, ?_, ?_⟩
  · rw [lstm_ref_di two_gemms lm N C K T forget_bias h t n k ht hn hk]
    ring
  · rw [lstm_ref_dc two_gemms lm N C K T forget_bias h t n k ht hn hk]
    ring
  · rw [lstm_ref_do two_gemms lm N C K T forget_bias h t n k ht hn hk]
    ring

theorem c13_gate_gradients_witness :
    (lstm_ref false demo_libm_q 2 1 2 2 3 demo_mem_q).read (dicfo_elem 2 2 1 1 1)
        = (lstm_dcs false demo_libm_q 2 1 2 2 3 1 demo_mem_q).read
              ((base .dcspgold).idx (1 * 2 + 1))
            * (lstm_ref false demo_libm_q 2 1 2 2 3 demo_mem_q).read (icfo_elem 2 2 1 1 (2 + 1))
            * (lstm_ref false demo_libm_q 2 1 2 2 3 demo_mem_q).read (icfo_elem 2 2 1 1 1)
            * (1 - (lstm_ref false demo_libm_q 2 1 2 2 3 demo_mem_q).read (icfo_elem 2 2 1 1 1))
    ∧ (lstm_ref false demo_libm_q 2 1 2 2 3 demo_mem_q).read (dicfo_elem 2 2 1 1 (2 + 1))
        = (lstm_dcs false demo_libm_q 2 1 2 2 3 1 demo_mem_q).read
              ((base .dcspgold).idx (1 * 2 + 1))
            * (lstm_ref false demo_libm_q 2 1 2 2 3 demo_mem_q).read (icfo_elem 2 2 1 1 1)
            * (1 - (lstm_ref false demo_libm_q 2 1 2 2 3 demo_mem_q).read
                  (icfo_elem 2 2 1 1 (2 + 1))
                * (lstm_ref false demo_libm_q 2 1 2 2 3 demo_mem_q).read
                  (icfo_elem 2 2 1 1 (2 + 1)))
    ∧ (lstm_ref false demo_libm_q 2 1 2 2 3 demo_mem_q).read (dicfo_elem 2 2 1 1 (3 * 2 + 1))
        = (lstm_ref false demo_libm_q 2 1 2 2 3 demo_mem_q).read
              ((seq_at .deltagoldt 1 (2 * 2)).idx (1 * 2 + 1))
            * demo_libm_q.tanh ((lstm_ref false demo_libm_q 2 1 2 2 3 demo_mem_q).read
              ((seq_at .csgoldt 1 (2 * 2)).idx (1 * 2 + 1)))
            * (lstm_ref false demo_libm_q 2 1 2 2 3 demo_mem_q).read
              (icfo_elem 2 2 1 1 (3 * 2 + 1))
            * (1 - (lstm_ref false demo_libm_q 2 1 2 2 3 demo_mem_q).read
                (icfo_elem 2 2 1 1 (3 * 2 + 1))) :=
  c13_gate_gradients false demo_libm_q 2 1 2 2 3 demo_mem_q 1 1 1 (by decide) (by decide)
    (by decide)

/-- C14. In exact arithmetic, for every `t < T`, `n < N`, `k < K`, `lstm_ref` leaves in
slot 2 of `dICFO_t` the forget-gate gradient `df = dCS_t * CS_{t-1} * f_t * (1 - f_t)`,
with the caller's `cspgold` as `CS_{-1}` at `t = 0` (also when `T = 1`). -/
theorem c14_forget_gate_gradient (two_gemms : Bool) (lm : Libm α) (N C K T : Nat)
    (forget_bias : α) (h : Mem Buf α) (t n k : Nat) (ht : t < T) (hn : n < N) (hk : k < K) :
    (lstm_ref two_gemms lm N C K T forget_bias h).read (dicfo_elem N K t n (2 * K + k))
      = (lstm_dcs two_gemms lm N C K T forget_bias t h).read
            ((base .dcspgold).idx (n * K + k))
          * (if t = 0 then h.read ((base .cspgold).idx (n * K + k))
             else (lstm_ref two_gemms lm N C K T forget_bias h).read
               ((seq_at .csgoldt (t - 1) (K * N)).idx (n * K + k)))
          * (lstm_ref two_gemms lm N C K T forget_bias h).read (icfo_elem N K t n (2 * K + k))
          * (1 - (lstm_ref two_gemms lm N C K T forget_bias h).read
              (icfo_elem N K t n (2 * K + k))) := by
  rw [lstm_ref_df two_gemms lm N C K T forget_bias h t n k ht hn hk]
  ring

theorem c14_forget_gate_gradient_witness :
    (lstm_ref true demo_libm_q 1 1 1 1 3 demo_mem_q).read (dicfo_elem 1 1 0 0 (2 * 1 + 0))
      = (lstm_dcs true demo_libm_q 1 1 1 1 3 0 demo_mem_q).read
            ((base .dcspgold).idx (0 * 1 + 0))
          * (if 0 = 0 then demo_mem_q.read ((base .cspgold).idx (0 * 1 + 0))
             else (lstm_ref true demo_libm_q 1 1 1 1 3 demo_mem_q).read
               ((seq_at .csgoldt (0 - 1) (1 * 1)).idx (0 * 1 + 0)))
          * (lstm_ref true demo_libm_q 1 1 1 1 3 demo_mem_q).read (icfo_elem 1 1 0 0 (2 * 1 + 0))
          * (1 - (lstm_ref true demo_libm_q 1 1 1 1 3 demo_mem_q).read
              (icfo_elem 1 1 0 0 (2 * 1 + 0))) :=
  c14_forget_gate_gradient true demo_libm_q 1 1 1 1 3 demo_mem_q 0 0 0 (by decide) (by decide)
    (by decide)

/-- C16. In exact arithmetic, for every `t < T`, `n < N`, `k < K`, the recurrent delta
produced at timestep `t` is `sum_{q<4K} R4[k*4K + q] * dICFO_t[n*4K + q]`; `lstm_ref`
leaves it in `dout_{t-1}` when `t > 0` and in `dhpgold` when `t = 0`, whatever these held
before. -/
theorem c16_recurrent_delta (two_gemms : Bool) (lm : Libm α) (N C K T : Nat)
    (forget_bias : α) (h : Mem Buf α) (t n k : Nat) (ht : t < T) (hn : n < N) (hk : k < K) :
    (if t = 0 then
        (lstm_ref two_gemms lm N C K T forget_bias h).read ((base .dhpgold).idx (n * K + k))
      else
        (lstm_ref two_gemms lm N C K T forget_bias h).read
          ((seq_at .doutgoldt (t - 1) (K * N)).idx (n * K + k)))
      = ∑ q in Finset.range (4 * K),
          (lstm_ref two_gemms lm N C K T forget_bias h).read (r4_elem two_gemms C K k q)
            * (lstm_ref two_gemms lm N C K T forget_bias h).read (dicfo_elem N K t n q) := by
  rw [← lstm_ref_dout two_gemms lm N C K T forget_bias h t n k ht hn hk]
  unfold dout_prev
  split <;> rfl

theorem c16_recurrent_delta_witness :
    (if 1 = 0 then
        (lstm_ref false demo_libm_q 2 1 2 2 3 demo_mem_q).read
          ((base .dhpgold).idx (1 * 2 + 1))
      else
        (lstm_ref false demo_libm_q 2 1 2 2 3 demo_mem_q).read
          ((seq_at .doutgoldt (1 - 1) (2 * 2)).idx (1 * 2 + 1)))
      = ∑ q in Finset.range (4 * 2),
          (lstm_ref false demo_libm_q 2 1 2 2 3 demo_mem_q).read (r4_elem false 1 2 1 q)
            * (lstm_ref false demo_libm_q 2 1 2 2 3 demo_mem_q).read (dicfo_elem 2 2 1 1 q) :=
  c16_recurrent_delta false demo_libm_q 2 1 2 2 3 demo_mem_q 1 1 1 (by decide) (by decide)
    (by decide)

end BackwardExactClaims

section AccumulatorClaims

variable {α : Type} [Field α]

/-- C17. The input gradient on the call with `T = N = C = K = 1` and `22/7` in `dxgoldt`:
the default build returns `dX_0[0] = sum_{q<4} W4[q] * dICFO_0[q]`, but the `TWO_GEMMS`
build returns that sum plus the `22/7` the buffer held before the call (the multiply of
lines 548-549 is called with `beta = 1`), which is not the sum. -/
theorem c17_input_gradient_two_gemms :
    (lstm_ref false demo_libm_q 1 1 1 1 3 demo_mem_q).read
        ((seq_at .dxgoldt 0 (1 * 1)).idx (0 * 1 + 0))
      = ∑ q in Finset.range (4 * 1),
          (lstm_ref false demo_libm_q 1 1 1 1 3 demo_mem_q).read (w4_elem false 1 0 q)
            * (lstm_ref false demo_libm_q 1 1 1 1 3 demo_mem_q).read (dicfo_elem 1 1 0 0 q)
    ∧ (lstm_ref true demo_libm_q 1 1 1 1 3 demo_mem_q).read
        ((seq_at .dxgoldt 0 (1 * 1)).idx (0 * 1 + 0))
      = (∑ q in Finset.range (4 * 1),
          (lstm_ref true demo_libm_q 1 1 1 1 3 demo_mem_q).read (w4_elem true 1 0 q)
            * (lstm_ref true demo_libm_q 1 1 1 1 3 demo_mem_q).read (dicfo_elem 1 1 0 0 q))
        + 22 / 7
    ∧ (lstm_ref true demo_libm_q 1 1 1 1 3 demo_mem_q).read
        ((seq_at .dxgoldt 0 (1 * 1)).idx (0 * 1 + 0))
      ≠ ∑ q in Finset.range (4 * 1),
          (lstm_ref true demo_libm_q 1 1 1 1 3 demo_mem_q).read (w4_elem true 1 0 q)
            * (lstm_ref true demo_libm_q 1 1 1 1 3 demo_mem_q).read (dicfo_elem 1 1 0 0 q) := by
  have hv : demo_mem_q.read ((seq_at .dxgoldt 0 (1 * 1)).idx (0 * 1 + 0)) = 22 / 7 := by
    simp [demo_mem_q, Mem.read, seq_at, base, Ptr.idx, vla2, Rat.divInt_eq_div]
  have h1 := lstm_ref_dx_single demo_libm_q 1 1 1 1 3 demo_mem_q 0 0 0 (by decide) (by decide)
    (by decide)
  have h2 := lstm_ref_dx_two_prior demo_libm_q 1 1 1 1 3 demo_mem_q 0 0 0 (by decide)
    (by decide) (by decide)
  rw [hv] at h2
  refine ⟨h1, h2, fun he => ?_⟩
  have h3 := h2.symm.trans he
  have h4 : (22 / 7 : Rat) = 0 := add_right_eq_self.mp h3
  norm_num at h4

/-- C18. In exact arithmetic, for every `c < C` and `q < 4K`, the weight gradient that
`lstm_ref` returns is `dW[c*4K + q] = dW_initial[c*4K + q]
+ sum_{t<T} sum_{n<N} dICFO_t[n*4K + q] * X_t[n*C + c]`; from a zero-initialised buffer
it is the sum over all timesteps of the per-timestep outer products. -/
theorem c18_weight_gradient (two_gemms : Bool) (lm : Libm α) (N C K T : Nat)
    (forget_bias : α) (h : Mem Buf α) (c q : Nat) (hc : c < C) (hq : q < 4 * K) :
    (lstm_ref two_gemms lm N C K T forget_bias h).read ((base .dwgold).idx (c * (4 * K) + q))
        = h.read ((base .dwgold).idx (c * (4 * K) + q))
          + ∑ t in Finset.range T, ∑ n in Finset.range N,
              (lstm_ref two_gemms lm N C K T forget_bias h).read (dicfo_elem N K t n q)
                * h.read ((seq_at .xgoldt t (N * C)).idx (n * C + c))
    ∧ (h.read ((base .dwgold).idx (c * (4 * K) + q)) = 0 →
        (lstm_ref two_gemms lm N C K T forget_bias h).read ((base .dwgold).idx (c * (4 * K) + q))
          = ∑ t in Finset.range T, ∑ n in Finset.range N,
              (lstm_ref two_gemms lm N C K T forget_bias h).read (dicfo_elem N K t n q)
                * h.read ((seq_at .xgoldt t (N * C)).idx (n * C + c))) := by
  have key := lstm_ref_dw two_gemms lm N C K T forget_bias h c q hc hq
  refine ⟨key, fun h0 => ?_⟩
  rw [key, h0, zero_add]

theorem c18_weight_gradient_witness :
    (lstm_ref false demo_libm_q 2 2 1 2 3 demo_mem_z).read ((base .dwgold).idx (1 * (4 * 1) + 2))
        = demo_mem_z.read ((base .dwgold).idx (1 * (4 * 1) + 2))
          + ∑ t in Finset.range 2, ∑ n in Finset.range 2,
              (lstm_ref false demo_libm_q 2 2 1 2 3 demo_mem_z).read (dicfo_elem 2 1 t n 2)
                * demo_mem_z.read ((seq_at .xgoldt t (2 * 2)).idx (n * 2 + 1))
    ∧ (lstm_ref false demo_libm_q 2 2 1 2 3 demo_mem_z).read
          ((base .dwgold).idx (1 * (4 * 1) + 2))
        = ∑ t in Finset.range 2, ∑ n in Finset.range 2,
            (lstm_ref false demo_libm_q 2 2 1 2 3 demo_mem_z).read (dicfo_elem 2 1 t n 2)
              * demo_mem_z.read ((seq_at .xgoldt t (2 * 2)).idx (n * 2 + 1)) :=
  ⟨(c18_weight_gradient false demo_libm_q 2 2 1 2 3 demo_mem_z 1 2 (by decide) (by decide)).1,
    (c18_weight_gradient false demo_libm_q 2 2 1 2 3 demo_mem_z 1 2 (by decide) (by decide)).2
      (by decide)⟩

/-- C19. In exact arithmetic, for every `j < K` and `q < 4K`, the recurrent-weight
gradient that `lstm_ref` returns (in `drgold` under `TWO_GEMMS`, in rows `C ..` of
`dwgold` otherwise) is `dR[j*4K + q] = dR_initial[j*4K + q]
+ sum_{t<T} sum_{n<N} dICFO_t[n*4K + q] * H_{t-1}[n*K + j]`, with the caller's `hpgold`
as `H_{-1}` at `t = 0`. -/
theorem c19_recurrent_weight_gradient (two_gemms : Bool) (lm : Libm α) (N C K T : Nat)
    (forget_bias : α) (h : Mem Buf α) (j q : Nat) (hj : j < K) (hq : q < 4 * K) :
    (lstm_ref two_gemms lm N C K T forget_bias h).read (dr_elem two_gemms C K j q)
      = h.read (dr_elem two_gemms C K j q)
        + ∑ t in Finset.range T, ∑ n in Finset.range N,
            (lstm_ref two_gemms lm N C K T forget_bias h).read (dicfo_elem N K t n q)
              * (if t = 0 then h.read ((base .hpgold).idx (n * K + j))
                 else (lstm_ref two_gemms lm N C K T forget_bias h).read
                   ((seq_at .hgoldt (t - 1) (K * N)).idx (n * K + j))) :=
  lstm_ref_dr two_gemms lm N C K T forget_bias h j q hj hq

theorem c19_recurrent_weight_gradient_witness :
    (lstm_ref false demo_libm_q 2 1 2 2 3 demo_mem_q).read (dr_elem false 1 2 1 5)
      = demo_mem_q.read (dr_elem false 1 2 1 5)
        + ∑ t in Finset.range 2, ∑ n in Finset.range 2,
            (lstm_ref false demo_libm_q 2 1 2 2 3 demo_mem_q).read (dicfo_elem 2 2 t n 5)
              * (if t = 0 then demo_mem_q.read ((base .hpgold).idx (n * 2 + 1))
                 else (lstm_ref false demo_libm_q 2 1 2 2 3 demo_mem_q).read
                   ((seq_at .hgoldt (t - 1) (2 * 2)).idx (n * 2 + 1))) :=
  c19_recurrent_weight_gradient false demo_libm_q 2 1 2 2 3 demo_mem_q 1 5 (by decide)
    (by decide)

/-- C20. In exact arithmetic, for every gate slot `g < 4` and `k < K`, the bias gradient
that `lstm_ref` returns is `db[g*K + k] = db_initial[g*K + k]
+ sum_{t<T} sum_{n<N} dICFO_t[n*4K + g*K + k]`: each gate slice is reduced over the batch
and summed over all timesteps. -/
theorem c20_bias_gradient (two_gemms : Bool) (lm : Libm α) (N C K T : Nat)
    (forget_bias : α) (h : Mem Buf α) (g k : Nat) (hg : g < 4) (hk : k < K) :
    (lstm_ref two_gemms lm N C K T forget_bias h).read ((base .dbgold).idx (g * K + k))
      = h.read ((base .dbgold).idx (g * K + k))
        + ∑ t in Finset.range T, ∑ n in Finset.range N,
            (lstm_ref two_gemms lm N C K T forget_bias h).read
              (dicfo_elem N K t n (g * K + k)) :=
  lstm_ref_db two_gemms lm N C K T forget_bias h g k hg hk

theorem c20_bias_gradient_witness :
    (lstm_ref true demo_libm_q 2 1 2 2 3 demo_mem_q).read ((base .dbgold).idx (2 * 2 + 1))
      = demo_mem_q.read ((base .dbgold).idx (2 * 2 + 1))
        + ∑ t in Finset.range 2, ∑ n in Finset.range 2,
            (lstm_ref true demo_libm_q 2 1 2 2 3 demo_mem_q).read
              (dicfo_elem 2 2 t n (2 * 2 + 1)) :=
  c20_bias_gradient true demo_libm_q 2 1 2 2 3 demo_mem_q 2 1 (by decide) (by decide)

end AccumulatorClaims

section RetentionClaims

variable {α : Type} [Zero α] [One α] [Add α] [Sub α] [Mul α] [Div α] [Neg α]

/-- C22. Retention of the activations.  For timesteps `s < t < T`, the forward step of
timestep `t`, run from any memory, leaves the slices `ICFO_s`, `CS_s` and `H_s` as they
are; every backward step `j`, run from any memory, leaves `ICFO_t`, `CS_t` and `H_t` as
they are, and so does the backward loop as a whole (`lstm_ref` returns in them what the
forward loop left).  Hence at the stages of every backward step `j` (at its start, after
"compute dcsp" and before the multiplies) the three slices of timestep `t` hold exactly
what the forward step of timestep `t` produced. -/
theorem c22_retention (two_gemms : Bool) (lm : Libm α) (N C K T : Nat) (forget_bias : α)
    (h g : Mem Buf α) (s t j n c e : Nat) (hst : s < t) (ht : t < T) (hj : j < T)
    (hn : n < N) (hc : c < 4 * K) (he : e < K * N) :
    ((fwd_step two_gemms lm N C K t g).read (icfo_elem N K s n c)
        = g.read (icfo_elem N K s n c)
      ∧ (fwd_step two_gemms lm N C K t g).read ((seq_at .csgoldt s (K * N)).idx e)
        = g.read ((seq_at .csgoldt s (K * N)).idx e)
      ∧ (fwd_step two_gemms lm N C K t g).read ((seq_at .hgoldt s (K * N)).idx e)
        = g.read ((seq_at .hgoldt s (K * N)).idx e))
    ∧ ((bwd_step two_gemms lm N C K T j g).read (icfo_elem N K t n c)
        = g.read (icfo_elem N K t n c)
      ∧ (bwd_step two_gemms lm N C K T j g).read ((seq_at .csgoldt t (K * N)).idx e)
        = g.read ((seq_at .csgoldt t (K * N)).idx e)
      ∧ (bwd_step two_gemms lm N C K T j g).read ((seq_at .hgoldt t (K * N)).idx e)
        = g.read ((seq_at .hgoldt t (K * N)).idx e))
    ∧ ((lstm_ref two_gemms lm N C K T forget_bias h).read (icfo_elem N K t n c)
        = (lstm_fwd two_gemms lm N C K T forget_bias h).read (icfo_elem N K t n c)
      ∧ (lstm_ref two_gemms lm N C K T forget_bias h).read ((seq_at .csgoldt t (K * N)).idx e)
        = (lstm_fwd two_gemms lm N C K T forget_bias h).read
            ((seq_at .csgoldt t (K * N)).idx e)
      ∧ (lstm_ref two_gemms lm N C K T forget_bias h).read ((seq_at .hgoldt t (K * N)).idx e)
        = (lstm_fwd two_gemms lm N C K T forget_bias h).read
            ((seq_at .hgoldt t (K * N)).idx e))
    ∧ (∀ q, q = icfo_elem N K t n c ∨ q = (seq_at .csgoldt t (K * N)).idx e
          ∨ q = (seq_at .hgoldt t (K * N)).idx e →
        (lstm_fwd two_gemms lm N C K T forget_bias h).read q
            = (lstm_fwd two_gemms lm N C K (t + 1) forget_bias h).read q
        ∧ (lstm_bwd two_gemms lm N C K T forget_bias (j + 1) h).read q
            = (lstm_fwd two_gemms lm N C K (t + 1) forget_bias h).read q
        ∧ (lstm_dcs two_gemms lm N C K T forget_bias j h).read q
            = (lstm_fwd two_gemms lm N C K (t + 1) forget_bias h).read q
        ∧ (lstm_dgates two_gemms lm N C K T forget_bias j h).read q
            = (lstm_fwd two_gemms lm N C K (t + 1) forget_bias h).read q) := by
  refine ⟨⟨?_, ?_, ?_⟩, ⟨?_, ?_, ?_⟩, ⟨?_, ?_, ?_⟩, ?_⟩
  · exact fwd_step_settled two_gemms lm N C K t _ g (settled_icfo hst hn hc)
  · exact fwd_step_settled two_gemms lm N C K t _ g (settled_cs hst he)
  · exact fwd_step_settled two_gemms lm N C K t _ g (settled_h hst he)
  · exact bwd_step_skip two_gemms lm N C K T j _ g rfl
  · exact bwd_step_skip two_gemms lm N C K T j _ g rfl
  · exact bwd_step_skip two_gemms lm N C K T j _ g rfl
  · exact lstm_ref_read_fwd two_gemms lm N C K T forget_bias (icfo_elem N K t n c) rfl h
  · exact lstm_ref_read_fwd two_gemms lm N C K T forget_bias
      ((seq_at .csgoldt t (K * N)).idx e) rfl h
  · exact lstm_ref_read_fwd two_gemms lm N C K T forget_bias
      ((seq_at .hgoldt t (K * N)).idx e) rfl h
  · intro q hq
    have key : Settled N K (t + 1) q ∧ bwd_writes q.buf = false := by
      rcases hq with rfl | rfl | rfl
      · exact ⟨settled_icfo (Nat.lt_succ_self t) hn hc, rfl⟩
      · exact ⟨settled_cs (Nat.lt_succ_self t) he, rfl⟩
      · exact ⟨settled_h (Nat.lt_succ_self t) he, rfl⟩
    have r := lstm_bwd_retained two_gemms lm N C K T forget_bias h q t j ht hj key.1 key.2
    exact ⟨r.1, r.2.2.1, r.2.2.2.1, r.2.2.2.2⟩

theorem c22_retention_witness :
    (lstm_bwd false demo_libm 1 1 2 2 1 (0 + 1) demo_mem).read (icfo_elem 1 2 1 0 3)
        = (lstm_fwd false demo_libm 1 1 2 (1 + 1) 1 demo_mem).read (icfo_elem 1 2 1 0 3)
    ∧ (lstm_dgates false demo_libm 1 1 2 2 1 0 demo_mem).read
          ((seq_at .hgoldt 1 (2 * 1)).idx 1)
        = (lstm_fwd false demo_libm 1 1 2 (1 + 1) 1 demo_mem).read
          ((seq_at .hgoldt 1 (2 * 1)).idx 1) :=
  ⟨((c22_retention false demo_libm 1 1 2 2 1 demo_mem demo_mem 0 1 0 0 3 1 (by decide)
      (by decide) (by decide) (by decide) (by decide) (by decide)).2.2.2 _
      (Or.inl rfl)).2.1,
    ((c22_retention false demo_libm 1 1 2 2 1 demo_mem demo_mem 0 1 0 0 3 1 (by decide)
      (by decide) (by decide) (by decide) (by decide) (by decide)).2.2.2 _
      (Or.inr (Or.inr rfl))).2.2.2⟩

end RetentionClaims

section HelperClaims

variable {β α : Type} [DecidableEq β]

/-- C29. For every `size` and every `src`, `dst` such that the elements of `dst` written
before step `i` are not the element `src[i]` (separate arrays, or the in-place call
`src == dst`), `matrix_tanh_inverse(size, src, dst)` leaves
`dst[i] = 1 - tanh(src[i]) * tanh(src[i])` for every `i < size`, and it equals
`matrix_complement_square` applied to the output of `matrix_tanh` on the same input: with
the output of `matrix_tanh` in any intermediate array `tmp` (under the same condition on
`src`, `tmp` and on `tmp`, `dst`) the two leave the same value in every `dst[i]` and in
every location outside `tmp`, and with `tmp = dst` (the squares taken in place) the two
memories agree everywhere. -/
theorem c29_tanh_inverse [One α] [Sub α] [Mul α] (lm : Libm α) (size : Nat)
    (src tmp dst : Ptr β) (h : Mem β α)
    (hsd : ∀ i k, i < size → k < i → dst.idx k ≠ src.idx i)
    (hst : ∀ i k, i < size → k < i → tmp.idx k ≠ src.idx i)
    (htd : ∀ i k, i < size → k < i → dst.idx k ≠ tmp.idx i) :
    (∀ i, i < size →
      (matrix_tanh_inverse lm size src dst h).read (dst.idx i)
          = 1 - lm.tanh (h.read (src.idx i)) * lm.tanh (h.read (src.idx i))
      ∧ (matrix_tanh_inverse lm size src dst h).read (dst.idx i)
          = (matrix_complement_square size tmp dst (matrix_tanh lm size src tmp h)).read
              (dst.idx i))
    ∧ (∀ q, (∀ i, i < size → tmp.idx i ≠ q) →
        (matrix_tanh_inverse lm size src dst h).read q
          = (matrix_complement_square size tmp dst (matrix_tanh lm size src tmp h)).read q)
    ∧ (∀ q, (matrix_tanh_inverse lm size src dst h).read q
          = (matrix_complement_square size dst dst (matrix_tanh lm size src dst h)).read q) := by
  have hv : ∀ i, i < size →
      (matrix_tanh_inverse lm size src dst h).read (dst.idx i)
        = 1 - lm.tanh (h.read (src.idx i)) * lm.tanh (h.read (src.idx i)) :=
    fun i hi => matrix_tanh_inverse_value lm size src dst h i hi (hsd i · hi)
  have hin : ∀ q, (matrix_tanh_inverse lm size src dst h).read q
      = (matrix_complement_square size dst dst (matrix_tanh lm size src dst h)).read q := by
    intro q
    by_cases hq : ∃ i, i < size ∧ dst.idx i = q
    · obtain ⟨i, hi, rfl⟩ := hq
      rw [hv i hi, tanh_then_complement_square lm size src dst dst h i hi (hsd i · hi)
        (fun k hk => idx_ne_idx (by omega))]
    · have hq2 : ∀ i, i < size → dst.idx i ≠ q := fun i hi he => hq ⟨i, hi, he⟩
      rw [matrix_tanh_inverse_frame lm size src dst q h hq2,
        tanh_then_complement_square_frame lm size src dst dst q h hq2 hq2]
  refine ⟨fun i hi => ⟨hv i hi, ?_⟩, fun q hq => ?_, hin⟩
  · rw [hv i hi, tanh_then_complement_square lm size src tmp dst h i hi (hst i · hi)
      (htd i · hi)]
  · by_cases hq1 : ∃ i, i < size ∧ dst.idx i = q
    · obtain ⟨i, hi, rfl⟩ := hq1
      rw [hv i hi, tanh_then_complement_square lm size src tmp dst h i hi (hst i · hi)
        (htd i · hi)]
    · have hq2 : ∀ i, i < size → dst.idx i ≠ q := fun i hi he => hq1 ⟨i, hi, he⟩
      rw [matrix_tanh_inverse_frame lm size src dst q h hq2,
        tanh_then_complement_square_frame lm size src tmp dst q h hq hq2]

theorem c29_tanh_inverse_witness :
    (∀ i, i < 2 →
      (matrix_tanh_inverse demo_libm 2 (base .csgoldt) (base .t2gold) demo_mem).read
          ((base .t2gold).idx i)
          = 1 - demo_libm.tanh (demo_mem.read ((base .csgoldt).idx i))
              * demo_libm.tanh (demo_mem.read ((base .csgoldt).idx i))
      ∧ (matrix_tanh_inverse demo_libm 2 (base .csgoldt) (base .t2gold) demo_mem).read
          ((base .t2gold).idx i)
          = (matrix_complement_square 2 (base .t1gold) (base .t2gold)
              (matrix_tanh demo_libm 2 (base .csgoldt) (base .t1gold) demo_mem)).read
              ((base .t2gold).idx i))
    ∧ (∀ q, (∀ i, i < 2 → (base .t1gold).idx i ≠ q) →
        (matrix_tanh_inverse demo_libm 2 (base .csgoldt) (base .t2gold) demo_mem).read q
          = (matrix_complement_square 2 (base .t1gold) (base .t2gold)
              (matrix_tanh demo_libm 2 (base .csgoldt) (base .t1gold) demo_mem)).read q)
    ∧ (∀ q, (matrix_tanh_inverse demo_libm 2 (base .csgoldt) (base .t2gold) demo_mem).read q
          = (matrix_complement_square 2 (base .t2gold) (base .t2gold)
              (matrix_tanh demo_libm 2 (base .csgoldt) (base .t2gold) demo_mem)).read q) :=
  c29_tanh_inverse demo_libm 2 (base .csgoldt) (base .t1gold) (base .t2gold) demo_mem
    (fun _ _ _ _ he => Buf.noConfusion (congrArg Ptr.buf he))
    (fun _ _ _ _ he => Buf.noConfusion (congrArg Ptr.buf he))
    (fun _ _ _ _ he => Buf.noConfusion (congrArg Ptr.buf he))

/-- C30. For every `m`, `n` and `ld ≥ m` (the case `m, n ≥ 1` of the claim included), and
a bias vector `src[0 .. m)` that lies outside the destination tile,
`matrix_copy_bias(m, n, ld, src, dst)` leaves `dst[row*ld + col] = src[col]` for every
`row < n` and `col < m`, so that each of the `n` rows of the destination tile holds the
same bias vector; every destination element with a column offset `col ≥ m` (`col < ld`,
in any row) is left unchanged, and so is every other location outside the tile. -/
theorem c30_copy_bias (m n ld : Nat) (src dst : Ptr β) (h : Mem β α) (hld : m ≤ ld)
    (hs : ∀ r c k, r < n → c < m → k < m → dst.idx (r * ld + c) ≠ src.idx k) :
    (∀ row col, row < n → col < m →
      (matrix_copy_bias m n ld src dst h).read (dst.idx (row * ld + col))
        = h.read (src.idx col))
    ∧ (∀ row row' col, row < n → row' < n → col < m →
      (matrix_copy_bias m n ld src dst h).read (dst.idx (row * ld + col))
        = (matrix_copy_bias m n ld src dst h).read (dst.idx (row' * ld + col)))
    ∧ (∀ row col, m ≤ col → col < ld →
      (matrix_copy_bias m n ld src dst h).read (dst.idx (row * ld + col))
        = h.read (dst.idx (row * ld + col)))
    ∧ (∀ q, (∀ row col, row < n → col < m → dst.idx (row * ld + col) ≠ q) →
      (matrix_copy_bias m n ld src dst h).read q = h.read q) := by
  have hv : ∀ row col, row < n → col < m →
      (matrix_copy_bias m n ld src dst h).read (dst.idx (row * ld + col))
        = h.read (src.idx col) :=
    fun row col hrow hcol => matrix_copy_bias_value m n ld src dst h hld row col hrow hcol
      (fun r c hr hc => hs r c col hr hc hcol)
  refine ⟨hv, fun row row' col hr hr' hc => ?_, fun row col h1 h2 => ?_,
    fun q hq => matrix_copy_bias_frame m n ld src dst q h hq⟩
  · rw [hv row col hr hc, hv row' col hr' hc]
  · refine matrix_copy_bias_frame m n ld src dst _ h (fun r c hr hc he => ?_)
    have := two_d_inj (lt_of_lt_of_le hc hld) h2 (Ptr.idx_inj he)
    omega

theorem c30_copy_bias_witness :
    (∀ row col, row < 2 → col < 2 →
      (matrix_copy_bias 2 2 8 (base .bigold) (base .icfogoldt) demo_mem).read
          ((base .icfogoldt).idx (row * 8 + col))
        = demo_mem.read ((base .bigold).idx col))
    ∧ (∀ row row' col, row < 2 → row' < 2 → col < 2 →
      (matrix_copy_bias 2 2 8 (base .bigold) (base .icfogoldt) demo_mem).read
          ((base .icfogoldt).idx (row * 8 + col))
        = (matrix_copy_bias 2 2 8 (base .bigold) (base .icfogoldt) demo_mem).read
          ((base .icfogoldt).idx (row' * 8 + col)))
    ∧ (∀ row col, 2 ≤ col → col < 8 →
      (matrix_copy_bias 2 2 8 (base .bigold) (base .icfogoldt) demo_mem).read
          ((base .icfogoldt).idx (row * 8 + col))
        = demo_mem.read ((base .icfogoldt).idx (row * 8 + col)))
    ∧ (∀ q, (∀ row col, row < 2 → col < 2 → (base .icfogoldt).idx (row * 8 + col) ≠ q) →
      (matrix_copy_bias 2 2 8 (base .bigold) (base .icfogoldt) demo_mem).read q
        = demo_mem.read q) :=
  c30_copy_bias 2 2 8 (base .bigold) (base .icfogoldt) demo_mem (by decide)
    (fun _ _ _ _ _ _ he => Buf.noConfusion (congrArg Ptr.buf he))

end HelperClaims

section ScalarClaims

variable {α : Type} [Field α]

/-- C24. The degenerate case `T = N = C = K = 1`, in exact arithmetic (any field) and in
both builds: with `x`, `h_prev`, `cs_prev` the single elements of `xgoldt`, `hpgold`,
`cspgold`, and `w_g`, `r_g`, `b_g` the single elements of the gate weights, recurrent
weights and biases, `lstm_ref` returns in `ICFO_0` the four values
`i = sig(b_i + w_i*x + r_i*h_prev)`, `c = tanh(b_c + w_c*x + r_c*h_prev)`,
`f = sig(b_f + forget_bias + w_f*x + r_f*h_prev)`, `o = sig(b_o + w_o*x + r_o*h_prev)`,
where `sig(z) = 1/(1 + exp(-z))`, and it returns `CS_0 = f*cs_prev + i*c` and
`H_0 = o*tanh(CS_0)`. -/
theorem c24_scalar_lstm (two_gemms : Bool) (lm : Libm α) (forget_bias : α) (h : Mem Buf α) :
    (lstm_ref two_gemms lm 1 1 1 1 forget_bias h).read (icfo_elem 1 1 0 0 0)
        = 1 / (1 + lm.exp (-(h.read (base .bigold)
            + h.read (base .wigold) * h.read (base .xgoldt)
            + h.read (base .rigold) * h.read (base .hpgold))))
    ∧ (lstm_ref two_gemms lm 1 1 1 1 forget_bias h).read (icfo_elem 1 1 0 0 1)
        = lm.tanh (h.read (base .bcgold)
            + h.read (base .wcgold) * h.read (base .xgoldt)
            + h.read (base .rcgold) * h.read (base .hpgold))
    ∧ (lstm_ref two_gemms lm 1 1 1 1 forget_bias h).read (icfo_elem 1 1 0 0 2)
        = 1 / (1 + lm.exp (-(h.read (base .bfgold) + forget_bias
            + h.read (base .wfgold) * h.read (base .xgoldt)
            + h.read (base .rfgold) * h.read (base .hpgold))))
    ∧ (lstm_ref two_gemms lm 1 1 1 1 forget_bias h).read (icfo_elem 1 1 0 0 3)
        = 1 / (1 + lm.exp (-(h.read (base .bogold)
            + h.read (base .wogold) * h.read (base .xgoldt)
            + h.read (base .rogold) * h.read (base .hpgold))))
    ∧ (lstm_ref two_gemms lm 1 1 1 1 forget_bias h).read (base .csgoldt)
        = (lstm_ref two_gemms lm 1 1 1 1 forget_bias h).read (icfo_elem 1 1 0 0 2)
            * h.read (base .cspgold)
          + (lstm_ref two_gemms lm 1 1 1 1 forget_bias h).read (icfo_elem 1 1 0 0 0)
            * (lstm_ref two_gemms lm 1 1 1 1 forget_bias h).read (icfo_elem 1 1 0 0 1)
    ∧ (lstm_ref two_gemms lm 1 1 1 1 forget_bias h).read (base .hgoldt)
        = (lstm_ref two_gemms lm 1 1 1 1 forget_bias h).read (icfo_elem 1 1 0 0 3)
          * lm.tanh ((lstm_ref two_gemms lm 1 1 1 1 forget_bias h).read (base .csgoldt)) := by
  have pre := fun g (hg : g < 4) =>
    lstm_pre_final two_gemms lm 1 1 1 1 forget_bias h 0 g 0 0 Nat.one_pos hg Nat.one_pos
      Nat.one_pos
  have act := fun g (hg : g < 4) =>
    lstm_ref_icfo two_gemms lm 1 1 1 1 forget_bias h 0 g 0 0 Nat.one_pos hg Nat.one_pos
      Nat.one_pos
  have hcell := lstm_ref_cell two_gemms lm 1 1 1 1 forget_bias h 0 0 Nat.one_pos Nat.one_pos
  have hhid := lstm_ref_hidden two_gemms lm 1 1 1 1 forget_bias h 0 0 Nat.one_pos Nat.one_pos
  have a0 := act 0 (by decide)
  have a1 := act 1 (by decide)
  have a2 := act 2 (by decide)
  have a3 := act 3 (by decide)
  rw [pre 0 (by decide)] at a0
  rw [pre 1 (by decide)] at a1
  rw [pre 2 (by decide)] at a2
  rw [pre 3 (by decide)] at a3
  simp only [Finset.sum_range_one] at a0 a1 a2 a3
  exact ⟨a0, a1, a2, a3, hcell, hhid⟩

end ScalarClaims

section ResourceClaims

/-- C27. Not every scratch buffer `lstm_ref` allocates is freed before it returns: in both
builds the buffers allocated at lines 400-415 and not released at lines 593-606 are
`doutgoldt` and `deltagoldt` (every other allocated buffer is freed, and every freed
buffer was allocated), so the set of buffers allocated is not the set of buffers freed. -/
theorem c27_scratch_not_freed :
    (lstm_ref_allocs false).filter (fun b => decide (b ∉ lstm_ref_frees false))
        = [.doutgoldt, .deltagoldt]
    ∧ (lstm_ref_allocs true).filter (fun b => decide (b ∉ lstm_ref_frees true))
        = [.doutgoldt, .deltagoldt]
    ∧ (∀ b, b ∈ lstm_ref_frees false → b ∈ lstm_ref_allocs false)
    ∧ (∀ b, b ∈ lstm_ref_frees true → b ∈ lstm_ref_allocs true)
    ∧ ¬ (∀ b, b ∈ lstm_ref_allocs false ↔ b ∈ lstm_ref_frees false)
    ∧ ¬ (∀ b, b ∈ lstm_ref_allocs true ↔ b ∈ lstm_ref_frees true) := by
  refine ⟨by decide, by decide, by decide, by decide, fun hall => ?_, fun hall => ?_⟩
  · exact absurd ((hall .deltagoldt).mp (by decide)) (by decide)
  · exact absurd ((hall .deltagoldt).mp (by decide)) (by decide)

end ResourceClaims

section RangeClaims

variable {β : Type} [DecidableEq β]

/-- C28. Over the reals, with `exp` and `tanh` the real functions: for every input `x` the
denominator `1 + exp(-x)` of the sigmoid is not zero and the sigmoid `1/(1 + exp(-x))`
lies strictly between 0 and 1, and `tanh x` lies strictly between -1 and 1; every element
that `matrix_sigmoid` or `matrix_sigmoid_ld` writes is in (0,1) and every element that
`matrix_tanh` or `matrix_tanh_ld` writes is in (-1,1); hence at every timestep `t < T` the
gate activations `i_t`, `f_t`, `o_t` that `lstm_ref` returns are in (0,1) and `c_t` is in
(-1,1), in both builds. -/
theorem c28_activation_ranges (two_gemms : Bool) (N C K T : Nat) (forget_bias : ℝ)
    (h : Mem Buf ℝ) (t n k : Nat) (ht : t < T) (hn : n < N) (hk : k < K)
    (size m r ld : Nat) (src dst : Ptr β) (g : Mem β ℝ) :
    (∀ x : ℝ, 1 + (Libm.mk Real.exp Real.tanh).exp (-x) ≠ 0
      ∧ 0 < sigmoid_value (Libm.mk Real.exp Real.tanh) x
      ∧ sigmoid_value (Libm.mk Real.exp Real.tanh) x < 1
      ∧ -1 < (Libm.mk Real.exp Real.tanh).tanh x
      ∧ (Libm.mk Real.exp Real.tanh).tanh x < 1)
    ∧ (∀ i, i < size →
        0 < (matrix_sigmoid (Libm.mk Real.exp Real.tanh) size src dst g).read (dst.idx i)
        ∧ (matrix_sigmoid (Libm.mk Real.exp Real.tanh) size src dst g).read (dst.idx i) < 1
        ∧ -1 < (matrix_tanh (Libm.mk Real.exp Real.tanh) size src dst g).read (dst.idx i)
        ∧ (matrix_tanh (Libm.mk Real.exp Real.tanh) size src dst g).read (dst.idx i) < 1)
    ∧ (∀ row col, row < r → col < m →
        0 < (matrix_sigmoid_ld (Libm.mk Real.exp Real.tanh) m r ld src dst g).read
              (dst.idx (row * ld + col))
        ∧ (matrix_sigmoid_ld (Libm.mk Real.exp Real.tanh) m r ld src dst g).read
              (dst.idx (row * ld + col)) < 1
        ∧ -1 < (matrix_tanh_ld (Libm.mk Real.exp Real.tanh) m r ld src dst g).read
              (dst.idx (row * ld + col))
        ∧ (matrix_tanh_ld (Libm.mk Real.exp Real.tanh) m r ld src dst g).read
              (dst.idx (row * ld + col)) < 1)
    ∧ (0 < (lstm_ref two_gemms (Libm.mk Real.exp Real.tanh) N C K T forget_bias h).read
            (icfo_elem N K t n k)
      ∧ (lstm_ref two_gemms (Libm.mk Real.exp Real.tanh) N C K T forget_bias h).read
            (icfo_elem N K t n k) < 1)
    ∧ (-1 < (lstm_ref two_gemms (Libm.mk Real.exp Real.tanh) N C K T forget_bias h).read
            (icfo_elem N K t n (K + k))
      ∧ (lstm_ref two_gemms (Libm.mk Real.exp Real.tanh) N C K T forget_bias h).read
            (icfo_elem N K t n (K + k)) < 1)
    ∧ (0 < (lstm_ref two_gemms (Libm.mk Real.exp Real.tanh) N C K T forget_bias h).read
            (icfo_elem N K t n (2 * K + k))
      ∧ (lstm_ref two_gemms (Libm.mk Real.exp Real.tanh) N C K T forget_bias h).read
            (icfo_elem N K t n (2 * K + k)) < 1)
    ∧ (0 < (lstm_ref two_gemms (Libm.mk Real.exp Real.tanh) N C K T forget_bias h).read
            (icfo_elem N K t n (3 * K + k))
      ∧ (lstm_ref two_gemms (Libm.mk Real.exp Real.tanh) N C K T forget_bias h).read
            (icfo_elem N K t n (3 * K + k)) < 1) := by
  have hsig := sigmoid_value_real
  have htanh := tanh_real_range
  have h0 := lstm_ref_icfo two_gemms (Libm.mk Real.exp Real.tanh) N C K T forget_bias h t 0 n k
    ht (by omega) hn hk
  have h1 := lstm_ref_icfo two_gemms (Libm.mk Real.exp Real.tanh) N C K T forget_bias h t 1 n k
    ht (by omega) hn hk
  have h2 := lstm_ref_icfo two_gemms (Libm.mk Real.exp Real.tanh) N C K T forget_bias h t 2 n k
    ht (by omega) hn hk
  have h3 := lstm_ref_icfo two_gemms (Libm.mk Real.exp Real.tanh) N C K T forget_bias h t 3 n k
    ht (by omega) hn hk
  rw [Nat.zero_mul, Nat.zero_add] at h0
  rw [Nat.one_mul] at h1
  simp only [if_true, if_neg (show ¬ (0 = 1) by decide), if_neg (show ¬ (2 = 1) by decide),
    if_neg (show ¬ (3 = 1) by decide)] at h0 h1 h2 h3
  refine ⟨fun x => ⟨ne_of_gt (hsig x).1, (hsig x).2.1, (hsig x).2.2, (htanh x).1,
    (htanh x).2⟩, fun i hi => ⟨?_, ?_, ?_, ?_⟩, fun row col hrow hcol => ⟨?_, ?_, ?_, ?_⟩,
    ?_, ?_, ?_, ?_⟩
  · exact writeLoop_range (fun v => 0 < v) size (fun i => dst.idx i) _
      (fun i h => (hsig _).2.1) _ ⟨i, hi, rfl⟩ g
  · exact writeLoop_range (fun v => v < 1) size (fun i => dst.idx i) _
      (fun i h => (hsig _).2.2) _ ⟨i, hi, rfl⟩ g
  · exact writeLoop_range (fun v => -1 < v) size (fun i => dst.idx i) _
      (fun i h => (htanh _).1) _ ⟨i, hi, rfl⟩ g
  · exact writeLoop_range (fun v => v < 1) size (fun i => dst.idx i) _
      (fun i h => (htanh _).2) _ ⟨i, hi, rfl⟩ g
  · exact writeLoop_range (fun v => 0 < v) (m * r) (fun i => dst.idx (i / m * ld + i % m)) _
      (fun i h => (hsig _).2.1) _
      (strided_written m r ld row col dst hrow hcol) g
  · exact writeLoop_range (fun v => v < 1) (m * r) (fun i => dst.idx (i / m * ld + i % m)) _
      (fun i h => (hsig _).2.2) _
      (strided_written m r ld row col dst hrow hcol) g
  · exact writeLoop_range (fun v => -1 < v) (m * r) (fun i => dst.idx (i / m * ld + i % m)) _
      (fun i h => (htanh _).1) _
      (strided_written m r ld row col dst hrow hcol) g
  · exact writeLoop_range (fun v => v < 1) (m * r) (fun i => dst.idx (i / m * ld + i % m)) _
      (fun i h => (htanh _).2) _
      (strided_written m r ld row col dst hrow hcol) g
  · rw [h0]; exact ⟨(hsig _).2.1, (hsig _).2.2⟩
  · rw [h1]; exact htanh _
  · rw [h2]; exact ⟨(hsig _).2.1, (hsig _).2.2⟩
  · rw [h3]; exact ⟨(hsig _).2.1, (hsig _).2.2⟩

theorem c28_activation_ranges_witness :
    0 < (lstm_ref false (Libm.mk Real.exp Real.tanh) 1 1 1 1 1 (Mem.mk fun _ _ => 0)).read
          (icfo_elem 1 1 0 0 (2 * 1 + 0))
    ∧ (lstm_ref false (Libm.mk Real.exp Real.tanh) 1 1 1 1 1 (Mem.mk fun _ _ => 0)).read
          (icfo_elem 1 1 0 0 (2 * 1 + 0)) < 1 :=
  (c28_activation_ranges false 1 1 1 1 1 (Mem.mk fun _ _ => 0) 0 0 0 (by decide) (by decide)
    (by decide) 1 1 1 4 (base Buf.icfogoldt) (base Buf.icfogoldt)
    (Mem.mk fun _ _ => 0)).2.2.2.2.2.1

end RangeClaims

section ForwardOnlyClaims

variable {α : Type} [Zero α] [One α] [Add α] [Sub α] [Mul α] [Div α] [Neg α]

/-- C23, as amended.  `lstm_ref` has no forward-only mode: every call is the forward part
(the setup and the forward loop, lines 427-494) followed by the backward loop.  It is the
forward part, after any number `j` of timesteps and in either build, that leaves every
gradient buffer (`dxgoldt`, `dcspgold`, `dhpgold`, `dwgold`, `drgold`, `dbgold`) equal to
its contents before the call. -/
theorem c23_forward_part_keeps_gradients (two_gemms : Bool) (lm : Libm α) (N C K j : Nat)
    (forget_bias : α) (h : Mem Buf α) (q : Ptr Buf)
    (hq : q.buf = .dxgoldt ∨ q.buf = .dcspgold ∨ q.buf = .dhpgold ∨ q.buf = .dwgold
      ∨ q.buf = .drgold ∨ q.buf = .dbgold) :
    (lstm_fwd two_gemms lm N C K j forget_bias h).read q = h.read q
    ∧ lstm_ref two_gemms lm N C K j forget_bias h
        = forLoopDown j (bwd_step two_gemms lm N C K j)
            (lstm_fwd two_gemms lm N C K j forget_bias h) := by
  refine ⟨?_, rfl⟩
  apply lstm_fwd_input two_gemms lm N C K j forget_bias q h
  all_goals
    rcases hq with hq | hq | hq | hq | hq | hq <;> rw [hq] <;>
      decide

theorem c23_forward_part_keeps_gradients_witness :
    (lstm_fwd false demo_libm 1 1 2 2 1 demo_mem).read ((base .dcspgold).idx 1)
        = demo_mem.read ((base .dcspgold).idx 1)
    ∧ lstm_ref false demo_libm 1 1 2 2 1 demo_mem
        = forLoopDown 2 (bwd_step false demo_libm 1 1 2 2)
            (lstm_fwd false demo_libm 1 1 2 2 1 demo_mem) :=
  c23_forward_part_keeps_gradients false demo_libm 1 1 2 2 1 demo_mem
    ((base .dcspgold).idx 1) (Or.inr (Or.inl rfl))

/-- C23 as stated fails: a call of `lstm_ref` (the source as it is built, one timestep of
a scalar LSTM over the reals, every buffer zero except `dcsgold = 1`) does not leave
`dcspgold` equal to its contents before the call. -/
theorem c23_gradient_buffer_changed :
    (lstm_ref false (Libm.mk Real.exp Real.tanh) 1 1 1 1 1
        (Mem.mk fun b _ => if b = Buf.dcsgold then 1 else 0)).read (base .dcspgold)
      ≠ (Mem.mk fun b _ => if b = Buf.dcsgold then (1 : ℝ) else 0).read (base .dcspgold) := by
  have key := lstm_ref_dcsp_scalar false 1
    (Mem.mk fun b _ => if b = Buf.dcsgold then 1 else 0)
    (show (if Buf.dhgoldt = Buf.dcsgold then (1 : ℝ) else 0) = 0 from if_neg (by decide))
    (show (if Buf.dcsgold = Buf.dcsgold then (1 : ℝ) else 0) = 1 from if_pos rfl)
  have e : (Mem.mk fun b _ => if b = Buf.dcsgold then (1 : ℝ) else 0).read (base .dcspgold)
      = 0 := show (if Buf.dcspgold = Buf.dcsgold then (1 : ℝ) else 0) = 0 from if_neg (by decide)
  rw [e]
  exact ne_of_gt key

end ForwardOnlyClaims

section DeterminismClaims

variable {α : Type} [Zero α] [One α] [Add α] [Sub α] [Mul α] [Div α] [Neg α]

/-- C25. Determinism, for every carrier and whatever the arithmetic operations are (no law
of arithmetic is used, so also for a rounding arithmetic with infinities and NaN), in
either build: two calls of `lstm_ref` on memories that agree on the buffers the caller
passes (the inputs and the initial contents of the output buffers) return the same `CS_t`,
`H_t`, `dX_t`, `dCS_prev`, `dH_prev`, `dW`, `dR` and `db`, whatever the two memories hold
in the scratch buffers that `lstm_ref` allocates (`bfgold_fb`, `icfogoldt`, `dicfogoldt`,
`doutgoldt`, `deltagoldt`, `t1gold`, `t2gold`, `t3gold`, the fused weight buffers,
`xhgold`, `dxhgold`): no output depends on what a scratch element held before the call,
which is what "written before it is read" says of the results. -/
theorem c25_determinism (two_gemms : Bool) (lm : Libm α) (N C K T : Nat) (forget_bias : α)
    (h h' : Mem Buf α) (hargs : ∀ q, q.buf ∈ lstm_ref_args → h.read q = h'.read q) :
    (∀ t e, t < T → e < K * N →
      (lstm_ref two_gemms lm N C K T forget_bias h).read ((seq_at .csgoldt t (K * N)).idx e)
          = (lstm_ref two_gemms lm N C K T forget_bias h').read
              ((seq_at .csgoldt t (K * N)).idx e)
      ∧ (lstm_ref two_gemms lm N C K T forget_bias h).read ((seq_at .hgoldt t (K * N)).idx e)
          = (lstm_ref two_gemms lm N C K T forget_bias h').read
              ((seq_at .hgoldt t (K * N)).idx e))
    ∧ (∀ t n c, t < T → n < N → c < C →
      (lstm_ref two_gemms lm N C K T forget_bias h).read
          ((seq_at .dxgoldt t (N * C)).idx (n * C + c))
        = (lstm_ref two_gemms lm N C K T forget_bias h').read
          ((seq_at .dxgoldt t (N * C)).idx (n * C + c)))
    ∧ (∀ e, e < K * N →
      (lstm_ref two_gemms lm N C K T forget_bias h).read ((base .dcspgold).idx e)
          = (lstm_ref two_gemms lm N C K T forget_bias h').read ((base .dcspgold).idx e)
      ∧ (lstm_ref two_gemms lm N C K T forget_bias h).read ((base .dhpgold).idx e)
          = (lstm_ref two_gemms lm N C K T forget_bias h').read ((base .dhpgold).idx e))
    ∧ (∀ c q, c < C → q < 4 * K →
      (lstm_ref two_gemms lm N C K T forget_bias h).read
          ((base .dwgold).idx (c * (4 * K) + q))
        = (lstm_ref two_gemms lm N C K T forget_bias h').read
          ((base .dwgold).idx (c * (4 * K) + q)))
    ∧ (∀ i q, i < K → q < 4 * K →
      (lstm_ref two_gemms lm N C K T forget_bias h).read (dr_elem two_gemms C K i q)
        = (lstm_ref two_gemms lm N C K T forget_bias h').read (dr_elem two_gemms C K i q))
    ∧ (∀ i, i < 4 * K →
      (lstm_ref two_gemms lm N C K T forget_bias h).read ((base .dbgold).idx i)
        = (lstm_ref two_gemms lm N C K T forget_bias h').read ((base .dbgold).idx i)) := by
  have hin : ∀ q, lstm_input q.buf = true → h.read q = h'.read q :=
    fun q hq => hargs q (input_mem_args hq)
  have acc := lstm_ref_acc_same two_gemms lm N C K T forget_bias h h' hin
  have mw : Buf.dwgold ∈ lstm_ref_args := by decide
  have mr : Buf.drgold ∈ lstm_ref_args := by decide
  have mb : Buf.dbgold ∈ lstm_ref_args := by decide
  have mx : Buf.dxgoldt ∈ lstm_ref_args := by decide
  have mc : Buf.dcspgold ∈ lstm_ref_args := by decide
  have mh : Buf.dhpgold ∈ lstm_ref_args := by decide
  refine ⟨fun t e ht he =>
      (lstm_fwd_same two_gemms lm N C K T forget_bias h h' hin t ht).2 e he,
    fun t n c ht hn hc =>
      lstm_ref_dx_same two_gemms lm N C K T forget_bias h h' hin
        (fun q hq => hargs q (by rw [hq]; exact mx)) t n c ht hn hc,
    fun e he => ?_,
    fun c q hc hq => acc.1 c q hc hq (hargs _ mw),
    fun i q hi hq => acc.2.1 i q hi hq (hargs _ (by
      unfold dr_elem
      cases two_gemms
      · exact mw
      · exact mr)),
    fun i hi => acc.2.2 i hi (hargs _ mb)⟩
  rcases Nat.eq_zero_or_pos T with hT | hT
  · subst hT
    rw [lstm_ref_no_step_raw two_gemms lm N C K forget_bias h ((base .dcspgold).idx e) nofun
        ⟨nofun, nofun, nofun⟩,
      lstm_ref_no_step_raw two_gemms lm N C K forget_bias h' ((base .dcspgold).idx e) nofun
        ⟨nofun, nofun, nofun⟩,
      lstm_ref_no_step_raw two_gemms lm N C K forget_bias h ((base .dhpgold).idx e) nofun
        ⟨nofun, nofun, nofun⟩,
      lstm_ref_no_step_raw two_gemms lm N C K forget_bias h' ((base .dhpgold).idx e) nofun
        ⟨nofun, nofun, nofun⟩]
    exact ⟨hargs _ mc, hargs _ mh⟩
  · exact lstm_ref_prev_same two_gemms lm N C K T forget_bias h h' hin hT e he

theorem c25_determinism_witness :
    (∀ t e, t < 2 → e < 2 * 2 →
      (lstm_ref false demo_libm 2 2 2 2 3 demo_mem).read ((seq_at .csgoldt t (2 * 2)).idx e)
          = (lstm_ref false demo_libm 2 2 2 2 3 demo_mem_i).read
              ((seq_at .csgoldt t (2 * 2)).idx e)
      ∧ (lstm_ref false demo_libm 2 2 2 2 3 demo_mem).read ((seq_at .hgoldt t (2 * 2)).idx e)
          = (lstm_ref false demo_libm 2 2 2 2 3 demo_mem_i).read
              ((seq_at .hgoldt t (2 * 2)).idx e))
    ∧ (∀ t n c, t < 2 → n < 2 → c < 2 →
      (lstm_ref false demo_libm 2 2 2 2 3 demo_mem).read
          ((seq_at .dxgoldt t (2 * 2)).idx (n * 2 + c))
        = (lstm_ref false demo_libm 2 2 2 2 3 demo_mem_i).read
          ((seq_at .dxgoldt t (2 * 2)).idx (n * 2 + c))) :=
  ⟨(c25_determinism false demo_libm 2 2 2 2 3 demo_mem demo_mem_i
      (fun q hq => (if_pos hq).symm)).1,
    (c25_determinism false demo_libm 2 2 2 2 3 demo_mem demo_mem_i
      (fun q hq => (if_pos hq).symm)).2.1⟩

/-- C21. The two builds on the call with `T = N = C = K = 1` and `22/7` in `dxgoldt`, the
same memory for both: the `TWO_GEMMS` build returns in `dX_0[0]` what the default build
returns plus the `22/7` the buffer held before the call (the multiply of lines 548-549 is
called with `beta = 1`), so the two builds do not return the same `dX_0`; they return the
same `dH_prev`, `dCS_prev`, `db` and `dW`. -/
theorem c21_two_gemms_input_gradient_differs :
    (lstm_ref true demo_libm_q 1 1 1 1 3 demo_mem_q).read
        ((seq_at .dxgoldt 0 (1 * 1)).idx (0 * 1 + 0))
      = (lstm_ref false demo_libm_q 1 1 1 1 3 demo_mem_q).read
          ((seq_at .dxgoldt 0 (1 * 1)).idx (0 * 1 + 0)) + 22 / 7
    ∧ (lstm_ref true demo_libm_q 1 1 1 1 3 demo_mem_q).read
        ((seq_at .dxgoldt 0 (1 * 1)).idx (0 * 1 + 0))
      ≠ (lstm_ref false demo_libm_q 1 1 1 1 3 demo_mem_q).read
          ((seq_at .dxgoldt 0 (1 * 1)).idx (0 * 1 + 0))
    ∧ (lstm_ref true demo_libm_q 1 1 1 1 3 demo_mem_q).read ((base .dhpgold).idx 0)
      = (lstm_ref false demo_libm_q 1 1 1 1 3 demo_mem_q).read ((base .dhpgold).idx 0)
    ∧ (lstm_ref true demo_libm_q 1 1 1 1 3 demo_mem_q).read ((base .dcspgold).idx 0)
      = (lstm_ref false demo_libm_q 1 1 1 1 3 demo_mem_q).read ((base .dcspgold).idx 0)
    ∧ (∀ i, i < 4 * 1 →
      (lstm_ref true demo_libm_q 1 1 1 1 3 demo_mem_q).read ((base .dbgold).idx i)
        = (lstm_ref false demo_libm_q 1 1 1 1 3 demo_mem_q).read ((base .dbgold).idx i))
    ∧ (∀ q, q < 4 * 1 →
      (lstm_ref true demo_libm_q 1 1 1 1 3 demo_mem_q).read
          ((base .dwgold).idx (0 * (4 * 1) + q))
        = (lstm_ref false demo_libm_q 1 1 1 1 3 demo_mem_q).read
          ((base .dwgold).idx (0 * (4 * 1) + q))) := by
  have hv : demo_mem_q.read ((seq_at .dxgoldt 0 (1 * 1)).idx (0 * 1 + 0)) = 22 / 7 := by
    simp [demo_mem_q, Mem.read, seq_at, base, Ptr.idx, vla2, Rat.divInt_eq_div]
  have h1 := lstm_ref_dx_builds demo_libm_q 1 1 1 1 3 demo_mem_q demo_mem_q (fun _ _ => rfl)
    0 0 0 (by decide) (by decide) (by decide)
  rw [hv] at h1
  have h2 := lstm_ref_prev_determined true false demo_libm_q 1 1 1 1 3 demo_mem_q demo_mem_q
    (fun _ _ => rfl) (by decide) 0 (by decide)
  have h3 := lstm_ref_acc_determined true false demo_libm_q 1 1 1 1 3 demo_mem_q demo_mem_q
    (fun _ _ => rfl)
  refine ⟨h1, fun he => ?_, h2.2, h2.1, fun i hi => h3.2.2 i hi rfl,
    fun q hq => h3.1 0 q (by decide) hq rfl⟩
  have h4 : (22 / 7 : Rat) = 0 := add_right_eq_self.mp (h1.symm.trans he)
  norm_num at h4

end DeterminismClaims

section GradientClaims

/-- C26. Gradient correctness over the reals, with `exp` and `tanh` the real functions, in
both builds and for `T ≥ 1`.  Let `L(m) = sum_{t<T} <dH_t, H_t(m)> + <dCS, CS_{T-1}(m)>`,
where `H_t(m)`, `CS_t(m)` are the outputs of `lstm_ref` on the memory `m` and `dH_t`
(`dhgoldt`), `dCS` (`dcsgold`) are the gradients the caller supplies.  For every gate
`g < 4` and `x < K`: the gradient `lstm_ref` leaves in `dW[c][g*K + x]`, from a
zero-initialised element, is the derivative of `L` with respect to the weight `W_g[c][x]`
at the value the caller passes; likewise `dR[l][g*K + x]` (in `drgold` under `TWO_GEMMS`,
in rows `C ..` of `dwgold` otherwise) for the recurrent weight `R_g[l][x]`, and
`db[g*K + x]` for the bias `b_g[x]`. -/
theorem c26_gradient_correctness (two_gemms : Bool) (N C K T : Nat) (forget_bias : ℝ)
    (h : Mem Buf ℝ) (hT : 0 < T) (L : Mem Buf ℝ → ℝ)
    (hL : ∀ m, L m = ∑ t in Finset.range T, ∑ e in Finset.range (K * N),
            h.read ((seq_at .dhgoldt t (K * N)).idx e)
              * (lstm_ref two_gemms (Libm.mk Real.exp Real.tanh) N C K T forget_bias m).read
                  ((seq_at .hgoldt t (K * N)).idx e)
          + ∑ e in Finset.range (K * N), h.read ((base .dcsgold).idx e)
              * (lstm_ref two_gemms (Libm.mk Real.exp Real.tanh) N C K T forget_bias m).read
                  ((seq_at .csgoldt (T - 1) (K * N)).idx e))
    (g x : Nat) (hg : g < 4) (hx : x < K) :
    (∀ c, c < C → h.read ((base .dwgold).idx (c * (4 * K) + (g * K + x))) = 0 →
      HasDerivAt (fun s => L (h.write ((base (gate_w g)).idx (c * K + x)) s))
        ((lstm_ref two_gemms (Libm.mk Real.exp Real.tanh) N C K T forget_bias h).read
          ((base .dwgold).idx (c * (4 * K) + (g * K + x))))
        (h.read ((base (gate_w g)).idx (c * K + x))))
    ∧ (∀ l, l < K → h.read (dr_elem two_gemms C K l (g * K + x)) = 0 →
      HasDerivAt (fun s => L (h.write ((base (gate_r g)).idx (l * K + x)) s))
        ((lstm_ref two_gemms (Libm.mk Real.exp Real.tanh) N C K T forget_bias h).read
          (dr_elem two_gemms C K l (g * K + x)))
        (h.read ((base (gate_r g)).idx (l * K + x))))
    ∧ (h.read ((base .dbgold).idx (g * K + x)) = 0 →
      HasDerivAt (fun s => L (h.write ((base (gate_b g)).idx x) s))
        ((lstm_ref two_gemms (Libm.mk Real.exp Real.tanh) N C K T forget_bias h).read
          ((base .dbgold).idx (g * K + x)))
        (h.read ((base (gate_b g)).idx x))) := by
  have hpos : ∀ x, 0 < (Libm.mk Real.exp Real.tanh).exp x := Real.exp_pos
  have hexp : ∀ x, HasDerivAt (Libm.mk Real.exp Real.tanh).exp
      ((Libm.mk Real.exp Real.tanh).exp x) x := Real.hasDerivAt_exp
  have htanh : ∀ x, HasDerivAt (Libm.mk Real.exp Real.tanh).tanh
      (1 - (Libm.mk Real.exp Real.tanh).tanh x * (Libm.mk Real.exp Real.tanh).tanh x) x :=
    real_tanh_hasDerivAt
  refine ⟨fun c hc hz => ?_, fun l hl hz => ?_, fun hz => ?_⟩
  · have key := lstm_ref_dw_derivative two_gemms _ hpos hexp htanh N C K T hT forget_bias h
      g x c hg hx hc
    rw [hz, sub_zero] at key
    simp only [hL]
    exact key
  · have key := lstm_ref_dr_derivative two_gemms _ hpos hexp htanh N C K T hT forget_bias h
      g x l hg hx hl
    rw [hz, sub_zero] at key
    simp only [hL]
    exact key
  · have key := lstm_ref_db_derivative two_gemms _ hpos hexp htanh N C K T hT forget_bias h
      g x hg hx
    rw [hz, sub_zero] at key
    simp only [hL]
    exact key

theorem c26_gradient_correctness_witness :
    HasDerivAt
      (fun s =>
        (fun m => ∑ t in Finset.range 1, ∑ e in Finset.range (2 * 2),
            (Mem.mk fun b i => if b = Buf.dwgold ∨ b = Buf.drgold ∨ b = Buf.dbgold then (0 : ℝ)
                else ((i : ℝ) + 1) / 8).read ((seq_at .dhgoldt t (2 * 2)).idx e)
              * (lstm_ref false (Libm.mk Real.exp Real.tanh) 2 2 2 1 1 m).read
                  ((seq_at .hgoldt t (2 * 2)).idx e)
          + ∑ e in Finset.range (2 * 2),
              (Mem.mk fun b i => if b = Buf.dwgold ∨ b = Buf.drgold ∨ b = Buf.dbgold
                  then (0 : ℝ) else ((i : ℝ) + 1) / 8).read ((base .dcsgold).idx e)
                * (lstm_ref false (Libm.mk Real.exp Real.tanh) 2 2 2 1 1 m).read
                    ((seq_at .csgoldt (1 - 1) (2 * 2)).idx e))
          ((Mem.mk fun b i => if b = Buf.dwgold ∨ b = Buf.drgold ∨ b = Buf.dbgold then (0 : ℝ)
              else ((i : ℝ) + 1) / 8).write ((base (gate_w 1)).idx (1 * 2 + 1)) s))
      ((lstm_ref false (Libm.mk Real.exp Real.tanh) 2 2 2 1 1
          (Mem.mk fun b i => if b = Buf.dwgold ∨ b = Buf.drgold ∨ b = Buf.dbgold then (0 : ℝ)
            else ((i : ℝ) + 1) / 8)).read
        ((base .dwgold).idx (1 * (4 * 2) + (1 * 2 + 1))))
      ((Mem.mk fun b i => if b = Buf.dwgold ∨ b = Buf.drgold ∨ b = Buf.dbgold then (0 : ℝ)
          else ((i : ℝ) + 1) / 8).read ((base (gate_w 1)).idx (1 * 2 + 1)))
    ∧ 0 < (lstm_ref false (Libm.mk Real.exp Real.tanh) 2 2 2 1 1
          (Mem.mk fun b i => if b = Buf.dwgold ∨ b = Buf.drgold ∨ b = Buf.dbgold then (0 : ℝ)
            else ((i : ℝ) + 1) / 8)).read
        ((base .dwgold).idx (1 * (4 * 2) + (1 * 2 + 1)))
    ∧ HasDerivAt
      (fun s =>
        (fun m => ∑ t in Finset.range 2, ∑ e in Finset.range (2 * 2),
            (Mem.mk fun b i => if b = Buf.dwgold ∨ b = Buf.drgold ∨ b = Buf.dbgold then (0 : ℝ)
                else ((i : ℝ) + 1) / 8).read ((seq_at .dhgoldt t (2 * 2)).idx e)
              * (lstm_ref true (Libm.mk Real.exp Real.tanh) 2 2 2 2 1 m).read
                  ((seq_at .hgoldt t (2 * 2)).idx e)
          + ∑ e in Finset.range (2 * 2),
              (Mem.mk fun b i => if b = Buf.dwgold ∨ b = Buf.drgold ∨ b = Buf.dbgold
                  then (0 : ℝ) else ((i : ℝ) + 1) / 8).read ((base .dcsgold).idx e)
                * (lstm_ref true (Libm.mk Real.exp Real.tanh) 2 2 2 2 1 m).read
                    ((seq_at .csgoldt (2 - 1) (2 * 2)).idx e))
          ((Mem.mk fun b i => if b = Buf.dwgold ∨ b = Buf.drgold ∨ b = Buf.dbgold then (0 : ℝ)
              else ((i : ℝ) + 1) / 8).write ((base (gate_r 2)).idx (0 * 2 + 1)) s))
      ((lstm_ref true (Libm.mk Real.exp Real.tanh) 2 2 2 2 1
          (Mem.mk fun b i => if b = Buf.dwgold ∨ b = Buf.drgold ∨ b = Buf.dbgold then (0 : ℝ)
            else ((i : ℝ) + 1) / 8)).read (dr_elem true 2 2 0 (2 * 2 + 1)))
      ((Mem.mk fun b i => if b = Buf.dwgold ∨ b = Buf.drgold ∨ b = Buf.dbgold then (0 : ℝ)
          else ((i : ℝ) + 1) / 8).read ((base (gate_r 2)).idx (0 * 2 + 1))) :=
  ⟨(c26_gradient_correctness false 2 2 2 1 1
      (Mem.mk fun b i => if b = Buf.dwgold ∨ b = Buf.drgold ∨ b = Buf.dbgold then (0 : ℝ)
        else ((i : ℝ) + 1) / 8) (by decide) _
      (fun _ => rfl) 1 1 (by decide) (by decide)).1 1 (by decide)
      (by simp [Mem.read, base, Ptr.idx]),
    lstm_ref_dw_pos false 2 2 2 (by decide) 1 _
      (fun e _ => by
        show 0 ≤ (if Buf.dhgoldt = Buf.dwgold ∨ Buf.dhgoldt = Buf.drgold
          ∨ Buf.dhgoldt = Buf.dbgold then (0 : ℝ) else _)
        rw [if_neg (by decide)]
        positivity)
      (fun e _ => by
        show 0 < (if Buf.dcsgold = Buf.dwgold ∨ Buf.dcsgold = Buf.drgold
          ∨ Buf.dcsgold = Buf.dbgold then (0 : ℝ) else _)
        rw [if_neg (by decide)]
        exact div_pos (add_pos_of_nonneg_of_pos (Nat.cast_nonneg _) one_pos) (by norm_num))
      (fun i => by
        show 0 < (if Buf.xgoldt = Buf.dwgold ∨ Buf.xgoldt = Buf.drgold
          ∨ Buf.xgoldt = Buf.dbgold then (0 : ℝ) else _)
        rw [if_neg (by decide)]
        exact div_pos (add_pos_of_nonneg_of_pos (Nat.cast_nonneg _) one_pos) (by norm_num))
      1 1 (by decide) (by decide)
      (by simp [Mem.read, base, Ptr.idx]),
    (c26_gradient_correctness true 2 2 2 2 1
      (Mem.mk fun b i => if b = Buf.dwgold ∨ b = Buf.drgold ∨ b = Buf.dbgold then (0 : ℝ)
        else ((i : ℝ) + 1) / 8) (by decide) _
      (fun _ => rfl) 2 1 (by decide) (by decide)).2.1 0 (by decide)
      (by simp [Mem.read, dr_elem, base, Ptr.idx])⟩

end GradientClaims

section StridedClaims

variable {β α : Type} [DecidableEq β]

/-- C31. The strided operations with a strided destination (`matrix_sigmoid_ld`,
`matrix_tanh_ld`, `matrix_eltwise_mult_ld_c`) change only the elements `dst[row*ld + col]`
with `row < n` and `col < m` (for all `m`, `n`, `ld`, in particular `m, n >= 1` and
`ld >= m`); applied to gate slot `g` of an `N x 4K` buffer (`m = K`, `ld = 4K`, the
sigmoid and the tanh in place) they leave the three other gate slots unchanged. -/
theorem c31_strided_frame [One α] [Add α] [Neg α] [Div α] [Mul α] (lm : Libm α)
    (m n ld : Nat) (src a b dst q : Ptr β) (h : Mem β α)
    (hq : ∀ row col, row < n → col < m → q ≠ dst.idx (row * ld + col)) :
    ((matrix_sigmoid_ld lm m n ld src dst h).read q = h.read q
      ∧ (matrix_tanh_ld lm m n ld src dst h).read q = h.read q
      ∧ (matrix_eltwise_mult_ld_c m n ld a b dst h).read q = h.read q)
    ∧ (∀ (N K g g2 r x : Nat) (buf : Ptr β), g < 4 → g2 < 4 → g ≠ g2 → r < N → x < K →
        (matrix_sigmoid_ld lm K N (4 * K) (buf.idx (g * K)) (buf.idx (g * K)) h).read
            (buf.idx (r * (4 * K) + g2 * K + x))
          = h.read (buf.idx (r * (4 * K) + g2 * K + x))
        ∧ (matrix_tanh_ld lm K N (4 * K) (buf.idx (g * K)) (buf.idx (g * K)) h).read
            (buf.idx (r * (4 * K) + g2 * K + x))
          = h.read (buf.idx (r * (4 * K) + g2 * K + x))
        ∧ (matrix_eltwise_mult_ld_c K N (4 * K) a b (buf.idx (g * K)) h).read
            (buf.idx (r * (4 * K) + g2 * K + x))
          = h.read (buf.idx (r * (4 * K) + g2 * K + x))) := by
  have hq2 : ∀ row col, row < n → col < m → dst.idx (row * ld + col) ≠ q :=
    fun row col hr hc he => hq row col hr hc he.symm
  refine ⟨⟨matrix_sigmoid_ld_frame lm m n ld src dst q h hq2,
    matrix_tanh_ld_frame lm m n ld src dst q h hq2,
    matrix_eltwise_mult_ld_c_frame m n ld a b dst q h hq2⟩, ?_⟩
  intro N K g g2 r x buf hg hg2 hne hr hx
  have hs : ∀ row col, row < N → col < K →
      (buf.idx (g * K)).idx (row * (4 * K) + col) ≠ buf.idx (r * (4 * K) + g2 * K + x) :=
    fun row col _ hc he => slot_disjoint buf hg hg2 hne hx row col hc he.symm
  exact ⟨matrix_sigmoid_ld_frame lm K N (4 * K) _ _ _ h hs,
    matrix_tanh_ld_frame lm K N (4 * K) _ _ _ h hs,
    matrix_eltwise_mult_ld_c_frame K N (4 * K) a b _ _ h hs⟩

theorem c31_strided_frame_witness :
    (matrix_sigmoid_ld demo_libm 2 2 8 (base .icfogoldt) (base .icfogoldt) demo_mem).read
        ((base .icfogoldt).idx 2) = demo_mem.read ((base .icfogoldt).idx 2)
    ∧ (matrix_tanh_ld demo_libm 2 2 8 (base .icfogoldt) (base .icfogoldt) demo_mem).read
        ((base .icfogoldt).idx 2) = demo_mem.read ((base .icfogoldt).idx 2)
    ∧ (matrix_eltwise_mult_ld_c 2 2 8 (base .t1gold) (base .t2gold) (base .icfogoldt)
        demo_mem).read ((base .icfogoldt).idx 2) = demo_mem.read ((base .icfogoldt).idx 2) :=
  (c31_strided_frame demo_libm 2 2 8 (base .icfogoldt) (base .t1gold) (base .t2gold)
    (base .icfogoldt) ((base .icfogoldt).idx 2) demo_mem
    (fun row col hr hc he => by have := Ptr.idx_inj he; omega)).1

/-- C32. Each strided variant agrees with its packed variant when the leading dimension
equals the row width: for all `m`, `n` (in particular `m, n >= 1`) the calls
`matrix_sigmoid_ld(m, n, m, s, d)`, `matrix_tanh_ld(m, n, m, s, d)`,
`matrix_complement_ld(m, n, m, s, d)`, `matrix_complement_square_ld(m, n, m, s, d)` and
`matrix_copy_ld(m, n, m, s, d)` leave the same memory, hence the same destination, as
`matrix_sigmoid`, `matrix_tanh`, `matrix_complement`, `matrix_complement_square` and
`matrix_copy` called with size `m*n`. -/
theorem c32_strided_eq_packed [One α] [Add α] [Neg α] [Div α] [Sub α] [Mul α] (lm : Libm α)
    (m n : Nat) (s d : Ptr β) (h : Mem β α) :
    matrix_sigmoid_ld lm m n m s d h = matrix_sigmoid lm (m * n) s d h
    ∧ matrix_tanh_ld lm m n m s d h = matrix_tanh lm (m * n) s d h
    ∧ matrix_complement_ld m n m s d h = matrix_complement (m * n) s d h
    ∧ matrix_complement_square_ld m n m s d h = matrix_complement_square (m * n) s d h
    ∧ matrix_copy_ld m n m s d h = matrix_copy (m * n) s d h :=
  ⟨matrix_sigmoid_ld_packed lm m n s d h, matrix_tanh_ld_packed lm m n s d h,
    matrix_complement_ld_packed m n s d h, matrix_complement_square_ld_packed m n s d h,
    matrix_copy_ld_packed m n s d h⟩

end StridedClaims

section DisjointClaims

variable {α : Type} [Zero α] [One α] [Add α] [Sub α] [Mul α] [Div α] [Neg α]

/-- C35. The parallel loops write disjoint destinations per iteration.  The loop of
"compute db" is the loop of its iterations `l < K`; iteration `l` changes only the elements
`l`, `l + K`, `l + 2K`, `l + 3K` of `dbgold`, and for `l != l'` (both `< K`) these index
sets are disjoint.  Every helper with a strided destination (`matrix_sigmoid_ld`,
`matrix_tanh_ld`, `matrix_eltwise_mult_ld_c`, `matrix_copy_bias`) is a loop of `m*n`
iterations in which iteration `i` is the single write of `dst[(i/m)*ld + (i%m)]`, and with
`ld >= m` distinct loop indices `i < m*n` have distinct destinations. -/
theorem c35_parallel_writes_disjoint (lm : Libm α) (N K j m n ld : Nat) (hld : m ≤ ld)
    (src a b dst : Ptr Buf) :
    (∀ h : Mem Buf α, bwd_db N K j h = forLoop K (bwd_db_iter N K j) h)
    ∧ (∀ (l : Nat) (h : Mem Buf α) (q : Ptr Buf),
        (∀ g, g < 4 → q ≠ (base .dbgold).idx (l + g * K)) →
        (bwd_db_iter N K j l h).read q = h.read q)
    ∧ (∀ l l2 g g2, l < K → l2 < K → l ≠ l2 → g < 4 → g2 < 4 →
        (base Buf.dbgold).idx (l + g * K) ≠ (base Buf.dbgold).idx (l2 + g2 * K))
    ∧ (∃ v : Nat → Mem Buf α → α, ∀ h, matrix_sigmoid_ld lm m n ld src dst h
        = forLoop (m * n) (fun i h => h.write (dst.idx (i / m * ld + i % m)) (v i h)) h)
    ∧ (∃ v : Nat → Mem Buf α → α, ∀ h, matrix_tanh_ld lm m n ld src dst h
        = forLoop (m * n) (fun i h => h.write (dst.idx (i / m * ld + i % m)) (v i h)) h)
    ∧ (∃ v : Nat → Mem Buf α → α, ∀ h, matrix_eltwise_mult_ld_c m n ld a b dst h
        = forLoop (m * n) (fun i h => h.write (dst.idx (i / m * ld + i % m)) (v i h)) h)
    ∧ (∃ v : Nat → Mem Buf α → α, ∀ h, matrix_copy_bias m n ld src dst h
        = forLoop (m * n) (fun i h => h.write (dst.idx (i / m * ld + i % m)) (v i h)) h)
    ∧ (∀ i k, i < m * n → k < m * n → i ≠ k →
        dst.idx (i / m * ld + i % m) ≠ dst.idx (k / m * ld + k % m)) :=
  ⟨fun h => bwd_db_eq_iter N K j h,
    fun l h q hq => bwd_db_iter_frame N K j l h q hq,
    fun l l2 g g2 hl hl2 hne _ _ => db_slots_disjoint hl hl2 hne,
    ⟨_, fun _ => rfl⟩, ⟨_, fun _ => rfl⟩, ⟨_, fun _ => rfl⟩, ⟨_, fun _ => rfl⟩,
    fun i k hi hk hne => strided_dst_ne dst hld hi hk hne⟩

theorem c35_parallel_writes_disjoint_witness :
    (base Buf.icfogoldt).idx (1 / 2 * 8 + 1 % 2) ≠ (base Buf.icfogoldt).idx (2 / 2 * 8 + 2 % 2)
    ∧ (base Buf.dbgold).idx (0 + 1 * 2) ≠ (base Buf.dbgold).idx (1 + 0 * 2) :=
  ⟨(c35_parallel_writes_disjoint demo_libm 2 2 0 2 2 8 (by decide) (base .icfogoldt)
      (base .t1gold) (base .t2gold) (base .icfogoldt)).2.2.2.2.2.2.2 1 2 (by decide)
      (by decide) (by decide),
    (c35_parallel_writes_disjoint demo_libm 2 2 0 2 2 8 (by decide) (base .icfogoldt)
      (base .t1gold) (base .t2gold) (base .icfogoldt)).2.2.1 0 1 1 0 (by decide) (by decide)
      (by decide) (by decide) (by decide)⟩

end DisjointClaims

section ZeroSeedClaims

/-- C38. The call with `T = N = C = K = 1` whose external gradients are zero (`dhgoldt` and
`dcsgold` hold zero, `dxgoldt` holds `22/7`), in exact rational arithmetic: the `TWO_GEMMS`
build computes zero gate gradients `dICFO_0` and zero `dH_prev` and `dCS_prev` and leaves
`dW` and `db` as they were, but returns `dX_0[0] = 22/7`, what `dxgoldt` held before the
call, and not zero; the default build returns `dX_0[0] = 0`. -/
theorem c38_zero_gradients_two_gemms :
    (lstm_ref true demo_libm_q 1 1 1 1 3 demo_mem_g).read
        ((seq_at .dxgoldt 0 (1 * 1)).idx (0 * 1 + 0)) = 22 / 7
    ∧ (lstm_ref true demo_libm_q 1 1 1 1 3 demo_mem_g).read
        ((seq_at .dxgoldt 0 (1 * 1)).idx (0 * 1 + 0)) ≠ 0
    ∧ (lstm_ref false demo_libm_q 1 1 1 1 3 demo_mem_g).read
        ((seq_at .dxgoldt 0 (1 * 1)).idx (0 * 1 + 0)) = 0
    ∧ (∀ c, c < 4 * 1 →
        (lstm_ref true demo_libm_q 1 1 1 1 3 demo_mem_g).read (dicfo_elem 1 1 0 0 c) = 0)
    ∧ (lstm_ref true demo_libm_q 1 1 1 1 3 demo_mem_g).read ((base .dhpgold).idx 0) = 0
    ∧ (lstm_ref true demo_libm_q 1 1 1 1 3 demo_mem_g).read ((base .dcspgold).idx 0) = 0
    ∧ (∀ q, q < 4 * 1 →
        (lstm_ref true demo_libm_q 1 1 1 1 3 demo_mem_g).read
            ((base .dwgold).idx (0 * (4 * 1) + q))
          = demo_mem_g.read ((base .dwgold).idx (0 * (4 * 1) + q)))
    ∧ (∀ g, g < 4 →
        (lstm_ref true demo_libm_q 1 1 1 1 3 demo_mem_g).read ((base .dbgold).idx (g * 1 + 0))
          = demo_mem_g.read ((base .dbgold).idx (g * 1 + 0))) := by
  have hdh : ∀ t e, t < 1 → e < 1 * 1 →
      demo_mem_g.read ((seq_at .dhgoldt t (1 * 1)).idx e) = 0 :=
    fun _ _ _ _ => by simp [demo_mem_g, Mem.read, seq_at, base, Ptr.idx]
  have hdcs : ∀ e, e < 1 * 1 → demo_mem_g.read ((base .dcsgold).idx e) = 0 :=
    fun _ _ => by simp [demo_mem_g, Mem.read, base, Ptr.idx]
  have hv : demo_mem_g.read ((seq_at .dxgoldt 0 (1 * 1)).idx (0 * 1 + 0)) = 22 / 7 := by
    simp [demo_mem_g, Mem.read, seq_at, base, Ptr.idx, vla2, Rat.divInt_eq_div]
  have hx := lstm_ref_zero_dx demo_libm_q 1 1 1 1 3 demo_mem_g hdh hdcs 0 0 0 (by decide)
    (by decide) (by decide)
  have ho := lstm_ref_zero_outputs true demo_libm_q 1 1 1 1 (by decide) 3 demo_mem_g hdh hdcs
  rw [hv] at hx
  refine ⟨hx.2, ?_, hx.1,
    fun c hc => (lstm_ref_zero_bwd true demo_libm_q 1 1 1 1 3 demo_mem_g hdh hdcs 0
      (by decide)).2 0 c (by decide) hc,
    (ho.1 0 (by decide)).1, (ho.1 0 (by decide)).2,
    fun q hq => ho.2.1 0 q (by decide) hq, fun g hg => ho.2.2.2 g 0 hg (by decide)⟩
  rw [hx.2]
  norm_num

end ZeroSeedClaims

section DefaultBuildClaims

variable {α : Type} [Zero α] [One α] [Add α] [Sub α] [Mul α] [Div α] [Neg α]

/-- C39. In the default build (`TWO_GEMMS` undefined, `two_gemms = false`) `lstm_ref`
neither writes nor reads `drgold`, for every carrier and whatever the arithmetic
operations are: it leaves every element of `drgold` as it was, and two calls on memories
that differ in `drgold` only return memories that differ in `drgold` only.  The
recurrent-weight gradient goes into rows `C .. C+K-1` of `dwgold`: the multiply of the
update pass of timestep `j` adds `sum_n dICFO_j[n][q] * H_{j-1}[n][i]` to
`dwgold[(C+i)*4K + q]`, and in exact arithmetic `lstm_ref` returns there the value at the
call plus the sum over all timesteps. -/
theorem c39_drgold_untouched (lm : Libm α) (N C K T : Nat) (forget_bias : α)
    (h h' : Mem Buf α) (hh : ∀ q : Ptr Buf, q.buf ≠ .drgold → h.read q = h'.read q) :
    (∀ q : Ptr Buf, q.buf = .drgold →
      (lstm_ref false lm N C K T forget_bias h).read q = h.read q)
    ∧ (∀ q : Ptr Buf, q.buf ≠ .drgold →
      (lstm_ref false lm N C K T forget_bias h).read q
        = (lstm_ref false lm N C K T forget_bias h').read q)
    ∧ (∀ i q, dr_elem false C K i q = (base .dwgold).idx ((C + i) * (4 * K) + q))
    ∧ (∀ (j : Nat) (s : Mem Buf α) (i q : Nat), i < K → q < 4 * K →
      (bwd_gemm false N C K j s).read ((base .dwgold).idx ((C + i) * (4 * K) + q))
        = 1 * sumTo N (fun n =>
            s.read (dicfo_elem N K j n q) * s.read (h_prev N K j (i + n * K)))
          + 1 * s.read ((base .dwgold).idx ((C + i) * (4 * K) + q)))
    ∧ (∀ (F : Type) [Field F] (lmF : Libm F) (fb : F) (hF : Mem Buf F) (i q : Nat),
      i < K → q < 4 * K →
      (lstm_ref false lmF N C K T fb hF).read ((base .dwgold).idx ((C + i) * (4 * K) + q))
        = hF.read ((base .dwgold).idx ((C + i) * (4 * K) + q))
          + ∑ t in Finset.range T, ∑ n in Finset.range N,
              (lstm_ref false lmF N C K T fb hF).read (dicfo_elem N K t n q)
                * (if t = 0 then hF.read ((base .hpgold).idx (n * K + i))
                   else (lstm_ref false lmF N C K T fb hF).read
                     ((seq_at .hgoldt (t - 1) (K * N)).idx (n * K + i)))) := by
  have e : ∀ i q, dr_elem false C K i q = (base .dwgold).idx ((C + i) * (4 * K) + q) := by
    intro i q
    simp only [dr_elem, Bool.false_eq_true, if_false]
  refine ⟨fun q hq => lstm_ref_single_drgold lm N C K T forget_bias h q hq,
    fun q hq => lstm_ref_single_unread_drgold lm N C K T forget_bias h h' hh q hq, e,
    fun j s i q hi hq => ?_, fun F _ lmF fb hF i q hi hq => ?_⟩
  · rw [← e]
    exact bwd_gemm_single_dr N C K j s i q hi hq
  · have key := lstm_ref_dr false lmF N C K T fb hF i q hi hq
    simp only [dr_elem, Bool.false_eq_true, if_false] at key
    exact key

theorem c39_drgold_untouched_witness :
    (∀ q : Ptr Buf, q.buf = .drgold →
      (lstm_ref false demo_libm_q 2 2 2 2 3 demo_mem_q).read q = demo_mem_q.read q)
    ∧ (∀ q : Ptr Buf, q.buf ≠ .drgold →
      (lstm_ref false demo_libm_q 2 2 2 2 3 demo_mem_q).read q
        = (lstm_ref false demo_libm_q 2 2 2 2 3 demo_mem_r).read q) :=
  ⟨(c39_drgold_untouched demo_libm_q 2 2 2 2 3 demo_mem_q demo_mem_r
      (fun q hq => (if_pos hq).symm)).1,
    (c39_drgold_untouched demo_libm_q 2 2 2 2 3 demo_mem_q demo_mem_r
      (fun q hq => (if_pos hq).symm)).2.1⟩

end DefaultBuildClaims

section ChainingClaims

variable {α : Type} [Zero α] [One α] [Add α] [Sub α] [Mul α] [Div α] [Neg α]

/-- C36. Sequence chaining, for every carrier and whatever the arithmetic operations are,
in both builds.  Let `lstm_ref` run over `T1 + T2` timesteps on the memory `h`.
(1) For `t < T1` its `CS_t` and `H_t` are those of the run over the first `T1` timesteps on
`h`.  (2) For `t < T2` its `CS_{T1+t}` and `H_{T1+t}` are those that a run over `T2`
timesteps computes at timestep `t` on a memory `h2` with the same weights and biases, the
inputs `X_{T1}, ..` in the place of `X_0, ..`, and `CS_{T1-1}`, `H_{T1-1}` of the long run
as initial states.  (3) `CS_t` and `H_t` for `t <= s` do not depend on the inputs after
timestep `s`: a run on a memory `h3` that differs from `h` in `xgoldt` beyond timestep `s`
only computes the same `CS_t` and `H_t`. -/
theorem c36_sequence_chaining (tg : Bool) (lm : Libm α) (N C K T1 T2 : Nat) (hT1 : 1 ≤ T1)
    (hT2 : 1 ≤ T2) (forget_bias : α) (h h2 h3 : Mem Buf α)
    (hw : ∀ g i, h.read ((base (gate_w g)).idx i) = h2.read ((base (gate_w g)).idx i))
    (hr : ∀ g i, h.read ((base (gate_r g)).idx i) = h2.read ((base (gate_r g)).idx i))
    (hb : ∀ g i, h.read ((base (gate_b g)).idx i) = h2.read ((base (gate_b g)).idx i))
    (hx : ∀ t i, t < T2 → i < N * C →
      h2.read ((seq_at .xgoldt t (N * C)).idx i)
        = h.read ((seq_at .xgoldt (T1 + t) (N * C)).idx i))
    (hcs : ∀ e, e < K * N →
      h2.read ((base .cspgold).idx e)
        = (lstm_ref tg lm N C K (T1 + T2) forget_bias h).read
            ((seq_at .csgoldt (T1 - 1) (K * N)).idx e))
    (hh : ∀ e, e < K * N →
      h2.read ((base .hpgold).idx e)
        = (lstm_ref tg lm N C K (T1 + T2) forget_bias h).read
            ((seq_at .hgoldt (T1 - 1) (K * N)).idx e))
    (s : Nat) (hs : s < T1 + T2)
    (h3eq : ∀ q : Ptr Buf, q.buf ≠ .xgoldt ∨ q.off < (s + 1) * (N * C) →
      h3.read q = h.read q) :
    (∀ t e, t < T1 → e < K * N →
      (lstm_ref tg lm N C K (T1 + T2) forget_bias h).read ((seq_at .csgoldt t (K * N)).idx e)
          = (lstm_ref tg lm N C K T1 forget_bias h).read ((seq_at .csgoldt t (K * N)).idx e)
      ∧ (lstm_ref tg lm N C K (T1 + T2) forget_bias h).read ((seq_at .hgoldt t (K * N)).idx e)
          = (lstm_ref tg lm N C K T1 forget_bias h).read ((seq_at .hgoldt t (K * N)).idx e))
    ∧ (∀ t e, t < T2 → e < K * N →
      (lstm_ref tg lm N C K (T1 + T2) forget_bias h).read
            ((seq_at .csgoldt (T1 + t) (K * N)).idx e)
          = (lstm_ref tg lm N C K T2 forget_bias h2).read ((seq_at .csgoldt t (K * N)).idx e)
      ∧ (lstm_ref tg lm N C K (T1 + T2) forget_bias h).read
            ((seq_at .hgoldt (T1 + t) (K * N)).idx e)
          = (lstm_ref tg lm N C K T2 forget_bias h2).read ((seq_at .hgoldt t (K * N)).idx e))
    ∧ (∀ t e, t ≤ s → e < K * N →
      (lstm_ref tg lm N C K (T1 + T2) forget_bias h).read ((seq_at .csgoldt t (K * N)).idx e)
          = (lstm_ref tg lm N C K (T1 + T2) forget_bias h3).read
              ((seq_at .csgoldt t (K * N)).idx e)
      ∧ (lstm_ref tg lm N C K (T1 + T2) forget_bias h).read ((seq_at .hgoldt t (K * N)).idx e)
          = (lstm_ref tg lm N C K (T1 + T2) forget_bias h3).read
              ((seq_at .hgoldt t (K * N)).idx e)) := by
  refine ⟨fun t e ht he => ?_, fun t e ht he => ?_, fun t e ht he => ?_⟩
  · have key := (lstm_ref_shift tg lm N C K (T1 + T2) T1 0 T1 forget_bias h h
      (Nat.le_refl _) (by omega) (fun _ _ => rfl) (fun _ _ => rfl) (fun _ _ => rfl)
      (fun _ _ _ _ => rfl) (fun _ _ => if_pos rfl) (fun _ _ => if_pos rfl) t ht).2 e he
    exact key
  · have key := (lstm_ref_shift tg lm N C K (T1 + T2) T2 T1 T2 forget_bias h h2
      (Nat.le_refl _) (by omega) hw hr hb
      (fun t i ht hi => by rw [Nat.add_comm t T1]; exact (hx t i ht hi).symm)
      (fun e he => by rw [if_neg (by omega)]; exact (hcs e he).symm)
      (fun e he => by rw [if_neg (by omega)]; exact (hh e he).symm) t ht).2 e he
    rw [Nat.add_comm T1 t]
    exact key
  · have hq : ∀ q : Ptr Buf, q.buf ≠ .xgoldt → h.read q = h3.read q :=
      fun q hq => (h3eq q (Or.inl hq)).symm
    have key := (lstm_ref_shift tg lm N C K (T1 + T2) (T1 + T2) 0 (s + 1) forget_bias h h3
      (by omega) (by omega)
      (fun g i => hq _ (by show gate_w g ≠ _; unfold gate_w; split <;> nofun))
      (fun g i => hq _ (by show gate_r g ≠ _; unfold gate_r; split <;> nofun))
      (fun g i => hq _ (by show gate_b g ≠ _; unfold gate_b; split <;> nofun))
      (fun t i ht hi => (h3eq _ (Or.inr (by
        have := @seq_below Buf.xgoldt (N * C) t (s + 1) i ht hi
        rw [seq_at_off0] at this
        exact this))).symm)
      (fun e _ => (if_pos rfl).trans (hq _ nofun))
      (fun e _ => (if_pos rfl).trans (hq _ nofun)) t (by omega)).2 e he
    exact key

theorem c36_sequence_chaining_witness :
    (∀ t e, t < 1 → e < 1 * 1 →
      (lstm_ref false demo_libm_q 1 1 1 (1 + 1) 3 demo_mem_q).read
            ((seq_at .csgoldt (1 + t) (1 * 1)).idx e)
          = (lstm_ref false demo_libm_q 1 1 1 1 3 demo_mem_seg).read
              ((seq_at .csgoldt t (1 * 1)).idx e)
      ∧ (lstm_ref false demo_libm_q 1 1 1 (1 + 1) 3 demo_mem_q).read
            ((seq_at .hgoldt (1 + t) (1 * 1)).idx e)
          = (lstm_ref false demo_libm_q 1 1 1 1 3 demo_mem_seg).read
              ((seq_at .hgoldt t (1 * 1)).idx e))
    ∧ (∀ t e, t ≤ 0 → e < 1 * 1 →
      (lstm_ref false demo_libm_q 1 1 1 (1 + 1) 3 demo_mem_q).read
            ((seq_at .csgoldt t (1 * 1)).idx e)
          = (lstm_ref false demo_libm_q 1 1 1 (1 + 1) 3 demo_mem_x).read
              ((seq_at .csgoldt t (1 * 1)).idx e)
      ∧ (lstm_ref false demo_libm_q 1 1 1 (1 + 1) 3 demo_mem_q).read
            ((seq_at .hgoldt t (1 * 1)).idx e)
          = (lstm_ref false demo_libm_q 1 1 1 (1 + 1) 3 demo_mem_x).read
              ((seq_at .hgoldt t (1 * 1)).idx e)) :=
  (c36_sequence_chaining false demo_libm_q 1 1 1 1 1 (by decide) (by decide) 3 demo_mem_q
    demo_mem_seg demo_mem_x
    (fun g i => by
      have : gate_w g ≠ .cspgold ∧ gate_w g ≠ .hpgold ∧ gate_w g ≠ .xgoldt := by
        unfold gate_w; split <;> exact ⟨nofun, nofun, nofun⟩
      simp [demo_mem_seg, Mem.read, base, Ptr.idx, this])
    (fun g i => by
      have : gate_r g ≠ .cspgold ∧ gate_r g ≠ .hpgold ∧ gate_r g ≠ .xgoldt := by
        unfold gate_r; split <;> exact ⟨nofun, nofun, nofun⟩
      simp [demo_mem_seg, Mem.read, base, Ptr.idx, this])
    (fun g i => by
      have : gate_b g ≠ .cspgold ∧ gate_b g ≠ .hpgold ∧ gate_b g ≠ .xgoldt := by
        unfold gate_b; split <;> exact ⟨nofun, nofun, nofun⟩
      simp [demo_mem_seg, Mem.read, base, Ptr.idx, this])
    (fun t i ht hi => by
      have ht0 : t = 0 := by omega
      have hi0 : i = 0 := by omega
      subst ht0 hi0
      rfl)
    (fun e he => by
      have he0 : e = 0 := by omega
      subst he0
      simp [demo_mem_seg, Mem.read, base, Ptr.idx, seq_at, vla2])
    (fun e he => by
      have he0 : e = 0 := by omega
      subst he0
      simp [demo_mem_seg, Mem.read, base, Ptr.idx, seq_at, vla2])
    0 (by decide)
    (fun q hq => by
      show (if q.buf ≠ Buf.xgoldt ∨ q.off < 1 then _ else _) = _
      rw [if_pos (by simpa using hq)]
      rfl)).2

end ChainingClaims

section DryrunClaims

/-- C34. With input, output and filter bound and a forward kernel generated
(`code_fwd[0].xconv.sconv` not null), `libxsmm_dnn_perform_fwd_dryrun_direct_custom_custom`
returns `LIBXSMM_DNN_ERR_UNSUPPORTED_DATATYPE` for every combination of datatype,
intermediate datatype and unsigned-activation option outside the set
`(F32, F32)`, `(I16, I32)`, `(I8, I16, unsigned)`, `(I8, I32, unsigned)`, whatever the
templates do; in particular for datatype `I8` without the unsigned-activation option. -/
theorem c34_unsupported_datatype
    (tpl : dryrun_variant → libxsmm_dnn_layer → libxsmm_dnn_err_t → libxsmm_dnn_err_t)
    (handle : libxsmm_dnn_layer) (hi : handle.reg_input ≠ 0) (ho : handle.reg_output ≠ 0)
    (hf : handle.reg_filter ≠ 0) (hk : handle.code_fwd_sconv ≠ 0) :
    (¬ ((handle.datatype = .LIBXSMM_DNN_DATATYPE_F32
          ∧ handle.datatype_itm = .LIBXSMM_DNN_DATATYPE_F32)
        ∨ (handle.datatype = .LIBXSMM_DNN_DATATYPE_I16
          ∧ handle.datatype_itm = .LIBXSMM_DNN_DATATYPE_I32)
        ∨ (handle.datatype = .LIBXSMM_DNN_DATATYPE_I8
          ∧ handle.datatype_itm = .LIBXSMM_DNN_DATATYPE_I16
          ∧ Nat.land handle.desc_options LIBXSMM_DNN_CONV_OPTION_ACTIVATION_UNSIGNED > 0)
        ∨ (handle.datatype = .LIBXSMM_DNN_DATATYPE_I8
          ∧ handle.datatype_itm = .LIBXSMM_DNN_DATATYPE_I32
          ∧ Nat.land handle.desc_options LIBXSMM_DNN_CONV_OPTION_ACTIVATION_UNSIGNED > 0)) →
      libxsmm_dnn_perform_fwd_dryrun_direct_custom_custom tpl handle
        = .LIBXSMM_DNN_ERR_UNSUPPORTED_DATATYPE)
    ∧ (handle.datatype = .LIBXSMM_DNN_DATATYPE_I8 →
      ¬ (Nat.land handle.desc_options LIBXSMM_DNN_CONV_OPTION_ACTIVATION_UNSIGNED > 0) →
      libxsmm_dnn_perform_fwd_dryrun_direct_custom_custom tpl handle
        = .LIBXSMM_DNN_ERR_UNSUPPORTED_DATATYPE) := by
  have hu : activation_unsigned handle = true
      ↔ Nat.land handle.desc_options LIBXSMM_DNN_CONV_OPTION_ACTIVATION_UNSIGNED > 0 := by
    unfold activation_unsigned
    exact decide_eq_true_iff
  constructor
  · intro hn
    exact dryrun_unsupported tpl handle hi ho hf hk
      (fun h => hn (Or.inl h)) (fun h => hn (Or.inr (Or.inl h)))
      (fun h => hn (Or.inr (Or.inr (Or.inl ⟨h.1, h.2.1, hu.mp h.2.2⟩))))
      (fun h => hn (Or.inr (Or.inr (Or.inr ⟨h.1, h.2.1, hu.mp h.2.2⟩))))
  · intro h8 hnu
    exact dryrun_unsupported tpl handle hi ho hf hk
      (fun h => by rw [h8] at h; exact libxsmm_dnn_datatype.noConfusion h.1)
      (fun h => by rw [h8] at h; exact libxsmm_dnn_datatype.noConfusion h.1)
      (fun h => hnu (hu.mp h.2.2)) (fun h => hnu (hu.mp h.2.2))

theorem c34_unsupported_datatype_witness :
    libxsmm_dnn_perform_fwd_dryrun_direct_custom_custom demo_tpl demo_handle
      = .LIBXSMM_DNN_ERR_UNSUPPORTED_DATATYPE :=
  (c34_unsupported_datatype demo_tpl demo_handle (by decide) (by decide) (by decide)
    (by decide)).2 rfl (by decide)

/-- C37. If one of `reg_input`, `reg_output`, `reg_filter` of the handle is null,
`libxsmm_dnn_perform_fwd_dryrun_direct_custom_custom` returns
`LIBXSMM_DNN_ERR_DATA_NOT_BOUND`, whatever the kernel pointer, the datatypes and the other
fields of the handle are and whatever the templates do. -/
theorem c37_data_not_bound
    (tpl : dryrun_variant → libxsmm_dnn_layer → libxsmm_dnn_err_t → libxsmm_dnn_err_t)
    (handle : libxsmm_dnn_layer)
    (hb : handle.reg_input = 0 ∨ handle.reg_output = 0 ∨ handle.reg_filter = 0) :
    libxsmm_dnn_perform_fwd_dryrun_direct_custom_custom tpl handle
      = .LIBXSMM_DNN_ERR_DATA_NOT_BOUND :=
  dryrun_not_bound tpl handle hb

theorem c37_data_not_bound_witness :
    libxsmm_dnn_perform_fwd_dryrun_direct_custom_custom demo_tpl demo_handle_unbound
      = .LIBXSMM_DNN_ERR_DATA_NOT_BOUND :=
  c37_data_not_bound demo_tpl demo_handle_unbound (Or.inr (Or.inl rfl))

end DryrunClaims


section BoundsClaims

variable {α : Type} [Zero α] [One α] [Add α] [Sub α] [Mul α] [Div α] [Neg α]

/-- C33, as amended.  When no element count overflows `int` (each buffer's count, as a
product of natural numbers, is below `2^31`, so that `buf_size`, computed in `int` as the
source computes it, is that count: `N*C*t` for `x` and `dx`, `K*N*t` for `cs`, `h` and
`dh`, `K*N` for the boundary states and their gradients, `C*K` and `K*K` per gate matrix,
`K` per bias, `(C+K)*K*4` for the weight gradient of the default build, `K*4` for `db`,
and `K*N*t*4`, `(C+K)*N`, ... for the scratch buffers), no index that `lstm_ref` or a
helper it calls computes is beyond the end of its buffer, stated on the memory, for every
carrier and whatever the arithmetic operations are: `lstm_ref` leaves every location
beyond the end of a buffer as it was (no write there), two calls on memories that agree
inside the buffers return memories that agree inside the buffers (nothing it computes
depends on a location beyond an end), and every location it changes has an offset below
`2^31` (an `int`).  The division `i / m`, `i % m` of a strided helper is inside the loop
over `i < m*n`, which has an iteration only if `m` is not zero; called with `m = 0` the
strided helpers do nothing. -/
theorem c33_index_bounds (tg : Bool) (lm : Libm α) (N C K T : Nat) (forget_bias : α)
    (h h' : Mem Buf α) (hfit : ∀ b, buf_elems tg N C K T b < 2 ^ 31)
    (hh : ∀ q : Ptr Buf, q.off < buf_size tg N C K T q.buf → h.read q = h'.read q) :
    (∀ q : Ptr Buf, OutOfBounds tg N C K T q →
      (lstm_ref tg lm N C K T forget_bias h).read q = h.read q)
    ∧ (∀ q : Ptr Buf, ¬ OutOfBounds tg N C K T q →
      (lstm_ref tg lm N C K T forget_bias h).read q
        = (lstm_ref tg lm N C K T forget_bias h').read q)
    ∧ (∀ q : Ptr Buf, (lstm_ref tg lm N C K T forget_bias h).read q ≠ h.read q →
      q.off < 2 ^ 31)
    ∧ (∀ m n i : Nat, i < m * n → m ≠ 0)
    ∧ (∀ (n ld : Nat) (a b c : Ptr Buf) (s : Mem Buf α),
      matrix_eltwise_mult_ld_a 0 n ld a b c s = s
      ∧ matrix_eltwise_mult_ld_ab 0 n ld a b c s = s
      ∧ matrix_eltwise_mult_ld_c 0 n ld a b c s = s
      ∧ matrix_sigmoid_ld lm 0 n ld a c s = s
      ∧ matrix_tanh_ld lm 0 n ld a c s = s
      ∧ matrix_copy_ld 0 n ld a c s = s
      ∧ matrix_copy_bias 0 n ld a c s = s
      ∧ matrix_complement_ld 0 n ld a c s = s
      ∧ matrix_complement_square_ld 0 n ld a c s = s) := by
  have e := buf_size_eq_elems tg N C K T hfit
  have h0 : Sim (Beyond tg N C K T) h h h' :=
    ⟨fun q hq => hh q (by rw [e]; exact Nat.lt_of_not_le hq), fun _ _ => rfl⟩
  have key := lstm_ref_sim tg lm N C K T forget_bias h h h' h0
  have ha : ∀ q : Ptr Buf, OutOfBounds tg N C K T q →
      (lstm_ref tg lm N C K T forget_bias h).read q = h.read q := by
    intro q hq
    unfold OutOfBounds at hq
    rw [e] at hq
    exact key.2 q hq
  refine ⟨ha, fun q hq => key.1 q (fun hb => hq (by
      unfold OutOfBounds
      rw [e]
      exact hb)), fun q hq => ?_,
    fun m n i hi hm => ?_, fun n ld a b c s => strided_zero_rows lm n ld a b c s⟩
  · by_cases hb : OutOfBounds tg N C K T q
    · exact absurd (ha q hb) hq
    · unfold OutOfBounds at hb
      rw [e] at hb
      exact Nat.lt_trans (Nat.lt_of_not_le hb) (hfit q.buf)
  · rw [hm, Nat.zero_mul] at hi
    exact Nat.not_lt_zero i hi

theorem c33_index_bounds_witness :
    (∀ q : Ptr Buf, OutOfBounds false 2 3 2 2 q →
      (lstm_ref false demo_libm_q 2 3 2 2 3 demo_mem_q).read q = demo_mem_q.read q)
    ∧ (∀ q : Ptr Buf, ¬ OutOfBounds false 2 3 2 2 q →
      (lstm_ref false demo_libm_q 2 3 2 2 3 demo_mem_q).read q
        = (lstm_ref false demo_libm_q 2 3 2 2 3 demo_mem_o).read q)
    ∧ (∀ q : Ptr Buf, (lstm_ref false demo_libm_q 2 3 2 2 3 demo_mem_q).read q
        ≠ demo_mem_q.read q → q.off < 2 ^ 31) :=
  ⟨(c33_index_bounds false demo_libm_q 2 3 2 2 3 demo_mem_q demo_mem_o
      (fun b => by cases b <;> decide) (fun q hq => (if_pos hq).symm)).1,
    (c33_index_bounds false demo_libm_q 2 3 2 2 3 demo_mem_q demo_mem_o
      (fun b => by cases b <;> decide) (fun q hq => (if_pos hq).symm)).2.1,
    (c33_index_bounds false demo_libm_q 2 3 2 2 3 demo_mem_q demo_mem_o
      (fun b => by cases b <;> decide) (fun q hq => (if_pos hq).symm)).2.2.1⟩

/-- C33 as stated fails on the code.  The call of the default build with `N = 128`,
`C = K = 64`, `t = 65536`: every buffer of the caller has the size the claim lists (the
`int` products `N*C*t = K*N*t = 2^29`, `(C+K)*K*4 = 2^15`, ... do not overflow), but the
element count `K*N*t*4 = 2^31` of `icfogoldt` (line 401) overflows `int`, the request is
for more than `2^63` bytes and the buffer has no element; `lstm_ref` stores the input gate
of timestep `0` in element `0` of `icfogoldt`, which is beyond the end of the buffer (on
the memory `demo_mem_w` the element holds `5` before the call and `1/2` after it). -/
theorem c33_scratch_count_overflows :
    (∀ b, b ∈ lstm_ref_args →
      buf_size false 128 64 64 65536 b = buf_elems false 128 64 64 65536 b
        ∧ buf_elems false 128 64 64 65536 b < 2 ^ 31)
    ∧ buf_size false 128 64 64 65536 Buf.icfogoldt = 0
    ∧ OutOfBounds false 128 64 64 65536 (icfo_elem 128 64 0 0 (0 * 64 + 0))
    ∧ (lstm_ref false demo_libm_q 128 64 64 65536 0 demo_mem_w).read
        (icfo_elem 128 64 0 0 (0 * 64 + 0)) = 1 / 2
    ∧ demo_mem_w.read (icfo_elem 128 64 0 0 (0 * 64 + 0)) = 5
    ∧ ¬ (∀ q : Ptr Buf, OutOfBounds false 128 64 64 65536 q →
      (lstm_ref false demo_libm_q 128 64 64 65536 0 demo_mem_w).read q
        = demo_mem_w.read q) := by
  have h1 : buf_size false 128 64 64 65536 Buf.icfogoldt = 0 := by decide
  have h2 : OutOfBounds false 128 64 64 65536 (icfo_elem 128 64 0 0 (0 * 64 + 0)) := by
    unfold OutOfBounds
    show buf_size false 128 64 64 65536 Buf.icfogoldt ≤ _
    rw [h1]
    exact Nat.zero_le _
  have h3 := lstm_ref_icfo_first 128 64 64 65536 (by decide) (by decide) (by decide)
  have h4 : demo_mem_w.read (icfo_elem 128 64 0 0 (0 * 64 + 0)) = 5 := rfl
  refine ⟨by decide, h1, h2, h3, h4, fun hall => ?_⟩
  have := hall _ h2
  rw [h3, h4] at this
  norm_num at this

end BoundsClaims

end LstmRef
